import Mathlib

/-! Verification development for the directory-inode core.

Part 1 embeds `eden/fs/inodes/lmdbcatalog/BufferedLMDBInodeCatalog.{h,cpp}`:
the write-behind buffer in front of the LMDB inode catalog.

Part 2 embeds the directory mutations of `eden/fs/inodes/TreeInode.cpp`.
-/

set_option autoImplicit false
set_option maxRecDepth 8000

namespace BufferedLMDBInodeCatalog

/-- Inode numbers (`InodeNumber`), the key space of the catalog. -/
abbrev InodeNumber := Nat

/-- Width of `size_t` on the supported platforms. -/
def sizeMax : Nat := 2 ^ 64

/-- The `enum class OperationType` of the header. -/
inductive OperationType where
  | Write
  | Remove
  deriving DecidableEq, Repr

/-- The closures that the source hands to `Work` as `folly::Function<bool()>`.
Each constructor is one lambda of the `.cpp` file; `run` below gives its body. -/
inductive WorkFn where
  /-- The lambda of `saveOverlayDir`: `LMDBInodeCatalog::saveOverlayDir(ino, odir)`. -/
  | saveOverlayDir (ino : InodeNumber) (odir : String)
  /-- The lambda of `removeOverlayDir`. -/
  | removeOverlayDir (ino : InodeNumber)
  /-- The lambda of `loadAndRemoveOverlayDir`. -/
  | loadAndRemoveOverlayDir (ino : InodeNumber)
  /-- The lambda of `stopWorkerThread`: `[]() { return true; }`. -/
  | stop
  /-- The lambda of `pause`: waits for the future, returns false. -/
  | pause
  /-- The lambda of `flush`: fulfils the promise, returns false. -/
  | flush
  deriving DecidableEq, Repr

/-- The `struct Work` of the header. -/
structure Work where
  operation : WorkFn
  odir : Option String
  estimateIndirectMemoryUsage : Nat
  deriving DecidableEq, Repr

/-- The `struct Operation` of the header; `work` is the raw `Work*`, modelled as
the address of the `Work` object. -/
structure Operation where
  operationType : OperationType
  work : Nat
  deriving DecidableEq, Repr

/-- The `struct State` of the header.  A `std::unique_ptr<Work>` is modelled as
the pair of the object's address and the object it owns. -/
structure State where
  workerThreadStopRequested : Bool
  waitingOperation : InodeNumber → Option Operation
  inflightOperation : InodeNumber → Option Operation
  work : List (Nat × Work)
  totalSize : Nat

/-- Where the worker thread stands in `processOnWorkerThread`. -/
inductive WorkerPc where
  /-- In the `for (auto& event : work)` loop, about to run the event with this
  index; an index at the end of the vector means the loop is over and the
  thread is about to take the lock at the top of `for (;;)`. -/
  | running (next : Nat)
  /-- Inside `workCV_.wait`, after `inflightOperation.clear(); work.clear()`. -/
  | waiting
  /-- The thread returned from `processOnWorkerThread` (a stop event ran). -/
  | exited
  /-- `XCHECK_EQ(state->totalSize, workSize)` failed. -/
  | aborted
  deriving DecidableEq, Repr

/-- Modelled from the spec: the underlying `LMDBInodeCatalog` (its source is not
part of the files at hand) is a key-value store from inode number to the
serialized directory. -/
abbrev LMDBInodeCatalog := InodeNumber → Option String

/-- The whole object: the synchronized state, the worker thread with its local
vector `work`, the allocator of `Work` objects and the underlying catalog. -/
structure Catalog where
  state : State
  /-- The thread-local `std::vector<std::unique_ptr<Work>> work`. -/
  workerWork : List (Nat × Work)
  pc : WorkerPc
  /-- Next address handed out by `std::make_unique<Work>`. -/
  nextWork : Nat
  db : LMDBInodeCatalog

/-- Serialization of directories (`apache::thrift::CompactSerializer`), a
parameter of the development. -/
structure Codec (D : Type) where
  serialize : D → String
  deserialize : String → D

/-- Constants and size estimates that the source takes from elsewhere. -/
structure Sizes where
  /-- `bufferSize_`, from `config.overlayBufferSize`. -/
  bufferSize : Nat
  /-- `sizeof(fn)` for a `folly::Function<bool()>`. -/
  sizeofFn : Nat
  /-- `fn.heapAllocatedMemory()`. -/
  heapAllocatedMemory : WorkFn → Nat
  /-- `estimateIndirectMemoryUsage<std::string>`. -/
  estimateString : String → Nat

/-- Point update of a map. -/
def setAt {β : Type} (f : Nat → Option β) (k : Nat) (v : Option β) : Nat → Option β :=
  fun n => if n = k then v else f n

namespace LMDB

/-- Modelled from the spec: `LMDBInodeCatalog::saveOverlayDir(ino, odir)` stores the
serialized directory under the inode number. -/
def saveOverlayDir (db : LMDBInodeCatalog) (ino : InodeNumber) (odir : String) :
    LMDBInodeCatalog :=
  setAt db ino (some odir)

/-- Modelled from the spec: `LMDBInodeCatalog::removeOverlayDir(ino)` deletes the key. -/
def removeOverlayDir (db : LMDBInodeCatalog) (ino : InodeNumber) : LMDBInodeCatalog :=
  setAt db ino none

/-- Modelled from the spec: `LMDBInodeCatalog::loadOverlayDir(ino)` reads the key and
deserializes the value. -/
def loadOverlayDir {D : Type} (cd : Codec D) (db : LMDBInodeCatalog) (ino : InodeNumber) :
    Option D :=
  (db ino).map cd.deserialize

/-- Modelled from the spec: `LMDBInodeCatalog::hasOverlayDir(ino)`. -/
def hasOverlayDir (db : LMDBInodeCatalog) (ino : InodeNumber) : Bool :=
  (db ino).isSome

/-- Modelled from the spec: `LMDBInodeCatalog::loadAndRemoveOverlayDir(ino)` reads the
value and deletes the key. -/
def loadAndRemoveOverlayDir {D : Type} (cd : Codec D) (db : LMDBInodeCatalog)
    (ino : InodeNumber) : Option D × LMDBInodeCatalog :=
  (loadOverlayDir cd db ino, removeOverlayDir db ino)

end LMDB

/-- Body of a work closure: its effect on the underlying catalog and the value
it returns (`true` asks the worker thread to exit). -/
def WorkFn.run : WorkFn → LMDBInodeCatalog → LMDBInodeCatalog × Bool
  | .saveOverlayDir ino odir, db => (LMDB.saveOverlayDir db ino odir, false)
  | .removeOverlayDir ino, db => (LMDB.removeOverlayDir db ino, false)
  | .loadAndRemoveOverlayDir ino, db => (LMDB.removeOverlayDir db ino, false)
  | .stop, db => (db, true)
  | .pause, db => (db, false)
  | .flush, db => (db, false)

/-- The state of a freshly constructed catalog on top of a database: empty
maps, empty queue, the worker thread started with an empty local vector. -/
def Catalog.init (db : LMDBInodeCatalog) : Catalog :=
  { state :=
      { workerThreadStopRequested := false
        waitingOperation := fun _ => none
        inflightOperation := fun _ => none
        work := []
        totalSize := 0 }
    workerWork := []
    pc := .running 0
    nextWork := 0
    db := db }

/-- Dereference of a raw `Work*`: the object is alive exactly while one of the
two vectors owns it. -/
def Catalog.deref (c : Catalog) (p : Nat) : Option Work :=
  (c.state.work ++ c.workerWork).lookup p

/-- What a call of `process` came to. -/
inductive Enqueue where
  /-- `fullCV_.wait` does not return in this state. -/
  | blocked
  /-- A stop was already requested: the request is dropped. -/
  | dropped (c : Catalog)
  /-- The work was appended to the queue. -/
  | pushed (c : Catalog)
  /-- The insertion into `waitingOperation` threw; the exception is rethrown. -/
  | rethrown (c : Catalog)

/-- `BufferedLMDBInodeCatalog::process`.  `insertThrows` says whether
`state->waitingOperation[operationKey] = operation` throws. -/
def process (sz : Sizes) (c : Catalog) (fn : WorkFn) (captureSize : Nat)
    (operationKey : InodeNumber) (operationType : OperationType) (odir : Option String)
    (insertThrows : Bool) : Enqueue :=
  let size := (captureSize + sz.sizeofFn + sz.heapAllocatedMemory fn) % sizeMax
  let addr := c.nextWork
  let work : Work := { operation := fn, odir := odir, estimateIndirectMemoryUsage := size }
  let operation : Operation := { operationType := operationType, work := addr }
  let c := { c with nextWork := addr + 1 }
  if !(decide (c.state.totalSize < sz.bufferSize) || c.state.workerThreadStopRequested) then
    .blocked
  else if c.state.workerThreadStopRequested then
    .dropped c
  else
    let pushedWork := c.state.work ++ [(addr, work)]
    if insertThrows then
      -- `state->work.pop_back()` undoes the `push_back`
      .rethrown { c with state := { c.state with work := pushedWork.dropLast } }
    else
      .pushed
        { c with
          state :=
            { c.state with
              work := pushedWork
              waitingOperation := setAt c.state.waitingOperation operationKey (some operation)
              totalSize := (c.state.totalSize + size) % sizeMax } }

/-- The catalog after a call of `process`, when the call returns or throws. -/
def Enqueue.after : Enqueue → Option Catalog
  | .blocked => none
  | .dropped c => some c
  | .pushed c => some c
  | .rethrown c => some c

/-- `BufferedLMDBInodeCatalog::saveOverlayDir`. -/
def saveOverlayDir {D : Type} (cd : Codec D) (sz : Sizes) (c : Catalog) (inodeNumber : InodeNumber)
    (odir : D) (insertThrows : Bool) : Enqueue :=
  let serializedOverlayDir := cd.serialize odir
  let captureSize := (sz.estimateString serializedOverlayDir * 2) % sizeMax
  process sz c (.saveOverlayDir inodeNumber serializedOverlayDir) captureSize inodeNumber
    .Write (some serializedOverlayDir) insertThrows

/-- `BufferedLMDBInodeCatalog::removeOverlayDir`. -/
def removeOverlayDir (sz : Sizes) (c : Catalog) (inodeNumber : InodeNumber)
    (insertThrows : Bool) : Enqueue :=
  process sz c (.removeOverlayDir inodeNumber) 0 inodeNumber .Remove none insertThrows

/-- Faults of a read: what C++ leaves undefined or throws. -/
inductive ReadFault where
  /-- The `Work*` of the operation points to a destroyed object. -/
  | danglingWork
  /-- `odir.value()` on an empty optional (`std::bad_optional_access`). -/
  | badOptionalAccess
  deriving DecidableEq, Repr

/-- The shared branch of the read paths: the payload of a buffered operation,
`operationIter->second.work->odir.value()` deserialized for a `Write`,
`std::nullopt` otherwise. -/
def readOperation {D : Type} (cd : Codec D) (c : Catalog) (op : Operation) :
    Except ReadFault (Option D) :=
  match op.operationType with
  | .Write =>
    match c.deref op.work with
    | none => .error .danglingWork
    | some w =>
      match w.odir with
      | none => .error .badOptionalAccess
      | some s => .ok (some (cd.deserialize s))
  | .Remove => .ok none

/-- `BufferedLMDBInodeCatalog::loadOverlayDir`. -/
def loadOverlayDir {D : Type} (cd : Codec D) (c : Catalog) (inodeNumber : InodeNumber) :
    Except ReadFault (Option D) :=
  match c.state.waitingOperation inodeNumber with
  | some op => readOperation cd c op
  | none =>
    match c.state.inflightOperation inodeNumber with
    | some op => readOperation cd c op
    | none => .ok (LMDB.loadOverlayDir cd c.db inodeNumber)

/-- `BufferedLMDBInodeCatalog::hasOverlayDir`. -/
def hasOverlayDir (c : Catalog) (inodeNumber : InodeNumber) : Bool :=
  match c.state.waitingOperation inodeNumber with
  | some op => decide (op.operationType = .Write)
  | none =>
    match c.state.inflightOperation inodeNumber with
    | some op => decide (op.operationType = .Write)
    | none => LMDB.hasOverlayDir c.db inodeNumber

/-- The worker thread takes the lock at the top of `for (;;)`:
`state->inflightOperation.clear(); work.clear();` and starts to wait. -/
def workerClear (c : Catalog) : Option Catalog :=
  match c.pc with
  | .running i =>
    if c.workerWork.length ≤ i then
      some { c with
             state := { c.state with inflightOperation := fun _ => none }
             workerWork := []
             pc := .waiting }
    else none
  | _ => none

/-- The sum `workSize` computed by the worker over the batch it took. -/
def workSize (work : List (Nat × Work)) : Nat :=
  work.foldl (fun acc ev => (acc + ev.2.estimateIndirectMemoryUsage) % sizeMax) 0

/-- The worker thread leaves `workCV_.wait` and takes the batch: the two swaps,
the size check and the reset of `totalSize`. -/
def workerTake (c : Catalog) : Option Catalog :=
  match c.pc with
  | .waiting =>
    if c.state.work.isEmpty then none
    else
      let work := c.state.work
      let st :=
        { c.state with
          work := c.workerWork
          inflightOperation := c.state.waitingOperation
          waitingOperation := c.state.inflightOperation }
      if st.totalSize = workSize work then
        some { c with state := { st with totalSize := 0 }, workerWork := work, pc := .running 0 }
      else
        some { c with state := st, workerWork := work, pc := .aborted }
  | _ => none

/-- The worker thread runs the next event of its batch; a stop event makes the
thread return, which destroys its local vector. -/
def workerExec (c : Catalog) : Option Catalog :=
  match c.pc with
  | .running i =>
    match c.workerWork.get? i with
    | none => none
    | some ev =>
      let r := ev.2.operation.run c.db
      if r.2 then some { c with db := r.1, workerWork := [], pc := .exited }
      else some { c with db := r.1, pc := .running (i + 1) }
  | _ => none

/-- `BufferedLMDBInodeCatalog::stopWorkerThread`, up to the `join`. -/
def stopWorkerThread (c : Catalog) : Catalog :=
  if c.state.workerThreadStopRequested then c
  else
    { c with
      state :=
        { c.state with
          workerThreadStopRequested := true
          work := c.state.work ++
            [(c.nextWork, { operation := .stop, odir := none, estimateIndirectMemoryUsage := 0 })] }
      nextWork := c.nextWork + 1 }

/-- `BufferedLMDBInodeCatalog::pause`: the enqueue of the waiting closure. -/
def pause (c : Catalog) : Catalog :=
  { c with
    state :=
      { c.state with
        work := c.state.work ++
          [(c.nextWork, { operation := .pause, odir := none, estimateIndirectMemoryUsage := 0 })] }
    nextWork := c.nextWork + 1 }

/-- `BufferedLMDBInodeCatalog::flush`: the enqueue of the promise closure. -/
def flush (c : Catalog) : Catalog :=
  { c with
    state :=
      { c.state with
        work := c.state.work ++
          [(c.nextWork, { operation := .flush, odir := none, estimateIndirectMemoryUsage := 0 })] }
    nextWork := c.nextWork + 1 }

/-- `BufferedLMDBInodeCatalog::loadAndRemoveOverlayDir`: the value read, and the
catalog after the call (`none` when the inner `process` blocks). -/
def loadAndRemoveOverlayDir {D : Type} (cd : Codec D) (sz : Sizes) (c : Catalog)
    (inodeNumber : InodeNumber) (insertThrows : Bool) :
    Except ReadFault (Option D × Option Catalog) :=
  let buffered (op : Operation) : Except ReadFault (Option D × Option Catalog) :=
    match op.operationType with
    | .Write =>
      match readOperation cd c op with
      | .error e => .error e
      | .ok odir =>
        .ok (odir,
          (process sz c (.loadAndRemoveOverlayDir inodeNumber) 0 inodeNumber .Remove none
            insertThrows).after)
    | .Remove => .ok (none, some c)
  match c.state.waitingOperation inodeNumber with
  | some op => buffered op
  | none =>
    match c.state.inflightOperation inodeNumber with
    | some op => buffered op
    | none =>
      let r := LMDB.loadAndRemoveOverlayDir cd c.db inodeNumber
      .ok (r.1, some { c with db := r.2 })

/-- One atomic step of the system: a call by a client thread or a move of the
worker thread. -/
inductive Step (D : Type) where
  | save (ino : InodeNumber) (odir : D) (insertThrows : Bool)
  | remove (ino : InodeNumber) (insertThrows : Bool)
  | loadAndRemove (ino : InodeNumber) (insertThrows : Bool)
  | workerClear
  | workerTake
  | workerExec
  | stop
  | pause
  | flush

/-- The catalog after one step; `none` when the step cannot happen in this
state (the caller or the worker is blocked). -/
def step {D : Type} (cd : Codec D) (sz : Sizes) (c : Catalog) : Step D → Option Catalog
  | .save ino odir t => (saveOverlayDir cd sz c ino odir t).after
  | .remove ino t => (removeOverlayDir sz c ino t).after
  | .loadAndRemove ino t =>
    match loadAndRemoveOverlayDir cd sz c ino t with
    | .error _ => none
    | .ok r => r.2
  | .workerClear => workerClear c
  | .workerTake => workerTake c
  | .workerExec => workerExec c
  | .stop => some (stopWorkerThread c)
  | .pause => some (pause c)
  | .flush => some (flush c)

/-- The catalog after a sequence of steps. -/
def run {D : Type} (cd : Codec D) (sz : Sizes) : Catalog → List (Step D) → Option Catalog
  | c, [] => some c
  | c, s :: rest =>
    match step cd sz c s with
    | none => none
    | some c1 => run cd sz c1 rest

/-- An operation of the catalog interface, as a client issues it. -/
inductive Op (D : Type) where
  | save (ino : InodeNumber) (odir : D)
  | remove (ino : InodeNumber)

/-- The operation a step enqueues, if it enqueues one: a save or remove whose
insertion into the map does not throw. -/
def Step.enqueued {D : Type} : Step D → Option (Op D)
  | .save ino odir false => some (.save ino odir)
  | .remove ino false => some (.remove ino)
  | _ => none

/-- The operations enqueued by a sequence of steps, in enqueue order. -/
def enqueuedOps {D : Type} (steps : List (Step D)) : List (Op D) :=
  steps.filterMap Step.enqueued

/-- The steps of the buffered write path: the two enqueueing calls and the
moves of the worker thread (and the two test hooks, which enqueue closures
without a key).  A stop request and the combined read-and-remove are not
among them. -/
def Step.isBuffered {D : Type} : Step D → Bool
  | .stop => false
  | .loadAndRemove _ _ => false
  | _ => true

/-- The key a closure acts on in the underlying catalog, if any. -/
def WorkFn.key : WorkFn → Option InodeNumber
  | .saveOverlayDir ino _ => some ino
  | .removeOverlayDir ino => some ino
  | .loadAndRemoveOverlayDir ino => some ino
  | _ => none

/-- The underlying catalog after the worker has run the given events. -/
def applyWorks (ws : List (Nat × Work)) (db : LMDBInodeCatalog) : LMDBInodeCatalog :=
  ws.foldl (fun d ev => (ev.2.operation.run d).1) db

/-- The events of the current batch that the worker has not run yet. -/
def Catalog.remaining (c : Catalog) : List (Nat × Work) :=
  match c.pc with
  | .running i => c.workerWork.drop i
  | _ => []

/-- The underlying catalog once the worker has drained everything that is
pending now. -/
def Catalog.final (c : Catalog) : LMDBInodeCatalog :=
  applyWorks (c.remaining ++ c.state.work) c.db

/-- What a buffered operation promises about the drained catalog. -/
def Operation.Agrees (op : Operation) (w : Work) (v : Option String) : Prop :=
  (op.operationType = .Write → ∃ s, w.odir = some s ∧ v = some s) ∧
  (op.operationType = .Remove → v = none)

/-- The synchronous execution of one operation against the underlying catalog:
`LMDBInodeCatalog::saveOverlayDir` of the serialized directory, or
`LMDBInodeCatalog::removeOverlayDir`. -/
def Op.applySync {D : Type} (cd : Codec D) (db : LMDBInodeCatalog) : Op D → LMDBInodeCatalog
  | .save ino odir => LMDB.saveOverlayDir db ino (cd.serialize odir)
  | .remove ino => LMDB.removeOverlayDir db ino

/-- The underlying catalog after the operations were applied to it
synchronously, in order. -/
def applySyncAll {D : Type} (cd : Codec D) (db : LMDBInodeCatalog) (ops : List (Op D)) :
    LMDBInodeCatalog :=
  ops.foldl (Op.applySync cd) db

/-- The invariant of the buffered write path, relating the two operation maps
to the queue, the batch of the worker and the operations enqueued so far. -/
structure Inv {D : Type} (cd : Codec D) (db0 : LMDBInodeCatalog) (hist : List (Op D))
    (c : Catalog) : Prop where
  noStop : c.state.workerThreadStopRequested = false
  alive : c.pc = .waiting ∨ ∃ i, c.pc = .running i
  idle : c.pc = .waiting → c.workerWork = [] ∧ ∀ n, c.state.inflightOperation n = none
  sizeLt : c.state.totalSize < sizeMax
  sizeEq : c.state.totalSize = workSize c.state.work
  fresh : ∀ ev ∈ c.state.work ++ c.workerWork, ev.1 < c.nextWork
  nodup : ((c.state.work ++ c.workerWork).map Prod.fst).Nodup
  drained : ∀ n, c.final n = applySyncAll cd db0 hist n
  waitingSome : ∀ n op, c.state.waitingOperation n = some op →
    ∃ w, (op.work, w) ∈ c.state.work ∧ op.Agrees w (c.final n)
  waitingNone : ∀ n, c.state.waitingOperation n = none →
    ∀ ev ∈ c.state.work, ev.2.operation.key ≠ some n
  inflightSome : ∀ n op, c.state.inflightOperation n = some op →
    c.state.waitingOperation n = none →
    ∃ w, (op.work, w) ∈ c.workerWork ∧ op.Agrees w (c.final n)
  inflightNone : ∀ n, c.state.inflightOperation n = none →
    ∀ ev ∈ c.remaining, ev.2.operation.key ≠ some n
  noStopWork : ∀ ev ∈ c.state.work ++ c.workerWork, ∀ db, (ev.2.operation.run db).2 = false

/-- The moves of the worker thread. -/
def Step.isWorkerMove {D : Type} : Step D → Bool
  | .workerClear => true
  | .workerTake => true
  | .workerExec => true
  | _ => false

/-- The `Work` that `stopWorkerThread` enqueues. -/
def stopWork : Work := { operation := .stop, odir := none, estimateIndirectMemoryUsage := 0 }

/-- A catalog with two logs that are kept for the statements only: the `Work`
items appended to `state.work` by the client threads, and the `Work` items whose
closure the worker thread has called, both oldest first. -/
structure Logged where
  catalog : Catalog
  pushed : List (Nat × Work)
  executed : List (Nat × Work)

/-- A freshly constructed catalog with empty logs. -/
def Logged.init (db : LMDBInodeCatalog) : Logged :=
  { catalog := Catalog.init db, pushed := [], executed := [] }

/-- The `Work` items a step of a client thread has appended to the queue: what
`state.work` holds after the step beyond what it held before. -/
def Step.pushedBy {D : Type} (s : Step D) (c c1 : Catalog) : List (Nat × Work) :=
  if s.isWorkerMove then [] else c1.state.work.drop c.state.work.length

/-- The `Work` item whose closure the worker thread calls in a step: the event
of its batch it stands at. -/
def Step.executedBy {D : Type} (s : Step D) (c : Catalog) : List (Nat × Work) :=
  match s, c.pc with
  | .workerExec, .running i => (c.workerWork.get? i).toList
  | _, _ => []

/-- One step of the catalog, with the logs brought up to date. -/
def stepLogged {D : Type} (cd : Codec D) (sz : Sizes) (l : Logged) (s : Step D) :
    Option Logged :=
  (step cd sz l.catalog s).map (fun c1 =>
    { catalog := c1
      pushed := l.pushed ++ s.pushedBy l.catalog c1
      executed := l.executed ++ s.executedBy l.catalog })

/-- A sequence of steps, with the logs brought up to date. -/
def runLogged {D : Type} (cd : Codec D) (sz : Sizes) : Logged → List (Step D) → Option Logged
  | l, [] => some l
  | l, s :: rest =>
    match stepLogged cd sz l s with
    | none => none
    | some l1 => runLogged cd sz l1 rest

/-- The invariant of the logs: the addresses of the `Work` items pushed are
distinct and handed out already; while the worker thread is at work or waits,
the items pushed are those it has called, those left of its batch and those in
the queue, in this order; the worker waits with an empty batch. -/
structure LogInv (l : Logged) : Prop where
  fresh : ∀ ev ∈ l.pushed, ev.1 < l.catalog.nextWork
  nodup : (l.pushed.map Prod.fst).Nodup
  queue : l.catalog.pc = .waiting ∨ (∃ i, l.catalog.pc = .running i) →
    l.executed ++ (l.catalog.remaining ++ l.catalog.state.work) = l.pushed
  idle : l.catalog.pc = .waiting → l.catalog.workerWork = []

/-- The logs before a stop is requested: no stop event was pushed, and the
worker thread has not returned. -/
structure BeforeStop (l : Logged) extends LogInv l : Prop where
  noStop : l.catalog.state.workerThreadStopRequested = false
  noStopWork : ∀ ev ∈ l.pushed, ev.2.operation ≠ .stop
  alive : l.catalog.pc ≠ .exited

/-- The logs after the stop request that found the items `pre` pushed and pushed
the stop event at address `a`: the stop event is the only one pushed; the worker
thread, until it returns, has called only items of `pre`, and when it has
returned it has called the items of `pre` and the stop event. -/
structure AfterStop (pre : List (Nat × Work)) (a : Nat) (l : Logged) extends LogInv l :
    Prop where
  stop : l.catalog.state.workerThreadStopRequested = true
  pushed : ∃ later, l.pushed = pre ++ (a, stopWork) :: later ∧
    ∀ ev ∈ pre ++ later, ev.2.operation ≠ .stop
  live : l.catalog.pc = .waiting ∨ (∃ i, l.catalog.pc = .running i) →
    l.executed.length ≤ pre.length
  done : l.catalog.pc = .exited → l.executed = pre ++ [(a, stopWork)]

/-- What a call of a client thread does to the synchronized state: nothing; or
it appends one `Work` to the queue, records it in the waiting map and adds its
size to the total; or it appends one `Work` of size 0 and touches neither map
nor total (`stopWorkerThread`, `pause`, `flush`). -/
inductive ClientEffect (c c1 : Catalog) : Prop where
  | same : c1.state = c.state → c.nextWork ≤ c1.nextWork → ClientEffect c c1
  | enqueued (w : Work) (key : InodeNumber) (ty : OperationType) :
      c1.state =
        { c.state with
          work := c.state.work ++ [(c.nextWork, w)]
          waitingOperation :=
            setAt c.state.waitingOperation key (some { operationType := ty, work := c.nextWork })
          totalSize := (c.state.totalSize + w.estimateIndirectMemoryUsage) % sizeMax } →
      (ty = .Write → w.odir.isSome = true) → c1.nextWork = c.nextWork + 1 → ClientEffect c c1
  | quiet (w : Work) (stop : Bool) :
      c1.state =
        { c.state with
          work := c.state.work ++ [(c.nextWork, w)]
          workerThreadStopRequested := stop } →
      w.estimateIndirectMemoryUsage = 0 → c1.nextWork = c.nextWork + 1 → ClientEffect c c1

/-- An operation of one of the two maps refers to a `Work` held in the given
vector, and a `Write` to one that carries its payload. -/
def Operation.HeldIn (op : Operation) (works : List (Nat × Work)) : Prop :=
  ∃ w, (op.work, w) ∈ works ∧ (op.operationType = .Write → w.odir.isSome = true)

/-- The bookkeeping of the catalog that holds in every state a run reaches: the
total is the size of the queue, the size check of the worker thread has not
failed, the worker waits with an empty batch and an empty inflight map, the
addresses of the live `Work` objects are distinct, every waiting operation
refers to a `Work` of the queue, and, until the worker thread returns, every
inflight operation refers to a `Work` of its batch. -/
structure Sound (c : Catalog) : Prop where
  sizeEq : c.state.totalSize = workSize c.state.work
  notAborted : c.pc ≠ .aborted
  idle : c.pc = .waiting → c.workerWork = [] ∧ ∀ n, c.state.inflightOperation n = none
  fresh : ∀ ev ∈ c.state.work ++ c.workerWork, ev.1 < c.nextWork
  nodup : ((c.state.work ++ c.workerWork).map Prod.fst).Nodup
  waiting : ∀ n op, c.state.waitingOperation n = some op → op.HeldIn c.state.work
  inflight : c.pc ≠ .exited →
    ∀ n op, c.state.inflightOperation n = some op → op.HeldIn c.workerWork

/-- A call made on the underlying catalog. -/
inductive DbCall where
  /-- The worker thread calls the closure of this `Work` item. -/
  | closure (ev : Nat × Work)
  /-- A client thread that finds no buffered operation for the inode calls
  `LMDBInodeCatalog::loadAndRemoveOverlayDir` itself. -/
  | loadAndRemove (ino : InodeNumber)
  deriving DecidableEq, Repr

/-- What a call does to the underlying catalog. -/
def DbCall.run : DbCall → LMDBInodeCatalog → LMDBInodeCatalog
  | .closure ev, db => (ev.2.operation.run db).1
  | .loadAndRemove ino, db => LMDB.removeOverlayDir db ino

/-- The `Work` item behind a call, if the worker thread made it. -/
def DbCall.closureOf : DbCall → Option (Nat × Work)
  | .closure ev => some ev
  | .loadAndRemove _ => none

/-- The calls on the underlying catalog that a step makes: the closure the worker
thread calls, or the synchronous read-and-remove of a client thread. -/
def Step.callsBy {D : Type} (s : Step D) (c : Catalog) : List DbCall :=
  match s with
  | .loadAndRemove ino _ =>
    match c.state.waitingOperation ino, c.state.inflightOperation ino with
    | none, none => [.loadAndRemove ino]
    | _, _ => []
  | _ => (s.executedBy c).map .closure

/-- The calls on the underlying catalog that a sequence of steps makes, oldest
first. -/
def callsOfRun {D : Type} (cd : Codec D) (sz : Sizes) : Catalog → List (Step D) → List DbCall
  | _, [] => []
  | c, s :: rest =>
    match step cd sz c s with
    | none => []
    | some c1 => s.callsBy c ++ callsOfRun cd sz c1 rest

/-- The underlying catalog after the given calls were made on it, in order. -/
def replayCalls (calls : List DbCall) (db : LMDBInodeCatalog) : LMDBInodeCatalog :=
  calls.foldl (fun d call => call.run d) db

/-- The step is the combined read-and-remove of a client thread. -/
def Step.isLoadAndRemove {D : Type} : Step D → Bool
  | .loadAndRemove _ _ => true
  | _ => false

namespace Example

/-- A codec on directories that are already strings. -/
def codec : Codec String := { serialize := id, deserialize := id }

/-- Sizes for the scenarios: a buffer of 1000 bytes. -/
def sizes : Sizes :=
  { bufferSize := 1000, sizeofFn := 32, heapAllocatedMemory := fun _ => 0,
    estimateString := String.length }

/-- An empty underlying catalog. -/
def emptyDb : LMDBInodeCatalog := fun _ => none

/-- The catalog after the given steps on an empty database. -/
def after (steps : List (Step String)) : Catalog :=
  (run codec sizes (Catalog.init emptyDb) steps).getD (Catalog.init emptyDb)

/-- Scenario 6 of the spec, first phase: `save(5, D)` is waiting. -/
def stepsWaiting : List (Step String) := [.save 5 "D" false]

/-- Scenario 6, second phase: the worker took the batch, the write is inflight. -/
def stepsInflight : List (Step String) := [.save 5 "D" false, .workerClear, .workerTake]

/-- Scenario 6, third phase: the worker ran the write and cleared its maps. -/
def stepsDone : List (Step String) :=
  [.save 5 "D" false, .workerClear, .workerTake, .workerExec, .workerClear]

/-- A remove that is still waiting while an older write is inflight. -/
def stepsRemoveOverWrite : List (Step String) :=
  [.save 5 "D" false, .workerClear, .workerTake, .remove 5 false]

/-- The logged catalog after the given steps on an empty database. -/
def loggedAfter (steps : List (Step String)) : Logged :=
  (runLogged codec sizes (Logged.init emptyDb) steps).getD (Logged.init emptyDb)

/-- A write and a remove are enqueued and nothing more happens before the stop
is requested. -/
def stepsBeforeStop : List (Step String) := [.save 5 "D" false, .remove 7 false]

/-- After the stop request the worker thread takes the batch and runs it to the
stop event; a late write arrives in between. -/
def stepsAfterStop : List (Step String) :=
  [.workerClear, .workerTake, .workerExec, .save 6 "late" false, .workerExec, .workerExec]

/-- A write is enqueued, the stop is requested, and the worker thread takes the
batch of the two and runs it to the stop event. -/
def stepsStopped : List (Step String) :=
  [.save 5 "D" false, .stop, .workerClear, .workerTake, .workerExec, .workerExec]

end Example

end BufferedLMDBInodeCatalog

/-! ## Part 2: the directory inode (`eden/fs/inodes/TreeInode.cpp`)

The inode tree is embedded as a heap of inode objects in a `Mount`.  An inode
object is addressed by its inode number (the `InodeMap` keeps at most one
object per number), so an `InodeBase*` is an inode number.  Locks are not
modelled: every function below is one critical section run to its end, and
calls that the source makes through futures happen in program order.  The
inode metadata table (timestamps), the FUSE channel and the bookkeeping of the
`InodeMap` carry nothing the statements below talk about and are left out. -/

namespace TreeInode

abbrev InodeNumber := Nat
abbrev InodePtr := Nat
abbrev Hash := Nat
abbrev PathComponent := String

/-- `kRootNodeId`. -/
def kRootNodeId : InodeNumber := 1

/-- `kDotEdenName`. -/
def kDotEdenName : PathComponent := ".eden"

def S_IFMT : Nat := 0o170000
def S_IFSOCK : Nat := 0o140000
def S_IFLNK : Nat := 0o120000
def S_IFREG : Nat := 0o100000
def S_IFDIR : Nat := 0o040000

/-- `S_ISSOCK(mode)`. -/
def S_ISSOCK (mode : Nat) : Bool := mode &&& S_IFMT == S_IFSOCK

/-- The error numbers the directory operations report. -/
inductive Errno where
  | ENOENT | EEXIST | ENOTDIR | EISDIR | ENOTEMPTY | EPERM | EINVAL | EBADF | EIO
  | ENAMETOOLONG
  deriving DecidableEq, Repr

/-- How a call can fail. -/
inductive Failure where
  /-- An `InodeError` with this error number. -/
  | errno (e : Errno)
  /-- `EDEN_BUG`, a failed `CHECK`/`DCHECK`, or a dereference the source leaves
  undefined. -/
  | bug
  /-- The future of a child load failed (the object store has no such tree). -/
  | loadFailed
  /-- The walk along the parent pointers did not end within the fuel given. -/
  | fuel
  deriving DecidableEq, Repr

/-- Modelled from the spec: `DirEntry` (its header is not among the files at
hand) holds the mode, the inode number, the optional hash (present iff the
entry is not materialized) and the optional pointer to the loaded inode. -/
structure DirEntry where
  initialMode : Nat
  inodeNumber : InodeNumber
  hash : Option Hash
  inode : Option InodePtr
  deriving DecidableEq, Repr

namespace DirEntry

/-- `DirEntry(mode, number)`: a materialized entry, not loaded. -/
def mk2 (mode : Nat) (number : InodeNumber) : DirEntry :=
  { initialMode := mode, inodeNumber := number, hash := none, inode := none }

def isDirectory (e : DirEntry) : Bool := e.initialMode &&& S_IFMT == S_IFDIR
def isMaterialized (e : DirEntry) : Bool := e.hash.isNone
def setMaterialized (e : DirEntry) : DirEntry := { e with hash := none }
def setDematerialized (e : DirEntry) (h : Hash) : DirEntry := { e with hash := some h }
def setInode (e : DirEntry) (p : InodePtr) : DirEntry := { e with inode := some p }

end DirEntry

/-- `DirContents`, a `PathMap<DirEntry>`: a vector of pairs kept sorted by name. -/
abbrev DirContents := List (PathComponent × DirEntry)

namespace DirContents

/-- `entries.find(name)`; `none` stands for `end()`. -/
def find (d : DirContents) (name : PathComponent) : Option DirEntry := d.lookup name

/-- Insertion at the place the order of names gives. -/
def insertSorted (name : PathComponent) (e : DirEntry) : DirContents → DirContents
  | [] => [(name, e)]
  | (k, v) :: rest =>
    if name < k then (name, e) :: (k, v) :: rest else (k, v) :: insertSorted name e rest

/-- `entries.emplace(name, ...)`: inserts unless the name is present; the flag
is the `second` of the result. -/
def emplace (d : DirContents) (name : PathComponent) (e : DirEntry) : DirContents × Bool :=
  match find d name with
  | some _ => (d, false)
  | none => (insertSorted name e d, true)

/-- `entries.erase(iter)` for the iterator of this name. -/
def erase (d : DirContents) (name : PathComponent) : DirContents :=
  d.filter (fun kv => kv.1 != name)

/-- Assignment through the iterator of this name: `iter->second = e`, at the
element `find` points to. -/
def assign : DirContents → PathComponent → DirEntry → DirContents
  | [], _, _ => []
  | (k, v) :: rest, name, e =>
    if k == name then (k, e) :: rest else (k, v) :: assign rest name e

end DirContents

/-- `TreeInodeState`: the entries and the hash of the source-control tree the
directory is identical to; no hash means materialized. -/
structure TreeInodeState where
  entries : DirContents
  treeHash : Option Hash
  deriving DecidableEq, Repr

def TreeInodeState.isMaterialized (s : TreeInodeState) : Bool := s.treeHash.isNone
def TreeInodeState.setMaterialized (s : TreeInodeState) : TreeInodeState :=
  { s with treeHash := none }

/-- Modelled from the spec: `InodeBase::LocationInfo` (`InodeBase` is not among
the files at hand): the parent pointer, the name within the parent and the
unlinked flag. -/
structure LocationInfo where
  parent : Option InodePtr
  name : PathComponent
  unlinked : Bool
  deriving DecidableEq, Repr

/-- The kinds of a source-control tree entry. -/
inductive TreeEntryType where
  | TREE | REGULAR_FILE | EXECUTABLE_FILE | SYMLINK
  deriving DecidableEq, Repr

/-- An entry of a source-control `Tree`. -/
structure TreeEntry where
  name : PathComponent
  type : TreeEntryType
  hash : Hash
  deriving DecidableEq, Repr

/-- A source-control `Tree`. -/
structure Tree where
  hash : Hash
  entries : List TreeEntry
  deriving DecidableEq, Repr

/-- A record of the journal. -/
inductive JournalDelta where
  | CREATED (path : List PathComponent)
  | REMOVED (path : List PathComponent)
  | CHANGED (path : List PathComponent)
  | RENAME (src dst : List PathComponent)
  | REPLACE (src dst : List PathComponent)
  deriving DecidableEq, Repr

/-- The mount: the heap of loaded inode objects and the mount-global
collaborators, as far as the directory operations use them. -/
structure Mount where
  /-- `InodeBase::location_` of every live inode object. -/
  location : InodePtr → Option LocationInfo
  /-- `TreeInode::contents_` of every live `TreeInode`; a live object without
  contents is a `FileInode`. -/
  contents : InodePtr → Option TreeInodeState
  /-- The directories stored in the overlay. -/
  overlayDirs : InodeNumber → Option DirContents
  /-- The files stored in the overlay. -/
  overlayFiles : InodeNumber → Option String
  /-- The counter behind `Overlay::allocateInodeNumber`. -/
  nextInodeNumber : InodeNumber
  /-- The journal, oldest record first. -/
  journal : List JournalDelta
  /-- `EdenMount::getDotEdenInodeNumber()`. -/
  dotEdenInodeNumber : InodeNumber
  /-- The object store: `getTree(hash)`. -/
  trees : Hash → Option Tree
  /-- `modeFromTreeEntryType`, defined outside the files at hand. -/
  modeFromTreeEntryType : TreeEntryType → Nat
  /-- Whether `validatePathComponentLength(name)` accepts the name; the helper
  and its limit are defined outside the files at hand. -/
  nameLengthOk : PathComponent → Bool

/-- The outcome of a call together with the mount it leaves. -/
abbrev Result (α : Type) := Except Failure α × Mount

namespace Mount

def setContents (m : Mount) (p : InodePtr) (st : TreeInodeState) : Mount :=
  { m with contents := fun q => if q = p then some st else m.contents q }

def setLocation (m : Mount) (p : InodePtr) (loc : LocationInfo) : Mount :=
  { m with location := fun q => if q = p then some loc else m.location q }

/-- Modelled from the spec: `Overlay::saveOverlayDir(n, contents, timestamps)`
persists the `(name, mode, inode number, optional hash)` records of the
directory; the pointers to loaded inodes are not part of the stored form. -/
def saveOverlayDir (m : Mount) (ino : InodeNumber) (d : DirContents) : Mount :=
  { m with
    overlayDirs := fun q =>
      if q = ino then some (d.map (fun kv => (kv.1, { kv.2 with inode := none })))
      else m.overlayDirs q }

/-- Modelled from the spec: `Overlay::createOverlayFile(n, timestamps, bytes)`. -/
def createOverlayFile (m : Mount) (ino : InodeNumber) (bytes : String) : Mount :=
  { m with overlayFiles := fun q => if q = ino then some bytes else m.overlayFiles q }

/-- Modelled from the spec: `Overlay::allocateInodeNumber()` hands out the next
number of a monotonic counter. -/
def allocateInodeNumber (m : Mount) : InodeNumber × Mount :=
  (m.nextInodeNumber, { m with nextInodeNumber := m.nextInodeNumber + 1 })

/-- `Journal::addDelta`. -/
def addDelta (m : Mount) (d : JournalDelta) : Mount :=
  { m with journal := m.journal ++ [d] }

/-- Modelled from the spec: `InodeBase::getParent`. -/
def getParent (m : Mount) (p : InodePtr) : Option InodePtr :=
  (m.location p).bind (fun loc => loc.parent)

/-- Modelled from the spec: `InodeBase::isUnlinked`. -/
def isUnlinked (m : Mount) (p : InodePtr) : Bool :=
  match m.location p with
  | some loc => loc.unlinked
  | none => false

/-- Modelled from the spec: `InodeBase::markUnlinked` sets the unlinked flag of
the inode and leaves its parent pointer and name. -/
def markUnlinked (m : Mount) (p : InodePtr) : Mount :=
  { m with
    location := fun q =>
      if q = p then (m.location p).map (fun loc => { loc with unlinked := true })
      else m.location q }

/-- Modelled from the spec: `InodeBase::updateLocation` gives the inode its new
parent and name. -/
def updateLocation (m : Mount) (p : InodePtr) (newParent : InodePtr) (newName : PathComponent) :
    Mount :=
  { m with
    location := fun q =>
      if q = p then
        (m.location p).map (fun loc => { loc with parent := some newParent, name := newName })
      else m.location q }

/-- The entry of a name in a directory, if the directory is loaded and has it. -/
def entry (m : Mount) (p : InodePtr) (name : PathComponent) : Option DirEntry :=
  (m.contents p).bind (fun st => st.entries.find name)

end Mount

/-- Modelled from the spec: `InodeBase::getPath` walks the parent pointers up to
the root and yields no path if this inode or one of its ancestors has been
unlinked. -/
def getPath : Nat → Mount → InodePtr → Except Failure (Option (List PathComponent))
  | 0, _, _ => .error .fuel
  | fuel + 1, m, p =>
    match m.location p with
    | none => .error .bug
    | some loc =>
      if loc.unlinked then .ok none
      else
        match loc.parent with
        | none => .ok (some [])
        | some parent =>
          match getPath fuel m parent with
          | .ok (some path) => .ok (some (path ++ [loc.name]))
          | r => r

/-- `TreeInode::childMaterialized`. -/
def childMaterialized : Nat → Mount → InodePtr → PathComponent → Result Unit
  | 0, m, _, _ => (.error .fuel, m)
  | fuel + 1, m, p, childName =>
    match m.contents p with
    | none => (.error .bug, m)
    | some contents =>
      match contents.entries.find childName with
      | none => (.error .bug, m)
      | some childEntry =>
        if contents.isMaterialized && childEntry.isMaterialized then (.ok (), m)
        else
          let entries := contents.entries.assign childName childEntry.setMaterialized
          let m := (m.setContents p { entries := entries, treeHash := none }).saveOverlayDir p entries
          match m.location p with
          | none => (.error .bug, m)
          | some location =>
            match location.parent with
            | some parent =>
              if !location.unlinked then childMaterialized fuel m parent location.name
              else (.ok (), m)
            | none => (.ok (), m)

/-- `TreeInode::materialize`. -/
def materialize (fuel : Nat) (m : Mount) (p : InodePtr) : Result Unit :=
  match m.contents p with
  | none => (.error .bug, m)
  | some contents =>
    if contents.isMaterialized then (.ok (), m)
    else
      let m := (m.setContents p contents.setMaterialized).saveOverlayDir p contents.entries
      match m.location p with
      | none => (.error .bug, m)
      | some loc =>
        match loc.parent with
        | some parent =>
          if !loc.unlinked then childMaterialized fuel m parent loc.name else (.ok (), m)
        | none => (.ok (), m)

/-- `TreeInode::buildDirFromTree`: one entry per tree entry, each with a newly
allocated inode number and the hash of the tree entry. -/
def buildDirFromTree (m : Mount) (tree : Tree) : DirContents × Mount :=
  tree.entries.foldl
    (fun (acc : DirContents × Mount) treeEntry =>
      let alloc := acc.2.allocateInodeNumber
      ((acc.1.emplace treeEntry.name
          { initialMode := m.modeFromTreeEntryType treeEntry.type
            inodeNumber := alloc.1
            hash := some treeEntry.hash
            inode := none }).1,
        alloc.2))
    ([], m)

/-- `TreeInode::saveDirFromTree`. -/
def saveDirFromTree (m : Mount) (inodeNumber : InodeNumber) (tree : Tree) : DirContents × Mount :=
  let built := buildDirFromTree m tree
  (built.1, built.2.saveOverlayDir inodeNumber built.1)

/-- The construction of a `FileInode` object for a child of `parent`. -/
def Mount.newFileInode (m : Mount) (ino : InodeNumber) (parent : InodePtr) (name : PathComponent) :
    Mount :=
  { m with
    location := fun q =>
      if q = ino then some { parent := some parent, name := name, unlinked := false }
      else m.location q
    contents := fun q => if q = ino then none else m.contents q }

/-- The construction of a `TreeInode` object for a child of `parent`. -/
def Mount.newTreeInode (m : Mount) (ino : InodeNumber) (parent : InodePtr) (name : PathComponent)
    (dir : DirContents) (treeHash : Option Hash) : Mount :=
  { m with
    location := fun q =>
      if q = ino then some { parent := some parent, name := name, unlinked := false }
      else m.location q
    contents := fun q =>
      if q = ino then some { entries := dir, treeHash := treeHash } else m.contents q }

/-- `TreeInode::startLoadingInode`, run to the completion of its future: the
construction of the child object of an entry that is not loaded. -/
def startLoadingInode (m : Mount) (p : InodePtr) (entry : DirEntry) (name : PathComponent) :
    Result Unit :=
  if !entry.isDirectory then
    (.ok (), m.newFileInode entry.inodeNumber p name)
  else
    match entry.hash with
    | some treeHash =>
      match m.trees treeHash with
      | none => (.error .loadFailed, m)
      | some tree =>
        match m.overlayDirs entry.inodeNumber with
        | some overlayDir =>
          (.ok (), m.newTreeInode entry.inodeNumber p name overlayDir (some treeHash))
        | none =>
          let saved := saveDirFromTree m entry.inodeNumber tree
          (.ok (), saved.2.newTreeInode entry.inodeNumber p name saved.1 (some tree.hash))
    | none =>
      match m.overlayDirs entry.inodeNumber with
      | none => (.error .bug, m)
      | some overlayDir => (.ok (), m.newTreeInode entry.inodeNumber p name overlayDir none)

/-- Modelled from the spec: `InodeMap::lookupInode` of the control inode, which
the mount keeps loaded. -/
def lookupDotEden (m : Mount) : Result InodePtr :=
  (.ok m.dotEdenInodeNumber, m)

/-- `TreeInode::getOrLoadChild` (and `getChildByName`), with the load run to its
completion; the `InodeMap` answers `startLoad = true`, no other load of the
child being in progress. -/
def getOrLoadChild (m : Mount) (p : InodePtr) (name : PathComponent) : Result InodePtr :=
  match m.contents p with
  | none => (.error .bug, m)
  | some contents =>
    match contents.entries.find name with
    | none =>
      if name = kDotEdenName ∧ p ≠ kRootNodeId then lookupDotEden m
      else (.error (.errno .ENOENT), m)
    | some entry =>
      match entry.inode with
      | some child => (.ok child, m)
      | none =>
        match startLoadingInode m p entry name with
        | (.error e, m1) => (.error e, m1)
        | (.ok (), m1) =>
          (.ok entry.inodeNumber,
            m1.setContents p
              { contents with
                entries := contents.entries.assign name (entry.setInode entry.inodeNumber) })

/-- `TreeInode::getChildByName`. -/
def getChildByName (m : Mount) (p : InodePtr) (name : PathComponent) : Result InodePtr :=
  getOrLoadChild m p name

/-- The attributes the directory operations fill in. -/
structure Attr where
  st_ino : Nat
  st_nlink : Option Nat
  deriving DecidableEq, Repr

/-- `TreeInode::getattr`. -/
def getattr (m : Mount) (p : InodePtr) : Except Failure Attr :=
  match m.contents p with
  | none => .error .bug
  | some contents => .ok { st_ino := p, st_nlink := some (contents.entries.length + 2) }

/-- Modelled from the spec: `InodeBase::updateJournal` emits a journal record for
the path of the inode, if it has one. -/
def updateJournal (fuel : Nat) (m : Mount) (p : InodePtr) : Result Unit :=
  match getPath fuel m p with
  | .error e => (.error e, m)
  | .ok none => (.ok (), m)
  | .ok (some path) => (.ok (), m.addDelta (.CHANGED path))

/-- `TreeInode::setattr`. -/
def setattr (fuel : Nat) (m : Mount) (p : InodePtr) : Result Attr :=
  match materialize fuel m p with
  | (.error e, m1) => (.error e, m1)
  | (.ok (), m1) =>
    match m1.contents p with
    | none => (.error .bug, m1)
    | some _ =>
      match updateJournal fuel m1 p with
      | (.error e, m2) => (.error e, m2)
      | (.ok (), m2) => (.ok { st_ino := p, st_nlink := none }, m2)

/-- `TreeInode::createImpl`, entered with the contents lock held. -/
def createImpl (fuel : Nat) (m : Mount) (p : InodePtr) (name : PathComponent) (mode : Nat)
    (fileContents : String) : Result InodePtr :=
  if p = m.dotEdenInodeNumber then (.error (.errno .EPERM), m)
  else
    match m.contents p with
    | none => (.error .bug, m)
    | some contents =>
      match contents.entries.find name with
      | some _ => (.error (.errno .EEXIST), m)
      | none =>
        match getPath fuel m p with
        | .error e => (.error e, m)
        | .ok none => (.error (.errno .ENOENT), m)
        | .ok (some myPath) =>
          let targetName := myPath ++ [name]
          let alloc := m.allocateInodeNumber
          let childNumber := alloc.1
          let m1 := alloc.2.createOverlayFile childNumber fileContents
          let insertion := contents.entries.emplace name (DirEntry.mk2 mode childNumber)
          if !insertion.2 then (.error .bug, m1)
          else
            let m2 := m1.newFileInode childNumber p name
            let entries :=
              insertion.1.assign name ((DirEntry.mk2 mode childNumber).setInode childNumber)
            let m3 := (m2.setContents p { contents with entries := entries }).saveOverlayDir p entries
            (.ok childNumber, m3.addDelta (.CREATED targetName))

/-- `TreeInode::create`. -/
def create (fuel : Nat) (m : Mount) (p : InodePtr) (name : PathComponent) (mode : Nat) :
    Result InodePtr :=
  if !m.nameLengthOk name then (.error (.errno .ENAMETOOLONG), m)
  else
    match materialize fuel m p with
    | (.error e, m1) => (.error e, m1)
    | (.ok (), m1) => createImpl fuel m1 p name (S_IFREG ||| (0o7777 &&& mode)) ""

/-- `TreeInode::symlink`. -/
def symlink (fuel : Nat) (m : Mount) (p : InodePtr) (name : PathComponent)
    (symlinkTarget : String) : Result InodePtr :=
  if !m.nameLengthOk name then (.error (.errno .ENAMETOOLONG), m)
  else
    match materialize fuel m p with
    | (.error e, m1) => (.error e, m1)
    | (.ok (), m1) => createImpl fuel m1 p name (S_IFLNK ||| 0o770) symlinkTarget

/-- `TreeInode::mknod`. -/
def mknod (fuel : Nat) (m : Mount) (p : InodePtr) (name : PathComponent) (mode : Nat) :
    Result InodePtr :=
  if !m.nameLengthOk name then (.error (.errno .ENAMETOOLONG), m)
  else if !S_ISSOCK mode then (.error (.errno .EPERM), m)
  else
    match materialize fuel m p with
    | (.error e, m1) => (.error e, m1)
    | (.ok (), m1) => createImpl fuel m1 p name mode ""

/-- `TreeInode::mkdir`. -/
def mkdir (fuel : Nat) (m : Mount) (p : InodePtr) (name : PathComponent) (mode : Nat) :
    Result InodePtr :=
  if p = m.dotEdenInodeNumber then (.error (.errno .EPERM), m)
  else if !m.nameLengthOk name then (.error (.errno .ENAMETOOLONG), m)
  else
    match materialize fuel m p with
    | (.error e, m1) => (.error e, m1)
    | (.ok (), m1) =>
      match m1.contents p with
      | none => (.error .bug, m1)
      | some contents =>
        match getPath fuel m1 p with
        | .error e => (.error e, m1)
        | .ok none => (.error (.errno .ENOENT), m1)
        | .ok (some myPath) =>
          let targetName := myPath ++ [name]
          match contents.entries.find name with
          | some _ => (.error (.errno .EEXIST), m1)
          | none =>
            let alloc := m1.allocateInodeNumber
            let childNumber := alloc.1
            let mode := S_IFDIR ||| (0o7777 &&& mode)
            let m2 := alloc.2.saveOverlayDir childNumber []
            let emplaceResult := contents.entries.emplace name (DirEntry.mk2 mode childNumber)
            if !emplaceResult.2 then (.error .bug, m2)
            else
              let m3 := m2.newTreeInode childNumber p name [] none
              let entries :=
                emplaceResult.1.assign name ((DirEntry.mk2 mode childNumber).setInode childNumber)
              let m4 :=
                (m3.setContents p { contents with entries := entries }).saveOverlayDir p entries
              (.ok childNumber, m4.addDelta (.CREATED targetName))

/-- The template parameter `InodePtrType` of the removal functions. -/
inductive InodeType where
  | FileInode
  | TreeInode
  deriving DecidableEq, Repr

/-- `InodePtrType::InodeType::WRONG_TYPE_ERRNO`: is-a-directory for a file
removal, not-a-directory for a directory removal. -/
def InodeType.WRONG_TYPE_ERRNO : InodeType → Errno
  | .FileInode => .EISDIR
  | .TreeInode => .ENOTDIR

/-- `asSubclassPtrOrNull<InodePtrType>()`: the pointer itself if the object has
the asked type. -/
def asSubclassPtrOrNull (ty : InodeType) (m : Mount) (q : InodePtr) : Option InodePtr :=
  match ty with
  | .TreeInode => if (m.contents q).isSome then some q else none
  | .FileInode => if (m.contents q).isSome then none else some q

/-- `TreeInode::checkPreRemove`, both overloads; `none` is the result 0. -/
def checkPreRemove (ty : InodeType) (m : Mount) (child : InodePtr) : Option Errno :=
  match ty with
  | .TreeInode =>
    match m.contents child with
    | some childContents => if !childContents.entries.isEmpty then some .ENOTEMPTY else none
    | none => none
  | .FileInode => none

/-- `TreeInode::tryRemoveChild`; the value `none` is the result 0. -/
def tryRemoveChild (ty : InodeType) (fuel : Nat) (m : Mount) (p : InodePtr)
    (name : PathComponent) (child : Option InodePtr) : Result (Option Errno) :=
  match materialize fuel m p with
  | (.error e, m1) => (.error e, m1)
  | (.ok (), m1) =>
    if p = m1.dotEdenInodeNumber then (.ok (some .EPERM), m1)
    else
      match m1.contents p with
      | none => (.error .bug, m1)
      | some contents =>
        match contents.entries.find name with
        | none => (.ok (some .ENOENT), m1)
        | some ent =>
          match ent.inode with
          | none => (.ok (some .EBADF), m1)
          | some entInode =>
            let resolved : Except Errno InodePtr :=
              match child with
              | some c => if entInode ≠ c then .error .EBADF else .ok c
              | none =>
                match asSubclassPtrOrNull ty m1 entInode with
                | none => .error ty.WRONG_TYPE_ERRNO
                | some c => .ok c
            match resolved with
            | .error e => (.ok (some e), m1)
            | .ok c =>
              match checkPreRemove ty m1 c with
              | some e => (.ok (some e), m1)
              | none =>
                let m2 := m1.markUnlinked c
                let entries := contents.entries.erase name
                (.ok none,
                  (m2.setContents p { contents with entries := entries }).saveOverlayDir p entries)

/-- `kMaxRemoveRetries`. -/
def kMaxRemoveRetries : Nat := 3

/-- What a removal came to: the result, the mount, and how many times
`removeImpl` called itself again (a count kept for the statements only). -/
structure RemoveOutcome where
  result : Except Failure Unit
  mount : Mount
  retries : Nat

/-- `TreeInode::removeImpl`.  Between the look-up of the child and the
acquisition of the rename lock other threads may run; `interfere n` is what
they do to the mount before attempt `n` takes the rename lock. -/
def removeImpl (ty : InodeType) (interfere : Nat → Mount → Mount) (fuel : Nat) (m : Mount)
    (p : InodePtr) (name : PathComponent) (childBasePtr : InodePtr) (attemptNum : Nat) :
    RemoveOutcome :=
  match asSubclassPtrOrNull ty m childBasePtr with
  | none => { result := .error (.errno ty.WRONG_TYPE_ERRNO), mount := m, retries := 0 }
  | some child =>
    match checkPreRemove ty m child with
    | some checkResult => { result := .error (.errno checkResult), mount := m, retries := 0 }
    | none =>
      let m0 := interfere attemptNum m
      match getPath fuel m0 p with
      | .error e => { result := .error e, mount := m0, retries := 0 }
      | .ok none => { result := .error (.errno .ENOENT), mount := m0, retries := 0 }
      | .ok (some myPath) =>
        let targetName := myPath ++ [name]
        match tryRemoveChild ty fuel m0 p name none with
        | (.error e, m1) => { result := .error e, mount := m1, retries := 0 }
        | (.ok none, m1) =>
          { result := .ok (), mount := m1.addDelta (.REMOVED targetName), retries := 0 }
        | (.ok (some errnoValue), m1) =>
          if errnoValue ≠ .EBADF then
            { result := .error (.errno errnoValue), mount := m1, retries := 0 }
          else if attemptNum > kMaxRemoveRetries then
            { result := .error (.errno Errno.EIO), mount := m1, retries := 0 }
          else
            match getOrLoadChild m1 p name with
            | (.error e, m2) => { result := .error e, mount := m2, retries := 0 }
            | (.ok loadedChild, m2) =>
              let r := removeImpl ty interfere fuel m2 p name loadedChild (attemptNum + 1)
              { r with retries := r.retries + 1 }
termination_by kMaxRemoveRetries + 1 - attemptNum
decreasing_by
  simp only [kMaxRemoveRetries] at *
  omega

/-- `TreeInode::unlink`. -/
def unlink (interfere : Nat → Mount → Mount) (fuel : Nat) (m : Mount) (p : InodePtr)
    (name : PathComponent) : RemoveOutcome :=
  match getOrLoadChild m p name with
  | (.error e, m1) => { result := .error e, mount := m1, retries := 0 }
  | (.ok child, m1) => removeImpl .FileInode interfere fuel m1 p name child 1

/-- `TreeInode::rmdir`. -/
def rmdir (interfere : Nat → Mount → Mount) (fuel : Nat) (m : Mount) (p : InodePtr)
    (name : PathComponent) : RemoveOutcome :=
  match getOrLoadChild m p name with
  | (.error e, m1) => { result := .error e, mount := m1, retries := 0 }
  | (.ok child, m1) => removeImpl .TreeInode interfere fuel m1 p name child 1

/-- The loop of `isAncestor`, entered with the parent to look at next. -/
def isAncestorLoop : Nat → Mount → InodePtr → Option InodePtr → Except Failure Bool
  | _, _, _, none => .ok false
  | 0, _, _, some _ => .error .fuel
  | fuel + 1, m, a, some parent =>
    if parent = a then .ok true else isAncestorLoop fuel m a (m.getParent parent)

/-- `isAncestor(renameLock, a, b)`. -/
def isAncestor (fuel : Nat) (m : Mount) (a b : InodePtr) : Except Failure Bool :=
  isAncestorLoop fuel m a (m.getParent b)

/-- `TreeInode::TreeRenameLocks`, as far as it carries data: whose entries
`srcContents_`, `destContents_` and `destChildContents_` point to, and the
entry `destChildIter_` points to (`none` for `end()`). -/
structure TreeRenameLocks where
  srcContents : InodePtr
  destContents : InodePtr
  destChildContents : Option InodePtr
  destChildIter : Option DirEntry
  deriving DecidableEq, Repr

namespace TreeRenameLocks

def destChildExists (l : TreeRenameLocks) : Bool := l.destChildIter.isSome

/-- `destChild()`: the loaded inode of the destination entry, null if the entry
is absent or not loaded. -/
def destChild (l : TreeRenameLocks) : Option InodePtr := l.destChildIter.bind (fun e => e.inode)

/-- `destChildIsEmpty()`; it dereferences `destChildContents_`, which the source
asserts to be set. -/
def destChildIsEmpty (l : TreeRenameLocks) (m : Mount) : Except Failure Bool :=
  match l.destChildContents with
  | none => .error .bug
  | some q =>
    match m.contents q with
    | none => .error .bug
    | some st => .ok st.entries.isEmpty

end TreeRenameLocks

/-- `TreeRenameLocks::lockDestChild`: the look-up of the destination entry and,
if it is a loaded directory, the lock on its contents. -/
def lockDestChild (m : Mount) (destContents : InodePtr) (destName : PathComponent) :
    Except Failure (Option DirEntry × Option InodePtr) :=
  match m.contents destContents with
  | none => .error .bug
  | some st =>
    match st.entries.find destName with
    | none => .ok (none, none)
    | some e =>
      if e.isDirectory then
        match e.inode with
        | some childTree =>
          if (m.contents childTree).isSome then .ok (some e, some childTree) else .error .bug
        | none => .ok (some e, none)
      else .ok (some e, none)

/-- `TreeRenameLocks::acquireLocks`. -/
def acquireLocks (fuel : Nat) (m : Mount) (srcTree destTree : InodePtr)
    (destName : PathComponent) : Except Failure TreeRenameLocks :=
  if srcTree = destTree then
    match lockDestChild m srcTree destName with
    | .error e => .error e
    | .ok r =>
      .ok { srcContents := srcTree, destContents := srcTree, destChildContents := r.2,
            destChildIter := r.1 }
  else
    match isAncestor fuel m srcTree destTree with
    | .error e => .error e
    | .ok true =>
      match lockDestChild m destTree destName with
      | .error e => .error e
      | .ok r =>
        .ok { srcContents := srcTree, destContents := destTree, destChildContents := r.2,
              destChildIter := r.1 }
    | .ok false =>
      match lockDestChild m destTree destName with
      | .error e => .error e
      | .ok r =>
        if r.1.isSome ∧ r.1.bind (fun e => e.inode) = some srcTree then
          match r.2 with
          | none => .error .bug
          | some destChildContents =>
            .ok { srcContents := destChildContents, destContents := destTree,
                  destChildContents := r.2, destChildIter := r.1 }
        else
          .ok { srcContents := srcTree, destContents := destTree, destChildContents := r.2,
                destChildIter := r.1 }

/-- `TreeInode::doRename`, entered with the locks held and the source entry
found. -/
def doRename (fuel : Nat) (m : Mount) (locks : TreeRenameLocks) (self : InodePtr)
    (srcName : PathComponent) (srcEntry : DirEntry) (destParent : InodePtr)
    (destName : PathComponent) : Result Unit :=
  if locks.destChildExists ∧ srcEntry.inode = locks.destChild then (.ok (), m)
  else
    let cycle : Except Failure Bool :=
      if srcEntry.isDirectory then
        match srcEntry.inode with
        | none => .error .bug
        | some srcTreeInode =>
          if srcTreeInode = destParent then .ok true
          else isAncestor fuel m srcTreeInode destParent
      else .ok false
    match cycle with
    | .error e => (.error e, m)
    | .ok true => (.error (.errno .EINVAL), m)
    | .ok false =>
      match srcEntry.inode, m.contents locks.destContents with
      | none, _ => (.error .bug, m)
      | _, none => (.error .bug, m)
      | some childInode, some destState =>
        let destChildExists := locks.destChildExists
        let placed : Except Failure Mount :=
          if destChildExists then
            match locks.destChild with
            | none => .error .bug
            | some destChild =>
              .ok ((m.markUnlinked destChild).setContents locks.destContents
                { destState with entries := destState.entries.assign destName srcEntry })
          else
            let ret := destState.entries.emplace destName srcEntry
            if !ret.2 then .error .bug
            else .ok (m.setContents locks.destContents { destState with entries := ret.1 })
        match placed with
        | .error e => (.error e, m)
        | .ok m1 =>
          let m2 := m1.updateLocation childInode destParent destName
          match m2.contents locks.srcContents with
          | none => (.error .bug, m2)
          | some srcState =>
            let m3 :=
              m2.setContents locks.srcContents
                { srcState with entries := srcState.entries.erase srcName }
            let m4 :=
              match m3.contents locks.srcContents with
              | some st => m3.saveOverlayDir self st.entries
              | none => m3
            let m5 :=
              if destParent ≠ self then
                match m4.contents locks.destContents with
                | some st => m4.saveOverlayDir destParent st.entries
                | none => m4
              else m4
            match getPath fuel m5 self, getPath fuel m5 destParent with
            | .error e, _ => (.error e, m5)
            | _, .error e => (.error e, m5)
            | .ok (some srcPath), .ok (some destPath) =>
              if destChildExists then
                (.ok (), m5.addDelta (.REPLACE (srcPath ++ [srcName]) (destPath ++ [destName])))
              else
                (.ok (), m5.addDelta (.RENAME (srcPath ++ [srcName]) (destPath ++ [destName])))
            | .ok _, .ok _ => (.ok (), m5)

/-- `TreeInode::rename`.  The first argument bounds how often the operation
starts over after loading the source or destination child. -/
def rename : Nat → Nat → Mount → InodePtr → PathComponent → InodePtr → PathComponent →
    Result Unit
  | 0, _, m, _, _, _, _ => (.error .fuel, m)
  | restarts + 1, fuel, m, self, name, destParent, destName =>
    if self = m.dotEdenInodeNumber then (.error (.errno .EPERM), m)
    else if destParent = m.dotEdenInodeNumber then (.error (.errno .EPERM), m)
    else if !m.nameLengthOk destName then (.error (.errno .ENAMETOOLONG), m)
    else
      match materialize fuel m self with
      | (.error e, m1) => (.error e, m1)
      | (.ok (), m1) =>
        match (if destParent ≠ self then materialize fuel m1 destParent else (.ok (), m1)) with
        | (.error e, m2) => (.error e, m2)
        | (.ok (), m2) =>
          match acquireLocks fuel m2 self destParent destName with
          | .error e => (.error e, m2)
          | .ok locks =>
            match (m2.contents locks.srcContents).bind (fun st => st.entries.find name) with
            | none => (.error (.errno .ENOENT), m2)
            | some srcEntry =>
              let validation : Except Failure Unit :=
                if srcEntry.isDirectory then
                  match locks.destChildIter with
                  | some destEntry =>
                    if !destEntry.isDirectory then .error (.errno .ENOTDIR)
                    else if locks.destChild ≠ srcEntry.inode then
                      match locks.destChildIsEmpty m2 with
                      | .error e => .error e
                      | .ok isEmpty => if !isEmpty then .error (.errno .ENOTEMPTY) else .ok ()
                    else .ok ()
                  | none => .ok ()
                else
                  match locks.destChildIter with
                  | some destEntry =>
                    if destEntry.isDirectory then .error (.errno .EISDIR) else .ok ()
                  | none => .ok ()
              match validation with
              | .error e => (.error e, m2)
              | .ok () =>
                if m2.isUnlinked destParent then (.error (.errno .ENOENT), m2)
                else
                  let needSrc := srcEntry.inode.isNone
                  let needDest := locks.destChildExists && locks.destChild.isNone
                  if !needSrc && !needDest then
                    doRename fuel m2 locks self name srcEntry destParent destName
                  else
                    let srcLoad : Result Unit :=
                      if needSrc then
                        match getOrLoadChild m2 self name with
                        | (.error e, m3) => (.error e, m3)
                        | (.ok _, m3) => (.ok (), m3)
                      else (.ok (), m2)
                    let destLoad : Result Unit :=
                      if needDest then
                        match getOrLoadChild srcLoad.2 destParent destName with
                        | (.error e, m4) => (.error e, m4)
                        | (.ok _, m4) => (.ok (), m4)
                      else (.ok (), srcLoad.2)
                    match srcLoad.1, destLoad.1 with
                    | .error e, _ => (.error e, destLoad.2)
                    | _, .error e => (.error e, destLoad.2)
                    | .ok (), .ok () => rename restarts fuel destLoad.2 self name destParent destName

/-- The part of `rename` that runs with the locks held, from the look-up of the
source entry on, as a function of its own (`rename_locked` below shows that
`rename` is this function applied after the guards, the two calls of
`materialize` and `acquireLocks`). -/
def renameLocked (restarts fuel : Nat) (m2 : Mount) (locks : TreeRenameLocks) (self : InodePtr)
    (name : PathComponent) (destParent : InodePtr) (destName : PathComponent) : Result Unit :=
  match (m2.contents locks.srcContents).bind (fun st => st.entries.find name) with
  | none => (.error (.errno .ENOENT), m2)
  | some srcEntry =>
    let validation : Except Failure Unit :=
      if srcEntry.isDirectory then
        match locks.destChildIter with
        | some destEntry =>
          if !destEntry.isDirectory then .error (.errno .ENOTDIR)
          else if locks.destChild ≠ srcEntry.inode then
            match locks.destChildIsEmpty m2 with
            | .error e => .error e
            | .ok isEmpty => if !isEmpty then .error (.errno .ENOTEMPTY) else .ok ()
          else .ok ()
        | none => .ok ()
      else
        match locks.destChildIter with
        | some destEntry =>
          if destEntry.isDirectory then .error (.errno .EISDIR) else .ok ()
        | none => .ok ()
    match validation with
    | .error e => (.error e, m2)
    | .ok () =>
      if m2.isUnlinked destParent then (.error (.errno .ENOENT), m2)
      else
        let needSrc := srcEntry.inode.isNone
        let needDest := locks.destChildExists && locks.destChild.isNone
        if !needSrc && !needDest then
          doRename fuel m2 locks self name srcEntry destParent destName
        else
          let srcLoad : Result Unit :=
            if needSrc then
              match getOrLoadChild m2 self name with
              | (.error e, m3) => (.error e, m3)
              | (.ok _, m3) => (.ok (), m3)
            else (.ok (), m2)
          let destLoad : Result Unit :=
            if needDest then
              match getOrLoadChild srcLoad.2 destParent destName with
              | (.error e, m4) => (.error e, m4)
              | (.ok _, m4) => (.ok (), m4)
            else (.ok (), srcLoad.2)
          match srcLoad.1, destLoad.1 with
          | .error e, _ => (.error e, destLoad.2)
          | _, .error e => (.error e, destLoad.2)
          | .ok (), .ok () => rename restarts fuel destLoad.2 self name destParent destName

/-! ### Checkout -/

/-- `TreeInode::childDematerialized`. -/
def childDematerialized (fuel : Nat) (m : Mount) (p : InodePtr) (childName : PathComponent)
    (childScmHash : Hash) : Result Unit :=
  match m.contents p with
  | none => (.error .bug, m)
  | some contents =>
    match contents.entries.find childName with
    | none => (.error .bug, m)
    | some childEntry =>
      if !childEntry.isMaterialized && childEntry.hash == some childScmHash then (.ok (), m)
      else
        let entries := contents.entries.assign childName (childEntry.setDematerialized childScmHash)
        let m := (m.setContents p { entries := entries, treeHash := none }).saveOverlayDir p entries
        match m.location p with
        | none => (.error .bug, m)
        | some location =>
          match location.parent with
          | some parent =>
            if !location.unlinked then childMaterialized fuel m parent location.name
            else (.ok (), m)
          | none => (.ok (), m)

/-- The kinds of checkout conflicts this file reports (`ConflictType`). -/
inductive ConflictType where
  | ERROR
  | UNTRACKED_ADDED
  | REMOVED_MODIFIED
  | MISSING_REMOVED
  | MODIFIED_MODIFIED
  | DIRECTORY_NOT_EMPTY
  deriving DecidableEq, Repr

/-- Modelled from the spec: `CheckoutContext` (its source is not among the files
at hand) carries the mode of the checkout, dry-run or apply, the force flag, and
collects the conflicts and errors reported to it. -/
structure CheckoutContext where
  isDryRun : Bool
  forceUpdate : Bool
  conflicts : List (ConflictType × InodePtr × Option PathComponent)
  errors : List (InodePtr × PathComponent)
  deriving DecidableEq, Repr

/-- Modelled from the spec: `CheckoutContext::addConflict`. -/
def CheckoutContext.addConflict (ctx : CheckoutContext) (type : ConflictType) (inode : InodePtr)
    (name : Option PathComponent) : CheckoutContext :=
  { ctx with conflicts := ctx.conflicts ++ [(type, inode, name)] }

/-- Modelled from the spec: `CheckoutContext::addError`. -/
def CheckoutContext.addError (ctx : CheckoutContext) (inode : InodePtr) (name : PathComponent) :
    CheckoutContext :=
  { ctx with errors := ctx.errors ++ [(inode, name)] }

/-- Modelled from the spec: a `CheckoutAction` (its source is not among the files
at hand), as `processCheckoutEntry` constructs it: the two source-control
entries and the child inode, or the failure of its load. -/
structure CheckoutAction where
  oldScmEntry : Option TreeEntry
  newScmEntry : Option TreeEntry
  inode : Except Failure InodePtr

/-- What the checkout functions return: the value, the context and the mount. -/
abbrev CheckoutResult (α : Type) := Except Failure α × CheckoutContext × Mount

/-- Modelled from the spec: `Overlay::recursivelyRemoveOverlayData(n)` forgets
the directory stored under the number and, recursively, the directories stored
under the numbers of its directory entries.  The first argument bounds the
depth of the recursion. -/
def Mount.recursivelyRemoveOverlayData : Nat → Mount → InodeNumber → Mount
  | 0, m, _ => m
  | fuel + 1, m, n =>
    match m.overlayDirs n with
    | none => m
    | some dir =>
      dir.foldl
        (fun acc kv =>
          if kv.2.isDirectory then Mount.recursivelyRemoveOverlayData fuel acc kv.2.inodeNumber
          else acc)
        { m with overlayDirs := fun q => if q = n then none else m.overlayDirs q }

/-- `TreeInode::loadChildLocked` with the load run to its completion, the
`InodeMap` answering `startLoad = true`: the future of the child. -/
def loadChildLocked (m : Mount) (p : InodePtr) (name : PathComponent) (entry : DirEntry) :
    Except Failure InodePtr × Mount :=
  if entry.inode.isSome then (.error .bug, m)
  else
    match startLoadingInode m p entry name with
    | (.error e, m1) => (.error e, m1)
    | (.ok (), m1) =>
      match m1.contents p with
      | none => (.error .bug, m1)
      | some contents =>
        (.ok entry.inodeNumber,
          m1.setContents p
            { contents with
              entries := contents.entries.assign name (entry.setInode entry.inodeNumber) })

/-- The entry a reference into the vector of entries designates after
`erase(it)` at its position: the entry that moved into the slot, or, if the
erased entry was the last one, the erased entry, whose bytes stay in place. -/
def DirContents.slotAfterErase (d : DirContents) (name : PathComponent) (erased : DirEntry) :
    DirEntry :=
  match (d.dropWhile (fun kv => kv.1 != name)).drop 1 with
  | [] => erased
  | next :: _ => next.2

/-- The entry `processCheckoutEntry` and `checkoutUpdateEntry` construct for a
source-control entry, with a newly allocated inode number. -/
def DirEntry.ofTreeEntry (m : Mount) (scmEntry : TreeEntry) : DirEntry × Mount :=
  let alloc := m.allocateInodeNumber
  ({ initialMode := m.modeFromTreeEntryType scmEntry.type, inodeNumber := alloc.1,
     hash := some scmEntry.hash, inode := none }, alloc.2)

/-- The name `processCheckoutEntry` works on: that of the old source-control
entry, else that of the new one. -/
def checkoutEntryName (oldScmEntry newScmEntry : Option TreeEntry) : Option PathComponent :=
  match oldScmEntry, newScmEntry with
  | some o, _ => some o.name
  | none, some n => some n.name
  | none, none => none

/-- The test at the head of `processCheckoutEntry`: both entries are there, of
the same type and hash. -/
def sameScmEntry (oldScmEntry newScmEntry : Option TreeEntry) : Bool :=
  match oldScmEntry, newScmEntry with
  | some o, some n => o.type == n.type && o.hash == n.hash
  | _, _ => false

/-- The part of `processCheckoutEntry` for a name the directory has no entry
for.  A failed `DCHECK` is the failure `bug`. -/
def processMissingEntry (ctx : CheckoutContext) (m : Mount) (p : InodePtr)
    (contents : TreeInodeState) (oldScmEntry newScmEntry : Option TreeEntry) :
    CheckoutResult (Option CheckoutAction) :=
  match oldScmEntry, newScmEntry with
  | none, none => (.error .bug, ctx, m)
  | none, some n =>
    if !ctx.isDryRun then
      let made := DirEntry.ofTreeEntry m n
      (.ok none, ctx,
        made.2.setContents p
          { contents with entries := (contents.entries.emplace n.name made.1).1 })
    else (.ok none, ctx, m)
  | some o, none => (.ok none, ctx.addConflict .MISSING_REMOVED p (some o.name), m)
  | some o, some n =>
    let ctx := ctx.addConflict .REMOVED_MODIFIED p (some o.name)
    if ctx.forceUpdate then
      if ctx.isDryRun then (.error .bug, ctx, m)
      else
        let made := DirEntry.ofTreeEntry m n
        (.ok none, ctx,
          made.2.setContents p
            { contents with entries := (contents.entries.emplace n.name made.1).1 })
    else (.ok none, ctx, m)

/-- The conflict `processCheckoutEntry` finds for an entry that is not
materialized; `ERROR` stands for no conflict, as in the source. -/
def checkoutConflictType (entry : DirEntry) (oldScmEntry : Option TreeEntry) : ConflictType :=
  match oldScmEntry with
  | none => .UNTRACKED_ADDED
  | some o => if entry.hash ≠ some o.hash then .MODIFIED_MODIFIED else .ERROR

/-- The end of `processCheckoutEntry`: the entry, which is not loaded, is erased
or replaced by the entry for `newScmEntry`, and the overlay data under its old
inode number is removed if the entry read after the change is a directory. -/
def updateUnloadedEntry (fuel : Nat) (m : Mount) (p : InodePtr) (contents : TreeInodeState)
    (name : PathComponent) (entry : DirEntry) (newScmEntry : Option TreeEntry) : Mount :=
  let oldEntryInodeNumber := entry.inodeNumber
  let updated : DirContents × DirEntry × Mount :=
    match newScmEntry with
    | none => (contents.entries.erase name, contents.entries.slotAfterErase name entry, m)
    | some n =>
      let made := DirEntry.ofTreeEntry m n
      (contents.entries.assign name made.1, made.1, made.2)
  let m1 := updated.2.2.setContents p { contents with entries := updated.1 }
  if updated.2.1.isDirectory then m1.recursivelyRemoveOverlayData fuel oldEntryInodeNumber
  else m1

/-- The part of `processCheckoutEntry` for an entry that is neither loaded nor
materialized nor remembered by the `InodeMap`. -/
def processUnloadedEntry (fuel : Nat) (ctx : CheckoutContext) (m : Mount) (p : InodePtr)
    (contents : TreeInodeState) (name : PathComponent) (entry : DirEntry)
    (oldScmEntry newScmEntry : Option TreeEntry) : CheckoutResult (Option CheckoutAction) :=
  let conflictType := checkoutConflictType entry oldScmEntry
  if conflictType ≠ .ERROR then
    if entry.isDirectory then
      let load := loadChildLocked m p name entry
      (.ok (some { oldScmEntry := oldScmEntry, newScmEntry := newScmEntry, inode := load.1 }),
        ctx, load.2)
    else
      let ctx := ctx.addConflict conflictType p (some name)
      if !ctx.forceUpdate then (.ok none, ctx, m)
      else if ctx.isDryRun then (.ok none, ctx, m)
      else (.ok none, ctx, updateUnloadedEntry fuel m p contents name entry newScmEntry)
  else if ctx.isDryRun then (.ok none, ctx, m)
  else (.ok none, ctx, updateUnloadedEntry fuel m p contents name entry newScmEntry)

/-- `TreeInode::processCheckoutEntry`, called with the contents of `p` locked.
`isInodeRemembered` is `InodeMap::isInodeRemembered`; `fuel` bounds the
recursive removal of overlay data. -/
def processCheckoutEntry (isInodeRemembered : InodeNumber → Bool) (fuel : Nat)
    (ctx : CheckoutContext) (m : Mount) (p : InodePtr)
    (oldScmEntry newScmEntry : Option TreeEntry) : CheckoutResult (Option CheckoutAction) :=
  match m.contents p with
  | none => (.error .bug, ctx, m)
  | some contents =>
    match checkoutEntryName oldScmEntry newScmEntry with
    | none => (.error .bug, ctx, m)
    | some name =>
      if !ctx.forceUpdate && sameScmEntry oldScmEntry newScmEntry then (.ok none, ctx, m)
      else
        match contents.entries.find name with
        | none => processMissingEntry ctx m p contents oldScmEntry newScmEntry
        | some entry =>
          match entry.inode with
          | some childPtr =>
            (.ok (some { oldScmEntry := oldScmEntry, newScmEntry := newScmEntry,
                         inode := .ok childPtr }), ctx, m)
          | none =>
            if entry.isMaterialized || isInodeRemembered entry.inodeNumber then
              let load := loadChildLocked m p name entry
              (.ok (some { oldScmEntry := oldScmEntry, newScmEntry := newScmEntry,
                           inode := load.1 }), ctx, load.2)
            else processUnloadedEntry fuel ctx m p contents name entry oldScmEntry newScmEntry

/-- `TreeInode::canShortCircuitCheckout`. -/
def canShortCircuitCheckout (ctx : CheckoutContext) (treeHash : Hash)
    (fromTree toTree : Option Tree) : Bool :=
  if ctx.isDryRun then
    match fromTree with
    | some f => treeHash == f.hash
    | none =>
      match toTree with
      | none => true
      | some t => treeHash == t.hash
  else
    match toTree with
    | none => false
    | some t =>
      if treeHash != t.hash then false
      else
        match fromTree with
        | none => true
        | some f => treeHash == f.hash

/-- One round of the loop of `computeCheckoutActions`: the pair of entries the
round hands to `processCheckoutEntry` and the entries left to the rounds after
it; `none` when both lists are exhausted. -/
def checkoutRound (oldEntries newEntries : List TreeEntry) :
    Option (Option TreeEntry × Option TreeEntry × List TreeEntry × List TreeEntry) :=
  match oldEntries, newEntries with
  | [], [] => none
  | [], n :: ns => some (none, some n, [], ns)
  | o :: os, [] => some (some o, none, os, [])
  | o :: os, n :: ns =>
    if o.name < n.name then some (some o, none, os, n :: ns)
    else if o.name > n.name then some (none, some n, o :: os, ns)
    else some (some o, some n, os, ns)

/-- The loop of `computeCheckoutActions` over the entries of the two trees: one
call of `processCheckoutEntry` per round; the first argument counts the rounds
left, at most one per entry of either tree. -/
def computeCheckoutActionsLoop (isInodeRemembered : InodeNumber → Bool) (fuel : Nat)
    (p : InodePtr) (rounds : Nat) (oldEntries newEntries : List TreeEntry)
    (ctx : CheckoutContext) (m : Mount) (actions : List CheckoutAction) :
    CheckoutResult (List CheckoutAction) :=
  match checkoutRound oldEntries newEntries with
  | none => (.ok actions, ctx, m)
  | some round =>
    match rounds with
    | 0 => (.error .fuel, ctx, m)
    | rounds + 1 =>
      match processCheckoutEntry isInodeRemembered fuel ctx m p round.1 round.2.1 with
      | (.error e, ctx1, m1) => (.error e, ctx1, m1)
      | (.ok action, ctx1, m1) =>
        computeCheckoutActionsLoop isInodeRemembered fuel p rounds round.2.2.1 round.2.2.2 ctx1 m1
          (match action with
           | some a => actions ++ [a]
           | none => actions)

/-- `TreeInode::computeCheckoutActions`: the actions to run, in order. -/
def computeCheckoutActions (isInodeRemembered : InodeNumber → Bool) (fuel : Nat)
    (ctx : CheckoutContext) (m : Mount) (p : InodePtr) (fromTree toTree : Option Tree) :
    CheckoutResult (List CheckoutAction) :=
  match m.contents p with
  | none => (.error .bug, ctx, m)
  | some contents =>
    let shortCircuit : Bool :=
      match contents.treeHash with
      | some treeHash => canShortCircuitCheckout ctx treeHash fromTree toTree
      | none => false
    if shortCircuit then (.ok [], ctx, m)
    else
      let oldEntries := match fromTree with
        | some f => f.entries
        | none => []
      let newEntries := match toTree with
        | some t => t.entries
        | none => []
      computeCheckoutActionsLoop isInodeRemembered fuel p (oldEntries.length + newEntries.length)
        oldEntries newEntries ctx m []

/-- `TreeInode::checkoutUpdateEntry`.  The argument `checkout` is the call of
`TreeInode::checkout` on the child directory. -/
def checkoutUpdateEntry
    (checkout : CheckoutContext → Mount → InodePtr → Option Tree → Option Tree →
      CheckoutResult Unit)
    (ctx : CheckoutContext) (m : Mount) (p : InodePtr) (name : PathComponent) (inode : InodePtr)
    (oldTree newTree : Option Tree) (newScmEntry : Option TreeEntry) : CheckoutResult Unit :=
  match asSubclassPtrOrNull .TreeInode m inode with
  | none =>
    if ctx.isDryRun then (.ok (), ctx, m)
    else
      match m.contents p with
      | none => (.error .bug, ctx, m)
      | some contents =>
        match contents.entries.find name with
        | none => (.error .bug, ctx, m)
        | some entry =>
          if entry.inode ≠ some inode then (.error .bug, ctx, m)
          else
            let m1 := m.markUnlinked inode
            match newScmEntry with
            | some n =>
              if n.name ≠ name then (.error .bug, ctx, m1)
              else
                let made := DirEntry.ofTreeEntry m1 n
                (.ok (), ctx,
                  made.2.setContents p
                    { contents with entries := contents.entries.assign name made.1 })
            | none =>
              (.ok (), ctx,
                m1.setContents p { contents with entries := contents.entries.erase name })
  | some treeInode =>
    match newTree with
    | some _ =>
      match newScmEntry with
      | none => (.error .bug, ctx, m)
      | some n =>
        if n.type ≠ .TREE then (.error .bug, ctx, m)
        else checkout ctx m treeInode oldTree newTree
    | none =>
      if ctx.isDryRun then (.ok (), ctx, m)
      else
        match checkout ctx m treeInode oldTree none with
        | (.error e, ctx1, m1) => (.error e, ctx1, m1)
        | (.ok (), ctx1, m1) =>
          if !m1.isUnlinked treeInode then
            (.ok (), ctx1.addConflict .DIRECTORY_NOT_EMPTY treeInode none, m1)
          else
            match newScmEntry with
            | none => (.ok (), ctx1, m1)
            | some n =>
              match m1.contents p with
              | none => (.error .bug, ctx1, m1)
              | some contents =>
                if n.type = .TREE then (.error .bug, ctx1, m1)
                else
                  let made := DirEntry.ofTreeEntry m1 n
                  let ret := contents.entries.emplace name made.1
                  let m2 := made.2.setContents p { contents with entries := ret.1 }
                  if ret.2 then (.ok (), ctx1, m2)
                  else (.ok (), ctx1.addError p name, m2)

/-- `TreeInode::checkoutTryRemoveEmptyDir`. -/
def checkoutTryRemoveEmptyDir (fuel : Nat) (m : Mount) (p : InodePtr) : Result Bool :=
  match m.location p with
  | none => (.error .bug, m)
  | some location =>
    if location.unlinked then (.error .bug, m)
    else
      match location.parent with
      | none => (.ok false, m)
      | some parent =>
        match tryRemoveChild .TreeInode fuel m parent location.name (some p) with
        | (.error e, m1) => (.error e, m1)
        | (.ok errnoValue, m1) => (.ok errnoValue.isNone, m1)

/-- The lambda `tryToDematerialize` of `saveOverlayPostCheckout`, the loop over
the entries of the directory and of the tree, side by side. -/
def tryToDematerializeLoop : DirContents → List TreeEntry → Bool
  | _, [] => true
  | [], _ :: _ => true
  | inodeEntry :: inodeRest, scmEntry :: scmRest =>
    if inodeEntry.2.isMaterialized then false
    else if inodeEntry.2.hash ≠ some scmEntry.hash then false
    else tryToDematerializeLoop inodeRest scmRest

/-- The lambda `tryToDematerialize` of `saveOverlayPostCheckout`: the hash the
directory can take, if it can be dematerialized. -/
def tryToDematerialize (entries : DirContents) (tree : Option Tree) : Option Hash :=
  match tree with
  | none => none
  | some t =>
    if t.entries.length ≠ entries.length then none
    else if tryToDematerializeLoop entries t.entries then some t.hash
    else none

/-- `TreeInode::saveOverlayPostCheckout`. -/
def saveOverlayPostCheckout (fuel : Nat) (ctx : CheckoutContext) (m : Mount) (p : InodePtr)
    (tree : Option Tree) : Result Unit :=
  if ctx.isDryRun then (.ok (), m)
  else
    match m.contents p with
    | none => (.error .bug, m)
    | some contents =>
      let deleteSelf := tree.isNone && contents.entries.isEmpty
      let oldHash := contents.treeHash
      let treeHash := tryToDematerialize contents.entries tree
      let isMaterialized := treeHash.isNone
      let stateChanged := decide (oldHash ≠ treeHash)
      let m1 :=
        (m.setContents p { contents with treeHash := treeHash }).saveOverlayDir p contents.entries
      let removed : Result Bool :=
        if deleteSelf then checkoutTryRemoveEmptyDir fuel m1 p else (.ok false, m1)
      match removed with
      | (.error e, m2) => (.error e, m2)
      | (.ok true, m2) => (.ok (), m2)
      | (.ok false, m2) =>
        if stateChanged then
          match m2.location p with
          | none => (.error .bug, m2)
          | some loc =>
            match loc.parent with
            | some parent =>
              if !loc.unlinked then
                if isMaterialized then childMaterialized fuel m2 parent loc.name
                else
                  match tree with
                  | none => (.error .bug, m2)
                  | some t => childDematerialized fuel m2 parent loc.name t.hash
              else (.ok (), m2)
            | none => (.ok (), m2)
        else (.ok (), m2)

/-! ### Diff -/

/-- The results of `GitIgnore::match`. -/
inductive IgnoreStatus where
  | EXCLUDE | INCLUDE | NO_MATCH | HIDDEN
  deriving DecidableEq, Repr

/-- Modelled from the spec: a `GitIgnoreStack` (its source is not among the
files at hand) is the stack of the ignore files of the directories on the way
down; the matcher is opaque.  Here: the contents of the ignore files, innermost
first, an empty string for a directory without rules. -/
abbrev GitIgnoreStack := List String

/-- Modelled from the spec: the constructors `GitIgnoreStack(parent)` and
`GitIgnoreStack(parent, ignoreFileContents)`. -/
def GitIgnoreStack.push (parent : Option GitIgnoreStack) (ignoreFileContents : String) :
    GitIgnoreStack :=
  ignoreFileContents :: parent.getD []

/-- The calls of the diff callback (`InodeDiffCallback`). -/
inductive DiffEvent where
  | untrackedFile (path : List PathComponent)
  | ignoredFile (path : List PathComponent)
  | removedFile (path : List PathComponent) (scmEntry : TreeEntry)
  | modifiedFile (path : List PathComponent) (scmEntry : TreeEntry)
  | diffError (path : List PathComponent) (error : Failure)
  deriving DecidableEq, Repr

/-- The kinds of deferred diff jobs, with the arguments `computeDiff` creates
them with; the future of a child inode is given by its outcome. -/
inductive DeferredDiffKind where
  | untrackedEntry (inode : Except Failure InodePtr) (ignore : Option GitIgnoreStack)
      (isIgnored : Bool)
  | removedEntry (scmEntry : TreeEntry)
  | modifiedEntry (scmEntry : TreeEntry) (inode : Except Failure InodePtr)
      (ignore : Option GitIgnoreStack) (isIgnored : Bool)
  | modifiedBlob (scmEntry : TreeEntry) (currentBlobHash : Option Hash)

/-- Modelled from the spec: a `DeferredDiffEntry` (its source is not among the
files at hand), a diff job for one entry, with the path `getPath()` returns. -/
structure DeferredDiffEntry where
  path : List PathComponent
  kind : DeferredDiffKind

/-- What a diff has done so far: the calls of the callback, oldest first, and
the mount. -/
abbrev DiffState := List DiffEvent × Mount

/-- Modelled from the spec: the `DiffContext` (its source is not among the files
at hand) with the toggle `listIgnored`, and the collaborators of the diff
defined outside the files at hand: the ignore matcher, `treeEntryTypeFromMode`,
`DeferredDiffEntry::run` (which may call the callback and load inodes),
`FileInode::readAll`, `EdenMount::resolveSymlink` and the type of an inode. -/
structure DiffContext where
  listIgnored : Bool
  ignoreMatch : GitIgnoreStack → List PathComponent → Bool → IgnoreStatus
  treeEntryTypeFromMode : Nat → Option TreeEntryType
  run : DeferredDiffEntry → DiffState → Except Failure Unit × DiffState
  readAll : Mount → InodePtr → Except Failure String
  resolveSymlink : Mount → InodePtr → Except Failure InodePtr
  isSymlink : Mount → InodePtr → Bool

/-- The local state of `computeDiff` during its walk: the deferred jobs, the
calls of the callback and the mount. -/
structure DiffWalk where
  deferredEntries : List DeferredDiffEntry
  events : List DiffEvent
  mount : Mount

/-- `ignore->match(entryPath, fileType)`; the stack is present whenever the
directory is not ignored. -/
def matchIgnore (context : DiffContext) (ignore : Option GitIgnoreStack)
    (entryPath : List PathComponent) (isDir : Bool) : IgnoreStatus :=
  match ignore with
  | some stack => context.ignoreMatch stack entryPath isDir
  | none => .NO_MATCH

/-- The lambda `processUntracked` of `computeDiff`. -/
def processUntracked (context : DiffContext) (p : InodePtr) (currentPath : List PathComponent)
    (ignore : Option GitIgnoreStack) (isIgnored : Bool) (w : DiffWalk) (name : PathComponent)
    (inodeEntry : DirEntry) : DiffWalk :=
  let entryPath := currentPath ++ [name]
  let ignoreStatus := matchIgnore context ignore entryPath inodeEntry.isDirectory
  if !isIgnored && ignoreStatus == .HIDDEN then w
  else
    let entryIgnored := if !isIgnored then ignoreStatus == .EXCLUDE else isIgnored
    if inodeEntry.isDirectory then
      if !entryIgnored || context.listIgnored then
        match inodeEntry.inode with
        | some childPtr =>
          { w with
            deferredEntries := w.deferredEntries ++
              [{ path := entryPath, kind := .untrackedEntry (.ok childPtr) ignore entryIgnored }] }
        | none =>
          let load := loadChildLocked w.mount p name inodeEntry
          { w with
            deferredEntries := w.deferredEntries ++
              [{ path := entryPath, kind := .untrackedEntry load.1 ignore entryIgnored }]
            mount := load.2 }
      else w
    else if !entryIgnored then { w with events := w.events ++ [.untrackedFile entryPath] }
    else if context.listIgnored then { w with events := w.events ++ [.ignoredFile entryPath] }
    else w

/-- The lambda `processRemoved` of `computeDiff`. -/
def processRemoved (currentPath : List PathComponent) (w : DiffWalk) (scmEntry : TreeEntry) :
    DiffWalk :=
  if scmEntry.type = .TREE then
    { w with
      deferredEntries := w.deferredEntries ++
        [{ path := currentPath ++ [scmEntry.name], kind := .removedEntry scmEntry }] }
  else
    { w with events := w.events ++ [.removedFile (currentPath ++ [scmEntry.name]) scmEntry] }

/-- The end of the lambda `processBothPresent`: the entry is a file that is
neither loaded nor materialized and differs from the tree entry. -/
def processChangedFile (context : DiffContext) (entryPath : List PathComponent)
    (entryIgnored : Bool) (w : DiffWalk) (scmEntry : TreeEntry) (inodeEntry : DirEntry) :
    DiffWalk :=
  if scmEntry.type = .TREE then
    let w1 :=
      if entryIgnored then
        if context.listIgnored then { w with events := w.events ++ [.ignoredFile entryPath] }
        else w
      else { w with events := w.events ++ [.untrackedFile entryPath] }
    { w1 with
      deferredEntries := w1.deferredEntries ++
        [{ path := entryPath, kind := .removedEntry scmEntry }] }
  else if context.treeEntryTypeFromMode inodeEntry.initialMode ≠ some scmEntry.type then
    { w with events := w.events ++ [.modifiedFile entryPath scmEntry] }
  else
    { w with
      deferredEntries := w.deferredEntries ++
        [{ path := entryPath, kind := .modifiedBlob scmEntry inodeEntry.hash }] }

/-- The lambda `processBothPresent` of `computeDiff`. -/
def processBothPresent (context : DiffContext) (p : InodePtr) (currentPath : List PathComponent)
    (ignore : Option GitIgnoreStack) (isIgnored : Bool) (w : DiffWalk) (scmEntry : TreeEntry)
    (inodeEntry : DirEntry) : DiffWalk :=
  let entryPath := currentPath ++ [scmEntry.name]
  let entryIgnored :=
    if !isIgnored && (inodeEntry.isDirectory || scmEntry.type == .TREE) then
      let ignoreStatus := matchIgnore context ignore entryPath true
      ignoreStatus == .HIDDEN || ignoreStatus == .EXCLUDE
    else isIgnored
  match inodeEntry.inode with
  | some childInodePtr =>
    { w with
      deferredEntries := w.deferredEntries ++
        [{ path := entryPath,
           kind := .modifiedEntry scmEntry (.ok childInodePtr) ignore entryIgnored }] }
  | none =>
    if inodeEntry.isMaterialized then
      let load := loadChildLocked w.mount p scmEntry.name inodeEntry
      { w with
        deferredEntries := w.deferredEntries ++
          [{ path := entryPath, kind := .modifiedEntry scmEntry load.1 ignore entryIgnored }]
        mount := load.2 }
    else if context.treeEntryTypeFromMode inodeEntry.initialMode = some scmEntry.type ∧
        inodeEntry.hash = some scmEntry.hash then w
    else if inodeEntry.isDirectory then
      let load := loadChildLocked w.mount p scmEntry.name inodeEntry
      { w with
        deferredEntries := w.deferredEntries ++
          [{ path := entryPath, kind := .modifiedEntry scmEntry load.1 ignore entryIgnored }]
        mount := load.2 }
    else processChangedFile context entryPath entryIgnored w scmEntry inodeEntry

/-- The walk of `computeDiff` over the entries of the tree and of the
directory, both sorted by name. -/
def diffWalk (context : DiffContext) (p : InodePtr) (currentPath : List PathComponent)
    (ignore : Option GitIgnoreStack) (isIgnored : Bool) :
    List TreeEntry → DirContents → DiffWalk → DiffWalk
  | [], [], w => w
  | [], inode :: inodeRest, w =>
    diffWalk context p currentPath ignore isIgnored [] inodeRest
      (processUntracked context p currentPath ignore isIgnored w inode.1 inode.2)
  | sc :: scRest, [], w =>
    diffWalk context p currentPath ignore isIgnored scRest [] (processRemoved currentPath w sc)
  | sc :: scRest, inode :: inodeRest, w =>
    if sc.name < inode.1 then
      diffWalk context p currentPath ignore isIgnored scRest (inode :: inodeRest)
        (processRemoved currentPath w sc)
    else if sc.name > inode.1 then
      diffWalk context p currentPath ignore isIgnored (sc :: scRest) inodeRest
        (processUntracked context p currentPath ignore isIgnored w inode.1 inode.2)
    else
      diffWalk context p currentPath ignore isIgnored scRest inodeRest
        (processBothPresent context p currentPath ignore isIgnored w sc inode.2)
termination_by scEntries inodeEntries => scEntries.length + inodeEntries.length

/-- The deferred jobs run, in their order: the outcome of each (the `Try` that
`collectAll` yields for it) and the state they leave. -/
def runDeferred (context : DiffContext) :
    List DeferredDiffEntry → DiffState → List (Except Failure Unit) × DiffState
  | [], s => ([], s)
  | job :: rest, s =>
    let r := context.run job s
    let rs := runDeferred context rest r.2
    (r.1 :: rs.1, rs.2)

/-- The loop at the end of `computeDiff`: one `diffError` for every job that
failed, with the path of the job. -/
def reportDiffErrors :
    List DeferredDiffEntry → List (Except Failure Unit) → List DiffEvent → List DiffEvent
  | job :: jobs, result :: results, events =>
    match result with
    | .error e => reportDiffErrors jobs results (events ++ [.diffError job.path e])
    | .ok _ => reportDiffErrors jobs results events
  | _, _, events => events

/-- `TreeInode::computeDiff`. -/
def computeDiff (context : DiffContext) (s : DiffState) (p : InodePtr)
    (currentPath : List PathComponent) (tree : Option Tree) (ignore : Option GitIgnoreStack)
    (isIgnored : Bool) : Except Failure Unit × DiffState :=
  if !(isIgnored || ignore.isSome) then (.error .bug, s)
  else
    match s.2.contents p with
    | none => (.error .bug, s)
    | some contents =>
      let scEntries := match tree with
        | some t => t.entries
        | none => []
      let w := diffWalk context p currentPath ignore isIgnored scEntries contents.entries
        { deferredEntries := [], events := s.1, mount := s.2 }
      let done := runDeferred context w.deferredEntries (w.events, w.mount)
      (.ok (), reportDiffErrors w.deferredEntries done.1 done.2.1, done.2.2)

/-- `TreeInode::loadGitIgnoreThenDiff`; the first argument bounds the number of
symbolic links followed. -/
def loadGitIgnoreThenDiff (context : DiffContext) :
    Nat → DiffState → InodePtr → InodePtr → List PathComponent → Option Tree →
      Option GitIgnoreStack → Bool → Except Failure Unit × DiffState
  | fuel, s, p, gitignoreInode, currentPath, tree, parentIgnore, isIgnored =>
    match asSubclassPtrOrNull .FileInode s.2 gitignoreInode with
    | none =>
      computeDiff context s p currentPath tree (some (GitIgnoreStack.push parentIgnore ""))
        isIgnored
    | some fileInode =>
      if context.isSymlink s.2 gitignoreInode then
        match context.resolveSymlink s.2 gitignoreInode with
        | .error _ =>
          computeDiff context s p currentPath tree (some (GitIgnoreStack.push parentIgnore ""))
            isIgnored
        | .ok pResolved =>
          match fuel with
          | 0 => (.error .fuel, s)
          | fuel + 1 =>
            loadGitIgnoreThenDiff context fuel s p pResolved currentPath tree parentIgnore
              isIgnored
      else
        let ignoreFileContents :=
          match context.readAll s.2 fileInode with
          | .ok bytes => bytes
          | .error _ => ""
        computeDiff context s p currentPath tree
          (some (GitIgnoreStack.push parentIgnore ignoreFileContents)) isIgnored

/-- The name of the ignore file, `kIgnoreFilename`. -/
def kIgnoreFilename : PathComponent := ".gitignore"

/-- `TreeInode::diff`. -/
def diff (context : DiffContext) (fuel : Nat) (s : DiffState) (p : InodePtr)
    (currentPath : List PathComponent) (tree : Option Tree)
    (parentIgnore : Option GitIgnoreStack) (isIgnored : Bool) :
    Except Failure Unit × DiffState :=
  match s.2.contents p with
  | none => (.error .bug, s)
  | some contents =>
    let sameHash : Bool :=
      match tree with
      | some t => !contents.isMaterialized && contents.treeHash == some t.hash
      | none => false
    if sameHash then (.ok (), s)
    else if isIgnored then computeDiff context s p currentPath tree none isIgnored
    else
      let inodeEntry : Option DirEntry :=
        match contents.entries.find kIgnoreFilename with
        | some entry => if entry.isDirectory then none else some entry
        | none => none
      match inodeEntry with
      | none =>
        computeDiff context s p currentPath tree (some (GitIgnoreStack.push parentIgnore ""))
          isIgnored
      | some entry =>
        match entry.inode with
        | some inode =>
          loadGitIgnoreThenDiff context fuel s p inode currentPath tree parentIgnore isIgnored
        | none =>
          match loadChildLocked s.2 p kIgnoreFilename entry with
          | (.error e, m1) => (.error e, s.1, m1)
          | (.ok loadedInode, m1) =>
            loadGitIgnoreThenDiff context fuel (s.1, m1) p loadedInode currentPath tree
              parentIgnore isIgnored

/-! ### The lazy load of a child, with the loads of several callers interleaved

The functions above run a load to its end.  Here the load protocol is embedded
step by step: a look-up that finds the entry not loaded hands a promise to the
`InodeMap`, the load it may start completes in a later step, and inode objects
have addresses of their own. -/

namespace Loading

/-- A caller, identified by the promise it hands to the `InodeMap`. -/
abbrev PromiseId := Nat

/-- A load whose future has been handed to `registerInodeLoadComplete` (directly
or through `pendingLoads`) and has not completed yet: the name and number it was
started for, and the outcome the future will have, the address of the
constructed object or an error. -/
structure PendingLoad where
  name : PathComponent
  number : InodeNumber
  outcome : Except Failure InodePtr

/-- The directory and the collaborators of a load, with three logs kept for the
statements only. -/
structure LoadState where
  /-- `contents_.entries` of the directory. -/
  entries : DirContents
  /-- Modelled from the spec: the table of the `InodeMap` with the promises that
  wait for the load of an inode number. -/
  promises : InodeNumber → List PromiseId
  /-- The loads in progress. -/
  loads : List PendingLoad
  /-- The address the next constructed inode object gets. -/
  nextObject : InodePtr
  /-- Log: the inode numbers for which `shouldLoadChild` answered `true`. -/
  startLoads : List InodeNumber
  /-- Log: the inode objects constructed, with their inode numbers. -/
  constructed : List (InodeNumber × InodePtr)
  /-- Log: the values callers received for an inode number, from a returned
  ready future or through their promise. -/
  received : List (InodeNumber × Except Failure InodePtr)

/-- What a look-up returns: a future that is ready, the future of the promise
handed to the `InodeMap`, or the future of `InodeMap::lookupInode`. -/
inductive LookupResult where
  | ready (value : Except Failure InodePtr)
  | promised (promise : PromiseId)
  | lookupInode (number : InodeNumber)

/-- Modelled from the spec: `InodeMap::shouldLoadChild(parent, name, number,
promise)` keeps the promise with those that wait for the number.  Its answer
`startLoad` is an input of the callers below. -/
def shouldLoadChild (s : LoadState) (number : InodeNumber) (promise : PromiseId)
    (startLoad : Bool) : LoadState :=
  { s with
    promises := fun n => if n = number then s.promises n ++ [promise] else s.promises n
    startLoads := if startLoad then s.startLoads ++ [number] else s.startLoads }

/-- Modelled from the spec: `InodeMap::inodeLoadComplete(child)` returns the
promises that wait for the number of the child, and forgets them. -/
def inodeMapLoadComplete (s : LoadState) (number : InodeNumber) : List PromiseId × LoadState :=
  (s.promises number,
    { s with promises := fun n => if n = number then [] else s.promises n })

/-- The loop `promise.setValue(child)` over the promises returned. -/
def fulfil (s : LoadState) (number : InodeNumber) (promises : List PromiseId)
    (value : Except Failure InodePtr) : LoadState :=
  { s with received := s.received ++ promises.map (fun _ => (number, value)) }

/-- Modelled from the spec: `InodeMap::inodeLoadFailed(number, error)`: all
waiters receive the error. -/
def inodeLoadFailed (s : LoadState) (number : InodeNumber) (error : Failure) : LoadState :=
  let done := inodeMapLoadComplete s number
  fulfil done.2 number done.1 (.error error)

/-- `TreeInode::startLoadingInodeNoThrow`, as far as the protocol goes: with the
outcome `none` of the load an inode object is constructed at the next address,
with an error none is. -/
def startLoadingInodeNoThrow (s : LoadState) (entry : DirEntry) (failure : Option Failure) :
    Except Failure InodePtr × LoadState :=
  match failure with
  | some e => (.error e, s)
  | none =>
    (.ok s.nextObject,
      { s with
        nextObject := s.nextObject + 1
        constructed := s.constructed ++ [(entry.inodeNumber, s.nextObject)] })

/-- `TreeInode::getOrLoadChild` of the directory `p`.  `startLoad` is the answer
of the `InodeMap`, `ready` says whether the future of the load is ready at once,
`failure` whether the load fails.  Modelled from the spec: the helper
`tryRlockCheckBeforeUpdate` runs the check, and the update if the check gives
nothing, as one critical section. -/
def getOrLoadChild (dotEdenInodeNumber : InodeNumber) (s : LoadState) (p : InodePtr)
    (name : PathComponent) (promise : PromiseId) (startLoad ready : Bool)
    (failure : Option Failure) : LookupResult × LoadState :=
  match s.entries.find name with
  | none =>
    if name = kDotEdenName ∧ p ≠ kRootNodeId then (.lookupInode dotEdenInodeNumber, s)
    else (.ready (.error (.errno .ENOENT)), s)
  | some entry =>
    match entry.inode with
    | some child =>
      (.ready (.ok child),
        { s with received := s.received ++ [(entry.inodeNumber, .ok child)] })
    | none =>
      let childNumber := entry.inodeNumber
      let s1 := shouldLoadChild s childNumber promise startLoad
      if startLoad then
        let load := startLoadingInodeNoThrow s1 entry failure
        match ready, load.1 with
        | true, .ok childInode =>
          let s2 :=
            { load.2 with entries := load.2.entries.assign name (entry.setInode childInode) }
          let done := inodeMapLoadComplete s2 childNumber
          (.promised promise, fulfil done.2 childNumber done.1 (.ok childInode))
        | _, outcome =>
          (.promised promise,
            { load.2 with
              loads := load.2.loads ++
                [{ name := name, number := childNumber, outcome := outcome }] })
      else (.promised promise, s1)

/-- `TreeInode::loadChildLocked` for the entry of the name; the future of the
load goes to `pendingLoads`. -/
def loadChildLocked (s : LoadState) (name : PathComponent) (promise : PromiseId)
    (startLoad : Bool) (failure : Option Failure) : Except Failure LookupResult × LoadState :=
  match s.entries.find name with
  | none => (.error .bug, s)
  | some entry =>
    if entry.inode.isSome then (.error .bug, s)
    else
      let childNumber := entry.inodeNumber
      let s1 := shouldLoadChild s childNumber promise startLoad
      if startLoad then
        let load := startLoadingInodeNoThrow s1 entry failure
        (.ok (.promised promise),
          { load.2 with
            loads := load.2.loads ++
              [{ name := name, number := childNumber, outcome := load.1 }] })
      else (.ok (.promised promise), s1)

/-- `TreeInode::inodeLoadComplete(childName, childInode)` with the handler
`registerInodeLoadComplete` puts around it: an error thrown on the way goes to
`InodeMap::inodeLoadFailed`. -/
def inodeLoadComplete (s : LoadState) (load : PendingLoad) : LoadState :=
  match load.outcome with
  | .error e => inodeLoadFailed s load.number e
  | .ok childInode =>
    match s.entries.find load.name with
    | none => inodeLoadFailed s load.number (.errno .ENOENT)
    | some entry =>
      let s1 := { s with entries := s.entries.assign load.name (entry.setInode childInode) }
      let done := inodeMapLoadComplete s1 load.number
      fulfil done.2 load.number done.1 (.ok childInode)

/-- The steps of the callers and of the loads. -/
inductive LoadStep where
  | lookup (name : PathComponent) (promise : PromiseId) (startLoad ready : Bool)
      (failure : Option Failure)
  | loadLocked (name : PathComponent) (promise : PromiseId) (startLoad : Bool)
      (failure : Option Failure)
  /-- The future of the load at this place of `loads` completes. -/
  | complete (index : Nat)

/-- One step on the directory `p`. -/
def step (dotEdenInodeNumber : InodeNumber) (p : InodePtr) (s : LoadState) :
    LoadStep → LoadState
  | .lookup name promise startLoad ready failure =>
    (getOrLoadChild dotEdenInodeNumber s p name promise startLoad ready failure).2
  | .loadLocked name promise startLoad failure =>
    (loadChildLocked s name promise startLoad failure).2
  | .complete index =>
    match s.loads.get? index with
    | none => s
    | some load => inodeLoadComplete { s with loads := s.loads.eraseIdx index } load

/-- A sequence of steps. -/
def run (dotEdenInodeNumber : InodeNumber) (p : InodePtr) (s : LoadState)
    (steps : List LoadStep) : LoadState :=
  steps.foldl (step dotEdenInodeNumber p) s

/-- A directory with these entries, no load in progress and empty logs. -/
def LoadState.init (entries : DirContents) : LoadState :=
  { entries := entries, promises := fun _ => [], loads := [], nextObject := 1000,
    startLoads := [], constructed := [], received := [] }

/-- The invariant of the protocol: every loaded inode, every object a load in
progress will deliver and every value received is an object constructed for
that inode number; a load in progress stands under the name of an entry with
its number; and no more objects were constructed for a number than the
`InodeMap` answered `startLoad = true` for it. -/
structure LoadInv (s : LoadState) : Prop where
  loaded : ∀ name e o, s.entries.find name = some e → e.inode = some o →
    (e.inodeNumber, o) ∈ s.constructed
  pending : ∀ l ∈ s.loads, (∀ e, s.entries.find l.name = some e → e.inodeNumber = l.number) ∧
    ∀ o, l.outcome = .ok o → (l.number, o) ∈ s.constructed
  received : ∀ n o, (n, Except.ok o) ∈ s.received → (n, o) ∈ s.constructed
  count : ∀ n, (s.constructed.filter (fun c => c.1 = n)).length ≤ s.startLoads.count n

end Loading

/-! ### The merge walks of diff and checkout -/

/-- The positions a merge walk over two lists visits, in order: at each position
the element of the first list, the element of the second, or both when their
names agree.  The walks of `computeDiff` (tree entries against directory
entries) and of `computeCheckoutActions` (old tree against new tree) advance in
this way. -/
def mergeWalk {α β : Type} (ka : α → PathComponent) (kb : β → PathComponent) :
    List α → List β → List (Option α × Option β)
  | [], [] => []
  | [], b :: bs => (none, some b) :: mergeWalk ka kb [] bs
  | a :: as, [] => (some a, none) :: mergeWalk ka kb as []
  | a :: as, b :: bs =>
    if ka a < kb b then (some a, none) :: mergeWalk ka kb as (b :: bs)
    else if ka a > kb b then (none, some b) :: mergeWalk ka kb (a :: as) bs
    else (some a, some b) :: mergeWalk ka kb as bs
termination_by as bs => as.length + bs.length

/-- The name a position of a merge walk stands at. -/
def mergeKey {α β : Type} (ka : α → PathComponent) (kb : β → PathComponent) :
    Option α × Option β → PathComponent
  | (some a, _) => ka a
  | (none, some b) => kb b
  | (none, none) => ""

/-- The lambda `computeDiff` calls at a position of its walk: `processRemoved`
for a name only in the tree, `processUntracked` for a name only in the
directory, `processBothPresent` for a name in both. -/
def processDiffPosition (context : DiffContext) (p : InodePtr) (currentPath : List PathComponent)
    (ignore : Option GitIgnoreStack) (isIgnored : Bool) (w : DiffWalk) :
    Option TreeEntry × Option (PathComponent × DirEntry) → DiffWalk
  | (some sc, none) => processRemoved currentPath w sc
  | (none, some inode) =>
    processUntracked context p currentPath ignore isIgnored w inode.1 inode.2
  | (some sc, some inode) =>
    processBothPresent context p currentPath ignore isIgnored w sc inode.2
  | (none, none) => w

/-- The calls of `processCheckoutEntry` for a list of pairs of old and new entry,
in order, up to the first call that fails; the actions returned are collected
as in `computeCheckoutActions`. -/
def processCheckoutRounds (isInodeRemembered : InodeNumber → Bool) (fuel : Nat) (p : InodePtr) :
    List (Option TreeEntry × Option TreeEntry) → CheckoutContext → Mount →
      List CheckoutAction → CheckoutResult (List CheckoutAction)
  | [], ctx, m, actions => (.ok actions, ctx, m)
  | round :: rest, ctx, m, actions =>
    match processCheckoutEntry isInodeRemembered fuel ctx m p round.1 round.2 with
    | (.error e, ctx1, m1) => (.error e, ctx1, m1)
    | (.ok action, ctx1, m1) =>
      processCheckoutRounds isInodeRemembered fuel p rest ctx1 m1
        (match action with
         | some a => actions ++ [a]
         | none => actions)

/-! ### Unloading -/

/-- `DirEntry::clearInode`: the entry forgets its loaded inode. -/
def DirEntry.clearInode (e : DirEntry) : DirEntry := { e with inode := none }

/-- Modelled from the spec: `InodeMap::unloadInode` followed by the deletion of
the object (the `InodeMap` is not among the files at hand): the inode object is
detached from the map and freed. -/
def Mount.unloadInode (m : Mount) (q : InodePtr) : Mount :=
  { m with
    location := fun x => if x = q then none else m.location x
    contents := fun x => if x = q then none else m.contents x }

/-- The inode lies `d` parent pointers below an inode without parent. -/
inductive Depth (m : Mount) : InodePtr → Nat → Prop where
  | root {p : InodePtr} {loc : LocationInfo} :
      m.location p = some loc → loc.parent = none → Depth m p 0
  | child {p parent : InodePtr} {loc : LocationInfo} {d : Nat} :
      m.location p = some loc → loc.parent = some parent → Depth m parent d →
      Depth m p (d + 1)

/-- `ChainOk m p d`: the inode lies `d` parent pointers below an inode without
parent, and every directory above it that it is linked into holds the entry
that leads to it. -/
inductive ChainOk (m : Mount) : InodePtr → Nat → Prop where
  | root {p : InodePtr} {loc : LocationInfo} :
      m.location p = some loc → loc.parent = none → ChainOk m p 0
  | child {p parent : InodePtr} {loc : LocationInfo} {d : Nat} :
      m.location p = some loc → loc.parent = some parent → ChainOk m parent d →
      (loc.unlinked = false → (m.entry parent loc.name).isSome = true) →
      ChainOk m p (d + 1)

/-- `StrictAncestor m a b`: `a` is reached from `b` by one or more steps along
the parent pointers. -/
inductive StrictAncestor (m : Mount) : InodePtr → InodePtr → Prop where
  | parent {a b : InodePtr} : m.getParent b = some a → StrictAncestor m a b
  | step {a b c : InodePtr} : m.getParent b = some c → StrictAncestor m a c →
      StrictAncestor m a b

/-- `Touches m p n q k`: `childMaterialized` called on directory `p` for the
child name `n` can reach the entry `k` of directory `q`: it is the entry
itself, or an entry on the linked parent chain above `p`. -/
inductive Touches (m : Mount) : InodePtr → PathComponent → InodePtr → PathComponent → Prop where
  | here {p : InodePtr} {n : PathComponent} : Touches m p n p n
  | up {p parent q : InodePtr} {n k : PathComponent} {loc : LocationInfo} :
      m.location p = some loc → loc.parent = some parent → loc.unlinked = false →
      Touches m parent loc.name q k → Touches m p n q k

/-- An entry after materialization: the same entry, or the same with its hash
cleared. -/
def DirEntry.Cleared (e e1 : DirEntry) : Prop := e1 = e ∨ e1 = e.setMaterialized

/-- Directory contents after materialization: the same names in the same
order, each entry the same up to a cleared hash. -/
def DirContents.Cleared (d d1 : DirContents) : Prop :=
  List.Forall₂ (fun a b => b.1 = a.1 ∧ DirEntry.Cleared a.2 b.2) d d1

/-- A directory state after materialization. -/
def TreeInodeState.Cleared (st st1 : TreeInodeState) : Prop :=
  DirContents.Cleared st.entries st1.entries ∧
    (st1.treeHash = st.treeHash ∨ st1.treeHash = none)

/-- `Mat m m1`: the mount `m1` differs from `m` by materialization only: hashes
of entries and of directories were cleared and overlay directories were
written; no entry was added, removed, moved or loaded, no inode object changed
its location, nothing was added to the journal. -/
structure Mat (m m1 : Mount) : Prop where
  location : m1.location = m.location
  journal : m1.journal = m.journal
  nextInodeNumber : m1.nextInodeNumber = m.nextInodeNumber
  dotEdenInodeNumber : m1.dotEdenInodeNumber = m.dotEdenInodeNumber
  trees : m1.trees = m.trees
  nameLengthOk : m1.nameLengthOk = m.nameLengthOk
  overlayFiles : m1.overlayFiles = m.overlayFiles
  contentsNone : ∀ q, m.contents q = none → m1.contents q = none
  contentsSome : ∀ q st, m.contents q = some st →
    ∃ st1, m1.contents q = some st1 ∧ TreeInodeState.Cleared st st1

/-- The call failed with the error number `e`, left the entries of directory `p`
exactly `entries`, and added nothing to the journal of `m`. -/
def FailsKeeping {α : Type} (r : Result α) (e : Errno) (m : Mount) (p : InodePtr)
    (entries : DirContents) : Prop :=
  r.1 = .error (.errno e) ∧ r.2.journal = m.journal ∧
    ∃ st1, r.2.contents p = some st1 ∧ st1.entries = entries

/-- The stored form of directory entries: name, mode, inode number and hash,
without the pointer to the loaded inode. -/
def DirContents.stored (d : DirContents) : DirContents :=
  d.map (fun kv => (kv.1, { kv.2 with inode := none }))

/-- `Rebuffed ty interfere fuel p name n a m child`: in the run of `removeImpl`
that enters attempt `a` on the mount `m` with the child `child`, this attempt
and the `n` attempts after it each pass the checks made before the rename lock
is taken, find a path for the directory, and have `tryRemoveChild` find the
name present with its inode not loaded (result `EBADF`); the renewed look-up
between two attempts succeeds.  The mounts are those the run itself goes
through, with the other threads acting before each attempt. -/
def Rebuffed (ty : InodeType) (interfere : Nat → Mount → Mount) (fuel : Nat) (p : InodePtr)
    (name : PathComponent) : Nat → Nat → Mount → InodePtr → Prop
  | 0, a, m, child =>
    ∃ c path m1, asSubclassPtrOrNull ty m child = some c ∧ checkPreRemove ty m c = none ∧
      getPath fuel (interfere a m) p = .ok (some path) ∧
      tryRemoveChild ty fuel (interfere a m) p name none = (.ok (some .EBADF), m1)
  | n + 1, a, m, child =>
    ∃ c path m1, asSubclassPtrOrNull ty m child = some c ∧ checkPreRemove ty m c = none ∧
      getPath fuel (interfere a m) p = .ok (some path) ∧
      tryRemoveChild ty fuel (interfere a m) p name none = (.ok (some .EBADF), m1) ∧
      ∃ loaded m2, getOrLoadChild m1 p name = (.ok loaded, m2) ∧
        Rebuffed ty interfere fuel p name n (a + 1) m2 loaded

/-- `EntryTyped m p name`: if the entry `name` of directory `p` is loaded, its
mode says directory exactly if the loaded inode is a `TreeInode`. -/
def EntryTyped (m : Mount) (p : InodePtr) (name : PathComponent) : Prop :=
  ∀ e q, m.entry p name = some e → e.inode = some q →
    e.isDirectory = (m.contents q).isSome

/-- What `lockDestChild` locks: the loaded inode of a directory entry. -/
def destChildContentsOf (o : Option DirEntry) : Option InodePtr :=
  o.bind (fun e => if e.isDirectory then e.inode else none)

/-- `SameEntries m m1`: every directory holds in `m1` exactly the entries it
holds in `m`, and the journal is the same. -/
def SameEntries (m m1 : Mount) : Prop :=
  m1.journal = m.journal ∧
    ∀ q, (m1.contents q).map (fun st => st.entries) = (m.contents q).map (fun st => st.entries)

/-- `Renamed M m1 src name dest destName s`: relative to the mount `M`, in
which the directory `src` held the entry `s` under `name`, the mount `m1` has
the source name absent, the destination name mapped to an entry with the mode,
inode number and hash of `s`, every other entry of the two directories as in
`M`, and both directories materialized. -/
structure Renamed (M m1 : Mount) (src : InodePtr) (name : PathComponent) (dest : InodePtr)
    (destName : PathComponent) (s : DirEntry) : Prop where
  srcGone : m1.entry src name = none
  destEntry : ∃ e, m1.entry dest destName = some e ∧ e.initialMode = s.initialMode ∧
    e.inodeNumber = s.inodeNumber ∧ e.hash = s.hash
  srcOthers : ∀ k, k ≠ name → ¬ (src = dest ∧ k = destName) → m1.entry src k = M.entry src k
  destOthers : ∀ k, k ≠ destName → ¬ (dest = src ∧ k = name) → m1.entry dest k = M.entry dest k
  srcMaterialized : (m1.contents src).map (fun st => st.treeHash) = some none
  destMaterialized : (m1.contents dest).map (fun st => st.treeHash) = some none

/-- `LoadedEntry M M1 p k e`: the mount `M1` is `M` with the child behind the
entry `e`, which directory `p` holds under the name `k`, loaded: the entry
records the inode object, which is a `TreeInode` exactly for a directory entry;
the objects that existed are where they were, no other entry of a directory
changed, and nothing was added to the journal. -/
structure LoadedEntry (M M1 : Mount) (p : InodePtr) (k : PathComponent) (e : DirEntry) :
    Prop where
  location : ∀ q, q ≠ e.inodeNumber ∨ (M.location q).isSome = true →
    M1.location q = M.location q
  contentsOther : ∀ q, q ≠ p → q ≠ e.inodeNumber → M1.contents q = M.contents q
  contentsSome : ∀ q st, M.contents q = some st →
    ∃ st1, M1.contents q = some st1 ∧ st1.treeHash = st.treeHash ∧
      ∀ k1, st1.entries.find k1 =
        if q = p ∧ k1 = k then some (e.setInode e.inodeNumber) else st.entries.find k1
  typed : (M1.contents e.inodeNumber).isSome = e.isDirectory
  journal : M1.journal = M.journal

/-- `LockedMove fuel M m1 self name dest destName s dst`: the mount `m1` is left
by a successful call of `doRename` that was not the same-inode no-op, made for
the entry `name` of `self` and the name `destName` of `dest` on a mount `Mb`
that is `M` with the source child and the destination child loaded: the journal
of `Mb` is that of `M`, the inode objects of `M` are located in `Mb` as in `M`,
the source entry is loaded as the inode its number names, and the call holds a
destination entry exactly if the directory state `dst` has one, loaded as the
inode its number names. -/
def LockedMove (fuel : Nat) (M m1 : Mount) (self : InodePtr) (name : PathComponent)
    (dest : InodePtr) (destName : PathComponent) (s : DirEntry) (dst : TreeInodeState) : Prop :=
  ∃ Mb locks sB,
    doRename fuel Mb locks self name sB dest destName = (.ok (), m1) ∧
    ¬ (locks.destChildExists ∧ sB.inode = locks.destChild) ∧
    Mb.journal = M.journal ∧
    (∀ q, (M.location q).isSome = true → Mb.location q = M.location q) ∧
    sB.inode = some s.inodeNumber ∧
    locks.destChildExists = (dst.entries.find destName).isSome ∧
    ∀ q, locks.destChild = some q →
      ∃ t, dst.entries.find destName = some t ∧ q = t.inodeNumber

/-- `RenameReady M src name dest destName sst dst s`: the part of the mount a
rename of `name` in `src` to `destName` in `dest` looks at is well formed.
Both directories are loaded, the source directory holds the entry `s` under the
source name; a loaded entry points to the inode object its inode number names,
which is a `TreeInode` exactly for a directory entry; an entry that is not
loaded has no inode object; and an inode object that is located at the source
name is the loaded inode of the source entry. -/
structure RenameReady (M : Mount) (src : InodePtr) (name : PathComponent) (dest : InodePtr)
    (destName : PathComponent) (sst dst : TreeInodeState) (s : DirEntry) : Prop where
  srcContents : M.contents src = some sst
  destContents : M.contents dest = some dst
  srcEntry : sst.entries.find name = some s
  srcTyped : EntryTyped M src name
  destTyped : EntryTyped M dest destName
  srcPtr : ∀ x, s.inode = some x → x = s.inodeNumber
  destPtr : ∀ t x, dst.entries.find destName = some t → t.inode = some x → x = t.inodeNumber
  srcFresh : s.inode = none →
    M.location s.inodeNumber = none ∧ M.contents s.inodeNumber = none
  destFresh : ∀ t, dst.entries.find destName = some t → t.inode = none →
    M.location t.inodeNumber = none ∧ M.contents t.inodeNumber = none
  srcLocated : ∀ x loc, M.location x = some loc → loc.parent = some src → loc.name = name →
    loc.unlinked = false → s.inode = some x

/-- `DryFrame m m1 p st`: relative to the mount `m`, in which the directory `p`
had the state `st`, the mount `m1` has the directory with the same tree hash and
the same entries in their stored form (name, mode, inode number and hash), the
same overlay files, and the same overlay directories, except that a record may
have appeared under the inode number of a directory entry of `p` that had
none. -/
structure DryFrame (m m1 : Mount) (p : InodePtr) (st : TreeInodeState) : Prop where
  contents : ∃ st1, m1.contents p = some st1 ∧ st1.treeHash = st.treeHash ∧
    st1.entries.stored = st.entries.stored
  overlayFiles : m1.overlayFiles = m.overlayFiles
  overlayDirs : ∀ q, m1.overlayDirs q = m.overlayDirs q ∨
    (m.overlayDirs q = none ∧
      ∃ name e, st.entries.find name = some e ∧ e.inodeNumber = q ∧ e.isDirectory = true)

/-- `Linked m p d`: the inode lies `d` parent pointers below an inode without
parent, neither it nor an inode above it has been unlinked, and every directory
above it holds the entry that leads to it. -/
inductive Linked (m : Mount) : InodePtr → Nat → Prop where
  | root {p : InodePtr} {loc : LocationInfo} :
      m.location p = some loc → loc.parent = none → Linked m p 0
  | child {p parent : InodePtr} {loc : LocationInfo} {d : Nat} :
      m.location p = some loc → loc.parent = some parent → loc.unlinked = false →
      Linked m parent d → (m.entry parent loc.name).isSome = true → Linked m p (d + 1)

/-- The invariant of materialization at one inode: if it is a materialized
directory linked into a parent, the parent is materialized and its entry for the
inode has no hash. -/
def MaterializedUpwardAt (m : Mount) (q : InodePtr) : Prop :=
  ∀ loc parent st, m.location q = some loc → loc.parent = some parent → loc.unlinked = false →
    m.contents q = some st → st.treeHash = none →
    ∃ pst e, m.contents parent = some pst ∧ pst.treeHash = none ∧
      pst.entries.find loc.name = some e ∧ e.hash = none

/-- The invariant of materialization: a directory that holds an entry without
hash (a materialized child) is materialized, and a materialized directory that
is linked into a parent has a materialized parent whose entry for it has no
hash. -/
def MaterializedUpward (m : Mount) : Prop :=
  (∀ q st name e, m.contents q = some st → st.entries.find name = some e → e.hash = none →
    st.treeHash = none) ∧
  ∀ q, MaterializedUpwardAt m q

/-- `MaterializedAt m m1 a`: in `m1` the inode `a` is a materialized directory,
and the entry for it in the directory that is its parent in `m` has no hash. -/
def MaterializedAt (m m1 : Mount) (a : InodePtr) : Prop :=
  (∃ st1, m1.contents a = some st1 ∧ st1.treeHash = none) ∧
  ∀ loc b, m.location a = some loc → loc.parent = some b →
    ∃ e, m1.entry b loc.name = some e ∧ e.hash = none

/-- `Leads m a q k`: the entry `k` of directory `q` lies on the linked parent
chain of the inode `a`: it is the entry under which `a`, or a directory above
`a`, is linked into its parent.  These are the entries the materialization of
`a` can reach. -/
def Leads (m : Mount) (a q : InodePtr) (k : PathComponent) : Prop :=
  ∃ loc parent, m.location a = some loc ∧ loc.parent = some parent ∧ loc.unlinked = false ∧
    Touches m parent loc.name q k

/-- `ChainFrame m m1 a b`: the mount `m1` is as `m` away from the linked parent
chains of `a` and `b`.  An entry that lies on neither chain is the same entry;
a directory that is neither `a` nor `b` and holds no entry of the two chains has
the same state and the same record in the overlay; and every directory has the
state and the overlay record it had, or its overlay record is the stored form
of the entries it has now. -/
structure ChainFrame (m m1 : Mount) (a b : InodePtr) : Prop where
  entry : ∀ q k, ¬ Leads m a q k → ¬ Leads m b q k → m1.entry q k = m.entry q k
  off : ∀ q, q ≠ a → q ≠ b → (∀ k, ¬ Leads m a q k) → (∀ k, ¬ Leads m b q k) →
    m1.contents q = m.contents q ∧ m1.overlayDirs q = m.overlayDirs q
  saved : ∀ q, (m1.contents q = m.contents q ∧ m1.overlayDirs q = m.overlayDirs q) ∨
    ∃ st1, m1.contents q = some st1 ∧ m1.overlayDirs q = some st1.entries.stored

/-- `RenameJournal journal r name destName`: the call with the outcome `r`, made
with this journal, added nothing to the journal, or it succeeded and added one
record of a rename or a replacement from the source name in some directory to
the destination name in some directory. -/
def RenameJournal (journal : List JournalDelta) (r : Result Unit) (name destName : PathComponent) :
    Prop :=
  (r.1 ≠ .ok () → r.2.journal = journal) ∧
  (r.2.journal = journal ∨
    ∃ srcPath destPath,
      r.2.journal = journal ++ [.RENAME (srcPath ++ [name]) (destPath ++ [destName])] ∨
      r.2.journal = journal ++ [.REPLACE (srcPath ++ [name]) (destPath ++ [destName])])

/-- `MergePartition ka kb as bs walk`: the walk handles every element of either
list exactly once and in order, pairs two elements only if their names agree,
has no empty position, and stands at strictly increasing names, so that no name
is handled twice. -/
structure MergePartition {α β : Type} (ka : α → PathComponent) (kb : β → PathComponent)
    (as : List α) (bs : List β) (walk : List (Option α × Option β)) : Prop where
  left : walk.filterMap (fun x => x.1) = as
  right : walk.filterMap (fun x => x.2) = bs
  paired : ∀ a b, (some a, some b) ∈ walk → ka a = kb b
  nonempty : (none, none) ∉ walk
  increasing : (walk.map (mergeKey ka kb)).Sorted (· < ·)

/-- `Shrinks m m1`: every directory object of `m1` is one of `m`, and holds a
loaded child only where it did in `m`. -/
def Shrinks (m m1 : Mount) : Prop :=
  ∀ q st1, m1.contents q = some st1 →
    ∃ st, m.contents q = some st ∧
      ∀ kv1 ∈ st1.entries, ∀ r, kv1.2.inode = some r →
        ∃ kv ∈ st.entries, kv.2.inode = some r

namespace Example

/-- A regular-file entry, `rw-r--r--`. -/
def fileEntry (ino : InodeNumber) (hash : Option Hash) (loaded : Bool) : DirEntry :=
  { initialMode := S_IFREG ||| 0o644, inodeNumber := ino, hash := hash,
    inode := if loaded then some ino else none }

/-- A directory entry, `rwxr-xr-x`. -/
def dirEntry (ino : InodeNumber) (hash : Option Hash) (loaded : Bool) : DirEntry :=
  { initialMode := S_IFDIR ||| 0o755, inodeNumber := ino, hash := hash,
    inode := if loaded then some ino else none }

/-- A mount with the given inode objects; the control directory has inode
number 9, the allocator stands at 100, names of up to 255 bytes are valid. -/
def build (locations : List (InodePtr × LocationInfo))
    (contents : List (InodePtr × TreeInodeState)) : Mount :=
  { location := fun q => locations.lookup q
    contents := fun q => contents.lookup q
    overlayDirs := fun _ => none
    overlayFiles := fun _ => none
    nextInodeNumber := 100
    journal := []
    dotEdenInodeNumber := 9
    trees := fun _ => none
    modeFromTreeEntryType := fun t =>
      match t with
      | .TREE => S_IFDIR ||| 0o755
      | .SYMLINK => S_IFLNK ||| 0o755
      | .EXECUTABLE_FILE => S_IFREG ||| 0o755
      | .REGULAR_FILE => S_IFREG ||| 0o644
    nameLengthOk := fun n => decide (n.length ≤ 255) }

/-- The root (inode 1, tree hash 10) holds the loaded directory `C` (inode 2,
hash 20, empty) and the loaded file `f` (inode 3, hash 30); nothing is
materialized. -/
def mountCF : Mount :=
  build
    [(1, { parent := none, name := "", unlinked := false }),
     (2, { parent := some 1, name := "C", unlinked := false }),
     (3, { parent := some 1, name := "f", unlinked := false })]
    [(1, { entries := [("C", dirEntry 2 (some 20) true), ("f", fileEntry 3 (some 30) true)],
           treeHash := some 10 }),
     (2, { entries := [], treeHash := some 20 })]

/-- The root (inode 1, materialized) holds the control directory `.eden`
(inode 9, loaded, materialized) and the file `a`; the control directory holds
the symlink `root` (inode 10, not loaded). -/
def mountEden : Mount :=
  build
    [(1, { parent := none, name := "", unlinked := false }),
     (9, { parent := some 1, name := ".eden", unlinked := false })]
    [(1, { entries := [(".eden", dirEntry 9 none true), ("a", fileEntry 3 (some 30) false)],
           treeHash := none }),
     (9, { entries :=
             [("root", { initialMode := S_IFLNK ||| 0o777, inodeNumber := 10, hash := none,
                         inode := none })],
           treeHash := none })]

/-- The root (inode 1, tree hash 10) holds the loaded directory `d` (inode 2,
hash 20), which holds the file `x` (inode 3, hash 30, not loaded). -/
def mountNested : Mount :=
  build
    [(1, { parent := none, name := "", unlinked := false }),
     (2, { parent := some 1, name := "d", unlinked := false })]
    [(1, { entries := [("d", dirEntry 2 (some 20) true)], treeHash := some 10 }),
     (2, { entries := [("x", fileEntry 3 (some 30) false)], treeHash := some 20 })]

/-- The root (inode 1, materialized) holds the file `a` (inode 3, hash 30, not
loaded). -/
def mountUnloaded : Mount :=
  build
    [(1, { parent := none, name := "", unlinked := false })]
    [(1, { entries := [("a", fileEntry 3 (some 30) false)], treeHash := none })]

/-- Another thread that, before every attempt takes the rename lock, unloads the
child `a` of the root (inode 3): the entry forgets its inode and the object is
freed. -/
def unloading : Nat → Mount → Mount := fun _ m =>
  match m.contents 1 with
  | some st =>
    (m.setContents 1
      { st with
        entries := st.entries.map (fun kv => if kv.1 = "a" then (kv.1, kv.2.clearInode) else kv) }
      ).unloadInode 3
  | none => m

/-- The root (inode 1, materialized) holds the loaded directory `D` (inode 2),
which holds the file `y`, the loaded empty directory `E` (inode 4) and the
loaded file `f` (inode 3). -/
def mountDirs : Mount :=
  build
    [(1, { parent := none, name := "", unlinked := false }),
     (2, { parent := some 1, name := "D", unlinked := false }),
     (4, { parent := some 1, name := "E", unlinked := false }),
     (3, { parent := some 1, name := "f", unlinked := false })]
    [(1, { entries := [("D", dirEntry 2 none true), ("E", dirEntry 4 none true),
                       ("f", fileEntry 3 none true)],
           treeHash := none }),
     (2, { entries := [("y", fileEntry 5 none false)], treeHash := none }),
     (4, { entries := [], treeHash := none })]

/-- The root (inode 1, materialized, empty) and a directory (inode 2, empty,
materialized) that was removed from it under the name `d`: its unlinked flag is
set, its parent pointer still leads to the root. -/
def mountGone : Mount :=
  build
    [(1, { parent := none, name := "", unlinked := false }),
     (2, { parent := some 1, name := "d", unlinked := true })]
    [(1, { entries := [], treeHash := none }),
     (2, { entries := [], treeHash := none })]

/-- The root (inode 1, tree hash 2) holds the file `a` (inode 3, hash 7, not
loaded). -/
def mountHashed : Mount :=
  build
    [(1, { parent := none, name := "", unlinked := false })]
    [(1, { entries := [("a", fileEntry 3 (some 7) false)], treeHash := some 2 })]

/-- The tree with hash 1: the file `a` with hash 5. -/
def treeOne : Tree := { hash := 1, entries := [{ name := "a", type := .REGULAR_FILE, hash := 5 }] }

/-- The tree with hash 2: the file `a` with hash 7. -/
def treeTwo : Tree := { hash := 2, entries := [{ name := "a", type := .REGULAR_FILE, hash := 7 }] }

/-- A context in the given mode, without the force flag, with nothing
reported yet. -/
def context (isDryRun : Bool) : CheckoutContext :=
  { isDryRun := isDryRun, forceUpdate := false, conflicts := [], errors := [] }

/-- The tree with hash 4: the file `b` with hash 7. -/
def treeFour : Tree := { hash := 4, entries := [{ name := "b", type := .REGULAR_FILE, hash := 7 }] }

/-- The root (inode 1, tree hash 10) holds the directory `d` (inode 2, hash 20,
not loaded, nothing stored for it in the overlay); the object store has the
tree with hash 20, which holds the file `x`. -/
def mountDirUnloaded : Mount :=
  { build
      [(1, { parent := none, name := "", unlinked := false })]
      [(1, { entries := [("d", dirEntry 2 (some 20) false)], treeHash := some 10 })] with
    trees := fun h =>
      if h = 20 then
        some { hash := 20, entries := [{ name := "x", type := .REGULAR_FILE, hash := 30 }] }
      else none }

/-- The tree with hash 11: the directory `d` with hash 21. -/
def treeEleven : Tree := { hash := 11, entries := [{ name := "d", type := .TREE, hash := 21 }] }

/-- The tree with hash 12: the directory `d` with hash 22. -/
def treeTwelve : Tree := { hash := 12, entries := [{ name := "d", type := .TREE, hash := 22 }] }

/-- A diff context that lists no ignored files, with a matcher that matches
nothing, unreadable ignore files, and deferred jobs that call no callback and
fail exactly at the paths given. -/
def diffContext (failing : List (List PathComponent)) : DiffContext :=
  { listIgnored := false
    ignoreMatch := fun _ _ _ => .NO_MATCH
    treeEntryTypeFromMode := fun mode =>
      if mode &&& S_IFMT == S_IFDIR then some .TREE
      else if mode &&& S_IFMT == S_IFLNK then some .SYMLINK
      else if mode &&& S_IFMT == S_IFREG then
        some (if mode &&& 0o100 == 0 then .REGULAR_FILE else .EXECUTABLE_FILE)
      else none
    run := fun job s => if job.path ∈ failing then (.error .loadFailed, s) else (.ok (), s)
    readAll := fun _ _ => .error (.errno Errno.EIO)
    resolveSymlink := fun _ q => .ok q
    isSymlink := fun _ _ => false }

/-- The root (inode 1, materialized, empty) and a directory (inode 2,
materialized) that was removed from it under the name `d` while it held the
loaded file `f` (inode 3). -/
def mountGoneFile : Mount :=
  build
    [(1, { parent := none, name := "", unlinked := false }),
     (2, { parent := some 1, name := "d", unlinked := true }),
     (3, { parent := some 2, name := "f", unlinked := false })]
    [(1, { entries := [], treeHash := none }),
     (2, { entries := [("f", fileEntry 3 none true)], treeHash := none })]

/-- The root (inode 1, materialized) holds the loaded empty directory `a`
(inode 2) and the directory `b` (inode 3, hash 30), which is not loaded. -/
def mountDirPair : Mount :=
  build
    [(1, { parent := none, name := "", unlinked := false }),
     (2, { parent := some 1, name := "a", unlinked := false })]
    [(1, { entries := [("a", dirEntry 2 none true), ("b", dirEntry 3 (some 30) false)],
           treeHash := none }),
     (2, { entries := [], treeHash := none })]

/-- The root (inode 1, tree hash 10) holds the directory `d` (inode 2, hash 20,
not loaded) and the file `z` (inode 3, hash 30, not loaded); the overlay holds
a directory under the number 2, stored when `d` was loaded earlier. -/
def mountStored : Mount :=
  { build
      [(1, { parent := none, name := "", unlinked := false })]
      [(1, { entries := [("d", dirEntry 2 (some 20) false), ("z", fileEntry 3 (some 30) false)],
             treeHash := some 10 })] with
    overlayDirs := fun q => if q = 2 then some [("x", fileEntry 5 (some 50) false)] else none }

/-- The root (inode 1, materialized) holds the loaded files `a` (inode 3) and
`b` (inode 5). -/
def mountTwoFiles : Mount :=
  build
    [(1, { parent := none, name := "", unlinked := false }),
     (3, { parent := some 1, name := "a", unlinked := false }),
     (5, { parent := some 1, name := "b", unlinked := false })]
    [(1, { entries := [("a", fileEntry 3 none true), ("b", fileEntry 5 none true)],
           treeHash := none })]

/-- The mount `mountTwoFiles` after another thread renamed `a` to `c` and then
`b` to `a`: the name `a` now refers to inode 5. -/
def mountSwapped : Mount :=
  build
    [(1, { parent := none, name := "", unlinked := false }),
     (3, { parent := some 1, name := "c", unlinked := false }),
     (5, { parent := some 1, name := "a", unlinked := false })]
    [(1, { entries := [("a", fileEntry 5 none true), ("c", fileEntry 3 none true)],
           treeHash := none })]

/-- Other threads that, before the attempt takes the rename lock, rename `a` to
`c` and `b` to `a`. -/
def swapping : Nat → Mount → Mount := fun _ _ => mountSwapped

/-- A name of 256 bytes. -/
def longName : PathComponent := String.mk (List.replicate 256 'a')

end Example

end TreeInode

/-! ## Theorems: the buffered catalog -/

namespace BufferedLMDBInodeCatalog

theorem setAt_same {β : Type} (f : Nat → Option β) (k : Nat) (v : Option β) :
    setAt f k v k = v := by
  simp [setAt]

theorem setAt_other {β : Type} (f : Nat → Option β) (k : Nat) (v : Option β) (n : Nat)
    (h : n ≠ k) : setAt f k v n = f n := by
  simp [setAt, h]

theorem lookup_of_mem_nodup {β : Type} (l : List (Nat × β)) (a : Nat) (w : β)
    (hm : (a, w) ∈ l) (hn : (l.map Prod.fst).Nodup) : l.lookup a = some w := by
  induction l with
  | nil => cases hm
  | cons x rest ih =>
    obtain ⟨b, v⟩ := x
    simp only [List.map_cons, List.nodup_cons, List.mem_map, not_exists, not_and] at hn
    rcases List.mem_cons.mp hm with h | h
    · cases h
      simp [List.lookup]
    · have hne : a ≠ b := by
        intro hab
        exact hn.1 (a, w) h hab
      have hb : (a == b) = false := by simpa using hne
      simp only [List.lookup, hb]
      exact ih h hn.2

theorem run_other (fn : WorkFn) (db : LMDBInodeCatalog) (n : Nat) (h : fn.key ≠ some n) :
    (fn.run db).1 n = db n := by
  cases fn <;> simp [WorkFn.run, WorkFn.key, LMDB.saveOverlayDir, LMDB.removeOverlayDir] at h ⊢
  all_goals exact setAt_other _ _ _ _ (fun e => h e.symm)

theorem applyWorks_nil (db : LMDBInodeCatalog) : applyWorks [] db = db := rfl

theorem applyWorks_cons (ev : Nat × Work) (ws : List (Nat × Work)) (db : LMDBInodeCatalog) :
    applyWorks (ev :: ws) db = applyWorks ws (ev.2.operation.run db).1 := rfl

theorem applyWorks_append (ws vs : List (Nat × Work)) (db : LMDBInodeCatalog) :
    applyWorks (ws ++ vs) db = applyWorks vs (applyWorks ws db) := by
  simp [applyWorks, List.foldl_append]

theorem applyWorks_no_key (ws : List (Nat × Work)) (db : LMDBInodeCatalog) (n : Nat)
    (h : ∀ ev ∈ ws, ev.2.operation.key ≠ some n) : applyWorks ws db n = db n := by
  induction ws generalizing db with
  | nil => rfl
  | cons ev rest ih =>
    rw [applyWorks_cons, ih _ (fun e he => h e (List.mem_cons_of_mem _ he))]
    exact run_other _ _ _ (h ev (List.mem_cons_self _ _))

theorem workSize_append (ws : List (Nat × Work)) (ev : Nat × Work) :
    workSize (ws ++ [ev]) = (workSize ws + ev.2.estimateIndirectMemoryUsage) % sizeMax := by
  simp [workSize, List.foldl_append]

theorem applySyncAll_append {D : Type} (cd : Codec D) (db : LMDBInodeCatalog)
    (ops : List (Op D)) (op : Op D) :
    applySyncAll cd db (ops ++ [op]) = op.applySync cd (applySyncAll cd db ops) := by
  simp [applySyncAll, List.foldl_append]

theorem inv_init {D : Type} (cd : Codec D) (db0 : LMDBInodeCatalog) :
    Inv cd db0 [] (Catalog.init db0) where
  noStop := rfl
  alive := Or.inr ⟨0, rfl⟩
  idle := by intro h; cases h
  sizeLt := by simp [Catalog.init, sizeMax]
  sizeEq := rfl
  fresh := by intro ev h; cases h
  nodup := by simp [Catalog.init]
  drained := by intro n; rfl
  waitingSome := by intro n op h; cases h
  waitingNone := by intro n _ ev h; cases h
  inflightSome := by intro n op h; cases h
  inflightNone := by intro n _ ev h; cases h
  noStopWork := by intro ev h; cases h

/-- The catalog that `process` leaves when it appends the work. -/
theorem process_pushed_eq (sz : Sizes) (c c1 : Catalog) (fn : WorkFn) (cap key : Nat)
    (ty : OperationType) (odir : Option String) (t : Bool)
    (hp : process sz c fn cap key ty odir t = .pushed c1) :
    c.state.workerThreadStopRequested = false ∧ t = false ∧
    c1 =
      { c with
        nextWork := c.nextWork + 1
        state :=
          { c.state with
            work := c.state.work ++
              [(c.nextWork,
                { operation := fn, odir := odir,
                  estimateIndirectMemoryUsage :=
                    (cap + sz.sizeofFn + sz.heapAllocatedMemory fn) % sizeMax })]
            waitingOperation :=
              setAt c.state.waitingOperation key (some { operationType := ty, work := c.nextWork })
            totalSize :=
              (c.state.totalSize + (cap + sz.sizeofFn + sz.heapAllocatedMemory fn) % sizeMax)
                % sizeMax } } := by
  unfold process at hp
  simp only [] at hp
  split at hp
  · cases hp
  · split at hp
    · cases hp
    · split at hp
      · cases hp
      · rename_i h1 h2
        injection hp with hp
        refine ⟨by simpa using h1, by simpa using h2, hp.symm⟩

/-- The catalog that `process` leaves when the insertion throws: only the
allocator moved. -/
theorem process_rethrown_eq (sz : Sizes) (c c1 : Catalog) (fn : WorkFn) (cap key : Nat)
    (ty : OperationType) (odir : Option String) (t : Bool)
    (hp : process sz c fn cap key ty odir t = .rethrown c1) :
    t = true ∧ c1 = { c with nextWork := c.nextWork + 1 } := by
  unfold process at hp
  simp only [] at hp
  split at hp
  · cases hp
  · split at hp
    · cases hp
    · split at hp
      · rename_i h2
        injection hp with hp
        refine ⟨h2, ?_⟩
        rw [← hp]
        simp [List.dropLast_concat]
      · cases hp

theorem remaining_subset (c : Catalog) : ∀ ev ∈ c.remaining, ev ∈ c.workerWork := by
  intro ev h
  unfold Catalog.remaining at h
  split at h
  · exact List.mem_of_mem_drop h
  · cases h

/-- Adding a fresh address to the queue keeps the addresses distinct. -/
theorem nodup_push {β : Type} (q b : List (Nat × β)) (a : Nat) (w : β)
    (hn : ((q ++ b).map Prod.fst).Nodup) (hfr : ∀ ev ∈ q ++ b, ev.1 < a) :
    (((q ++ [(a, w)]) ++ b).map Prod.fst).Nodup := by
  have hperm : (((q ++ [(a, w)]) ++ b).map Prod.fst).Perm (a :: (q ++ b).map Prod.fst) := by
    simp only [List.map_append, List.map_cons, List.map_nil, List.append_assoc,
      List.singleton_append]
    exact List.perm_middle
  rw [hperm.nodup_iff, List.nodup_cons]
  refine ⟨?_, hn⟩
  intro hmem
  obtain ⟨ev, hev, he⟩ := List.mem_map.mp hmem
  have := hfr ev hev
  omega

/-- The invariant survives an enqueue through `process`. -/
theorem inv_pushed {D : Type} (cd : Codec D) (sz : Sizes) (db0 : LMDBInodeCatalog)
    (hist : List (Op D)) (c c1 : Catalog) (fn : WorkFn) (cap key : Nat) (ty : OperationType)
    (odir : Option String) (v : Option String) (op : Op D) (t : Bool)
    (hinv : Inv cd db0 hist c)
    (hp : process sz c fn cap key ty odir t = .pushed c1)
    (hkey : fn.key = some key)
    (hrun : ∀ db, fn.run db = (setAt db key v, false))
    (hop : ∀ db, op.applySync cd db = setAt db key v)
    (hW : ty = .Write → ∃ s, odir = some s ∧ v = some s)
    (hR : ty = .Remove → v = none) :
    Inv cd db0 (hist ++ [op]) c1 := by
  obtain ⟨_, _, hc1⟩ := process_pushed_eq sz c c1 fn cap key ty odir t hp
  generalize hsize : (cap + sz.sizeofFn + sz.heapAllocatedMemory fn) % sizeMax = size at hc1
  have hwork : c1.state.work = c.state.work ++ [(c.nextWork, ⟨fn, odir, size⟩)] := by rw [hc1]
  have hwait : c1.state.waitingOperation =
      setAt c.state.waitingOperation key (some ⟨ty, c.nextWork⟩) := by rw [hc1]
  have hinfl : c1.state.inflightOperation = c.state.inflightOperation := by rw [hc1]
  have htot : c1.state.totalSize = (c.state.totalSize + size) % sizeMax := by rw [hc1]
  have hstop : c1.state.workerThreadStopRequested = c.state.workerThreadStopRequested := by
    rw [hc1]
  have hww : c1.workerWork = c.workerWork := by rw [hc1]
  have hpc : c1.pc = c.pc := by rw [hc1]
  have hnext : c1.nextWork = c.nextWork + 1 := by rw [hc1]
  have hdb : c1.db = c.db := by rw [hc1]
  have hrem : c1.remaining = c.remaining := by simp only [Catalog.remaining, hww, hpc]
  have hfinal : ∀ n, c1.final n = setAt c.final key v n := by
    intro n
    simp only [Catalog.final, hrem, hwork, hdb, ← List.append_assoc]
    rw [applyWorks_append, applyWorks_cons, applyWorks_nil, hrun]
  clear hc1
  constructor
  · rw [hstop]; exact hinv.noStop
  · rw [hpc]; exact hinv.alive
  · rw [hpc, hww, hinfl]; exact hinv.idle
  · rw [htot]; exact Nat.mod_lt _ (by simp [sizeMax])
  · rw [htot, hwork, workSize_append, ← hinv.sizeEq]
  · intro ev hev
    rw [hwork, hww] at hev
    rw [hnext]
    simp only [List.append_assoc, List.mem_append, List.mem_singleton] at hev
    rcases hev with h | h | h
    · exact Nat.lt_succ_of_lt (hinv.fresh ev (List.mem_append_left _ h))
    · subst h; exact Nat.lt_succ_self _
    · exact Nat.lt_succ_of_lt (hinv.fresh ev (List.mem_append_right _ h))
  · rw [hwork, hww]
    exact nodup_push _ _ _ _ hinv.nodup hinv.fresh
  · intro n
    rw [hfinal, applySyncAll_append, hop]
    by_cases h : n = key
    · subst h; simp [setAt_same]
    · rw [setAt_other _ _ _ _ h, setAt_other _ _ _ _ h]; exact hinv.drained n
  · intro n o ho
    rw [hfinal, hwork]
    rw [hwait] at ho
    by_cases h : n = key
    · subst h
      simp only [setAt_same, Option.some.injEq] at ho
      subst ho
      refine ⟨_, List.mem_append_right _ (List.mem_singleton_self _), ?_, ?_⟩
      · intro hw; simpa only [setAt_same] using hW hw
      · intro hr; simpa only [setAt_same] using hR hr
    · simp only [setAt_other _ _ _ _ h] at ho ⊢
      obtain ⟨w, hw, hag⟩ := hinv.waitingSome n o ho
      exact ⟨w, List.mem_append_left _ hw, hag⟩
  · intro n hn ev hev
    rw [hwait] at hn
    rw [hwork] at hev
    by_cases h : n = key
    · subst h; simp [setAt_same] at hn
    · simp only [setAt_other _ _ _ _ h] at hn
      simp only [List.mem_append, List.mem_singleton] at hev
      rcases hev with hev | hev
      · exact hinv.waitingNone n hn ev hev
      · subst hev
        simp only [hkey]
        intro e; exact h (Option.some.inj e).symm
  · intro n o ho hn
    rw [hfinal, hww]
    rw [hinfl] at ho
    rw [hwait] at hn
    by_cases h : n = key
    · subst h; simp [setAt_same] at hn
    · simp only [setAt_other _ _ _ _ h] at hn ⊢
      exact hinv.inflightSome n o ho hn
  · intro n hn ev hev
    rw [hinfl] at hn
    rw [hrem] at hev
    exact hinv.inflightNone n hn ev hev
  · intro ev hev db
    rw [hwork, hww] at hev
    simp only [List.append_assoc, List.mem_append, List.mem_singleton] at hev
    rcases hev with h | h | h
    · exact hinv.noStopWork ev (List.mem_append_left _ h) db
    · subst h; simp [hrun]
    · exact hinv.noStopWork ev (List.mem_append_right _ h) db

/-- The invariant survives a `process` whose map insertion threw. -/
theorem inv_rethrown {D : Type} (cd : Codec D) (db0 : LMDBInodeCatalog)
    (hist : List (Op D)) (c : Catalog) (hinv : Inv cd db0 hist c) :
    Inv cd db0 hist { c with nextWork := c.nextWork + 1 } where
  noStop := hinv.noStop
  alive := hinv.alive
  idle := hinv.idle
  sizeLt := hinv.sizeLt
  sizeEq := hinv.sizeEq
  fresh := fun ev hev => Nat.lt_succ_of_lt (hinv.fresh ev hev)
  nodup := hinv.nodup
  drained := hinv.drained
  waitingSome := hinv.waitingSome
  waitingNone := hinv.waitingNone
  inflightSome := hinv.inflightSome
  inflightNone := hinv.inflightNone
  noStopWork := hinv.noStopWork

/-- The invariant survives the enqueue of a closure without key and without
effect on the underlying catalog (the closures of `pause` and `flush`). -/
theorem inv_pushQuiet {D : Type} (cd : Codec D) (db0 : LMDBInodeCatalog)
    (hist : List (Op D)) (c : Catalog) (fn : WorkFn)
    (hinv : Inv cd db0 hist c)
    (hkey : fn.key = none)
    (hrun : ∀ db, fn.run db = (db, false)) :
    Inv cd db0 hist
      { c with
        state :=
          { c.state with
            work := c.state.work ++
              [(c.nextWork, { operation := fn, odir := none, estimateIndirectMemoryUsage := 0 })] }
        nextWork := c.nextWork + 1 } := by
  generalize hc1 :
      ({ c with
        state :=
          { c.state with
            work := c.state.work ++
              [(c.nextWork, { operation := fn, odir := none, estimateIndirectMemoryUsage := 0 })] }
        nextWork := c.nextWork + 1 } : Catalog) = c1
  have hwork : c1.state.work = c.state.work ++ [(c.nextWork, ⟨fn, none, 0⟩)] := by rw [← hc1]
  have hwait : c1.state.waitingOperation = c.state.waitingOperation := by rw [← hc1]
  have hinfl : c1.state.inflightOperation = c.state.inflightOperation := by rw [← hc1]
  have htot : c1.state.totalSize = c.state.totalSize := by rw [← hc1]
  have hstop : c1.state.workerThreadStopRequested = c.state.workerThreadStopRequested := by
    rw [← hc1]
  have hww : c1.workerWork = c.workerWork := by rw [← hc1]
  have hpc : c1.pc = c.pc := by rw [← hc1]
  have hnext : c1.nextWork = c.nextWork + 1 := by rw [← hc1]
  have hdb : c1.db = c.db := by rw [← hc1]
  have hrem : c1.remaining = c.remaining := by simp only [Catalog.remaining, hww, hpc]
  have hfinal : ∀ n, c1.final n = c.final n := by
    intro n
    simp only [Catalog.final, hrem, hwork, hdb, ← List.append_assoc]
    rw [applyWorks_append, applyWorks_cons, applyWorks_nil, hrun]
  clear hc1
  constructor
  · rw [hstop]; exact hinv.noStop
  · rw [hpc]; exact hinv.alive
  · rw [hpc, hww, hinfl]; exact hinv.idle
  · rw [htot]; exact hinv.sizeLt
  · rw [htot, hwork, workSize_append, ← hinv.sizeEq]
    simp only [Nat.add_zero]
    exact (Nat.mod_eq_of_lt hinv.sizeLt).symm
  · intro ev hev
    rw [hwork, hww] at hev
    rw [hnext]
    simp only [List.append_assoc, List.mem_append, List.mem_singleton] at hev
    rcases hev with h | h | h
    · exact Nat.lt_succ_of_lt (hinv.fresh ev (List.mem_append_left _ h))
    · subst h; exact Nat.lt_succ_self _
    · exact Nat.lt_succ_of_lt (hinv.fresh ev (List.mem_append_right _ h))
  · rw [hwork, hww]
    exact nodup_push _ _ _ _ hinv.nodup hinv.fresh
  · intro n
    rw [hfinal]; exact hinv.drained n
  · intro n o ho
    rw [hfinal, hwork]
    rw [hwait] at ho
    obtain ⟨w, hw, hag⟩ := hinv.waitingSome n o ho
    exact ⟨w, List.mem_append_left _ hw, hag⟩
  · intro n hn ev hev
    rw [hwait] at hn
    rw [hwork] at hev
    simp only [List.mem_append, List.mem_singleton] at hev
    rcases hev with hev | hev
    · exact hinv.waitingNone n hn ev hev
    · subst hev
      simp [hkey]
  · intro n o ho hn
    rw [hfinal, hww]
    rw [hinfl] at ho
    rw [hwait] at hn
    exact hinv.inflightSome n o ho hn
  · intro n hn ev hev
    rw [hinfl] at hn
    rw [hrem] at hev
    exact hinv.inflightNone n hn ev hev
  · intro ev hev db
    rw [hwork, hww] at hev
    simp only [List.append_assoc, List.mem_append, List.mem_singleton] at hev
    rcases hev with h | h | h
    · exact hinv.noStopWork ev (List.mem_append_left _ h) db
    · subst h; simp [hrun]
    · exact hinv.noStopWork ev (List.mem_append_right _ h) db

/-- The invariant survives the worker taking the lock at the top of its loop. -/
theorem inv_workerClear {D : Type} (cd : Codec D) (db0 : LMDBInodeCatalog)
    (hist : List (Op D)) (c c1 : Catalog) (hinv : Inv cd db0 hist c)
    (hs : workerClear c = some c1) : Inv cd db0 hist c1 := by
  unfold workerClear at hs
  split at hs
  · rename_i i hpci
    split at hs
    · rename_i hlen
      injection hs with hs
      have hremc : c.remaining = [] := by
        simp only [Catalog.remaining, hpci]
        exact List.drop_eq_nil_of_le hlen
      have hst : c1.state.work = c.state.work := by rw [← hs]
      have hwait : c1.state.waitingOperation = c.state.waitingOperation := by rw [← hs]
      have hinfl : c1.state.inflightOperation = fun _ => none := by rw [← hs]
      have htot : c1.state.totalSize = c.state.totalSize := by rw [← hs]
      have hstop : c1.state.workerThreadStopRequested = c.state.workerThreadStopRequested := by
        rw [← hs]
      have hww : c1.workerWork = [] := by rw [← hs]
      have hpc : c1.pc = .waiting := by rw [← hs]
      have hnext : c1.nextWork = c.nextWork := by rw [← hs]
      have hdb : c1.db = c.db := by rw [← hs]
      have hrem : c1.remaining = [] := by simp only [Catalog.remaining, hpc]
      have hfinal : ∀ n, c1.final n = c.final n := by
        intro n
        simp only [Catalog.final, hrem, hremc, hst, hdb]
      clear hs
      constructor
      · rw [hstop]; exact hinv.noStop
      · exact Or.inl hpc
      · intro _; exact ⟨hww, fun n => by rw [hinfl]⟩
      · rw [htot]; exact hinv.sizeLt
      · rw [htot, hst]; exact hinv.sizeEq
      · intro ev hev
        rw [hst, hww, List.append_nil] at hev
        rw [hnext]
        exact hinv.fresh ev (List.mem_append_left _ hev)
      · rw [hst, hww, List.append_nil]
        have := hinv.nodup
        rw [List.map_append, List.nodup_append] at this
        exact this.1
      · intro n; rw [hfinal]; exact hinv.drained n
      · intro n o ho
        rw [hfinal, hst]
        rw [hwait] at ho
        exact hinv.waitingSome n o ho
      · intro n hn ev hev
        rw [hwait] at hn
        rw [hst] at hev
        exact hinv.waitingNone n hn ev hev
      · intro n o ho
        rw [hinfl] at ho
        cases ho
      · intro n _ ev hev
        rw [hrem] at hev
        cases hev
      · intro ev hev db
        rw [hst, hww, List.append_nil] at hev
        exact hinv.noStopWork ev (List.mem_append_left _ hev) db
    · cases hs
  · cases hs

theorem drop_of_get? {β : Type} (l : List β) (i : Nat) (x : β) (h : l.get? i = some x) :
    l.drop i = x :: l.drop (i + 1) := by
  induction l generalizing i with
  | nil => cases h
  | cons y rest ih =>
    cases i with
    | zero => simp at h; subst h; rfl
    | succ j => simp only [List.get?_cons_succ] at h; simpa using ih j h

/-- The invariant survives the worker taking a batch. -/
theorem inv_workerTake {D : Type} (cd : Codec D) (db0 : LMDBInodeCatalog)
    (hist : List (Op D)) (c c1 : Catalog) (hinv : Inv cd db0 hist c)
    (hs : workerTake c = some c1) : Inv cd db0 hist c1 := by
  unfold workerTake at hs
  split at hs
  · rename_i hpcw
    obtain ⟨hwwc, hinflc⟩ := hinv.idle hpcw
    split at hs
    · cases hs
    · simp only [] at hs
      rw [if_pos hinv.sizeEq] at hs
      injection hs with hs
      have hremc : c.remaining = [] := by simp only [Catalog.remaining, hpcw]
      have hst : c1.state.work = [] := by rw [← hs, ← hwwc]
      have hwait : c1.state.waitingOperation = fun _ => none := by
        rw [← hs]; funext n; exact hinflc n
      have hinfl : c1.state.inflightOperation = c.state.waitingOperation := by rw [← hs]
      have htot : c1.state.totalSize = 0 := by rw [← hs]
      have hstop : c1.state.workerThreadStopRequested = c.state.workerThreadStopRequested := by
        rw [← hs]
      have hww : c1.workerWork = c.state.work := by rw [← hs]
      have hpc : c1.pc = .running 0 := by rw [← hs]
      have hnext : c1.nextWork = c.nextWork := by rw [← hs]
      have hdb : c1.db = c.db := by rw [← hs]
      have hrem : c1.remaining = c.state.work := by
        simp only [Catalog.remaining, hpc, hww, List.drop_zero]
      have hfinal : ∀ n, c1.final n = c.final n := by
        intro n
        simp only [Catalog.final, hrem, hremc, hst, hdb, List.append_nil, List.nil_append]
      clear hs
      constructor
      · rw [hstop]; exact hinv.noStop
      · exact Or.inr ⟨0, hpc⟩
      · intro h; rw [hpc] at h; cases h
      · rw [htot]; simp [sizeMax]
      · rw [htot, hst]; rfl
      · intro ev hev
        rw [hst, hww, List.nil_append] at hev
        rw [hnext]
        exact hinv.fresh ev (List.mem_append_left _ hev)
      · rw [hst, hww, List.nil_append]
        have := hinv.nodup
        rw [List.map_append, List.nodup_append] at this
        exact this.1
      · intro n; rw [hfinal]; exact hinv.drained n
      · intro n o ho
        rw [hwait] at ho
        cases ho
      · intro n _ ev hev
        rw [hst] at hev
        cases hev
      · intro n o ho _
        rw [hfinal, hww]
        rw [hinfl] at ho
        exact hinv.waitingSome n o ho
      · intro n hn ev hev
        rw [hinfl] at hn
        rw [hrem] at hev
        exact hinv.waitingNone n hn ev hev
      · intro ev hev db
        rw [hst, hww, List.nil_append] at hev
        exact hinv.noStopWork ev (List.mem_append_left _ hev) db
  · cases hs

/-- The invariant survives the worker running one event of its batch. -/
theorem inv_workerExec {D : Type} (cd : Codec D) (db0 : LMDBInodeCatalog)
    (hist : List (Op D)) (c c1 : Catalog) (hinv : Inv cd db0 hist c)
    (hs : workerExec c = some c1) : Inv cd db0 hist c1 := by
  unfold workerExec at hs
  split at hs
  · rename_i i hpci
    split at hs
    · cases hs
    · rename_i ev hget
      have hmem : ev ∈ c.workerWork := List.get?_mem hget
      have hq := hinv.noStopWork ev (List.mem_append_right _ hmem) c.db
      simp only [hq] at hs
      injection hs with hs
      have hremc : c.remaining = ev :: c.workerWork.drop (i + 1) := by
        simp only [Catalog.remaining, hpci]
        exact drop_of_get? _ _ _ hget
      have hst : c1.state = c.state := by rw [← hs]
      have hww : c1.workerWork = c.workerWork := by rw [← hs]
      have hpc : c1.pc = .running (i + 1) := by rw [← hs]
      have hnext : c1.nextWork = c.nextWork := by rw [← hs]
      have hdb : c1.db = (ev.2.operation.run c.db).1 := by rw [← hs]
      have hrem : c1.remaining = c.workerWork.drop (i + 1) := by
        simp only [Catalog.remaining, hpc, hww]
      have hfinal : ∀ n, c1.final n = c.final n := by
        intro n
        simp only [Catalog.final, hrem, hremc, hst, hdb, List.cons_append, applyWorks_cons]
      clear hs
      constructor
      · rw [hst]; exact hinv.noStop
      · exact Or.inr ⟨i + 1, hpc⟩
      · intro h; rw [hpc] at h; cases h
      · rw [hst]; exact hinv.sizeLt
      · rw [hst]; exact hinv.sizeEq
      · rw [hst, hww, hnext]; exact hinv.fresh
      · rw [hst, hww]; exact hinv.nodup
      · intro n; rw [hfinal]; exact hinv.drained n
      · intro n o ho
        rw [hfinal, hst]
        rw [hst] at ho
        exact hinv.waitingSome n o ho
      · rw [hst]; exact hinv.waitingNone
      · intro n o ho hn
        rw [hfinal, hww]
        rw [hst] at ho hn
        exact hinv.inflightSome n o ho hn
      · intro n hn ev1 hev
        rw [hst] at hn
        rw [hrem] at hev
        exact hinv.inflightNone n hn ev1 (by rw [hremc]; exact List.mem_cons_of_mem _ hev)
      · rw [hst, hww]; exact hinv.noStopWork
  · cases hs

theorem process_dropped (sz : Sizes) (c c1 : Catalog) (fn : WorkFn) (cap key : Nat)
    (ty : OperationType) (odir : Option String) (t : Bool)
    (hp : process sz c fn cap key ty odir t = .dropped c1) :
    c.state.workerThreadStopRequested = true := by
  unfold process at hp
  simp only [] at hp
  split at hp
  · cases hp
  · split at hp
    · rename_i h; exact h
    · split at hp <;> cases hp

/-- The invariant survives a call of `process` that enqueues `op` when its
insertion does not throw. -/
theorem inv_process {D : Type} (cd : Codec D) (sz : Sizes) (db0 : LMDBInodeCatalog)
    (hist : List (Op D)) (c c1 : Catalog) (fn : WorkFn) (cap key : Nat) (ty : OperationType)
    (odir : Option String) (v : Option String) (op : Op D) (t : Bool)
    (hinv : Inv cd db0 hist c)
    (hp : (process sz c fn cap key ty odir t).after = some c1)
    (hkey : fn.key = some key)
    (hrun : ∀ db, fn.run db = (setAt db key v, false))
    (hop : ∀ db, op.applySync cd db = setAt db key v)
    (hW : ty = .Write → ∃ s, odir = some s ∧ v = some s)
    (hR : ty = .Remove → v = none) :
    Inv cd db0 (hist ++ (if t then [] else [op])) c1 := by
  cases hres : process sz c fn cap key ty odir t with
  | blocked => rw [hres] at hp; cases hp
  | dropped c2 =>
    have := process_dropped sz c c2 fn cap key ty odir t hres
    rw [hinv.noStop] at this
    cases this
  | pushed c2 =>
    rw [hres] at hp
    simp only [Enqueue.after, Option.some.injEq] at hp
    subst hp
    obtain ⟨_, ht, _⟩ := process_pushed_eq sz c c2 fn cap key ty odir t hres
    subst ht
    exact inv_pushed cd sz db0 hist c c2 fn cap key ty odir v op false hinv hres hkey hrun hop hW hR
  | rethrown c2 =>
    rw [hres] at hp
    simp only [Enqueue.after, Option.some.injEq] at hp
    subst hp
    obtain ⟨ht, hc⟩ := process_rethrown_eq sz c c2 fn cap key ty odir t hres
    subst ht
    rw [hc]
    simpa using inv_rethrown cd db0 hist c hinv

/-- Every step of the buffered write path keeps the invariant, with the
history extended by the operation the step enqueued. -/
theorem inv_step {D : Type} (cd : Codec D) (sz : Sizes) (db0 : LMDBInodeCatalog)
    (hist : List (Op D)) (c c1 : Catalog) (s : Step D)
    (hinv : Inv cd db0 hist c) (hb : s.isBuffered = true)
    (hs : step cd sz c s = some c1) :
    Inv cd db0 (hist ++ enqueuedOps [s]) c1 := by
  cases s with
  | save ino odir t =>
    have := inv_process cd sz db0 hist c c1 (.saveOverlayDir ino (cd.serialize odir))
      ((sz.estimateString (cd.serialize odir) * 2) % sizeMax) ino .Write
      (some (cd.serialize odir)) (some (cd.serialize odir)) (.save ino odir) t hinv hs rfl
      (fun _ => rfl) (fun _ => rfl) (fun _ => ⟨_, rfl, rfl⟩) (fun h => by cases h)
    cases t <;> simpa [enqueuedOps, Step.enqueued] using this
  | remove ino t =>
    have := inv_process cd sz db0 hist c c1 (.removeOverlayDir ino) 0 ino .Remove
      none none (.remove ino) t hinv hs rfl
      (fun _ => rfl) (fun _ => rfl) (fun h => by cases h) (fun _ => rfl)
    cases t <;> simpa [enqueuedOps, Step.enqueued] using this
  | loadAndRemove ino t => cases hb
  | workerClear =>
    simpa [enqueuedOps, Step.enqueued] using inv_workerClear cd db0 hist c c1 hinv hs
  | workerTake =>
    simpa [enqueuedOps, Step.enqueued] using inv_workerTake cd db0 hist c c1 hinv hs
  | workerExec =>
    simpa [enqueuedOps, Step.enqueued] using inv_workerExec cd db0 hist c c1 hinv hs
  | stop => cases hb
  | pause =>
    simp only [step, Option.some.injEq] at hs
    subst hs
    simpa [enqueuedOps, Step.enqueued] using
      inv_pushQuiet cd db0 hist c .pause hinv rfl (fun _ => rfl)
  | flush =>
    simp only [step, Option.some.injEq] at hs
    subst hs
    simpa [enqueuedOps, Step.enqueued] using
      inv_pushQuiet cd db0 hist c .flush hinv rfl (fun _ => rfl)

/-- The invariant holds after every run of buffered steps. -/
theorem inv_run {D : Type} (cd : Codec D) (sz : Sizes) (db0 : LMDBInodeCatalog)
    (steps : List (Step D)) :
    ∀ (hist : List (Op D)) (c c1 : Catalog), Inv cd db0 hist c →
      (∀ s ∈ steps, s.isBuffered = true) → run cd sz c steps = some c1 →
      Inv cd db0 (hist ++ enqueuedOps steps) c1 := by
  induction steps with
  | nil =>
    intro hist c c1 hinv _ hr
    simp only [run, Option.some.injEq] at hr
    subst hr
    simpa [enqueuedOps] using hinv
  | cons s rest ih =>
    intro hist c c1 hinv hb hr
    simp only [run] at hr
    cases hstep : step cd sz c s with
    | none => rw [hstep] at hr; cases hr
    | some c2 =>
      rw [hstep] at hr
      have h2 := inv_step cd sz db0 hist c c2 s hinv (hb s (List.mem_cons_self _ _)) hstep
      have h3 := ih _ c2 c1 h2 (fun x hx => hb x (List.mem_cons_of_mem _ hx)) hr
      have he : enqueuedOps (s :: rest) = enqueuedOps [s] ++ enqueuedOps rest := by
        simp only [enqueuedOps]
        rw [← List.filterMap_append]
        rfl
      rw [he, ← List.append_assoc]
      exact h3

/-- Under the invariant a raw `Work*` held in one of the maps points to the
live object it was created with. -/
theorem deref_of_mem (c : Catalog) (p : Nat) (w : Work)
    (hn : ((c.state.work ++ c.workerWork).map Prod.fst).Nodup)
    (hm : (p, w) ∈ c.state.work ++ c.workerWork) : c.deref p = some w :=
  lookup_of_mem_nodup _ _ _ hm hn

theorem readOperation_agrees {D : Type} (cd : Codec D) (c : Catalog) (op : Operation) (w : Work)
    (v : Option String) (hd : c.deref op.work = some w) (hag : op.Agrees w v) :
    readOperation cd c op = .ok (v.map cd.deserialize) ∧
      decide (op.operationType = .Write) = v.isSome := by
  unfold readOperation
  cases hty : op.operationType with
  | Write =>
    obtain ⟨s, hs, hv⟩ := hag.1 hty
    simp [hd, hs, hv]
  | Remove =>
    have hv := hag.2 hty
    simp [hv]

/-- Under the invariant the two read paths return what the drained catalog
holds. -/
theorem inv_read {D : Type} (cd : Codec D) (db0 : LMDBInodeCatalog) (hist : List (Op D))
    (c : Catalog) (hinv : Inv cd db0 hist c) (n : InodeNumber) :
    loadOverlayDir cd c n = .ok (LMDB.loadOverlayDir cd (applySyncAll cd db0 hist) n) ∧
      hasOverlayDir c n = LMDB.hasOverlayDir (applySyncAll cd db0 hist) n := by
  unfold loadOverlayDir hasOverlayDir LMDB.loadOverlayDir LMDB.hasOverlayDir
  rw [← hinv.drained n]
  cases hw : c.state.waitingOperation n with
  | some op =>
    obtain ⟨w, hmem, hag⟩ := hinv.waitingSome n op hw
    have hd := deref_of_mem c op.work w hinv.nodup (List.mem_append_left _ hmem)
    exact readOperation_agrees cd c op w _ hd hag
  | none =>
    cases hi : c.state.inflightOperation n with
    | some op =>
      obtain ⟨w, hmem, hag⟩ := hinv.inflightSome n op hi hw
      have hd := deref_of_mem c op.work w hinv.nodup (List.mem_append_right _ hmem)
      exact readOperation_agrees cd c op w _ hd hag
    | none =>
      have hfin : c.final n = c.db n := by
        unfold Catalog.final
        apply applyWorks_no_key
        intro ev hev
        rcases List.mem_append.mp hev with h | h
        · exact hinv.inflightNone n hi ev h
        · exact hinv.waitingNone n hw ev h
      simp only [hfin, and_self]

theorem enqueuedOps_workerMoves {D : Type} (steps : List (Step D))
    (h : ∀ s ∈ steps, s.isWorkerMove = true) : enqueuedOps steps = [] := by
  induction steps with
  | nil => rfl
  | cons s rest ih =>
    have hs := h s (List.mem_cons_self _ _)
    have hr := ih (fun x hx => h x (List.mem_cons_of_mem _ hx))
    simp only [enqueuedOps] at hr ⊢
    cases s <;> simp_all [Step.isWorkerMove, Step.enqueued, List.filterMap_cons]

theorem isBuffered_of_workerMove {D : Type} (s : Step D) (h : s.isWorkerMove = true) :
    s.isBuffered = true := by
  cases s <;> simp_all [Step.isWorkerMove, Step.isBuffered]

/-- C1 (linearizability per inode).  In every state reached from a fresh catalog
by steps of the buffered write path (saves, removes, moves of the worker; no
stop request), `loadOverlayDir n` and `hasOverlayDir n` return what the
underlying catalog returns for `n` after the operations enqueued so far were
applied to it synchronously, in enqueue order. -/
theorem linearizable_per_inode {D : Type} (cd : Codec D) (sz : Sizes) (db0 : LMDBInodeCatalog)
    (steps : List (Step D)) (c : Catalog)
    (hsteps : ∀ s ∈ steps, s.isBuffered = true)
    (hrun : run cd sz (Catalog.init db0) steps = some c) (n : InodeNumber) :
    loadOverlayDir cd c n =
        .ok (LMDB.loadOverlayDir cd (applySyncAll cd db0 (enqueuedOps steps)) n) ∧
      hasOverlayDir c n = LMDB.hasOverlayDir (applySyncAll cd db0 (enqueuedOps steps)) n := by
  have hinv := inv_run cd sz db0 steps [] (Catalog.init db0) c (inv_init cd db0) hsteps hrun
  simpa using inv_read cd db0 _ c hinv n

/-- Witness of C1: a remove of inode 5 waits while the older write of inode 5
is inflight; the reads agree with the synchronous catalog, which has no
directory for inode 5. -/
theorem linearizable_per_inode_witness :
    loadOverlayDir Example.codec (Example.after Example.stepsRemoveOverWrite) 5 = .ok none ∧
      hasOverlayDir (Example.after Example.stepsRemoveOverWrite) 5 = false :=
  linearizable_per_inode Example.codec Example.sizes Example.emptyDb
    Example.stepsRemoveOverWrite (Example.after Example.stepsRemoveOverWrite)
    (by decide) rfl 5

/-- C2 (read precedence).  `loadOverlayDir n` answers from the waiting map when it
has `n` (the deserialized payload of a `Write`, absent for a `Remove`), whatever
the inflight map and the underlying catalog hold; otherwise from the inflight
map in the same way; and from the underlying catalog only when neither map has
`n`.  Moreover, once `save(n, d)` has been enqueued in a state reached by the
buffered write path, `load(n)` returns `d` after any further moves of the
worker: while the write waits, while it is inflight and after it completed. -/
theorem read_precedence {D : Type} (cd : Codec D) (c : Catalog) (n : InodeNumber) :
    (∀ op w s, c.state.waitingOperation n = some op → op.operationType = .Write →
        c.deref op.work = some w → w.odir = some s →
        loadOverlayDir cd c n = .ok (some (cd.deserialize s))) ∧
    (∀ op, c.state.waitingOperation n = some op → op.operationType = .Remove →
        loadOverlayDir cd c n = .ok none) ∧
    (∀ op w s, c.state.waitingOperation n = none → c.state.inflightOperation n = some op →
        op.operationType = .Write → c.deref op.work = some w → w.odir = some s →
        loadOverlayDir cd c n = .ok (some (cd.deserialize s))) ∧
    (∀ op, c.state.waitingOperation n = none → c.state.inflightOperation n = some op →
        op.operationType = .Remove → loadOverlayDir cd c n = .ok none) ∧
    (c.state.waitingOperation n = none → c.state.inflightOperation n = none →
        loadOverlayDir cd c n = .ok (LMDB.loadOverlayDir cd c.db n)) ∧
    (∀ (sz : Sizes) (db0 : LMDBInodeCatalog) (before later : List (Step D)) (d : D),
        (∀ x, cd.deserialize (cd.serialize x) = x) →
        (∀ s ∈ before, s.isBuffered = true) → (∀ s ∈ later, s.isWorkerMove = true) →
        run cd sz (Catalog.init db0) (before ++ [.save n d false] ++ later) = some c →
        loadOverlayDir cd c n = .ok (some d)) := by
  refine ⟨?_, ?_, ?_, ?_, ?_, ?_⟩
  · intro op w s hw hty hd hs
    simp [loadOverlayDir, readOperation, hw, hty, hd, hs]
  · intro op hw hty
    simp [loadOverlayDir, readOperation, hw, hty]
  · intro op w s hw hi hty hd hs
    simp [loadOverlayDir, readOperation, hw, hi, hty, hd, hs]
  · intro op hw hi hty
    simp [loadOverlayDir, readOperation, hw, hi, hty]
  · intro hw hi
    simp [loadOverlayDir, hw, hi]
  · intro sz db0 before later d hround hb hl hrun
    have hall : ∀ s ∈ before ++ [Step.save n d false] ++ later, s.isBuffered = true := by
      intro s hs
      simp only [List.mem_append, List.mem_singleton] at hs
      rcases hs with (hs | hs) | hs
      · exact hb s hs
      · subst hs; rfl
      · exact isBuffered_of_workerMove s (hl s hs)
    have hinv := inv_run cd sz db0 _ [] (Catalog.init db0) c (inv_init cd db0) hall hrun
    have hread := (inv_read cd db0 _ c hinv n).1
    rw [hread]
    have hops : enqueuedOps (before ++ [Step.save n d false] ++ later) =
        enqueuedOps before ++ [Op.save n d] := by
      have h3 := enqueuedOps_workerMoves later hl
      simp only [enqueuedOps] at h3 ⊢
      simp [List.filterMap_append, h3, Step.enqueued]
    simp only [List.nil_append, hops, applySyncAll_append, Op.applySync, LMDB.loadOverlayDir,
      LMDB.saveOverlayDir, setAt_same, Option.map_some', hround]

/-- Witness of C2 on scenario 6 of the spec: `save(5, "D")` is answered from the
waiting map, then from the inflight map, then from the underlying catalog; a
waiting remove hides the inflight write. -/
theorem read_precedence_witness :
    loadOverlayDir Example.codec (Example.after Example.stepsWaiting) 5 = .ok (some "D") ∧
    loadOverlayDir Example.codec (Example.after Example.stepsRemoveOverWrite) 5 = .ok none ∧
    loadOverlayDir Example.codec (Example.after Example.stepsInflight) 5 = .ok (some "D") ∧
    loadOverlayDir Example.codec (Example.after Example.stepsDone) 5 = .ok (some "D") ∧
    loadOverlayDir Example.codec (Example.after Example.stepsDone) 5 =
      .ok (LMDB.loadOverlayDir Example.codec (Example.after Example.stepsDone).db 5) :=
  ⟨(read_precedence Example.codec (Example.after Example.stepsWaiting) 5).1
      ⟨.Write, 0⟩ ⟨.saveOverlayDir 5 "D", some "D", 34⟩ "D" rfl rfl rfl rfl,
   (read_precedence Example.codec (Example.after Example.stepsRemoveOverWrite) 5).2.1
      ⟨.Remove, 1⟩ rfl rfl,
   (read_precedence Example.codec (Example.after Example.stepsInflight) 5).2.2.1
      ⟨.Write, 0⟩ ⟨.saveOverlayDir 5 "D", some "D", 34⟩ "D" rfl rfl rfl rfl rfl,
   (read_precedence Example.codec (Example.after Example.stepsDone) 5).2.2.2.2.2
      Example.sizes Example.emptyDb [] [.workerClear, .workerTake, .workerExec, .workerClear] "D"
      (fun _ => rfl) (by decide) (by decide) rfl,
   (read_precedence Example.codec (Example.after Example.stepsDone) 5).2.2.2.2.1 rfl rfl⟩

/-! ### C20: the shutdown of the worker thread -/

/-- The catalog that `process` leaves when it drops the request: only the
allocator moved. -/
theorem process_dropped_eq (sz : Sizes) (c c1 : Catalog) (fn : WorkFn) (cap key : Nat)
    (ty : OperationType) (odir : Option String) (t : Bool)
    (hp : process sz c fn cap key ty odir t = .dropped c1) :
    c1 = { c with nextWork := c.nextWork + 1 } := by
  unfold process at hp
  simp only [] at hp
  split at hp
  · cases hp
  · split at hp
    · injection hp with hp
      exact hp.symm
    · split at hp <;> cases hp

/-- A call of `process` after a stop request drops the request and changes
neither the queue nor the maps nor the total size. -/
theorem process_after_stop (sz : Sizes) (c : Catalog) (fn : WorkFn) (cap key : Nat)
    (ty : OperationType) (odir : Option String) (t : Bool)
    (hs : c.state.workerThreadStopRequested = true) :
    process sz c fn cap key ty odir t = .dropped { c with nextWork := c.nextWork + 1 } := by
  unfold process
  simp [hs]

/-- What a call of `process` does to the queue and the worker. -/
theorem process_effect (sz : Sizes) (c c1 : Catalog) (fn : WorkFn) (cap key : Nat)
    (ty : OperationType) (odir : Option String) (t : Bool)
    (hp : (process sz c fn cap key ty odir t).after = some c1) :
    c1.pc = c.pc ∧ c1.workerWork = c.workerWork ∧
    c1.state.workerThreadStopRequested = c.state.workerThreadStopRequested ∧
    c.nextWork ≤ c1.nextWork ∧
    (c1.state.work = c.state.work ∨
      (c.state.workerThreadStopRequested = false ∧
        ∃ w, w.operation = fn ∧ c1.state.work = c.state.work ++ [(c.nextWork, w)] ∧
          c1.nextWork = c.nextWork + 1)) := by
  cases hres : process sz c fn cap key ty odir t with
  | blocked => rw [hres] at hp; cases hp
  | dropped c2 =>
    rw [hres] at hp
    cases hp
    rw [process_dropped_eq sz c c1 fn cap key ty odir t hres]
    exact ⟨rfl, rfl, rfl, Nat.le_succ _, Or.inl rfl⟩
  | pushed c2 =>
    rw [hres] at hp
    cases hp
    obtain ⟨h1, _, h3⟩ := process_pushed_eq sz c c1 fn cap key ty odir t hres
    rw [h3]
    exact ⟨rfl, rfl, rfl, Nat.le_succ _, Or.inr ⟨h1, _, rfl, rfl, rfl⟩⟩
  | rethrown c2 =>
    rw [hres] at hp
    cases hp
    obtain ⟨_, h3⟩ := process_rethrown_eq sz c c1 fn cap key ty odir t hres
    rw [h3]
    exact ⟨rfl, rfl, rfl, Nat.le_succ _, Or.inl rfl⟩

/-- What a step of a client thread other than the stop request does to the
queue and the worker: it leaves them, or it appends one item that is no stop
event, at the next address. -/
theorem client_effect {D : Type} (cd : Codec D) (sz : Sizes) (c c1 : Catalog) (s : Step D)
    (hw : s.isWorkerMove = false) (hns : s ≠ .stop) (hs : step cd sz c s = some c1) :
    c1.pc = c.pc ∧ c1.workerWork = c.workerWork ∧
    c1.state.workerThreadStopRequested = c.state.workerThreadStopRequested ∧
    c.nextWork ≤ c1.nextWork ∧
    (c1.state.work = c.state.work ∨
      ∃ w, w.operation ≠ .stop ∧ c1.state.work = c.state.work ++ [(c.nextWork, w)] ∧
        c1.nextWork = c.nextWork + 1) := by
  cases s with
  | save ino odir t =>
    obtain ⟨h1, h2, h3, h4, h5⟩ := process_effect sz c c1 _ _ _ _ _ _ hs
    refine ⟨h1, h2, h3, h4, ?_⟩
    rcases h5 with h | ⟨_, w, hw1, hw2, hw3⟩
    · exact Or.inl h
    · exact Or.inr ⟨w, by rw [hw1]; simp, hw2, hw3⟩
  | remove ino t =>
    obtain ⟨h1, h2, h3, h4, h5⟩ := process_effect sz c c1 _ _ _ _ _ _ hs
    refine ⟨h1, h2, h3, h4, ?_⟩
    rcases h5 with h | ⟨_, w, hw1, hw2, hw3⟩
    · exact Or.inl h
    · exact Or.inr ⟨w, by rw [hw1]; simp, hw2, hw3⟩
  | loadAndRemove ino t =>
    simp only [step] at hs
    unfold loadAndRemoveOverlayDir at hs
    simp only [] at hs
    have hproc : (process sz c (.loadAndRemoveOverlayDir ino) 0 ino .Remove none t).after =
        some c1 →
        c1.pc = c.pc ∧ c1.workerWork = c.workerWork ∧
        c1.state.workerThreadStopRequested = c.state.workerThreadStopRequested ∧
        c.nextWork ≤ c1.nextWork ∧
        (c1.state.work = c.state.work ∨
          ∃ w, w.operation ≠ .stop ∧ c1.state.work = c.state.work ++ [(c.nextWork, w)] ∧
            c1.nextWork = c.nextWork + 1) := by
      intro h
      obtain ⟨h1, h2, h3, h4, h5⟩ := process_effect sz c c1 _ _ _ _ _ _ h
      refine ⟨h1, h2, h3, h4, ?_⟩
      rcases h5 with h | ⟨_, w, hw1, hw2, hw3⟩
      · exact Or.inl h
      · exact Or.inr ⟨w, by rw [hw1]; simp, hw2, hw3⟩
    cases hwo : c.state.waitingOperation ino with
    | some op =>
      simp only [hwo] at hs
      cases hty : op.operationType with
      | Write =>
        simp only [hty] at hs
        cases hr : readOperation cd c op with
        | error e => simp only [hr] at hs; cases hs
        | ok odir => simp only [hr] at hs; exact hproc hs
      | Remove =>
        simp only [hty] at hs
        cases hs
        exact ⟨rfl, rfl, rfl, le_refl _, Or.inl rfl⟩
    | none =>
      simp only [hwo] at hs
      cases hio : c.state.inflightOperation ino with
      | some op =>
        simp only [hio] at hs
        cases hty : op.operationType with
        | Write =>
          simp only [hty] at hs
          cases hr : readOperation cd c op with
          | error e => simp only [hr] at hs; cases hs
          | ok odir => simp only [hr] at hs; exact hproc hs
        | Remove =>
          simp only [hty] at hs
          cases hs
          exact ⟨rfl, rfl, rfl, le_refl _, Or.inl rfl⟩
      | none =>
        simp only [hio] at hs
        cases hs
        exact ⟨rfl, rfl, rfl, le_refl _, Or.inl rfl⟩
  | workerClear => cases hw
  | workerTake => cases hw
  | workerExec => cases hw
  | stop => exact absurd rfl hns
  | pause =>
    cases hs
    exact ⟨rfl, rfl, rfl, Nat.le_succ _, Or.inr ⟨_, by simp, rfl, rfl⟩⟩
  | flush =>
    cases hs
    exact ⟨rfl, rfl, rfl, Nat.le_succ _, Or.inr ⟨_, by simp, rfl, rfl⟩⟩
/-- Where two splittings of a list meet: the first marked element. -/
theorem append_cons_inj_of_marked {α : Type} (P : α → Prop) (xs pre later ys : List α) (ev s : α)
    (h : xs ++ ev :: ys = pre ++ s :: later) (hlen : xs.length ≤ pre.length)
    (hpre : ∀ x ∈ pre, ¬ P x) (hev : P ev) : xs = pre ∧ ev = s := by
  rcases List.append_eq_append_iff.1 h with ⟨a, ha1, ha2⟩ | ⟨c, hc1, hc2⟩
  · cases a with
    | nil =>
      simp only [List.nil_append, List.cons.injEq] at ha2
      exact ⟨by simpa using ha1.symm, ha2.1⟩
    | cons x rest =>
      simp only [List.cons_append, List.cons.injEq] at ha2
      exact absurd hev (ha2.1 ▸ hpre x (by rw [ha1]; simp))
  · cases c with
    | nil =>
      simp only [List.nil_append, List.cons.injEq] at hc2
      exact ⟨by simpa using hc1, hc2.1.symm⟩
    | cons x rest =>
      rw [hc1] at hlen
      simp at hlen

/-- Before the marked element of the second splitting the first splitting is
strictly shorter if its own element is not marked. -/
theorem length_lt_of_unmarked {α : Type} (P : α → Prop) (xs pre later ys : List α) (ev s : α)
    (h : xs ++ ev :: ys = pre ++ s :: later) (hlen : xs.length ≤ pre.length)
    (hev : ¬ P ev) (hs : P s) : xs.length < pre.length := by
  rcases Nat.lt_or_ge xs.length pre.length with hlt | hge
  · exact hlt
  · have hl : xs.length = pre.length := Nat.le_antisymm hlen hge
    obtain ⟨_, h2⟩ := List.append_inj h hl
    simp only [List.cons.injEq] at h2
    exact absurd (h2.1 ▸ hs) hev

theorem run_stop_iff (fn : WorkFn) (db : LMDBInodeCatalog) :
    (fn.run db).2 = true ↔ fn = .stop := by
  cases fn <;> simp [WorkFn.run]

theorem executedBy_client {D : Type} (s : Step D) (c : Catalog) (hw : s.isWorkerMove = false) :
    s.executedBy c = [] := by
  cases s <;> first | rfl | cases hw

theorem pushedBy_client {D : Type} (s : Step D) (c c1 : Catalog) (hw : s.isWorkerMove = false) :
    s.pushedBy c c1 = c1.state.work.drop c.state.work.length := by
  simp [Step.pushedBy, hw]

theorem pushedBy_worker {D : Type} (s : Step D) (c c1 : Catalog) (hw : s.isWorkerMove = true) :
    s.pushedBy c c1 = [] := by
  simp [Step.pushedBy, hw]

theorem remaining_congr (c c1 : Catalog) (h1 : c1.pc = c.pc) (h2 : c1.workerWork = c.workerWork) :
    c1.remaining = c.remaining := by
  simp only [Catalog.remaining, h1, h2]

/-- The invariant of the logs survives a step of a client thread that leaves
the queue or appends one item at the next address. -/
theorem logInv_client (l : Logged) (c1 : Catalog) (delta : List (Nat × Work))
    (hinv : LogInv l) (hpc : c1.pc = l.catalog.pc) (hww : c1.workerWork = l.catalog.workerWork)
    (hnext : l.catalog.nextWork ≤ c1.nextWork)
    (hwork : c1.state.work = l.catalog.state.work ++ delta)
    (hdelta : delta = [] ∨
      ∃ w, delta = [(l.catalog.nextWork, w)] ∧ c1.nextWork = l.catalog.nextWork + 1) :
    LogInv { catalog := c1, pushed := l.pushed ++ delta, executed := l.executed ++ [] } where
  fresh := by
    intro ev hev
    simp only [List.mem_append] at hev
    rcases hev with h | h
    · exact Nat.lt_of_lt_of_le (hinv.fresh ev h) hnext
    · rcases hdelta with hd | ⟨w, hd, hn⟩
      · rw [hd] at h; cases h
      · rw [hd] at h
        simp only [List.mem_singleton] at h
        subst h
        show l.catalog.nextWork < c1.nextWork
        omega
  nodup := by
    rcases hdelta with hd | ⟨w, hd, hn⟩
    · rw [hd]
      simpa using hinv.nodup
    · rw [hd]
      simp only [List.map_append, List.map_cons, List.map_nil]
      rw [List.nodup_append]
      refine ⟨hinv.nodup, by simp, ?_⟩
      intro a ha hb
      simp only [List.mem_singleton] at hb
      obtain ⟨ev, hev, rfl⟩ := List.mem_map.1 ha
      have := hinv.fresh ev hev
      omega
  queue := by
    intro hp
    show (l.executed ++ []) ++ (c1.remaining ++ c1.state.work) = l.pushed ++ delta
    rw [remaining_congr l.catalog c1 hpc hww, hwork, List.append_nil, ← hinv.queue (hpc ▸ hp)]
    simp only [List.append_assoc]
  idle := by
    intro hp
    show c1.workerWork = []
    rw [hww]
    exact hinv.idle (hpc ▸ hp)

/-- The invariant of the logs survives the moves of the worker thread. -/
theorem logInv_worker {D : Type} (cd : Codec D) (sz : Sizes) (l : Logged) (c1 : Catalog)
    (s : Step D) (hinv : LogInv l) (hw : s.isWorkerMove = true)
    (hs : step cd sz l.catalog s = some c1) :
    LogInv { catalog := c1, pushed := l.pushed ++ [],
             executed := l.executed ++ s.executedBy l.catalog } ∧
    c1.nextWork = l.catalog.nextWork ∧
    c1.state.workerThreadStopRequested = l.catalog.state.workerThreadStopRequested := by
  cases s with
  | save ino odir t => cases hw
  | remove ino t => cases hw
  | loadAndRemove ino t => cases hw
  | stop => cases hw
  | pause => cases hw
  | flush => cases hw
  | workerClear =>
    simp only [step, workerClear] at hs
    cases hpc : l.catalog.pc with
    | running i =>
      rw [hpc] at hs
      simp only [] at hs
      split at hs
      · rename_i hlen
        cases hs
        refine ⟨⟨?_, ?_, ?_, ?_⟩, rfl, rfl⟩
        · simpa using hinv.fresh
        · simpa using hinv.nodup
        · intro _
          have := hinv.queue (Or.inr ⟨i, hpc⟩)
          simp only [Catalog.remaining, hpc, List.drop_eq_nil_of_le hlen] at this
          simpa [Step.executedBy, Catalog.remaining] using this
        · intro _; rfl
      · cases hs
    | waiting => rw [hpc] at hs; cases hs
    | exited => rw [hpc] at hs; cases hs
    | aborted => rw [hpc] at hs; cases hs
  | workerTake =>
    simp only [step, workerTake] at hs
    cases hpc : l.catalog.pc with
    | waiting =>
      rw [hpc] at hs
      simp only [] at hs
      have hidle := hinv.idle hpc
      have hq := hinv.queue (Or.inl hpc)
      simp only [Catalog.remaining, hpc, List.nil_append] at hq
      split at hs
      · cases hs
      · split at hs
        · cases hs
          refine ⟨⟨?_, ?_, ?_, ?_⟩, rfl, rfl⟩
          · simpa using hinv.fresh
          · simpa using hinv.nodup
          · intro _
            simp [Step.executedBy, hpc, Catalog.remaining, hidle, hq]
          · intro h; cases h
        · cases hs
          refine ⟨⟨?_, ?_, ?_, ?_⟩, rfl, rfl⟩
          · simpa using hinv.fresh
          · simpa using hinv.nodup
          · intro h
            rcases h with h | ⟨i, h⟩ <;> cases h
          · intro h; cases h
    | running i => rw [hpc] at hs; cases hs
    | exited => rw [hpc] at hs; cases hs
    | aborted => rw [hpc] at hs; cases hs
  | workerExec =>
    simp only [step, workerExec] at hs
    cases hpc : l.catalog.pc with
    | running i =>
      rw [hpc] at hs
      simp only [] at hs
      cases hget : l.catalog.workerWork.get? i with
      | none => rw [hget] at hs; cases hs
      | some ev =>
        rw [hget] at hs
        simp only [] at hs
        have hq := hinv.queue (Or.inr ⟨i, hpc⟩)
        simp only [Catalog.remaining, hpc, drop_of_get? _ _ _ hget] at hq
        split at hs
        · cases hs
          refine ⟨⟨?_, ?_, ?_, ?_⟩, rfl, rfl⟩
          · simpa using hinv.fresh
          · simpa using hinv.nodup
          · intro h
            rcases h with h | ⟨j, h⟩ <;> cases h
          · intro h; cases h
        · cases hs
          refine ⟨⟨?_, ?_, ?_, ?_⟩, rfl, rfl⟩
          · simpa using hinv.fresh
          · simpa using hinv.nodup
          · intro _
            simp only [Step.executedBy, hpc, hget, Option.toList, Catalog.remaining,
              List.append_nil]
            rw [← hq]
            simp
          · intro h; cases h
    | waiting => rw [hpc] at hs; cases hs
    | exited => rw [hpc] at hs; cases hs
    | aborted => rw [hpc] at hs; cases hs
/-- What a move of the worker thread does: it calls no closure and does not
return, or it calls the closure of the next item of its batch and returns
exactly if that is a stop event. -/
theorem worker_move_cases {D : Type} (cd : Codec D) (sz : Sizes) (l : Logged) (c1 : Catalog)
    (s : Step D) (hinv : LogInv l) (hw : s.isWorkerMove = true)
    (hs : step cd sz l.catalog s = some c1) :
    (s.executedBy l.catalog = [] ∧ c1.pc ≠ .exited ∧
      (l.catalog.pc = .waiting ∨ ∃ i, l.catalog.pc = .running i)) ∨
    ∃ i ev rest, l.catalog.pc = .running i ∧ s.executedBy l.catalog = [ev] ∧
      l.executed ++ ev :: (rest ++ l.catalog.state.work) = l.pushed ∧
      ((ev.2.operation = .stop ∧ c1.pc = .exited) ∨
        (ev.2.operation ≠ .stop ∧ c1.pc = .running (i + 1))) := by
  cases s with
  | save ino odir t => cases hw
  | remove ino t => cases hw
  | loadAndRemove ino t => cases hw
  | stop => cases hw
  | pause => cases hw
  | flush => cases hw
  | workerClear =>
    left
    simp only [step, workerClear] at hs
    cases hpc : l.catalog.pc with
    | running i =>
      rw [hpc] at hs
      simp only [] at hs
      split at hs
      · cases hs
        exact ⟨rfl, by simp, Or.inr ⟨i, rfl⟩⟩
      · cases hs
    | waiting => rw [hpc] at hs; cases hs
    | exited => rw [hpc] at hs; cases hs
    | aborted => rw [hpc] at hs; cases hs
  | workerTake =>
    left
    simp only [step, workerTake] at hs
    cases hpc : l.catalog.pc with
    | waiting =>
      rw [hpc] at hs
      simp only [] at hs
      split at hs
      · cases hs
      · split at hs
        · cases hs
          exact ⟨rfl, by simp, Or.inl rfl⟩
        · cases hs
          exact ⟨rfl, by simp, Or.inl rfl⟩
    | running i => rw [hpc] at hs; cases hs
    | exited => rw [hpc] at hs; cases hs
    | aborted => rw [hpc] at hs; cases hs
  | workerExec =>
    right
    simp only [step, workerExec] at hs
    cases hpc : l.catalog.pc with
    | running i =>
      rw [hpc] at hs
      simp only [] at hs
      cases hget : l.catalog.workerWork.get? i with
      | none => rw [hget] at hs; cases hs
      | some ev =>
        rw [hget] at hs
        simp only [] at hs
        have hq := hinv.queue (Or.inr ⟨i, hpc⟩)
        simp only [Catalog.remaining, hpc, drop_of_get? _ _ _ hget, List.cons_append] at hq
        refine ⟨i, ev, _, rfl, by simp only [Step.executedBy, hpc, hget, Option.toList], hq, ?_⟩
        split at hs
        · rename_i hr
          cases hs
          exact Or.inl ⟨(run_stop_iff _ _).1 hr, rfl⟩
        · rename_i hr
          cases hs
          exact Or.inr ⟨fun h => hr ((run_stop_iff _ _).2 h), rfl⟩
    | waiting => rw [hpc] at hs; cases hs
    | exited => rw [hpc] at hs; cases hs
    | aborted => rw [hpc] at hs; cases hs

theorem drop_append_length {α : Type} (xs delta : List α) :
    (xs ++ delta).drop xs.length = delta := by
  simp

/-- The logs before a stop request stay so as long as no stop is requested. -/
theorem beforeStop_step {D : Type} (cd : Codec D) (sz : Sizes) (l l1 : Logged) (s : Step D)
    (hinv : BeforeStop l) (hns : s ≠ .stop) (hs : stepLogged cd sz l s = some l1) :
    BeforeStop l1 := by
  unfold stepLogged at hs
  cases hst : step cd sz l.catalog s with
  | none => rw [hst] at hs; cases hs
  | some c1 =>
    rw [hst] at hs
    simp only [Option.map_some', Option.some.injEq] at hs
    subst hs
    cases hw : s.isWorkerMove with
    | false =>
      obtain ⟨h1, h2, h3, h4, h5⟩ := client_effect cd sz l.catalog c1 s hw hns hst
      rw [executedBy_client s _ hw, pushedBy_client s _ _ hw]
      rcases h5 with h | ⟨w, hwns, hwork, hnext⟩
      · rw [h, List.drop_length]
        exact
          { toLogInv := logInv_client l c1 [] hinv.toLogInv h1 h2 h4 (by rw [h]; simp) (Or.inl rfl)
            noStop := h3.trans hinv.noStop
            noStopWork := by simpa using hinv.noStopWork
            alive := by rw [h1]; exact hinv.alive }
      · rw [hwork, drop_append_length]
        exact
          { toLogInv := logInv_client l c1 _ hinv.toLogInv h1 h2 h4 hwork (Or.inr ⟨w, rfl, hnext⟩)
            noStop := h3.trans hinv.noStop
            noStopWork := by
              intro ev hev
              rcases List.mem_append.1 hev with h | h
              · exact hinv.noStopWork ev h
              · simp only [List.mem_singleton] at h
                subst h
                exact hwns
            alive := by rw [h1]; exact hinv.alive }
    | true =>
      obtain ⟨hlog, _, hstop⟩ := logInv_worker cd sz l c1 s hinv.toLogInv hw hst
      rw [pushedBy_worker s _ _ hw]
      refine { toLogInv := hlog, noStop := hstop.trans hinv.noStop, noStopWork := ?_, alive := ?_ }
      · simpa using hinv.noStopWork
      · rcases worker_move_cases cd sz l c1 s hinv.toLogInv hw hst with
          ⟨_, h, _⟩ | ⟨i, ev, rest, _, _, hq, h | h⟩
        · exact h
        · exact absurd h.1 (hinv.noStopWork ev (by rw [← hq]; simp))
        · show c1.pc ≠ .exited
          rw [h.2]
          simp

theorem beforeStop_run {D : Type} (cd : Codec D) (sz : Sizes) (steps : List (Step D)) :
    ∀ (l l1 : Logged), BeforeStop l → (∀ s ∈ steps, s ≠ .stop) →
      runLogged cd sz l steps = some l1 → BeforeStop l1 := by
  induction steps with
  | nil =>
    intro l l1 hinv _ hr
    cases hr
    exact hinv
  | cons s rest ih =>
    intro l l1 hinv hns hr
    simp only [runLogged] at hr
    cases hst : stepLogged cd sz l s with
    | none => rw [hst] at hr; cases hr
    | some l2 =>
      rw [hst] at hr
      exact ih l2 l1 (beforeStop_step cd sz l l2 s hinv (hns s (List.mem_cons_self _ _)) hst)
        (fun x hx => hns x (List.mem_cons_of_mem _ hx)) hr

/-- The first stop request pushes the stop event behind everything pushed
before. -/
theorem stop_step {D : Type} (cd : Codec D) (sz : Sizes) (l l1 : Logged)
    (hinv : BeforeStop l) (hs : stepLogged cd sz l (.stop : Step D) = some l1) :
    AfterStop l.pushed l.catalog.nextWork l1 := by
  simp only [stepLogged, step, Option.map_some', Option.some.injEq] at hs
  subst hs
  have hc1 : stopWorkerThread l.catalog =
      { l.catalog with
        state :=
          { l.catalog.state with
            workerThreadStopRequested := true
            work := l.catalog.state.work ++ [(l.catalog.nextWork, stopWork)] }
        nextWork := l.catalog.nextWork + 1 } := by
    simp [stopWorkerThread, hinv.noStop, stopWork]
  rw [hc1]
  have hpush : (Step.stop : Step D).pushedBy l.catalog
      { l.catalog with
        state :=
          { l.catalog.state with
            workerThreadStopRequested := true
            work := l.catalog.state.work ++ [(l.catalog.nextWork, stopWork)] }
        nextWork := l.catalog.nextWork + 1 } = [(l.catalog.nextWork, stopWork)] := by
    simp [Step.pushedBy, Step.isWorkerMove]
  have hexec : (Step.stop : Step D).executedBy l.catalog = [] := executedBy_client _ _ rfl
  rw [hpush, hexec]
  exact
    { toLogInv := logInv_client l _ _ hinv.toLogInv rfl rfl (Nat.le_succ _) rfl
        (Or.inr ⟨stopWork, rfl, rfl⟩)
      stop := rfl
      pushed := ⟨[], rfl, by simpa using hinv.noStopWork⟩
      live := by
        intro hp
        have hq := hinv.queue hp
        simp only [List.append_nil]
        rw [← hq]
        simp
      done := by
        intro hp
        exact absurd hp hinv.alive }
/-- The logs after the stop request stay so. -/
theorem afterStop_step {D : Type} (cd : Codec D) (sz : Sizes) (pre : List (Nat × Work)) (a : Nat)
    (l l1 : Logged) (s : Step D) (hinv : AfterStop pre a l)
    (hs : stepLogged cd sz l s = some l1) : AfterStop pre a l1 := by
  unfold stepLogged at hs
  cases hst : step cd sz l.catalog s with
  | none => rw [hst] at hs; cases hs
  | some c1 =>
    rw [hst] at hs
    simp only [Option.map_some', Option.some.injEq] at hs
    subst hs
    obtain ⟨later, hpushed, hlater⟩ := hinv.pushed
    cases hw : s.isWorkerMove with
    | false =>
      rw [executedBy_client s _ hw, pushedBy_client s _ _ hw]
      have hkeep : ∀ (delta : List (Nat × Work)), (∀ ev ∈ delta, ev.2.operation ≠ .stop) →
          c1.pc = l.catalog.pc → c1.state.workerThreadStopRequested = true →
          LogInv { catalog := c1, pushed := l.pushed ++ delta, executed := l.executed ++ [] } →
          AfterStop pre a
            { catalog := c1, pushed := l.pushed ++ delta, executed := l.executed ++ [] } := by
        intro delta hd hpc hstop hlog
        exact
          { toLogInv := hlog
            stop := hstop
            pushed := ⟨later ++ delta, by rw [hpushed]; simp, by
              intro ev hev
              simp only [List.mem_append] at hev
              rcases hev with h | h | h
              · exact hlater ev (List.mem_append_left _ h)
              · exact hlater ev (List.mem_append_right _ h)
              · exact hd ev h⟩
            live := by
              intro hp
              simp only [List.append_nil]
              exact hinv.live (hpc ▸ hp)
            done := by
              intro hp
              simp only [List.append_nil]
              exact hinv.done (hpc ▸ hp) }
      by_cases hstop : s = .stop
      · subst hstop
        simp only [step, Option.some.injEq] at hst
        have hc : c1 = l.catalog := by
          rw [← hst]
          simp [stopWorkerThread, hinv.stop]
        subst hc
        rw [List.drop_length]
        exact hkeep [] (by simp) rfl hinv.stop
          (logInv_client l _ [] hinv.toLogInv rfl rfl (le_refl _) (by simp) (Or.inl rfl))
      · obtain ⟨h1, h2, h3, h4, h5⟩ := client_effect cd sz l.catalog c1 s hw hstop hst
        rcases h5 with h | ⟨w, hwns, hwork, hnext⟩
        · rw [h, List.drop_length]
          exact hkeep [] (by simp) h1 (h3.trans hinv.stop)
            (logInv_client l c1 [] hinv.toLogInv h1 h2 h4 (by rw [h]; simp) (Or.inl rfl))
        · rw [hwork, drop_append_length]
          refine hkeep _ ?_ h1 (h3.trans hinv.stop)
            (logInv_client l c1 _ hinv.toLogInv h1 h2 h4 hwork (Or.inr ⟨w, rfl, hnext⟩))
          intro ev hev
          simp only [List.mem_singleton] at hev
          subst hev
          exact hwns
    | true =>
      obtain ⟨hlog, _, hstop⟩ := logInv_worker cd sz l c1 s hinv.toLogInv hw hst
      rw [pushedBy_worker s _ _ hw]
      have hpush1 : l.pushed ++ [] = pre ++ (a, stopWork) :: later := by simpa using hpushed
      rcases worker_move_cases cd sz l c1 s hinv.toLogInv hw hst with
        ⟨hex, hne, hp0⟩ | ⟨i, ev, rest, hp0, hex, hq, h | h⟩
      · exact
          { toLogInv := hlog
            stop := hstop.trans hinv.stop
            pushed := ⟨later, hpush1, hlater⟩
            live := by
              intro _
              show (l.executed ++ s.executedBy l.catalog).length ≤ pre.length
              rw [hex, List.append_nil]
              exact hinv.live hp0
            done := by
              intro hp
              exact absurd hp hne }
      · have hlen := hinv.live (Or.inr ⟨i, hp0⟩)
        rw [hpushed] at hq
        obtain ⟨hxs, hev⟩ := append_cons_inj_of_marked (fun x => x.2.operation = .stop) _ _ _ _ _ _
          hq hlen (fun x hx => hlater x (List.mem_append_left _ hx)) h.1
        exact
          { toLogInv := hlog
            stop := hstop.trans hinv.stop
            pushed := ⟨later, hpush1, hlater⟩
            live := by
              intro hp
              have hp1 : c1.pc = .waiting ∨ ∃ j, c1.pc = .running j := hp
              rw [h.2] at hp1
              rcases hp1 with h1 | ⟨j, h1⟩ <;> cases h1
            done := by
              intro _
              show l.executed ++ s.executedBy l.catalog = pre ++ [(a, stopWork)]
              rw [hex, hxs, hev] }
      · have hlen := hinv.live (Or.inr ⟨i, hp0⟩)
        rw [hpushed] at hq
        have hlt := length_lt_of_unmarked (fun x => x.2.operation = .stop) _ _ _ _ _ _
          hq hlen h.1 rfl
        exact
          { toLogInv := hlog
            stop := hstop.trans hinv.stop
            pushed := ⟨later, hpush1, hlater⟩
            live := by
              intro _
              show (l.executed ++ s.executedBy l.catalog).length ≤ pre.length
              rw [hex]
              simp only [List.length_append, List.length_singleton]
              omega
            done := by
              intro hp
              have hp1 : c1.pc = .exited := hp
              rw [h.2] at hp1
              cases hp1 }

theorem afterStop_run {D : Type} (cd : Codec D) (sz : Sizes) (pre : List (Nat × Work)) (a : Nat)
    (steps : List (Step D)) :
    ∀ (l l1 : Logged), AfterStop pre a l → runLogged cd sz l steps = some l1 →
      AfterStop pre a l1 := by
  induction steps with
  | nil =>
    intro l l1 hinv hr
    cases hr
    exact hinv
  | cons s rest ih =>
    intro l l1 hinv hr
    simp only [runLogged] at hr
    cases hst : stepLogged cd sz l s with
    | none => rw [hst] at hr; cases hr
    | some l2 =>
      rw [hst] at hr
      exact ih l2 l1 (afterStop_step cd sz pre a l l2 s hinv hst) hr

theorem beforeStop_init (db : LMDBInodeCatalog) : BeforeStop (Logged.init db) where
  fresh := by intro ev h; cases h
  nodup := by simp [Logged.init]
  queue := by intro _; rfl
  idle := by intro h; cases h
  noStop := rfl
  noStopWork := by intro ev h; cases h
  alive := by simp [Logged.init, Catalog.init]

/-- The logs do not change what the catalog does. -/
theorem runLogged_catalog {D : Type} (cd : Codec D) (sz : Sizes) (steps : List (Step D)) :
    ∀ l, (runLogged cd sz l steps).map (fun l1 => l1.catalog) = run cd sz l.catalog steps := by
  induction steps with
  | nil => intro l; rfl
  | cons s rest ih =>
    intro l
    simp only [runLogged, run, stepLogged]
    cases hst : step cd sz l.catalog s with
    | none => rfl
    | some c1 =>
      simp only [Option.map_some']
      exact ih _

theorem process_db (sz : Sizes) (c c1 : Catalog) (fn : WorkFn) (cap key : Nat)
    (ty : OperationType) (odir : Option String) (t : Bool)
    (hp : (process sz c fn cap key ty odir t).after = some c1) : c1.db = c.db := by
  cases hres : process sz c fn cap key ty odir t with
  | blocked => rw [hres] at hp; cases hp
  | dropped c2 =>
    rw [hres] at hp
    cases hp
    rw [process_dropped_eq sz c c1 fn cap key ty odir t hres]
  | pushed c2 =>
    rw [hres] at hp
    cases hp
    obtain ⟨_, _, h3⟩ := process_pushed_eq sz c c1 fn cap key ty odir t hres
    rw [h3]
  | rethrown c2 =>
    rw [hres] at hp
    cases hp
    obtain ⟨_, h3⟩ := process_rethrown_eq sz c c1 fn cap key ty odir t hres
    rw [h3]

/-- A step changes the underlying catalog by the calls it makes on it, and by
nothing else. -/
theorem step_db {D : Type} (cd : Codec D) (sz : Sizes) (c c1 : Catalog) (s : Step D)
    (hs : step cd sz c s = some c1) : c1.db = replayCalls (s.callsBy c) c.db := by
  cases s with
  | save ino odir t => exact process_db sz c c1 _ _ _ _ _ _ hs
  | remove ino t => exact process_db sz c c1 _ _ _ _ _ _ hs
  | loadAndRemove ino t =>
    simp only [step] at hs
    unfold loadAndRemoveOverlayDir at hs
    simp only [] at hs
    simp only [Step.callsBy]
    cases hwo : c.state.waitingOperation ino with
    | some op =>
      simp only [hwo] at hs
      cases hty : op.operationType with
      | Write =>
        simp only [hty] at hs
        cases hr : readOperation cd c op with
        | error e => simp only [hr] at hs; cases hs
        | ok odir => simp only [hr] at hs; exact process_db sz c c1 _ _ _ _ _ _ hs
      | Remove =>
        simp only [hty] at hs
        cases hs
        rfl
    | none =>
      simp only [hwo] at hs
      cases hio : c.state.inflightOperation ino with
      | some op =>
        simp only [hio] at hs
        cases hty : op.operationType with
        | Write =>
          simp only [hty] at hs
          cases hr : readOperation cd c op with
          | error e => simp only [hr] at hs; cases hs
          | ok odir => simp only [hr] at hs; exact process_db sz c c1 _ _ _ _ _ _ hs
        | Remove =>
          simp only [hty] at hs
          cases hs
          rfl
      | none =>
        simp only [hio] at hs
        cases hs
        rfl
  | workerClear =>
    simp only [step, workerClear] at hs
    cases hpc : c.pc with
    | running i =>
      rw [hpc] at hs
      simp only [] at hs
      split at hs
      · cases hs
        simp [Step.callsBy, Step.executedBy, replayCalls]
      · cases hs
    | waiting => rw [hpc] at hs; cases hs
    | exited => rw [hpc] at hs; cases hs
    | aborted => rw [hpc] at hs; cases hs
  | workerTake =>
    simp only [step, workerTake] at hs
    cases hpc : c.pc with
    | waiting =>
      rw [hpc] at hs
      simp only [] at hs
      split at hs
      · cases hs
      · split at hs
        · cases hs
          simp [Step.callsBy, Step.executedBy, replayCalls]
        · cases hs
          simp [Step.callsBy, Step.executedBy, replayCalls]
    | running i => rw [hpc] at hs; cases hs
    | exited => rw [hpc] at hs; cases hs
    | aborted => rw [hpc] at hs; cases hs
  | workerExec =>
    simp only [step, workerExec] at hs
    cases hpc : c.pc with
    | running i =>
      rw [hpc] at hs
      simp only [] at hs
      cases hget : c.workerWork.get? i with
      | none => rw [hget] at hs; cases hs
      | some ev =>
        rw [hget] at hs
        simp only [] at hs
        have hcalls : (Step.workerExec : Step D).callsBy c = [.closure ev] := by
          simp only [Step.callsBy, Step.executedBy, hpc, hget, Option.toList, List.map_cons,
            List.map_nil]
        rw [hcalls]
        split at hs
        · cases hs
          rfl
        · cases hs
          rfl
    | waiting => rw [hpc] at hs; cases hs
    | exited => rw [hpc] at hs; cases hs
    | aborted => rw [hpc] at hs; cases hs
  | stop =>
    simp only [step, Option.some.injEq] at hs
    subst hs
    unfold stopWorkerThread
    split <;> rfl
  | pause => cases hs; rfl
  | flush => cases hs; rfl

theorem replayCalls_append (xs ys : List DbCall) (db : LMDBInodeCatalog) :
    replayCalls (xs ++ ys) db = replayCalls ys (replayCalls xs db) := by
  simp [replayCalls, List.foldl_append]

/-- A run changes the underlying catalog by the calls it makes on it, in the
order it makes them, and by nothing else. -/
theorem run_db {D : Type} (cd : Codec D) (sz : Sizes) (steps : List (Step D)) :
    ∀ (c c1 : Catalog), run cd sz c steps = some c1 →
      c1.db = replayCalls (callsOfRun cd sz c steps) c.db := by
  induction steps with
  | nil => intro c c1 h; cases h; rfl
  | cons s rest ih =>
    intro c c1 h
    simp only [run] at h
    cases hst : step cd sz c s with
    | none => rw [hst] at h; cases h
    | some c2 =>
      rw [hst] at h
      simp only [callsOfRun, hst]
      rw [replayCalls_append, ← step_db cd sz c c2 s hst]
      exact ih c2 c1 h

theorem callsBy_closures {D : Type} (s : Step D) (c : Catalog) :
    (s.callsBy c).filterMap DbCall.closureOf = s.executedBy c := by
  cases s with
  | loadAndRemove ino t =>
    simp only [Step.callsBy]
    have : (Step.loadAndRemove ino t : Step D).executedBy c = [] := executedBy_client _ _ rfl
    rw [this]
    split <;> rfl
  | save ino odir t => simp [Step.callsBy, List.filterMap_map, Function.comp_def, DbCall.closureOf]
  | remove ino t => simp [Step.callsBy, List.filterMap_map, Function.comp_def, DbCall.closureOf]
  | workerClear => simp [Step.callsBy, List.filterMap_map, Function.comp_def, DbCall.closureOf]
  | workerTake => simp [Step.callsBy, List.filterMap_map, Function.comp_def, DbCall.closureOf]
  | workerExec => simp [Step.callsBy, List.filterMap_map, Function.comp_def, DbCall.closureOf]
  | stop => simp [Step.callsBy, List.filterMap_map, Function.comp_def, DbCall.closureOf]
  | pause => simp [Step.callsBy, List.filterMap_map, Function.comp_def, DbCall.closureOf]
  | flush => simp [Step.callsBy, List.filterMap_map, Function.comp_def, DbCall.closureOf]

/-- The log of the closures the worker thread called is the log of the calls on
the underlying catalog, without the synchronous calls of client threads. -/
theorem runLogged_executed {D : Type} (cd : Codec D) (sz : Sizes) (steps : List (Step D)) :
    ∀ (l l1 : Logged), runLogged cd sz l steps = some l1 →
      l1.executed = l.executed ++ (callsOfRun cd sz l.catalog steps).filterMap DbCall.closureOf := by
  induction steps with
  | nil => intro l l1 h; cases h; simp [callsOfRun]
  | cons s rest ih =>
    intro l l1 h
    simp only [runLogged] at h
    cases hst : stepLogged cd sz l s with
    | none => rw [hst] at h; cases h
    | some l2 =>
      rw [hst] at h
      unfold stepLogged at hst
      cases hs : step cd sz l.catalog s with
      | none => rw [hs] at hst; cases hst
      | some c2 =>
        rw [hs] at hst
        simp only [Option.map_some', Option.some.injEq] at hst
        subst hst
        rw [ih _ l1 h]
        simp only [callsOfRun, hs, List.filterMap_append, callsBy_closures, List.append_assoc]

theorem callsBy_noLoadAndRemove {D : Type} (s : Step D) (c : Catalog)
    (h : s.isLoadAndRemove = false) : s.callsBy c = (s.executedBy c).map .closure := by
  cases s <;> first | rfl | cases h

/-- Without a read-and-remove among the steps, the worker thread makes all calls
on the underlying catalog. -/
theorem callsOfRun_closures {D : Type} (cd : Codec D) (sz : Sizes) (steps : List (Step D)) :
    ∀ (c : Catalog), (∀ s ∈ steps, s.isLoadAndRemove = false) →
      callsOfRun cd sz c steps =
        ((callsOfRun cd sz c steps).filterMap DbCall.closureOf).map .closure := by
  induction steps with
  | nil => intro c _; rfl
  | cons s rest ih =>
    intro c h
    simp only [callsOfRun]
    cases hs : step cd sz c s with
    | none => rfl
    | some c2 =>
      simp only []
      rw [List.filterMap_append, List.map_append, callsBy_closures,
        ← callsBy_noLoadAndRemove s c (h s (List.mem_cons_self _ _)),
        ← ih c2 (fun x hx => h x (List.mem_cons_of_mem _ hx))]

theorem replayCalls_closures (ws : List (Nat × Work)) (db : LMDBInodeCatalog) :
    replayCalls (ws.map .closure) db = applyWorks ws db := by
  simp [replayCalls, applyWorks, List.foldl_map, DbCall.run]

theorem applyWorks_stop (ws : List (Nat × Work)) (a : Nat) (db : LMDBInodeCatalog) :
    applyWorks (ws ++ [(a, stopWork)]) db = applyWorks ws db := by
  simp [applyWorks, List.foldl_append, stopWork, WorkFn.run]


theorem runLogged_append {D : Type} (cd : Codec D) (sz : Sizes) (xs ys : List (Step D)) :
    ∀ (l l1 l2 : Logged), runLogged cd sz l xs = some l1 → runLogged cd sz l1 ys = some l2 →
      runLogged cd sz l (xs ++ ys) = some l2 := by
  induction xs with
  | nil => intro l l1 l2 h1 h2; cases h1; exact h2
  | cons s rest ih =>
    intro l l1 l2 h1 h2
    simp only [runLogged, List.cons_append] at h1 ⊢
    cases hst : stepLogged cd sz l s with
    | none => rw [hst] at h1; cases h1
    | some l3 =>
      rw [hst] at h1
      exact ih l3 l1 l2 h1 h2

theorem applySyncAll_cat {D : Type} (cd : Codec D) (db : LMDBInodeCatalog)
    (xs ys : List (Op D)) :
    applySyncAll cd db (xs ++ ys) = applySyncAll cd (applySyncAll cd db xs) ys := by
  simp [applySyncAll, List.foldl_append]

/-- Before a stop request, what a step other than the combined read-and-remove
pushes to the queue does to the underlying catalog, once the worker thread runs
it, what the synchronous execution of the operation the step enqueues does. -/
theorem pushedBy_sync {D : Type} (cd : Codec D) (sz : Sizes) (c c1 : Catalog) (s : Step D)
    (hs : step cd sz c s = some c1) (hns : c.state.workerThreadStopRequested = false)
    (hlr : s.isLoadAndRemove = false) (db : LMDBInodeCatalog) :
    applyWorks (s.pushedBy c c1) db = applySyncAll cd db s.enqueued.toList := by
  cases s with
  | save ino odir t =>
    simp only [step, saveOverlayDir] at hs
    cases hres : process sz c (.saveOverlayDir ino (cd.serialize odir))
        ((sz.estimateString (cd.serialize odir) * 2) % sizeMax) ino .Write
        (some (cd.serialize odir)) t with
    | blocked => rw [hres] at hs; cases hs
    | dropped c2 =>
      exfalso
      unfold process at hres
      simp [hns] at hres
      split at hres
      · cases hres
      · split at hres <;> cases hres
    | pushed c2 =>
      rw [hres] at hs
      cases hs
      obtain ⟨_, ht, h3⟩ := process_pushed_eq sz c c1 _ _ _ _ _ _ hres
      subst ht
      rw [h3]
      simp only [Step.pushedBy, Step.isWorkerMove]
      simp [applyWorks, Step.enqueued, applySyncAll, Op.applySync, WorkFn.run]
    | rethrown c2 =>
      rw [hres] at hs
      cases hs
      obtain ⟨ht, h3⟩ := process_rethrown_eq sz c c1 _ _ _ _ _ _ hres
      subst ht
      rw [h3]
      simp only [Step.pushedBy, Step.isWorkerMove]
      simp [applyWorks, Step.enqueued, applySyncAll]
  | remove ino t =>
    simp only [step, removeOverlayDir] at hs
    cases hres : process sz c (.removeOverlayDir ino) 0 ino .Remove none t with
    | blocked => rw [hres] at hs; cases hs
    | dropped c2 =>
      exfalso
      unfold process at hres
      simp [hns] at hres
      split at hres
      · cases hres
      · split at hres <;> cases hres
    | pushed c2 =>
      rw [hres] at hs
      cases hs
      obtain ⟨_, ht, h3⟩ := process_pushed_eq sz c c1 _ _ _ _ _ _ hres
      subst ht
      rw [h3]
      simp only [Step.pushedBy, Step.isWorkerMove]
      simp [applyWorks, Step.enqueued, applySyncAll, Op.applySync, WorkFn.run]
    | rethrown c2 =>
      rw [hres] at hs
      cases hs
      obtain ⟨ht, h3⟩ := process_rethrown_eq sz c c1 _ _ _ _ _ _ hres
      subst ht
      rw [h3]
      simp only [Step.pushedBy, Step.isWorkerMove]
      simp [applyWorks, Step.enqueued, applySyncAll]
  | loadAndRemove ino t => cases hlr
  | workerClear => simp [Step.pushedBy, Step.isWorkerMove, applyWorks, Step.enqueued, applySyncAll]
  | workerTake => simp [Step.pushedBy, Step.isWorkerMove, applyWorks, Step.enqueued, applySyncAll]
  | workerExec => simp [Step.pushedBy, Step.isWorkerMove, applyWorks, Step.enqueued, applySyncAll]
  | stop =>
    simp only [step, Option.some.injEq] at hs
    subst hs
    simp only [Step.pushedBy, Step.isWorkerMove]
    simp [stopWorkerThread, hns, applyWorks, Step.enqueued, applySyncAll, WorkFn.run]
  | pause =>
    cases hs
    simp only [Step.pushedBy, Step.isWorkerMove]
    simp [pause, applyWorks, Step.enqueued, applySyncAll, WorkFn.run]
  | flush =>
    cases hs
    simp only [Step.pushedBy, Step.isWorkerMove]
    simp [flush, applyWorks, Step.enqueued, applySyncAll, WorkFn.run]

theorem enqueuedOps_cons {D : Type} (s : Step D) (rest : List (Step D)) :
    enqueuedOps (s :: rest) = s.enqueued.toList ++ enqueuedOps rest := by
  unfold enqueuedOps
  rw [List.filterMap_cons]
  cases s.enqueued <;> rfl

/-- Before a stop request, the items pushed by steps without a combined
read-and-remove do to the underlying catalog, once the worker thread runs them
in order, what the synchronous execution of the operations enqueued does. -/
theorem runLogged_pushed_sync {D : Type} (cd : Codec D) (sz : Sizes) (steps : List (Step D)) :
    ∀ (l l1 : Logged), BeforeStop l → (∀ s ∈ steps, s ≠ .stop) →
      (∀ s ∈ steps, s.isLoadAndRemove = false) → runLogged cd sz l steps = some l1 →
      ∃ delta, l1.pushed = l.pushed ++ delta ∧
        ∀ db, applyWorks delta db = applySyncAll cd db (enqueuedOps steps) := by
  induction steps with
  | nil =>
    intro l l1 _ _ _ hr
    cases hr
    exact ⟨[], by simp, fun db => rfl⟩
  | cons s rest ih =>
    intro l l1 hinv hns hlr hr
    simp only [runLogged] at hr
    cases hst : stepLogged cd sz l s with
    | none => rw [hst] at hr; cases hr
    | some l2 =>
      rw [hst] at hr
      have hinv2 := beforeStop_step cd sz l l2 s hinv (hns s (List.mem_cons_self _ _)) hst
      obtain ⟨delta, hd1, hd2⟩ := ih l2 l1 hinv2 (fun x hx => hns x (List.mem_cons_of_mem _ hx))
        (fun x hx => hlr x (List.mem_cons_of_mem _ hx)) hr
      unfold stepLogged at hst
      cases hs : step cd sz l.catalog s with
      | none => rw [hs] at hst; cases hst
      | some c1 =>
        rw [hs] at hst
        simp only [Option.map_some', Option.some.injEq] at hst
        subst hst
        refine ⟨s.pushedBy l.catalog c1 ++ delta, by rw [hd1]; simp, fun db => ?_⟩
        rw [applyWorks_append, hd2, enqueuedOps_cons, applySyncAll_cat,
          pushedBy_sync cd sz l.catalog c1 s hs hinv.noStop (hlr s (List.mem_cons_self _ _))]

/-- C20 (shutdown flushes pending writes).  Steps `pre` without a stop request
are followed by the stop request and by further steps.  From the stop request
on the flag stays set, and every call of `process` (as `saveOverlayDir` and
`removeOverlayDir` make it) drops its request, leaving the queue, the maps, the
total size and the underlying catalog as they are.  The underlying catalog is
at every moment the initial one with the calls made so far applied in order.
Once the worker thread has returned, which is what `stopWorkerThread` waits
for, the closures it has called on the underlying catalog are those of the
`Work` items pushed before the stop request, each once, in the order they were
pushed in, followed by the stop event; so, if no client thread made a
synchronous read-and-remove, the underlying catalog is the initial one with
exactly the items pushed before the stop request applied in push order, which
is the initial one with the writes and removes enqueued before the stop request
carried out synchronously in enqueue order. -/
theorem shutdown_flushes {D : Type} (cd : Codec D) (sz : Sizes) (db0 : LMDBInodeCatalog)
    (pre post : List (Step D)) (lpre lfin : Logged)
    (hpre : runLogged cd sz (Logged.init db0) pre = some lpre)
    (hnostop : ∀ s ∈ pre, s ≠ .stop)
    (hfin : runLogged cd sz lpre (.stop :: post) = some lfin) :
    lfin.catalog.state.workerThreadStopRequested = true ∧
    (∀ fn cap key ty odir t, ∃ c1,
      process sz lfin.catalog fn cap key ty odir t = .dropped c1 ∧
        c1.state = lfin.catalog.state ∧ c1.db = lfin.catalog.db) ∧
    lfin.catalog.db =
      replayCalls (callsOfRun cd sz (Catalog.init db0) (pre ++ .stop :: post)) db0 ∧
    (lfin.catalog.pc = .exited →
      lfin.executed = lpre.pushed ++ [(lpre.catalog.nextWork, stopWork)] ∧
      (lfin.executed.map Prod.fst).Nodup ∧
      (callsOfRun cd sz (Catalog.init db0) (pre ++ .stop :: post)).filterMap DbCall.closureOf =
        lpre.pushed ++ [(lpre.catalog.nextWork, stopWork)] ∧
      ((∀ s ∈ pre ++ post, s.isLoadAndRemove = false) →
        lfin.catalog.db = applyWorks lpre.pushed db0 ∧
        lfin.catalog.db = applySyncAll cd db0 (enqueuedOps pre))) := by
  have hb := beforeStop_run cd sz pre _ _ (beforeStop_init db0) hnostop hpre
  have hall := runLogged_append cd sz pre (.stop :: post) _ _ _ hpre hfin
  have hrun : run cd sz (Catalog.init db0) (pre ++ .stop :: post) = some lfin.catalog := by
    have := runLogged_catalog cd sz (pre ++ .stop :: post) (Logged.init db0)
    rw [hall] at this
    exact this.symm
  have hdb := run_db cd sz _ _ _ hrun
  have hexec := runLogged_executed cd sz _ _ _ hall
  simp only [Logged.init, List.nil_append] at hexec
  simp only [runLogged] at hfin
  cases hst : stepLogged cd sz lpre (.stop : Step D) with
  | none => rw [hst] at hfin; cases hfin
  | some l2 =>
    rw [hst] at hfin
    have ha := afterStop_run cd sz _ _ post _ _ (stop_step cd sz lpre l2 hb hst) hfin
    refine ⟨ha.stop, ?_, hdb, ?_⟩
    · intro fn cap key ty odir t
      exact ⟨_, process_after_stop sz lfin.catalog fn cap key ty odir t ha.stop, rfl, rfl⟩
    · intro hexit
      have hex := ha.done hexit
      refine ⟨hex, ?_, hexec.symm.trans hex, ?_⟩
      · obtain ⟨later, hpushed, _⟩ := ha.pushed
        have hnd := ha.nodup
        rw [hpushed] at hnd
        rw [hex]
        have : (lpre.pushed ++ (lpre.catalog.nextWork, stopWork) :: later) =
            (lpre.pushed ++ [(lpre.catalog.nextWork, stopWork)]) ++ later := by simp
        rw [this, List.map_append] at hnd
        exact (List.nodup_append.1 hnd).1
      · intro hno
        have hno1 : ∀ s ∈ pre ++ .stop :: post, s.isLoadAndRemove = false := by
          intro s hs
          rcases List.mem_append.1 hs with h | h
          · exact hno s (List.mem_append_left _ h)
          · rcases List.mem_cons.1 h with h | h
            · subst h; rfl
            · exact hno s (List.mem_append_right _ h)
        have hpushed : lfin.catalog.db = applyWorks lpre.pushed db0 := by
          rw [hdb, callsOfRun_closures cd sz _ _ hno1, ← hexec, hex, replayCalls_closures,
            applyWorks_stop]
          rfl
        refine ⟨hpushed, ?_⟩
        obtain ⟨delta, hd1, hd2⟩ := runLogged_pushed_sync cd sz pre _ _ (beforeStop_init db0)
          hnostop (fun s hs => hno s (List.mem_append_left _ hs)) hpre
        simp only [Logged.init, List.nil_append] at hd1
        rw [hpushed, hd1, hd2]

/-- C20 at work: a write and a remove are enqueued, the stop is requested, the
worker thread takes the batch and runs it, a late write is dropped; the worker
has then called the two closures and the stop event, in this order, and the
underlying catalog is the one the write and the remove give when carried out
synchronously: it holds the directory written under 5 and nothing under 6, the
key of the late write. -/
theorem shutdown_flushes_witness :
    (Example.loggedAfter (Example.stepsBeforeStop ++ .stop :: Example.stepsAfterStop)).catalog.pc =
      .exited ∧
    (Example.loggedAfter (Example.stepsBeforeStop ++ .stop :: Example.stepsAfterStop)).executed =
      (Example.loggedAfter Example.stepsBeforeStop).pushed ++ [(2, stopWork)] ∧
    ((Example.loggedAfter Example.stepsBeforeStop).pushed.map
        (fun ev => ev.2.operation)) = [.saveOverlayDir 5 "D", .removeOverlayDir 7] ∧
    (Example.loggedAfter (Example.stepsBeforeStop ++ .stop :: Example.stepsAfterStop)).catalog.db =
      applyWorks (Example.loggedAfter Example.stepsBeforeStop).pushed Example.emptyDb ∧
    (Example.loggedAfter (Example.stepsBeforeStop ++ .stop :: Example.stepsAfterStop)).catalog.db =
      applySyncAll Example.codec Example.emptyDb (enqueuedOps Example.stepsBeforeStop) ∧
    enqueuedOps Example.stepsBeforeStop = [.save 5 "D", .remove 7] ∧
    (Example.loggedAfter (Example.stepsBeforeStop ++ .stop :: Example.stepsAfterStop)).catalog.db 5 =
      some "D" ∧
    (Example.loggedAfter (Example.stepsBeforeStop ++ .stop :: Example.stepsAfterStop)).catalog.db 6 =
      none :=
  have h := (shutdown_flushes Example.codec Example.sizes Example.emptyDb Example.stepsBeforeStop
      Example.stepsAfterStop (Example.loggedAfter Example.stepsBeforeStop)
      (Example.loggedAfter (Example.stepsBeforeStop ++ .stop :: Example.stepsAfterStop))
      rfl (by intro s hs h; subst h; simp [Example.stepsBeforeStop] at hs) rfl).2.2.2 rfl
  have h2 := h.2.2.2 (by
     intro s hs
     simp only [Example.stepsBeforeStop, Example.stepsAfterStop, List.cons_append,
       List.nil_append, List.mem_cons, List.mem_singleton, List.not_mem_nil, or_false] at hs
     rcases hs with h | h | h | h | h | h | h | h <;> subst h <;> rfl)
  ⟨rfl, h.1, rfl, h2.1, h2.2, rfl, rfl, rfl⟩

/-! ### The bookkeeping of the queue under all steps (C21, C29, C30) -/

/-- What a call of `process` does to the synchronized state. -/
theorem process_clientEffect (sz : Sizes) (c c1 : Catalog) (fn : WorkFn) (cap key : Nat)
    (ty : OperationType) (odir : Option String) (t : Bool)
    (hod : ty = .Write → odir.isSome = true)
    (hp : (process sz c fn cap key ty odir t).after = some c1) :
    c1.pc = c.pc ∧ c1.workerWork = c.workerWork ∧ ClientEffect c c1 := by
  cases hres : process sz c fn cap key ty odir t with
  | blocked => rw [hres] at hp; cases hp
  | dropped c2 =>
    rw [hres] at hp
    cases hp
    rw [process_dropped_eq sz c c1 fn cap key ty odir t hres]
    exact ⟨rfl, rfl, .same rfl (Nat.le_succ _)⟩
  | pushed c2 =>
    rw [hres] at hp
    cases hp
    obtain ⟨_, _, h3⟩ := process_pushed_eq sz c c1 fn cap key ty odir t hres
    rw [h3]
    exact ⟨rfl, rfl, .enqueued _ key ty rfl hod rfl⟩
  | rethrown c2 =>
    rw [hres] at hp
    cases hp
    obtain ⟨_, h3⟩ := process_rethrown_eq sz c c1 fn cap key ty odir t hres
    rw [h3]
    exact ⟨rfl, rfl, .same rfl (Nat.le_succ _)⟩

/-- What a step of a client thread does to the synchronized state. -/
theorem step_clientEffect {D : Type} (cd : Codec D) (sz : Sizes) (c c1 : Catalog) (s : Step D)
    (hw : s.isWorkerMove = false) (hs : step cd sz c s = some c1) :
    c1.pc = c.pc ∧ c1.workerWork = c.workerWork ∧ ClientEffect c c1 := by
  cases s with
  | save ino odir t =>
    simp only [step, saveOverlayDir] at hs
    exact process_clientEffect sz c c1 _ _ _ _ (some (cd.serialize odir)) _ (fun _ => rfl) hs
  | remove ino t => exact process_clientEffect sz c c1 _ _ _ _ _ _ (fun h => by cases h) hs
  | loadAndRemove ino t =>
    simp only [step] at hs
    unfold loadAndRemoveOverlayDir at hs
    simp only [] at hs
    have hproc : (process sz c (.loadAndRemoveOverlayDir ino) 0 ino .Remove none t).after =
        some c1 → c1.pc = c.pc ∧ c1.workerWork = c.workerWork ∧ ClientEffect c c1 :=
      fun h => process_clientEffect sz c c1 _ _ _ _ _ _ (fun h => by cases h) h
    cases hwo : c.state.waitingOperation ino with
    | some op =>
      simp only [hwo] at hs
      cases hty : op.operationType with
      | Write =>
        simp only [hty] at hs
        cases hr : readOperation cd c op with
        | error e => simp only [hr] at hs; cases hs
        | ok odir => simp only [hr] at hs; exact hproc hs
      | Remove =>
        simp only [hty] at hs
        cases hs
        exact ⟨rfl, rfl, .same rfl (le_refl _)⟩
    | none =>
      simp only [hwo] at hs
      cases hio : c.state.inflightOperation ino with
      | some op =>
        simp only [hio] at hs
        cases hty : op.operationType with
        | Write =>
          simp only [hty] at hs
          cases hr : readOperation cd c op with
          | error e => simp only [hr] at hs; cases hs
          | ok odir => simp only [hr] at hs; exact hproc hs
        | Remove =>
          simp only [hty] at hs
          cases hs
          exact ⟨rfl, rfl, .same rfl (le_refl _)⟩
      | none =>
        simp only [hio] at hs
        cases hs
        exact ⟨rfl, rfl, .same rfl (le_refl _)⟩
  | workerClear => cases hw
  | workerTake => cases hw
  | workerExec => cases hw
  | stop =>
    simp only [step, stopWorkerThread] at hs
    split at hs
    · cases hs
      exact ⟨rfl, rfl, .same rfl (le_refl _)⟩
    · cases hs
      exact ⟨rfl, rfl, .quiet _ true rfl rfl rfl⟩
  | pause =>
    cases hs
    exact ⟨rfl, rfl, .quiet _ c.state.workerThreadStopRequested rfl rfl rfl⟩
  | flush =>
    cases hs
    exact ⟨rfl, rfl, .quiet _ c.state.workerThreadStopRequested rfl rfl rfl⟩

/-- The sum the worker computes stays within `size_t`. -/
theorem workSize_lt (ws : List (Nat × Work)) : workSize ws < sizeMax := by
  induction ws using List.reverseRecOn with
  | nil => simp [workSize, sizeMax]
  | append_singleton ws ev _ =>
    rw [workSize_append]
    exact Nat.mod_lt _ (by simp [sizeMax])

theorem Operation.HeldIn.mono {op : Operation} {ws ws1 : List (Nat × Work)}
    (h : op.HeldIn ws) (hsub : ∀ ev ∈ ws, ev ∈ ws1) : op.HeldIn ws1 := by
  obtain ⟨w, hw, ho⟩ := h
  exact ⟨w, hsub _ hw, ho⟩

/-- The bookkeeping survives a step of a client thread. -/
theorem sound_client (c c1 : Catalog) (h : Sound c) (hpc : c1.pc = c.pc)
    (hww : c1.workerWork = c.workerWork) (he : ClientEffect c c1) : Sound c1 := by
  cases he with
  | same hst hnext =>
    constructor
    · rw [hst]; exact h.sizeEq
    · rw [hpc]; exact h.notAborted
    · rw [hpc, hww, hst]; exact h.idle
    · intro ev hev
      rw [hst, hww] at hev
      exact lt_of_lt_of_le (h.fresh ev hev) hnext
    · rw [hst, hww]; exact h.nodup
    · rw [hst]; exact h.waiting
    · rw [hpc, hww, hst]; exact h.inflight
  | enqueued w key ty hst hod hnext =>
    constructor
    · rw [hst]
      simp only [workSize_append, h.sizeEq]
    · rw [hpc]; exact h.notAborted
    · rw [hpc, hww, hst]; exact h.idle
    · intro ev hev
      rw [hst, hww] at hev
      rw [hnext]
      simp only [List.append_assoc, List.mem_append, List.mem_singleton] at hev
      rcases hev with hev | hev | hev
      · exact Nat.lt_succ_of_lt (h.fresh ev (List.mem_append_left _ hev))
      · rw [hev]; exact Nat.lt_succ_self _
      · exact Nat.lt_succ_of_lt (h.fresh ev (List.mem_append_right _ hev))
    · rw [hst, hww]
      exact nodup_push _ _ _ _ h.nodup h.fresh
    · intro n op ho
      rw [hst] at ho ⊢
      simp only [setAt] at ho
      split at ho
      · cases ho
        exact ⟨w, by simp, hod⟩
      · exact (h.waiting n op ho).mono (fun ev hev => List.mem_append_left _ hev)
    · rw [hpc, hww, hst]; exact h.inflight
  | quiet w stop hst hsz hnext =>
    constructor
    · rw [hst]
      simp only [workSize_append, hsz, Nat.add_zero, h.sizeEq]
      exact (Nat.mod_eq_of_lt (workSize_lt _)).symm
    · rw [hpc]; exact h.notAborted
    · rw [hpc, hww, hst]; exact h.idle
    · intro ev hev
      rw [hst, hww] at hev
      rw [hnext]
      simp only [List.append_assoc, List.mem_append, List.mem_singleton] at hev
      rcases hev with hev | hev | hev
      · exact Nat.lt_succ_of_lt (h.fresh ev (List.mem_append_left _ hev))
      · rw [hev]; exact Nat.lt_succ_self _
      · exact Nat.lt_succ_of_lt (h.fresh ev (List.mem_append_right _ hev))
    · rw [hst, hww]
      exact nodup_push _ _ _ _ h.nodup h.fresh
    · intro n op ho
      rw [hst] at ho ⊢
      exact (h.waiting n op ho).mono (fun ev hev => List.mem_append_left _ hev)
    · rw [hpc, hww, hst]; exact h.inflight
/-- The bookkeeping survives the worker thread clearing its batch. -/
theorem sound_workerClear (c c1 : Catalog) (h : Sound c) (hs : workerClear c = some c1) :
    Sound c1 := by
  unfold workerClear at hs
  split at hs
  · split at hs
    · cases hs
      constructor
      · exact h.sizeEq
      · intro hc; cases hc
      · intro _; exact ⟨rfl, fun _ => rfl⟩
      · intro ev hev
        simp only [List.append_nil] at hev
        exact h.fresh ev (List.mem_append_left _ hev)
      · have := h.nodup
        rw [List.map_append, List.nodup_append] at this
        simpa using this.1
      · exact h.waiting
      · intro _ n op ho; cases ho
    · cases hs
  · cases hs

/-- The bookkeeping survives the worker thread taking a batch; the size check
passes. -/
theorem sound_workerTake (c c1 : Catalog) (h : Sound c) (hs : workerTake c = some c1) :
    Sound c1 ∧ c1.pc = .running 0 ∧ c1.state.totalSize = 0 ∧ c1.workerWork = c.state.work := by
  unfold workerTake at hs
  split at hs
  · rename_i hpcw
    obtain ⟨hwwc, hinflc⟩ := h.idle hpcw
    split at hs
    · cases hs
    · simp only [] at hs
      rw [if_pos h.sizeEq] at hs
      cases hs
      refine ⟨?_, rfl, rfl, rfl⟩
      constructor
      · simp only [hwwc]; rfl
      · intro hc; cases hc
      · intro hc; cases hc
      · intro ev hev
        simp only [hwwc, List.nil_append] at hev
        exact h.fresh ev (List.mem_append_left _ hev)
      · have := h.nodup
        rw [List.map_append, List.nodup_append] at this
        simpa [hwwc] using this.1
      · intro n op ho
        simp only [hinflc] at ho
        cases ho
      · intro _ n op ho
        exact h.waiting n op ho
  · cases hs

/-- The bookkeeping survives the worker thread running an event, except that
the inflight operations lose their `Work` when the thread returns. -/
theorem sound_workerExec (c c1 : Catalog) (h : Sound c) (hs : workerExec c = some c1) :
    Sound c1 := by
  unfold workerExec at hs
  split at hs
  · rename_i i hpc
    split at hs
    · cases hs
    · simp only [] at hs
      split at hs
      · cases hs
        constructor
        · exact h.sizeEq
        · intro hc; cases hc
        · intro hc; cases hc
        · intro ev hev
          simp only [List.append_nil] at hev
          exact h.fresh ev (List.mem_append_left _ hev)
        · have := h.nodup
          rw [List.map_append, List.nodup_append] at this
          simpa using this.1
        · exact h.waiting
        · intro hc; exact absurd rfl hc
      · cases hs
        constructor
        · exact h.sizeEq
        · intro hc; cases hc
        · intro hc; cases hc
        · exact h.fresh
        · exact h.nodup
        · exact h.waiting
        · intro _
          exact h.inflight (by rw [hpc]; intro hc; cases hc)
  · cases hs

/-- The bookkeeping survives every step. -/
theorem sound_step {D : Type} (cd : Codec D) (sz : Sizes) (c c1 : Catalog) (s : Step D)
    (h : Sound c) (hs : step cd sz c s = some c1) : Sound c1 := by
  cases hw : s.isWorkerMove with
  | false =>
    obtain ⟨h1, h2, h3⟩ := step_clientEffect cd sz c c1 s hw hs
    exact sound_client c c1 h h1 h2 h3
  | true =>
    cases s with
    | workerClear => exact sound_workerClear c c1 h hs
    | workerTake => exact (sound_workerTake c c1 h hs).1
    | workerExec => exact sound_workerExec c c1 h hs
    | save _ _ _ => cases hw
    | remove _ _ => cases hw
    | loadAndRemove _ _ => cases hw
    | stop => cases hw
    | pause => cases hw
    | flush => cases hw

/-- The bookkeeping holds after every run. -/
theorem sound_run {D : Type} (cd : Codec D) (sz : Sizes) (steps : List (Step D)) :
    ∀ (c c1 : Catalog), Sound c → run cd sz c steps = some c1 → Sound c1 := by
  induction steps with
  | nil => intro c c1 h hr; cases hr; exact h
  | cons s rest ih =>
    intro c c1 h hr
    simp only [run] at hr
    split at hr
    · cases hr
    · rename_i c2 hs
      exact ih c2 c1 (sound_step cd sz c c2 s h hs) hr

/-- The bookkeeping holds in a freshly constructed catalog. -/
theorem sound_init (db : LMDBInodeCatalog) : Sound (Catalog.init db) := by
  constructor
  · rfl
  · intro hc; cases hc
  · intro hc; cases hc
  · intro ev hev; cases hev
  · simp [Catalog.init]
  · intro n op ho; cases ho
  · intro _ n op ho; cases ho

/-- The wrapped sum of the worker is the sum of the sizes modulo `2^64`. -/
theorem workSize_eq_sum_mod (ws : List (Nat × Work)) :
    workSize ws = (ws.map (fun ev => ev.2.estimateIndirectMemoryUsage)).sum % sizeMax := by
  induction ws using List.reverseRecOn with
  | nil => simp [workSize]
  | append_singleton ws ev ih =>
    rw [workSize_append, ih]
    simp [Nat.add_mod]

/-- A buffered operation whose `Work` is alive and carries its payload can be
read. -/
theorem readOperation_ok {D : Type} (cd : Codec D) (c : Catalog) (op : Operation)
    (hn : ((c.state.work ++ c.workerWork).map Prod.fst).Nodup)
    (h : op.HeldIn (c.state.work ++ c.workerWork)) :
    ∃ v, readOperation cd c op = .ok v := by
  obtain ⟨w, hw, ho⟩ := h
  unfold readOperation
  cases hty : op.operationType with
  | Remove => exact ⟨none, rfl⟩
  | Write =>
    simp only [Catalog.deref, lookup_of_mem_nodup _ _ _ hw hn]
    obtain ⟨s, hs⟩ := Option.isSome_iff_exists.mp (ho hty)
    simp only [hs]
    exact ⟨_, rfl⟩
/-- C21 (strong exception guarantee of the enqueue).  When `process` gets as far
as the insertion into the waiting map (the buffer has room and no stop was
requested) and the insertion throws, the exception is rethrown and the catalog
is exactly as before the call: the synchronized state (the queue, the waiting
map, the inflight map, the total size, the stop flag), the batch of the worker
thread and the underlying catalog.  `process` rethrows in no other case, and
the calls of the interface that go through `process` leave the state as it was
in the same way. -/
theorem enqueue_strong_guarantee {D : Type} (cd : Codec D) (sz : Sizes) (c : Catalog)
    (fn : WorkFn) (captureSize : Nat) (operationKey : InodeNumber)
    (operationType : OperationType) (odir : Option String)
    (hroom : c.state.totalSize < sz.bufferSize)
    (hstop : c.state.workerThreadStopRequested = false) :
    (∃ c1, process sz c fn captureSize operationKey operationType odir true = .rethrown c1 ∧
      c1.state = c.state ∧ c1.workerWork = c.workerWork ∧ c1.pc = c.pc ∧ c1.db = c.db) ∧
    (∀ t c1, process sz c fn captureSize operationKey operationType odir t = .rethrown c1 →
      t = true ∧ c1.state = c.state) ∧
    (∀ ino (d : D), ∃ c1, step cd sz c (.save ino d true) = some c1 ∧ c1.state = c.state ∧
      c1.workerWork = c.workerWork ∧ c1.db = c.db) ∧
    (∀ ino, ∃ c1, step cd sz c (.remove ino true : Step D) = some c1 ∧ c1.state = c.state ∧
      c1.workerWork = c.workerWork ∧ c1.db = c.db) := by
  have hthrow : ∀ fn cap key ty od,
      process sz c fn cap key ty od true =
        .rethrown { c with nextWork := c.nextWork + 1 } := by
    intro fn cap key ty od
    unfold process
    simp [hroom, hstop, List.dropLast_concat]
    rw [← hstop]
  refine ⟨⟨_, hthrow _ _ _ _ _, rfl, rfl, rfl, rfl⟩, ?_, ?_, ?_⟩
  · intro t c1 h
    obtain ⟨h1, h2⟩ := process_rethrown_eq sz c c1 _ _ _ _ _ _ h
    exact ⟨h1, by rw [h2]⟩
  · intro ino d
    refine ⟨{ c with nextWork := c.nextWork + 1 }, ?_, rfl, rfl, rfl⟩
    simp only [step, saveOverlayDir, hthrow, Enqueue.after]
  · intro ino
    refine ⟨{ c with nextWork := c.nextWork + 1 }, ?_, rfl, rfl, rfl⟩
    simp only [step, removeOverlayDir, hthrow, Enqueue.after]

/-- C21 at work: in the catalog that holds one waiting write, a second write
whose insertion into the map throws leaves the queue, the maps and the total as
they were. -/
theorem enqueue_strong_guarantee_witness :
    (Example.after Example.stepsWaiting).state.totalSize < Example.sizes.bufferSize ∧
    (Example.after Example.stepsWaiting).state.workerThreadStopRequested = false ∧
    ∃ c1, step Example.codec Example.sizes (Example.after Example.stepsWaiting)
        (.save 6 "E" true) = some c1 ∧
      c1.state = (Example.after Example.stepsWaiting).state :=
  ⟨by decide, rfl,
   by
    obtain ⟨c1, h1, h2, _⟩ :=
      (enqueue_strong_guarantee Example.codec Example.sizes (Example.after Example.stepsWaiting)
        .stop 0 0 .Remove none (by decide) rfl).2.2.1 6 "E"
    exact ⟨c1, h1, h2⟩⟩

/-- C30 (size bookkeeping).  In every state reached from a freshly constructed
catalog by calls of the interface, `pause`, `flush`, `stopWorkerThread` and moves
of the worker thread, `totalSize` is the sum the worker computes over the queue
(the sizes added up in `size_t`, which is their sum when that is below `2^64`),
the size check of the worker has not failed, and a batch taken in this state
passes the check and leaves `totalSize` at 0. -/
theorem size_bookkeeping {D : Type} (cd : Codec D) (sz : Sizes) (db : LMDBInodeCatalog)
    (steps : List (Step D)) (c : Catalog)
    (h : run cd sz (Catalog.init db) steps = some c) :
    c.state.totalSize = workSize c.state.work ∧
    c.state.totalSize =
      (c.state.work.map (fun ev => ev.2.estimateIndirectMemoryUsage)).sum % sizeMax ∧
    ((c.state.work.map (fun ev => ev.2.estimateIndirectMemoryUsage)).sum < sizeMax →
      c.state.totalSize = (c.state.work.map (fun ev => ev.2.estimateIndirectMemoryUsage)).sum) ∧
    c.pc ≠ .aborted ∧
    (∀ c1, workerTake c = some c1 →
      c1.pc = .running 0 ∧ c1.state.totalSize = 0 ∧ c1.workerWork = c.state.work) := by
  have hs := sound_run cd sz steps _ c (sound_init db) h
  refine ⟨hs.sizeEq, ?_, ?_, hs.notAborted, ?_⟩
  · rw [hs.sizeEq, workSize_eq_sum_mod]
  · intro hlt
    rw [hs.sizeEq, workSize_eq_sum_mod, Nat.mod_eq_of_lt hlt]
  · intro c1 ht
    exact (sound_workerTake c c1 hs ht).2

/-- C30 at work: after a write of one byte and a remove are enqueued, the total
is the sum of the two sizes, 34 and 32. -/
theorem size_bookkeeping_witness :
    run Example.codec Example.sizes (Catalog.init Example.emptyDb) Example.stepsBeforeStop =
      some (Example.after Example.stepsBeforeStop) ∧
    (Example.after Example.stepsBeforeStop).state.totalSize = 66 ∧
    (Example.after Example.stepsBeforeStop).state.totalSize =
      workSize (Example.after Example.stepsBeforeStop).state.work :=
  ⟨rfl, rfl,
   (size_bookkeeping Example.codec Example.sizes Example.emptyDb Example.stepsBeforeStop
      (Example.after Example.stepsBeforeStop) rfl).1⟩

/-- Counterexample to C29: a write for inode 5 is enqueued, the stop is requested,
and the worker thread runs the batch to the stop event and returns.  Its batch
is destroyed, and the inflight map still holds the operation for inode 5 with
the address of the destroyed `Work`: `loadOverlayDir(5)` dereferences it. -/
theorem work_alive_counterexample :
    run Example.codec Example.sizes (Catalog.init Example.emptyDb) Example.stepsStopped =
      some (Example.after Example.stepsStopped) ∧
    (Example.after Example.stepsStopped).pc = .exited ∧
    (Example.after Example.stepsStopped).state.inflightOperation 5 =
      some { operationType := .Write, work := 0 } ∧
    (Example.after Example.stepsStopped).workerWork = [] ∧
    (Example.after Example.stepsStopped).deref 0 = none ∧
    (loadOverlayDir Example.codec (Example.after Example.stepsStopped) 5 :
      Except ReadFault (Option String)) = .error .danglingWork := by
  refine ⟨rfl, rfl, rfl, rfl, rfl, rfl⟩

/-- C29, for the states in which the worker thread has not returned.  In every
state reached from a freshly constructed catalog in which the worker thread has
not returned from `processOnWorkerThread`, each operation of the waiting map
refers to a `Work` held in `state.work`, each operation of the inflight map to a
`Work` held in the batch of the worker, a `Write` to a `Work` whose payload is
present, and `loadOverlayDir` reads without fault. -/
theorem work_alive {D : Type} (cd : Codec D) (sz : Sizes) (db : LMDBInodeCatalog)
    (steps : List (Step D)) (c : Catalog)
    (h : run cd sz (Catalog.init db) steps = some c) (hpc : c.pc ≠ .exited) :
    (∀ n op, c.state.waitingOperation n = some op → op.HeldIn c.state.work) ∧
    (∀ n op, c.state.inflightOperation n = some op → op.HeldIn c.workerWork) ∧
    (∀ n, ∃ v, loadOverlayDir cd c n = .ok v) := by
  have hs := sound_run cd sz steps _ c (sound_init db) h
  refine ⟨hs.waiting, hs.inflight hpc, fun n => ?_⟩
  unfold loadOverlayDir
  cases hw : c.state.waitingOperation n with
  | some op =>
    exact readOperation_ok cd c op hs.nodup
      ((hs.waiting n op hw).mono (fun ev hev => List.mem_append_left _ hev))
  | none =>
    cases hi : c.state.inflightOperation n with
    | some op =>
      exact readOperation_ok cd c op hs.nodup
        ((hs.inflight hpc n op hi).mono (fun ev hev => List.mem_append_right _ hev))
    | none => exact ⟨_, rfl⟩

/-- C29 at work: while the write for inode 5 is inflight, its operation refers
to the `Work` at address 0 in the batch of the worker. -/
theorem work_alive_witness :
    run Example.codec Example.sizes (Catalog.init Example.emptyDb) Example.stepsInflight =
      some (Example.after Example.stepsInflight) ∧
    (Example.after Example.stepsInflight).pc ≠ .exited ∧
    (Example.after Example.stepsInflight).state.inflightOperation 5 =
      some { operationType := .Write, work := 0 } ∧
    Operation.HeldIn { operationType := .Write, work := 0 }
      (Example.after Example.stepsInflight).workerWork :=
  ⟨rfl, by decide, rfl,
   (work_alive Example.codec Example.sizes Example.emptyDb Example.stepsInflight
      (Example.after Example.stepsInflight) rfl (by decide)).2.1 5 _ rfl⟩

end BufferedLMDBInodeCatalog

/-! ## Theorems: the directory inode -/

namespace TreeInode

namespace DirContents

theorem find_nil (name : PathComponent) : find [] name = none := rfl

theorem find_cons (k : PathComponent) (v : DirEntry) (rest : DirContents) (name : PathComponent) :
    find ((k, v) :: rest) name = if name = k then some v else find rest name := by
  unfold find
  by_cases h : name = k
  · subst h; simp [List.lookup]
  · have hb : (name == k) = false := by simpa using h
    simp [List.lookup, hb, h]

theorem find_assign (d : DirContents) (name : PathComponent) (e : DirEntry) (k : PathComponent) :
    find (assign d name e) k =
      if k = name then (find d name).map (fun _ => e) else find d k := by
  induction d with
  | nil => simp [assign, find_nil]
  | cons kv rest ih =>
    obtain ⟨a, v⟩ := kv
    by_cases ha : a = name
    · subst ha
      simp only [assign, beq_self_eq_true, if_true, find_cons]
      by_cases hk : k = a
      · simp [hk]
      · simp [hk]
    · have hb : (a == name) = false := by simpa using ha
      have hassign : assign ((a, v) :: rest) name e = (a, v) :: assign rest name e := by
        simp [assign, hb]
      have hna : ¬ name = a := fun h => ha h.symm
      rw [hassign, find_cons, ih, find_cons, if_neg hna]
      by_cases hk : k = name
      · subst hk
        simp [hna]
      · simp [hk, find_cons]

theorem find_erase (d : DirContents) (name : PathComponent) (k : PathComponent) :
    find (erase d name) k = if k = name then none else find d k := by
  induction d with
  | nil => simp [erase, find_nil]
  | cons kv rest ih =>
    obtain ⟨a, v⟩ := kv
    simp only [erase] at ih ⊢
    by_cases ha : a = name
    · subst ha
      simp only [List.filter, bne_self_eq_false]
      rw [ih, find_cons]
      by_cases hk : k = a <;> simp [hk]
    · have hb : (a != name) = true := by simpa using ha
      simp only [List.filter, hb, find_cons, ih]
      by_cases hk : k = name
      · subst hk
        have : ¬ k = a := fun h => ha h.symm
        simp [this]
      · simp [hk]

theorem find_insertSorted (d : DirContents) (name : PathComponent) (e : DirEntry)
    (k : PathComponent) (h : find d name = none) :
    find (insertSorted name e d) k = if k = name then some e else find d k := by
  induction d with
  | nil => simp [insertSorted, find_cons, find_nil]
  | cons kv rest ih =>
    obtain ⟨a, v⟩ := kv
    rw [find_cons] at h
    have hna : ¬ name = a := by
      intro hh; simp [hh] at h
    simp only [hna, if_false] at h
    simp only [insertSorted]
    split
    · simp only [find_cons]
    · simp only [find_cons, ih h]
      by_cases hk : k = a
      · subst hk
        have : ¬ k = name := fun hh => hna hh.symm
        simp [this]
      · simp [hk]

theorem emplace_absent (d : DirContents) (name : PathComponent) (e : DirEntry)
    (h : find d name = none) : emplace d name e = (insertSorted name e d, true) := by
  simp [emplace, h]

theorem emplace_present (d : DirContents) (name : PathComponent) (e v : DirEntry)
    (h : find d name = some v) : emplace d name e = (d, false) := by
  simp [emplace, h]

end DirContents

/-! ### Materialization only clears hashes -/

theorem DirEntry.Cleared.entry_refl (e : DirEntry) : DirEntry.Cleared e e := Or.inl rfl

theorem DirEntry.Cleared.entry_trans {a b c : DirEntry} (h1 : DirEntry.Cleared a b)
    (h2 : DirEntry.Cleared b c) : DirEntry.Cleared a c := by
  rcases h1 with rfl | rfl
  · exact h2
  · rcases h2 with rfl | rfl
    · exact Or.inr rfl
    · exact Or.inr rfl

theorem DirContents.Cleared.contents_refl (d : DirContents) : DirContents.Cleared d d := by
  induction d with
  | nil => exact List.Forall₂.nil
  | cons kv rest ih => exact List.Forall₂.cons ⟨rfl, DirEntry.Cleared.entry_refl _⟩ ih

theorem DirContents.Cleared.contents_trans {a b c : DirContents} (h1 : DirContents.Cleared a b)
    (h2 : DirContents.Cleared b c) : DirContents.Cleared a c := by
  induction h1 generalizing c with
  | nil => cases h2; exact List.Forall₂.nil
  | cons hab _ ih =>
    cases h2 with
    | cons hbc hrest =>
      exact List.Forall₂.cons ⟨hbc.1.trans hab.1, hab.2.entry_trans hbc.2⟩ (ih hrest)

/-- Look-ups in cleared contents: the same name finds the same entry up to a
cleared hash. -/
theorem DirContents.Cleared.find {d d1 : DirContents} (h : DirContents.Cleared d d1)
    (k : PathComponent) :
    (DirContents.find d k = none ∧ DirContents.find d1 k = none) ∨
      ∃ e e1, DirContents.find d k = some e ∧ DirContents.find d1 k = some e1 ∧
        DirEntry.Cleared e e1 := by
  induction h with
  | nil => exact Or.inl ⟨rfl, rfl⟩
  | @cons a b l1 l2 hab _ ih =>
    obtain ⟨ka, va⟩ := a
    obtain ⟨kb, vb⟩ := b
    obtain ⟨hk, hc⟩ := hab
    simp only at hk hc
    subst hk
    simp only [DirContents.find_cons]
    by_cases hkk : k = kb
    · simp only [hkk, if_true]
      exact Or.inr ⟨va, vb, rfl, rfl, hc⟩
    · simp only [hkk, if_false]
      exact ih

theorem DirContents.Cleared.isEmpty {d d1 : DirContents} (h : DirContents.Cleared d d1) :
    d1.isEmpty = d.isEmpty := by
  cases h <;> rfl

theorem DirContents.Cleared.length {d d1 : DirContents} (h : DirContents.Cleared d d1) :
    d1.length = d.length := (List.Forall₂.length_eq h).symm

/-- Clearing the hash of the entry `find` points to is a clearing. -/
theorem DirContents.assign_cleared (d : DirContents) (n : PathComponent) (e : DirEntry)
    (h : DirContents.find d n = some e) :
    DirContents.Cleared d (DirContents.assign d n e.setMaterialized) := by
  induction d with
  | nil => simp [DirContents.find_nil] at h
  | cons kv rest ih =>
    obtain ⟨a, v⟩ := kv
    rw [DirContents.find_cons] at h
    by_cases ha : n = a
    · subst ha
      simp only [if_true, Option.some.injEq] at h
      subst h
      simp only [DirContents.assign, beq_self_eq_true, if_true]
      exact List.Forall₂.cons ⟨rfl, Or.inr rfl⟩ (DirContents.Cleared.contents_refl _)
    · simp only [ha, if_false] at h
      have hb : (a == n) = false := by simpa using fun hh : a = n => ha hh.symm
      simp only [DirContents.assign, hb]
      exact List.Forall₂.cons ⟨rfl, Or.inl rfl⟩ (ih h)

theorem TreeInodeState.Cleared.state_refl (st : TreeInodeState) : TreeInodeState.Cleared st st :=
  ⟨DirContents.Cleared.contents_refl _, Or.inl rfl⟩

theorem TreeInodeState.Cleared.state_trans {a b c : TreeInodeState}
    (h1 : TreeInodeState.Cleared a b) (h2 : TreeInodeState.Cleared b c) :
    TreeInodeState.Cleared a c := by
  refine ⟨h1.1.contents_trans h2.1, ?_⟩
  rcases h2.2 with h | h
  · rcases h1.2 with h' | h'
    · exact Or.inl (h.trans h')
    · exact Or.inr (h.trans h')
  · exact Or.inr h

theorem Mat.mat_refl (m : Mount) : Mat m m where
  location := rfl
  journal := rfl
  nextInodeNumber := rfl
  dotEdenInodeNumber := rfl
  trees := rfl
  nameLengthOk := rfl
  overlayFiles := rfl
  contentsNone := fun _ h => h
  contentsSome := fun _ st h => ⟨st, h, TreeInodeState.Cleared.state_refl st⟩

theorem Mat.mat_trans {a b c : Mount} (h1 : Mat a b) (h2 : Mat b c) : Mat a c where
  location := h2.location.trans h1.location
  journal := h2.journal.trans h1.journal
  nextInodeNumber := h2.nextInodeNumber.trans h1.nextInodeNumber
  dotEdenInodeNumber := h2.dotEdenInodeNumber.trans h1.dotEdenInodeNumber
  trees := h2.trees.trans h1.trees
  nameLengthOk := h2.nameLengthOk.trans h1.nameLengthOk
  overlayFiles := h2.overlayFiles.trans h1.overlayFiles
  contentsNone := fun q h => h2.contentsNone q (h1.contentsNone q h)
  contentsSome := fun q st h => by
    obtain ⟨st1, hs1, hc1⟩ := h1.contentsSome q st h
    obtain ⟨st2, hs2, hc2⟩ := h2.contentsSome q st1 hs1
    exact ⟨st2, hs2, hc1.state_trans hc2⟩

/-- One step of materialization: a directory gets cleared contents and its
overlay directory is written. -/
theorem Mat.step (m : Mount) (p : InodePtr) (st st1 : TreeInodeState) (d : DirContents)
    (h : m.contents p = some st) (hc : TreeInodeState.Cleared st st1) :
    Mat m ((m.setContents p st1).saveOverlayDir p d) where
  location := rfl
  journal := rfl
  nextInodeNumber := rfl
  dotEdenInodeNumber := rfl
  trees := rfl
  nameLengthOk := rfl
  overlayFiles := rfl
  contentsNone := fun q hq => by
    have : q ≠ p := by intro hqp; rw [hqp, h] at hq; cases hq
    simp [Mount.saveOverlayDir, Mount.setContents, this, hq]
  contentsSome := fun q st0 hq => by
    by_cases hqp : q = p
    · subst hqp
      rw [h] at hq
      cases hq
      exact ⟨st1, by simp [Mount.saveOverlayDir, Mount.setContents], hc⟩
    · exact ⟨st0, by simp [Mount.saveOverlayDir, Mount.setContents, hqp, hq],
        TreeInodeState.Cleared.state_refl st0⟩

/-- `childMaterialized` only materializes, whatever it returns. -/
theorem childMaterialized_mat (fuel : Nat) :
    ∀ (m : Mount) (p : InodePtr) (n : PathComponent), Mat m (childMaterialized fuel m p n).2 := by
  induction fuel with
  | zero => intro m p n; exact Mat.mat_refl m
  | succ fuel ih =>
    intro m p n
    unfold childMaterialized
    cases hc : m.contents p with
    | none => exact Mat.mat_refl m
    | some contents =>
      simp only []
      cases hf : contents.entries.find n with
      | none => exact Mat.mat_refl m
      | some childEntry =>
        simp only []
        split
        · exact Mat.mat_refl m
        · have hstep := Mat.step m p contents
            { entries := contents.entries.assign n childEntry.setMaterialized, treeHash := none }
            (contents.entries.assign n childEntry.setMaterialized) hc
            ⟨DirContents.assign_cleared _ _ _ hf, Or.inr rfl⟩
          split
          · exact hstep
          · split
            · split
              · exact hstep.mat_trans (ih _ _ _)
              · exact hstep
            · exact hstep

/-- `materialize` only materializes, whatever it returns. -/
theorem materialize_mat (fuel : Nat) (m : Mount) (p : InodePtr) :
    Mat m (materialize fuel m p).2 := by
  unfold materialize
  cases hc : m.contents p with
  | none => exact Mat.mat_refl m
  | some contents =>
    simp only []
    split
    · exact Mat.mat_refl m
    · have hstep := Mat.step m p contents contents.setMaterialized contents.entries hc
        ⟨DirContents.Cleared.contents_refl _, Or.inr rfl⟩
      split
      · exact hstep
      · split
        · split
          · exact hstep.mat_trans (childMaterialized_mat _ _ _ _)
          · exact hstep
        · exact hstep

theorem getPath_congr (fuel : Nat) :
    ∀ (m m1 : Mount) (p : InodePtr), m1.location = m.location →
      getPath fuel m1 p = getPath fuel m p := by
  induction fuel with
  | zero => intro m m1 p _; rfl
  | succ fuel ih =>
    intro m m1 p h
    simp only [getPath, h]
    cases m.location p with
    | none => rfl
    | some loc =>
      simp only []
      split
      · rfl
      · cases loc.parent with
        | none => rfl
        | some parent => simp only [ih m m1 parent h]

theorem Touches.touches_congr (m : Mount) {m1 : Mount} (h : m1.location = m.location) {p q : InodePtr}
    {n k : PathComponent} (ht : Touches m1 p n q k) : Touches m p n q k := by
  induction ht with
  | here => exact Touches.here
  | up hl hp hu _ ih => exact Touches.up (by rw [← h]; exact hl) hp hu ih

theorem Mat.entry_isSome {m m1 : Mount} (h : Mat m m1) (q : InodePtr) (k : PathComponent) :
    (m1.entry q k).isSome = (m.entry q k).isSome := by
  unfold Mount.entry
  cases hc : m.contents q with
  | none => simp [h.contentsNone q hc]
  | some st =>
    obtain ⟨st1, hs1, hcl⟩ := h.contentsSome q st hc
    simp only [hs1, Option.some_bind]
    rcases hcl.1.find k with ⟨h1, h2⟩ | ⟨e, e1, h1, h2, _⟩
    · simp [h1, h2]
    · simp [h1, h2]

/-- An entry after materialization: present exactly if it was, and then the
same up to a cleared hash. -/
theorem Mat.entry {m m1 : Mount} (h : Mat m m1) (q : InodePtr) (k : PathComponent) :
    (m.entry q k = none ∧ m1.entry q k = none) ∨
      ∃ e e1, m.entry q k = some e ∧ m1.entry q k = some e1 ∧ DirEntry.Cleared e e1 := by
  unfold Mount.entry
  cases hc : m.contents q with
  | none => exact Or.inl ⟨rfl, by simp [h.contentsNone q hc]⟩
  | some st =>
    obtain ⟨st1, hs1, hcl⟩ := h.contentsSome q st hc
    simp only [hs1, Option.some_bind]
    exact hcl.1.find k

theorem ChainOk.chain_mat {m m1 : Mount} (h : Mat m m1) {p : InodePtr} {d : Nat}
    (hc : ChainOk m p d) : ChainOk m1 p d := by
  induction hc with
  | root hl hp => exact ChainOk.root (by rw [h.location]; exact hl) hp
  | child hl hp _ he ih =>
    exact ChainOk.child (by rw [h.location]; exact hl) hp ih
      (fun hu => by rw [h.entry_isSome]; exact he hu)

theorem ChainOk.to_depth {m : Mount} {p : InodePtr} {d : Nat} (hc : ChainOk m p d) :
    Depth m p d := by
  induction hc with
  | root hl hp => exact Depth.root hl hp
  | child hl hp _ _ ih => exact Depth.child hl hp ih

theorem Depth.unique {m : Mount} {p : InodePtr} {d : Nat} (h : Depth m p d) :
    ∀ {d1 : Nat}, Depth m p d1 → d = d1 := by
  induction h with
  | root hl hp =>
    intro d1 h1
    cases h1 with
    | root => rfl
    | child hl1 hp1 _ => rw [hl] at hl1; cases hl1; rw [hp] at hp1; cases hp1
  | child hl hp _ ih =>
    intro d1 h1
    cases h1 with
    | root hl1 hp1 => rw [hl] at hl1; cases hl1; rw [hp] at hp1; cases hp1
    | child hl1 hp1 hd1 =>
      rw [hl] at hl1; cases hl1; rw [hp] at hp1; cases hp1
      rw [ih hd1]

theorem Depth.depth_congr {m m1 : Mount} (h : m1.location = m.location) {p : InodePtr} {d : Nat}
    (hd : Depth m p d) : Depth m1 p d := by
  induction hd with
  | root hl hp => exact Depth.root (by rw [h]; exact hl) hp
  | child hl hp _ ih => exact Depth.child (by rw [h]; exact hl) hp ih

/-- What `childMaterialized` on `p` can reach lies at `p` itself or strictly
above it. -/
theorem Touches.depth_bound {m : Mount} {p q : InodePtr} {n k : PathComponent}
    (ht : Touches m p n q k) :
    ∀ {d : Nat}, Depth m p d → (q = p ∧ k = n) ∨ ∃ dq, Depth m q dq ∧ dq < d := by
  induction ht with
  | here => intro d _; exact Or.inl ⟨rfl, rfl⟩
  | @up p parent q n k loc hl hp _ _ ih =>
    intro d hd
    cases hd with
    | root hl1 hp1 => rw [hl] at hl1; cases hl1; rw [hp] at hp1; cases hp1
    | @child _ parent1 _ d1 hl1 hp1 hd1 =>
      rw [hl] at hl1; cases hl1; rw [hp] at hp1; cases hp1
      rcases ih hd1 with ⟨hq, _⟩ | ⟨dq, hdq, hlt⟩
      · subst hq
        exact Or.inr ⟨d1, hd1, Nat.lt_succ_self _⟩
      · exact Or.inr ⟨dq, hdq, Nat.lt_succ_of_lt hlt⟩

theorem entry_setContents_saveOverlayDir (m : Mount) (p : InodePtr) (st : TreeInodeState)
    (d : DirContents) (q : InodePtr) (k : PathComponent) :
    ((m.setContents p st).saveOverlayDir p d).entry q k =
      if q = p then st.entries.find k else m.entry q k := by
  unfold Mount.entry
  by_cases h : q = p <;> simp [Mount.saveOverlayDir, Mount.setContents, h]

/-- `childMaterialized` leaves every entry it cannot reach as it was. -/
theorem childMaterialized_entry (fuel : Nat) :
    ∀ (m : Mount) (p : InodePtr) (n : PathComponent) (q : InodePtr) (k : PathComponent),
      ¬ Touches m p n q k → (childMaterialized fuel m p n).2.entry q k = m.entry q k := by
  induction fuel with
  | zero => intro m p n q k _; rfl
  | succ fuel ih =>
    intro m p n q k hnt
    unfold childMaterialized
    cases hc : m.contents p with
    | none => rfl
    | some contents =>
      simp only []
      cases hf : contents.entries.find n with
      | none => rfl
      | some childEntry =>
        simp only []
        have hstep : ((m.setContents p
              { entries := contents.entries.assign n childEntry.setMaterialized,
                treeHash := none }).saveOverlayDir p
              (contents.entries.assign n childEntry.setMaterialized)).entry q k = m.entry q k := by
          rw [entry_setContents_saveOverlayDir]
          by_cases hqp : q = p
          · subst hqp
            have hkn : k ≠ n := by
              intro hkn; subst hkn; exact hnt Touches.here
            simp [DirContents.find_assign, hkn, Mount.entry, hc]
          · simp [hqp]
        split
        · rfl
        · split
          · exact hstep
          · rename_i location hloc
            have hloc' : m.location p = some location := hloc
            split
            · rename_i parent hpar
              split
              · rename_i hunl
                rw [ih _ _ _ _ _ ?_]
                · exact hstep
                · intro ht
                  have ht' : Touches m parent location.name q k := Touches.touches_congr m (by rfl) ht
                  exact hnt (Touches.up hloc' hpar (by simpa using hunl) ht')
              · exact hstep
            · exact hstep

/-- `materialize` on `p` leaves every entry as it was unless the parent chain
of `p` leads through it. -/
theorem materialize_entry (fuel : Nat) (m : Mount) (p q : InodePtr) (k : PathComponent)
    (hnt : ∀ loc parent, m.location p = some loc → loc.parent = some parent →
      loc.unlinked = false → ¬ Touches m parent loc.name q k) :
    (materialize fuel m p).2.entry q k = m.entry q k := by
  unfold materialize
  cases hc : m.contents p with
  | none => rfl
  | some contents =>
    simp only []
    have hstep : ((m.setContents p contents.setMaterialized).saveOverlayDir p
        contents.entries).entry q k = m.entry q k := by
      rw [entry_setContents_saveOverlayDir]
      by_cases hqp : q = p
      · subst hqp
        simp [TreeInodeState.setMaterialized, Mount.entry, hc]
      · simp [hqp]
    split
    · rfl
    · split
      · exact hstep
      · rename_i loc hloc
        have hloc' : m.location p = some loc := hloc
        split
        · rename_i parent hpar
          split
          · rename_i hunl
            rw [childMaterialized_entry _ _ _ _ _ _ ?_]
            · exact hstep
            · intro ht
              exact hnt loc parent hloc' hpar (by simpa using hunl) (Touches.touches_congr m (by rfl) ht)
          · exact hstep
        · exact hstep

theorem contents_setContents_saveOverlayDir (m : Mount) (p : InodePtr) (st : TreeInodeState)
    (d : DirContents) (q : InodePtr) :
    ((m.setContents p st).saveOverlayDir p d).contents q =
      if q = p then some st else m.contents q := by
  by_cases h : q = p <;> simp [Mount.saveOverlayDir, Mount.setContents, h]

/-- `childMaterialized` leaves every directory it cannot reach as it was. -/
theorem childMaterialized_contents (fuel : Nat) :
    ∀ (m : Mount) (p : InodePtr) (n : PathComponent) (q : InodePtr),
      (∀ k, ¬ Touches m p n q k) → (childMaterialized fuel m p n).2.contents q = m.contents q := by
  induction fuel with
  | zero => intro m p n q _; rfl
  | succ fuel ih =>
    intro m p n q hnt
    have hqp : q ≠ p := by
      intro hqp; subst hqp; exact hnt n Touches.here
    unfold childMaterialized
    cases hc : m.contents p with
    | none => rfl
    | some contents =>
      simp only []
      cases hf : contents.entries.find n with
      | none => rfl
      | some childEntry =>
        simp only []
        have hstep : ((m.setContents p
              { entries := contents.entries.assign n childEntry.setMaterialized,
                treeHash := none }).saveOverlayDir p
              (contents.entries.assign n childEntry.setMaterialized)).contents q =
              m.contents q := by
          rw [contents_setContents_saveOverlayDir, if_neg hqp]
        split
        · rfl
        · split
          · exact hstep
          · rename_i location hloc
            have hloc' : m.location p = some location := hloc
            split
            · rename_i parent hpar
              split
              · rename_i hunl
                rw [ih _ _ _ _ ?_]
                · exact hstep
                · intro k ht
                  exact hnt k (Touches.up hloc' hpar (by simpa using hunl)
                    (Touches.touches_congr m (by rfl) ht))
              · exact hstep
            · exact hstep

/-- `childMaterialized` on a directory leaves the directories at the same depth
or below untouched, except the directory itself. -/
theorem childMaterialized_contents_of_depth (fuel : Nat) (m : Mount) (p : InodePtr)
    (n : PathComponent) (q : InodePtr) (d dq : Nat) (hd : Depth m p d) (hq : Depth m q dq)
    (hle : d ≤ dq) (hne : q ≠ p) :
    (childMaterialized fuel m p n).2.contents q = m.contents q := by
  apply childMaterialized_contents
  intro k ht
  rcases ht.depth_bound hd with ⟨h, _⟩ | ⟨dq1, hdq1, hlt⟩
  · exact hne h
  · have := hq.unique hdq1
    omega

/-- After `materialize` the directory has no tree hash and the entries it had. -/
theorem materialize_self (fuel : Nat) (m : Mount) (p : InodePtr) (st : TreeInodeState) (d : Nat)
    (hd : Depth m p d) (hc : m.contents p = some st) :
    (materialize fuel m p).2.contents p = some { entries := st.entries, treeHash := none } := by
  unfold materialize
  simp only [hc]
  split
  · rename_i hm
    have : st.treeHash = none := by
      simpa [TreeInodeState.isMaterialized] using hm
    cases st
    simp_all
  · have hstep : ((m.setContents p st.setMaterialized).saveOverlayDir p st.entries).contents p =
        some { entries := st.entries, treeHash := none } := by
      rw [contents_setContents_saveOverlayDir, if_pos rfl]
      rfl
    split
    · exact hstep
    · rename_i loc hloc
      have hloc' : m.location p = some loc := hloc
      split
      · rename_i parent hpar
        split
        · cases hd with
          | root hl1 hp1 => rw [hloc'] at hl1; cases hl1; rw [hpar] at hp1; cases hp1
          | @child _ parent1 _ d1 hl1 hp1 hd1 =>
            rw [hloc'] at hl1; cases hl1; rw [hpar] at hp1; cases hp1
            have hd1' : Depth ((m.setContents p st.setMaterialized).saveOverlayDir p st.entries)
                parent d1 := hd1.depth_congr (by rfl)
            have hdp : Depth ((m.setContents p st.setMaterialized).saveOverlayDir p st.entries)
                p (d1 + 1) := (Depth.child hloc' hpar hd1).depth_congr (by rfl)
            have hne : p ≠ parent := by
              intro h
              rw [← h] at hd1'
              have := hd1'.unique hdp
              omega
            rw [childMaterialized_contents_of_depth _ _ _ _ _ d1 (d1 + 1) hd1' hdp
              (Nat.le_succ _) hne]
            exact hstep
        · exact hstep
      · exact hstep

/-- `childMaterialized` succeeds on a well-formed chain, given enough fuel. -/
theorem childMaterialized_ok (fuel : Nat) :
    ∀ (m : Mount) (p : InodePtr) (n : PathComponent) (d : Nat), ChainOk m p d → d < fuel →
      (m.entry p n).isSome = true → (childMaterialized fuel m p n).1 = .ok () := by
  induction fuel with
  | zero => intro m p n d _ h; omega
  | succ fuel ih =>
    intro m p n d hch hlt he
    unfold childMaterialized
    unfold Mount.entry at he
    cases hc : m.contents p with
    | none => simp [hc] at he
    | some contents =>
      simp only [hc, Option.some_bind] at he
      simp only []
      cases hf : contents.entries.find n with
      | none => simp [hf] at he
      | some childEntry =>
        simp only []
        have hmat := Mat.step m p contents
            { entries := contents.entries.assign n childEntry.setMaterialized, treeHash := none }
            (contents.entries.assign n childEntry.setMaterialized) hc
            ⟨DirContents.assign_cleared _ _ _ hf, Or.inr rfl⟩
        split
        · rfl
        · cases hch with
          | root hl hp =>
            have hl' : ((m.setContents p
              { entries := contents.entries.assign n childEntry.setMaterialized,
                treeHash := none }).saveOverlayDir p
              (contents.entries.assign n childEntry.setMaterialized)).location p = some _ := hl
            simp only [hl', hp]
          | @child _ parent loc d1 hl hp hpar he1 =>
            have hl' : ((m.setContents p
              { entries := contents.entries.assign n childEntry.setMaterialized,
                treeHash := none }).saveOverlayDir p
              (contents.entries.assign n childEntry.setMaterialized)).location p = some _ := hl
            simp only [hl', hp]
            split
            · rename_i hunl
              apply ih _ _ _ d1 (hpar.chain_mat hmat) (by omega)
              rw [hmat.entry_isSome]
              exact he1 (by simpa using hunl)
            · rfl

/-- `materialize` succeeds on a loaded directory with a well-formed chain,
given enough fuel. -/
theorem materialize_ok (fuel : Nat) (m : Mount) (p : InodePtr) (d : Nat) (st : TreeInodeState)
    (hch : ChainOk m p d) (hle : d ≤ fuel) (hc : m.contents p = some st) :
    (materialize fuel m p).1 = .ok () := by
  unfold materialize
  simp only [hc]
  have hmat := Mat.step m p st st.setMaterialized st.entries hc
    ⟨DirContents.Cleared.contents_refl _, Or.inr rfl⟩
  split
  · rfl
  · cases hch with
    | root hl hp =>
      have hl' : ((m.setContents p st.setMaterialized).saveOverlayDir p st.entries).location p =
          some _ := hl
      simp only [hl', hp]
    | @child _ parent loc d1 hl hp hpar he1 =>
      have hl' : ((m.setContents p st.setMaterialized).saveOverlayDir p st.entries).location p =
          some _ := hl
      simp only [hl', hp]
      split
      · rename_i hunl
        apply childMaterialized_ok _ _ _ _ d1 (hpar.chain_mat hmat) (by omega)
        rw [hmat.entry_isSome]
        exact he1 (by simpa using hunl)
      · rfl

/-- The facts about a successful `materialize` that the operations build on. -/
theorem materialize_result (fuel : Nat) (m : Mount) (p : InodePtr) (d : Nat) (st : TreeInodeState)
    (hch : ChainOk m p d) (hle : d ≤ fuel) (hc : m.contents p = some st) :
    ∃ m1, materialize fuel m p = (.ok (), m1) ∧ Mat m m1 ∧
      m1.contents p = some { entries := st.entries, treeHash := none } := by
  refine ⟨(materialize fuel m p).2, ?_, materialize_mat fuel m p,
    materialize_self fuel m p st d hch.to_depth hc⟩
  exact Prod.ext (materialize_ok fuel m p d st hch hle hc) rfl

/-- The entries of a directory after the insertion of a new loaded child. -/
theorem find_inserted (d : DirContents) (name : PathComponent) (e e1 : DirEntry)
    (habs : d.find name = none) (k : PathComponent) :
    ((d.insertSorted name e).assign name e1).find k =
      if k = name then some e1 else d.find k := by
  rw [DirContents.find_assign, DirContents.find_insertSorted _ _ _ _ habs]
  by_cases hk : k = name
  · simp [hk, DirContents.find_insertSorted _ _ _ _ habs]
  · simp [hk, DirContents.find_insertSorted _ _ _ _ habs]

/-- `createImpl` on a directory that passes its checks. -/
theorem createImpl_ok (fuel : Nat) (m : Mount) (p : InodePtr) (name : PathComponent)
    (mode : Nat) (bytes : String) (st : TreeInodeState) (path : List PathComponent)
    (hdot : p ≠ m.dotEdenInodeNumber) (hc : m.contents p = some st)
    (habs : st.entries.find name = none) (hpath : getPath fuel m p = .ok (some path)) :
    ∃ m1 st1, createImpl fuel m p name mode bytes = (.ok m.nextInodeNumber, m1) ∧
      m1.nextInodeNumber = m.nextInodeNumber + 1 ∧
      m1.contents p = some st1 ∧ st1.treeHash = st.treeHash ∧
      st1.entries.find name =
        some { initialMode := mode, inodeNumber := m.nextInodeNumber, hash := none,
               inode := some m.nextInodeNumber } ∧
      (∀ k, k ≠ name → st1.entries.find k = st.entries.find k) ∧
      m1.journal = m.journal ++ [.CREATED (path ++ [name])] := by
  refine ⟨((((m.allocateInodeNumber.2.createOverlayFile m.nextInodeNumber bytes).newFileInode
            m.nextInodeNumber p name).setContents p
            { st with
              entries :=
                (st.entries.insertSorted name (DirEntry.mk2 mode m.nextInodeNumber)).assign name
                  ((DirEntry.mk2 mode m.nextInodeNumber).setInode m.nextInodeNumber) }).saveOverlayDir
          p
          ((st.entries.insertSorted name (DirEntry.mk2 mode m.nextInodeNumber)).assign name
            ((DirEntry.mk2 mode m.nextInodeNumber).setInode m.nextInodeNumber))).addDelta
          (.CREATED (path ++ [name])),
    { st with
      entries :=
        (st.entries.insertSorted name (DirEntry.mk2 mode m.nextInodeNumber)).assign name
          ((DirEntry.mk2 mode m.nextInodeNumber).setInode m.nextInodeNumber) },
    ?_, ?_, ?_, rfl, ?_, ?_, ?_⟩
  · simp only [createImpl, hdot, if_false, hc, habs, hpath,
      DirContents.emplace_absent _ _ _ habs, Mount.allocateInodeNumber, Bool.not_true,
      Bool.false_eq_true]
  · rfl
  · simp only [Mount.addDelta, Mount.saveOverlayDir, Mount.setContents, if_true]
  · rw [find_inserted _ _ _ _ habs]
    simp [DirEntry.mk2, DirEntry.setInode]
  · intro k hk
    rw [find_inserted _ _ _ _ habs]
    simp [hk]
  · rfl

/-- C6 (create postcondition).  In a mount whose parent chain above the directory
is well formed and whose allocator is ahead of the directory's inode number,
for a directory that has a path (it is not unlinked), that is not the control
directory, and a name of valid length with no entry: `create(name, mode)`
succeeds; afterwards the directory is materialized, holds `name` with mode
`S_IFREG | (mode & 07777)`, the inode number just handed out by the allocator,
and no hash, and finds every other name as before.  `mkdir` does the same with
mode `S_IFDIR | (mode & 07777)` and saves an empty overlay directory under the
new inode number. -/
theorem create_mkdir_postcondition (fuel : Nat) (m : Mount) (p : InodePtr)
    (name : PathComponent) (mode : Nat) (d : Nat) (st : TreeInodeState)
    (path : List PathComponent)
    (hch : ChainOk m p d) (hfuel : d < fuel) (hc : m.contents p = some st)
    (hfresh : p < m.nextInodeNumber)
    (hpath : getPath fuel m p = .ok (some path))
    (hdot : p ≠ m.dotEdenInodeNumber)
    (hname : m.nameLengthOk name = true)
    (habs : st.entries.find name = none) :
    (∃ m1 st1, create fuel m p name mode = (.ok m.nextInodeNumber, m1) ∧
      m1.nextInodeNumber = m.nextInodeNumber + 1 ∧
      m1.contents p = some st1 ∧ st1.treeHash = none ∧
      st1.entries.find name =
        some { initialMode := S_IFREG ||| (0o7777 &&& mode), inodeNumber := m.nextInodeNumber,
               hash := none, inode := some m.nextInodeNumber } ∧
      ∀ k, k ≠ name → st1.entries.find k = st.entries.find k) ∧
    (∃ m1 st1, mkdir fuel m p name mode = (.ok m.nextInodeNumber, m1) ∧
      m1.nextInodeNumber = m.nextInodeNumber + 1 ∧
      m1.contents p = some st1 ∧ st1.treeHash = none ∧
      st1.entries.find name =
        some { initialMode := S_IFDIR ||| (0o7777 &&& mode), inodeNumber := m.nextInodeNumber,
               hash := none, inode := some m.nextInodeNumber } ∧
      (∀ k, k ≠ name → st1.entries.find k = st.entries.find k) ∧
      m1.overlayDirs m.nextInodeNumber = some []) := by
  obtain ⟨m1, hmat, hM, hc1⟩ := materialize_result fuel m p d st hch (Nat.le_of_lt hfuel) hc
  have hpath1 : getPath fuel m1 p = .ok (some path) := by
    rw [getPath_congr fuel m m1 p hM.location]; exact hpath
  have hdot1 : p ≠ m1.dotEdenInodeNumber := by rw [hM.dotEdenInodeNumber]; exact hdot
  have hnext : m1.nextInodeNumber = m.nextInodeNumber := hM.nextInodeNumber
  constructor
  · have hcreate : create fuel m p name mode =
        createImpl fuel m1 p name (S_IFREG ||| (0o7777 &&& mode)) "" := by
      simp only [create, hname, Bool.not_true, Bool.false_eq_true, if_false, hmat]
    obtain ⟨m2, st2, h1, h2, h3, h4, h5, h6, _⟩ :=
      createImpl_ok fuel m1 p name (S_IFREG ||| (0o7777 &&& mode)) "" _ path hdot1 hc1 habs hpath1
    rw [hnext] at h1 h2 h5
    exact ⟨m2, st2, hcreate.trans h1, h2, h3, h4, h5, h6⟩
  · refine ⟨((((m1.allocateInodeNumber.2.saveOverlayDir m.nextInodeNumber []).newTreeInode
            m.nextInodeNumber p name [] none).setContents p
            { entries :=
                (st.entries.insertSorted name
                  (DirEntry.mk2 (S_IFDIR ||| (0o7777 &&& mode)) m.nextInodeNumber)).assign name
                  ((DirEntry.mk2 (S_IFDIR ||| (0o7777 &&& mode)) m.nextInodeNumber).setInode
                    m.nextInodeNumber)
              treeHash := none }).saveOverlayDir p
            ((st.entries.insertSorted name
                  (DirEntry.mk2 (S_IFDIR ||| (0o7777 &&& mode)) m.nextInodeNumber)).assign name
                  ((DirEntry.mk2 (S_IFDIR ||| (0o7777 &&& mode)) m.nextInodeNumber).setInode
                    m.nextInodeNumber))).addDelta (.CREATED (path ++ [name])),
      { entries :=
          (st.entries.insertSorted name
            (DirEntry.mk2 (S_IFDIR ||| (0o7777 &&& mode)) m.nextInodeNumber)).assign name
            ((DirEntry.mk2 (S_IFDIR ||| (0o7777 &&& mode)) m.nextInodeNumber).setInode
              m.nextInodeNumber)
        treeHash := none }, ?_, ?_, ?_, rfl, ?_, ?_, ?_⟩
    · simp only [mkdir, hdot, hname, Bool.not_true, Bool.false_eq_true, if_false, hmat,
        hc1, habs, hpath1, DirContents.emplace_absent _ _ _ habs, Mount.allocateInodeNumber,
        hnext]
    · simp [Mount.addDelta, Mount.saveOverlayDir, Mount.setContents, Mount.newTreeInode,
        Mount.allocateInodeNumber, hnext]
    · simp only [Mount.addDelta, Mount.saveOverlayDir, Mount.setContents, if_true]
    · rw [find_inserted _ _ _ _ habs]
      simp [DirEntry.mk2, DirEntry.setInode]
    · intro k hk
      rw [find_inserted _ _ _ _ habs]
      simp [hk]
    · have hne : m.nextInodeNumber ≠ p := Nat.ne_of_gt hfresh
      simp [Mount.addDelta, Mount.saveOverlayDir, Mount.setContents, Mount.newTreeInode,
        Mount.allocateInodeNumber, hne]

/-- Witness of C6: in the directory `C` of the example mount, `create("x")` and
`mkdir("x")` succeed with the inode number 100 the allocator hands out. -/
theorem create_mkdir_postcondition_witness :
    (create 5 Example.mountCF 2 "x" 0o644).1 = .ok 100 ∧
      (mkdir 5 Example.mountCF 2 "x" 0o644).1 = .ok 100 :=
  have h := create_mkdir_postcondition 5 Example.mountCF 2 "x" 0o644 1
    { entries := [], treeHash := some 20 } ["C"]
    (ChainOk.child rfl rfl (ChainOk.root rfl rfl) (fun _ => rfl))
    (by decide) rfl (by decide) rfl (by decide) rfl rfl
  ⟨h.1.elim fun _ h1 => h1.elim fun _ h2 => congrArg Prod.fst h2.1,
   h.2.elim fun _ h1 => h1.elim fun _ h2 => congrArg Prod.fst h2.1⟩

/-! ### C7: the creating operations on an existing name or in the control directory -/

theorem createImpl_eperm (fuel : Nat) (m : Mount) (p : InodePtr) (name : PathComponent)
    (mode : Nat) (bytes : String) (h : p = m.dotEdenInodeNumber) :
    createImpl fuel m p name mode bytes = (.error (.errno .EPERM), m) := by
  simp [createImpl, h]

theorem createImpl_eexist (fuel : Nat) (m : Mount) (p : InodePtr) (name : PathComponent)
    (mode : Nat) (bytes : String) (st : TreeInodeState) (e : DirEntry)
    (hdot : p ≠ m.dotEdenInodeNumber) (hc : m.contents p = some st)
    (hf : st.entries.find name = some e) :
    createImpl fuel m p name mode bytes = (.error (.errno .EEXIST), m) := by
  simp [createImpl, hdot, hc, hf]

/-- Counterexample to C7 as stated.  (1) `mknod` with a mode that is not a socket
on a name that is present in an ordinary directory fails with `EPERM`, not
`EEXIST`.  (2) `create` in the control directory with a name that is too long
fails with `ENAMETOOLONG`, not `EPERM`.  (3) `create` of a name that is present
in the control directory fails with `EPERM`, not `EEXIST`. -/
theorem create_errors_counterexample :
    ((Example.mountCF.entry 1 "f").isSome = true ∧ 1 ≠ Example.mountCF.dotEdenInodeNumber ∧
      (mknod 5 Example.mountCF 1 "f" (S_IFREG ||| 0o644)).1 = .error (.errno .EPERM)) ∧
    (9 = Example.mountEden.dotEdenInodeNumber ∧
      (create 5 Example.mountEden 9 Example.longName 0o644).1 =
        .error (.errno .ENAMETOOLONG)) ∧
    ((Example.mountEden.entry 9 "root").isSome = true ∧
      (create 5 Example.mountEden 9 "root" 0o644).1 = .error (.errno .EPERM)) := by
  refine ⟨⟨rfl, by decide, rfl⟩, ⟨rfl, rfl⟩, ⟨rfl, rfl⟩⟩

/-- C7, amended.  In a mount whose parent chain above the directory is well
formed, for a name of valid length: `create`, `symlink`, `mknod` and `mkdir`
fail with `EPERM` when the directory is the control directory; when it is not
and the name is present, `create` and `symlink` fail with `EEXIST`, `mknod`
does so for a socket mode, and `mkdir` does so if the directory has a path (is
not unlinked); `mknod` with a mode that is not a socket fails with `EPERM`.  In
each of these failures the entries of the directory are exactly as before and
the journal is as before. -/
theorem create_errors (fuel : Nat) (m : Mount) (p : InodePtr) (name : PathComponent)
    (mode : Nat) (symlinkTarget : String) (d : Nat) (st : TreeInodeState)
    (hch : ChainOk m p d) (hfuel : d ≤ fuel) (hc : m.contents p = some st)
    (hname : m.nameLengthOk name = true) :
    (p = m.dotEdenInodeNumber →
      FailsKeeping (create fuel m p name mode) .EPERM m p st.entries ∧
      FailsKeeping (symlink fuel m p name symlinkTarget) .EPERM m p st.entries ∧
      FailsKeeping (mknod fuel m p name mode) .EPERM m p st.entries ∧
      FailsKeeping (mkdir fuel m p name mode) .EPERM m p st.entries) ∧
    (p ≠ m.dotEdenInodeNumber → (st.entries.find name).isSome = true →
      FailsKeeping (create fuel m p name mode) .EEXIST m p st.entries ∧
      FailsKeeping (symlink fuel m p name symlinkTarget) .EEXIST m p st.entries ∧
      (S_ISSOCK mode = true → FailsKeeping (mknod fuel m p name mode) .EEXIST m p st.entries) ∧
      (∀ path, getPath fuel m p = .ok (some path) →
        FailsKeeping (mkdir fuel m p name mode) .EEXIST m p st.entries)) ∧
    (S_ISSOCK mode = false → FailsKeeping (mknod fuel m p name mode) .EPERM m p st.entries) := by
  obtain ⟨m1, hmat, hM, hc1⟩ := materialize_result fuel m p d st hch hfuel hc
  have hkeep : ∀ e : Errno, FailsKeeping ((.error (.errno e), m1) : Result InodePtr) e m p
      st.entries := fun e => ⟨rfl, hM.journal, _, hc1, rfl⟩
  have hkeep0 : ∀ e : Errno, FailsKeeping ((.error (.errno e), m) : Result InodePtr) e m p
      st.entries := fun e => ⟨rfl, rfl, _, hc, rfl⟩
  refine ⟨?_, ?_, ?_⟩
  · intro hdot
    have hdot1 : p = m1.dotEdenInodeNumber := by rw [hM.dotEdenInodeNumber]; exact hdot
    refine ⟨?_, ?_, ?_, ?_⟩
    · simp only [create, hname, Bool.not_true, Bool.false_eq_true, if_false, hmat,
        createImpl_eperm _ _ _ _ _ _ hdot1]
      exact hkeep _
    · simp only [symlink, hname, Bool.not_true, Bool.false_eq_true, if_false, hmat,
        createImpl_eperm _ _ _ _ _ _ hdot1]
      exact hkeep _
    · cases hs : S_ISSOCK mode
      · simp only [mknod, hname, hs, Bool.not_true, Bool.not_false, Bool.false_eq_true, if_false,
          if_true]
        exact hkeep0 _
      · simp only [mknod, hname, hs, Bool.not_true, Bool.false_eq_true, if_false, hmat,
          createImpl_eperm _ _ _ _ _ _ hdot1]
        exact hkeep _
    · have hmk : mkdir fuel m p name mode = (.error (.errno .EPERM), m) := by
        unfold mkdir
        rw [if_pos hdot]
      rw [hmk]
      exact hkeep0 _
  · intro hdot hpres
    have hdot1 : p ≠ m1.dotEdenInodeNumber := by rw [hM.dotEdenInodeNumber]; exact hdot
    obtain ⟨e, he⟩ := Option.isSome_iff_exists.mp hpres
    have he1 : ({ entries := st.entries, treeHash := none } : TreeInodeState).entries.find name =
        some e := he
    refine ⟨?_, ?_, ?_, ?_⟩
    · simp only [create, hname, Bool.not_true, Bool.false_eq_true, if_false, hmat,
        createImpl_eexist _ _ _ _ _ _ _ e hdot1 hc1 he1]
      exact hkeep _
    · simp only [symlink, hname, Bool.not_true, Bool.false_eq_true, if_false, hmat,
        createImpl_eexist _ _ _ _ _ _ _ e hdot1 hc1 he1]
      exact hkeep _
    · intro hs
      simp only [mknod, hname, hs, Bool.not_true, Bool.false_eq_true, if_false, hmat,
        createImpl_eexist _ _ _ _ _ _ _ e hdot1 hc1 he1]
      exact hkeep _
    · intro path hpath
      have hpath1 : getPath fuel m1 p = .ok (some path) := by
        rw [getPath_congr fuel m m1 p hM.location]; exact hpath
      simp only [mkdir, hdot, hname, Bool.not_true, Bool.false_eq_true, if_false, hmat, hc1,
        hpath1, he]
      exact hkeep _
  · intro hs
    simp only [mknod, hname, hs, Bool.not_true, Bool.not_false, Bool.false_eq_true, if_false,
      if_true]
    exact hkeep0 _

/-- Witness of the amended C7 in the example mount: the file `f` exists in the
root, which is not the control directory. -/
theorem create_errors_witness :
    FailsKeeping (create 5 Example.mountCF 1 "f" 0o644) .EEXIST Example.mountCF 1
        [("C", Example.dirEntry 2 (some 20) true), ("f", Example.fileEntry 3 (some 30) true)] ∧
      FailsKeeping (mknod 5 Example.mountCF 1 "f" 0o644) .EPERM Example.mountCF 1
        [("C", Example.dirEntry 2 (some 20) true), ("f", Example.fileEntry 3 (some 30) true)] :=
  have h := create_errors 5 Example.mountCF 1 "f" 0o644 "" 0
    { entries := [("C", Example.dirEntry 2 (some 20) true),
                  ("f", Example.fileEntry 3 (some 30) true)],
      treeHash := some 10 }
    (ChainOk.root rfl rfl) (by decide) rfl rfl
  ⟨(h.2.1 (by decide) rfl).1, h.2.2 rfl⟩

/-! ### Loading a child -/

theorem foldl_invariant {α β : Type} (P : β → Prop) (f : β → α → β) (l : List α) :
    ∀ b, P b → (∀ b a, P b → P (f b a)) → P (l.foldl f b) := by
  induction l with
  | nil => intro b hb _; exact hb
  | cons a rest ih => intro b hb hf; exact ih (f b a) (hf b a hb) hf

/-- `buildDirFromTree` only moves the allocator. -/
theorem buildDirFromTree_frame (m : Mount) (tree : Tree) :
    (buildDirFromTree m tree).2.journal = m.journal ∧
    (buildDirFromTree m tree).2.dotEdenInodeNumber = m.dotEdenInodeNumber ∧
    (buildDirFromTree m tree).2.contents = m.contents ∧
    (buildDirFromTree m tree).2.location = m.location := by
  unfold buildDirFromTree
  apply foldl_invariant
    (fun (acc : DirContents × Mount) => acc.2.journal = m.journal ∧
      acc.2.dotEdenInodeNumber = m.dotEdenInodeNumber ∧ acc.2.contents = m.contents ∧
      acc.2.location = m.location)
  · exact ⟨rfl, rfl, rfl, rfl⟩
  · intro b a hb
    exact hb

/-- What the construction of a child object leaves alone. -/
theorem startLoadingInode_frame (m : Mount) (p : InodePtr) (entry : DirEntry)
    (name : PathComponent) :
    (startLoadingInode m p entry name).2.journal = m.journal ∧
    (startLoadingInode m p entry name).2.dotEdenInodeNumber = m.dotEdenInodeNumber ∧
    (∀ q, q ≠ entry.inodeNumber →
      (startLoadingInode m p entry name).2.contents q = m.contents q ∧
      (startLoadingInode m p entry name).2.location q = m.location q) := by
  unfold startLoadingInode
  cases hd : entry.isDirectory with
  | false =>
    simp only [Bool.not_false, if_true]
    exact ⟨rfl, rfl, fun q hq => by simp [Mount.newFileInode, hq]⟩
  | true =>
    simp only [Bool.not_true, Bool.false_eq_true, if_false]
    cases hh : entry.hash with
    | none =>
      simp only []
      cases ho : m.overlayDirs entry.inodeNumber with
      | none => exact ⟨rfl, rfl, fun q _ => ⟨rfl, rfl⟩⟩
      | some dir => exact ⟨rfl, rfl, fun q hq => by simp [Mount.newTreeInode, hq]⟩
    | some treeHash =>
      simp only []
      cases ht : m.trees treeHash with
      | none => exact ⟨rfl, rfl, fun q _ => ⟨rfl, rfl⟩⟩
      | some tree =>
        simp only []
        cases ho : m.overlayDirs entry.inodeNumber with
        | some dir => exact ⟨rfl, rfl, fun q hq => by simp [Mount.newTreeInode, hq]⟩
        | none =>
          obtain ⟨h1, h2, h3, h4⟩ := buildDirFromTree_frame m tree
          simp only [saveDirFromTree]
          refine ⟨h1, h2, fun q hq => ?_⟩
          simp [Mount.newTreeInode, Mount.saveOverlayDir, hq, h3, h4]

/-- Recording the loaded inode in an entry does not change the stored form of
the directory. -/
theorem stored_assign_setInode (d : DirContents) (name : PathComponent) (e : DirEntry)
    (q : InodePtr) (h : d.find name = some e) :
    (d.assign name (e.setInode q)).stored = d.stored := by
  induction d with
  | nil => rfl
  | cons kv rest ih =>
    obtain ⟨a, v⟩ := kv
    rw [DirContents.find_cons] at h
    by_cases ha : name = a
    · subst ha
      simp only [if_true, Option.some.injEq] at h
      subst h
      simp [DirContents.assign, DirContents.stored, DirEntry.setInode]
    · simp only [ha, if_false] at h
      have hb : (a == name) = false := by simpa using fun hh : a = name => ha hh.symm
      have ih' := ih h
      simp only [DirContents.stored] at ih' ⊢
      simp only [DirContents.assign, hb, Bool.false_eq_true, if_false, List.map_cons, ih']

/-- A failed construction of a child object changes nothing. -/
theorem startLoadingInode_error (m m1 : Mount) (p : InodePtr) (entry : DirEntry)
    (name : PathComponent) (e : Failure)
    (h : startLoadingInode m p entry name = (.error e, m1)) : m1 = m := by
  unfold startLoadingInode at h
  cases hd : entry.isDirectory with
  | false => simp [hd] at h
  | true =>
    simp only [hd, Bool.not_true, Bool.false_eq_true, if_false] at h
    cases hh : entry.hash with
    | none =>
      simp only [hh] at h
      cases ho : m.overlayDirs entry.inodeNumber with
      | none => simp only [ho] at h; exact (Prod.mk.inj h).2.symm
      | some dir => simp [ho] at h
    | some treeHash =>
      simp only [hh] at h
      cases ht : m.trees treeHash with
      | none => simp only [ht] at h; exact (Prod.mk.inj h).2.symm
      | some tree =>
        simp only [ht] at h
        cases ho : m.overlayDirs entry.inodeNumber with
        | some dir => simp [ho] at h
        | none => simp [ho] at h

/-- The look-up of a child adds nothing to the journal and leaves the directory
as it was, up to the pointer to the loaded child. -/
theorem getOrLoadChild_frame (m : Mount) (p : InodePtr) (name : PathComponent)
    (st : TreeInodeState) (hc : m.contents p = some st) :
    (getOrLoadChild m p name).2.journal = m.journal ∧
    (getOrLoadChild m p name).2.dotEdenInodeNumber = m.dotEdenInodeNumber ∧
    ∃ st1, (getOrLoadChild m p name).2.contents p = some st1 ∧ st1.treeHash = st.treeHash ∧
      st1.entries.stored = st.entries.stored := by
  unfold getOrLoadChild
  simp only [hc]
  cases hf : st.entries.find name with
  | none =>
    simp only []
    split
    · exact ⟨rfl, rfl, st, hc, rfl, rfl⟩
    · exact ⟨rfl, rfl, st, hc, rfl, rfl⟩
  | some entry =>
    simp only []
    cases hi : entry.inode with
    | some child => exact ⟨rfl, rfl, st, hc, rfl, rfl⟩
    | none =>
      simp only []
      have hfr := startLoadingInode_frame m p entry name
      cases hs : startLoadingInode m p entry name with
      | mk r m1 =>
        rw [hs] at hfr
        cases r with
        | error e =>
          have := startLoadingInode_error m m1 p entry name e hs
          subst this
          exact ⟨rfl, rfl, st, hc, rfl, rfl⟩
        | ok u =>
          refine ⟨hfr.1, hfr.2.1,
            { st with entries := st.entries.assign name (entry.setInode entry.inodeNumber) },
            ?_, rfl, stored_assign_setInode _ _ _ _ hf⟩
          simp [Mount.setContents]

/-- The look-up of a child adds nothing to the journal. -/
theorem getOrLoadChild_journal (m : Mount) (p : InodePtr) (name : PathComponent) :
    (getOrLoadChild m p name).2.journal = m.journal := by
  cases hc : m.contents p with
  | none => simp [getOrLoadChild, hc]
  | some st => exact (getOrLoadChild_frame m p name st hc).1

/-! ### C8: `rmdir` of a directory that is not empty -/

/-- `buildDirFromTree` hands out one inode number per tree entry and writes
nothing to the overlay; a tree with an entry gives a directory with an entry. -/
theorem buildDirFromTree_alloc (m : Mount) (tree : Tree) :
    (buildDirFromTree m tree).2.nextInodeNumber = m.nextInodeNumber + tree.entries.length ∧
    (buildDirFromTree m tree).2.overlayDirs = m.overlayDirs ∧
    (buildDirFromTree m tree).2.overlayFiles = m.overlayFiles ∧
    (tree.entries ≠ [] → (buildDirFromTree m tree).1.isEmpty = false) := by
  unfold buildDirFromTree
  have key : ∀ (l : List TreeEntry) (acc : DirContents × Mount),
      (l.foldl
        (fun (acc : DirContents × Mount) treeEntry =>
          let alloc := acc.2.allocateInodeNumber
          ((acc.1.emplace treeEntry.name
              { initialMode := m.modeFromTreeEntryType treeEntry.type
                inodeNumber := alloc.1
                hash := some treeEntry.hash
                inode := none }).1,
            alloc.2)) acc).2.nextInodeNumber = acc.2.nextInodeNumber + l.length ∧
      (l.foldl
        (fun (acc : DirContents × Mount) treeEntry =>
          let alloc := acc.2.allocateInodeNumber
          ((acc.1.emplace treeEntry.name
              { initialMode := m.modeFromTreeEntryType treeEntry.type
                inodeNumber := alloc.1
                hash := some treeEntry.hash
                inode := none }).1,
            alloc.2)) acc).2.overlayDirs = acc.2.overlayDirs ∧
      (l.foldl
        (fun (acc : DirContents × Mount) treeEntry =>
          let alloc := acc.2.allocateInodeNumber
          ((acc.1.emplace treeEntry.name
              { initialMode := m.modeFromTreeEntryType treeEntry.type
                inodeNumber := alloc.1
                hash := some treeEntry.hash
                inode := none }).1,
            alloc.2)) acc).2.overlayFiles = acc.2.overlayFiles ∧
      ((l ≠ [] ∨ acc.1.isEmpty = false) →
        (l.foldl
          (fun (acc : DirContents × Mount) treeEntry =>
            let alloc := acc.2.allocateInodeNumber
            ((acc.1.emplace treeEntry.name
                { initialMode := m.modeFromTreeEntryType treeEntry.type
                  inodeNumber := alloc.1
                  hash := some treeEntry.hash
                  inode := none }).1,
              alloc.2)) acc).1.isEmpty = false) := by
    intro l
    induction l with
    | nil =>
      intro acc
      refine ⟨rfl, rfl, rfl, fun h => ?_⟩
      rcases h with h | h
      · exact absurd rfl h
      · exact h
    | cons t rest ih =>
      intro acc
      simp only [List.foldl_cons]
      obtain ⟨h1, h2, h3, h4⟩ := ih
        ((acc.1.emplace t.name
            { initialMode := m.modeFromTreeEntryType t.type
              inodeNumber := acc.2.allocateInodeNumber.1
              hash := some t.hash
              inode := none }).1,
          acc.2.allocateInodeNumber.2)
      refine ⟨?_, h2, h3, fun _ => h4 (Or.inr ?_)⟩
      · rw [h1]
        show acc.2.nextInodeNumber + 1 + rest.length = acc.2.nextInodeNumber + (rest.length + 1)
        rw [Nat.add_assoc, Nat.add_comm 1]
      · simp only [DirContents.emplace]
        cases hf : DirContents.find acc.1 t.name with
        | none =>
          simp only []
          cases hacc : acc.1 with
          | nil => simp [DirContents.insertSorted]
          | cons kv rest1 =>
            obtain ⟨k, v⟩ := kv
            simp only [DirContents.insertSorted]
            split <;> rfl
        | some v =>
          simp only []
          cases hacc : acc.1 with
          | nil => rw [hacc] at hf; cases hf
          | cons kv rest1 => rfl
  obtain ⟨h1, h2, h3, h4⟩ := key tree.entries ([], m)
  exact ⟨h1, h2, h3, fun hne => h4 (Or.inl hne)⟩

/-- Counterexample to C8 as stated: the root holds the directory `d`, which is
not loaded and has no record in the overlay; its source-control tree holds the
file `x`.  `rmdir("d")` fails with `ENOTEMPTY`, and it has changed the state:
the look-up that precedes the check loaded `d`, which created its inode object,
took the inode number 100 from the allocator for `x`, and wrote the record of
`d` to the overlay. -/
theorem rmdir_nonempty_counterexample :
    (rmdir (fun _ m => m) 5 Example.mountDirUnloaded 1 "d").result =
      .error (.errno .ENOTEMPTY) ∧
    Example.mountDirUnloaded.overlayDirs 2 = none ∧
    (rmdir (fun _ m => m) 5 Example.mountDirUnloaded 1 "d").mount.overlayDirs 2 =
      some [("x", Example.fileEntry 100 (some 30) false)] ∧
    Example.mountDirUnloaded.nextInodeNumber = 100 ∧
    (rmdir (fun _ m => m) 5 Example.mountDirUnloaded 1 "d").mount.nextInodeNumber = 101 ∧
    Example.mountDirUnloaded.contents 2 = none ∧
    (rmdir (fun _ m => m) 5 Example.mountDirUnloaded 1 "d").mount.contents 2 =
      some { entries := [("x", Example.fileEntry 100 (some 30) false)], treeHash := some 20 } := by
  have hr : rmdir (fun _ m => m) 5 Example.mountDirUnloaded 1 "d" =
      { result := .error (.errno .ENOTEMPTY),
        mount := (getOrLoadChild Example.mountDirUnloaded 1 "d").2, retries := 0 } := by
    unfold rmdir
    have hload : getOrLoadChild Example.mountDirUnloaded 1 "d" =
        (.ok 2, (getOrLoadChild Example.mountDirUnloaded 1 "d").2) := rfl
    rw [hload]
    simp only []
    rw [removeImpl]
    rfl
  rw [hr]
  refine ⟨rfl, rfl, rfl, rfl, rfl, rfl, rfl⟩

/-- C8, amended.  Let the directory `p` hold the entry `e` under `name`.
(1) If `e` is loaded and its inode is a directory with an entry, `rmdir(name)`
fails with `ENOTEMPTY` without a retry and leaves the mount exactly as it was.
(2) If `e` is a directory entry that is not loaded, the look-up loads it before
the check, and a child with an entry makes `rmdir(name)` fail with `ENOTEMPTY`
without a retry; the journal, the overlay files, the tree hash of the parent and
the names, modes, inode numbers and hashes of its entries are as before, the
entry for `name` records the new inode object, and every other inode object is
as before.  With a record of the child in the overlay (and, if the entry has a
hash, a source-control tree that can be fetched), the child gets the entries of
that record, and the overlay directories and the allocator are as before.
Without one, the child gets the entries built from its source-control tree, one
newly allocated inode number for each, and that directory is written to the
overlay under the number of the child. -/
theorem rmdir_nonempty (interfere : Nat → Mount → Mount) (fuel : Nat) (m : Mount)
    (p : InodePtr) (name : PathComponent) (st : TreeInodeState) (e : DirEntry)
    (hc : m.contents p = some st) (he : st.entries.find name = some e) :
    (∀ child cst, e.inode = some child → m.contents child = some cst →
      cst.entries.isEmpty = false →
      rmdir interfere fuel m p name =
        { result := .error (.errno .ENOTEMPTY), mount := m, retries := 0 }) ∧
    (e.inode = none → e.isDirectory = true → e.inodeNumber ≠ p →
      ((∀ dir, m.overlayDirs e.inodeNumber = some dir → dir.isEmpty = false →
          (∀ h, e.hash = some h → (m.trees h).isSome = true) →
          (rmdir interfere fuel m p name).mount.contents e.inodeNumber =
            some { entries := dir, treeHash := e.hash } ∧
          (rmdir interfere fuel m p name).mount.overlayDirs = m.overlayDirs ∧
          (rmdir interfere fuel m p name).mount.nextInodeNumber = m.nextInodeNumber) ∧
        (∀ h tree, m.overlayDirs e.inodeNumber = none → e.hash = some h →
          m.trees h = some tree → tree.entries ≠ [] →
          (rmdir interfere fuel m p name).mount.contents e.inodeNumber =
            some { entries := (buildDirFromTree m tree).1, treeHash := some tree.hash } ∧
          (rmdir interfere fuel m p name).mount.overlayDirs e.inodeNumber =
            some (buildDirFromTree m tree).1.stored ∧
          (∀ q, q ≠ e.inodeNumber →
            (rmdir interfere fuel m p name).mount.overlayDirs q = m.overlayDirs q) ∧
          (rmdir interfere fuel m p name).mount.nextInodeNumber =
            m.nextInodeNumber + tree.entries.length)) ∧
      ((∃ dir, m.overlayDirs e.inodeNumber = some dir ∧ dir.isEmpty = false ∧
          ∀ h, e.hash = some h → (m.trees h).isSome = true) ∨
        (∃ h tree, m.overlayDirs e.inodeNumber = none ∧ e.hash = some h ∧
          m.trees h = some tree ∧ tree.entries ≠ []) →
        (rmdir interfere fuel m p name).result = .error (.errno .ENOTEMPTY) ∧
        (rmdir interfere fuel m p name).retries = 0 ∧
        (rmdir interfere fuel m p name).mount.journal = m.journal ∧
        (rmdir interfere fuel m p name).mount.overlayFiles = m.overlayFiles ∧
        (rmdir interfere fuel m p name).mount.contents p =
          some { entries := st.entries.assign name (e.setInode e.inodeNumber),
                 treeHash := st.treeHash } ∧
        (st.entries.assign name (e.setInode e.inodeNumber)).stored = st.entries.stored ∧
        (∀ q, q ≠ p → q ≠ e.inodeNumber →
          (rmdir interfere fuel m p name).mount.contents q = m.contents q) ∧
        (∀ q, q ≠ e.inodeNumber →
          (rmdir interfere fuel m p name).mount.location q = m.location q) ∧
        (rmdir interfere fuel m p name).mount.location e.inodeNumber =
          some { parent := some p, name := name, unlinked := false })) := by
  refine ⟨fun child cst hi hcc hne => ?_, fun hi hd hnp => ?_⟩
  · have hload : getOrLoadChild m p name = (.ok child, m) := by
      simp [getOrLoadChild, hc, he, hi]
    unfold rmdir
    rw [hload]
    simp only []
    rw [removeImpl]
    simp [asSubclassPtrOrNull, checkPreRemove, hcc, hne]
  · -- the mount after the load, in the two cases
    have hov : ∀ dir, m.overlayDirs e.inodeNumber = some dir → dir.isEmpty = false →
        (∀ h, e.hash = some h → (m.trees h).isSome = true) →
        rmdir interfere fuel m p name =
          { result := .error (.errno .ENOTEMPTY),
            mount := (m.newTreeInode e.inodeNumber p name dir e.hash).setContents p
              { entries := st.entries.assign name (e.setInode e.inodeNumber),
                treeHash := st.treeHash },
            retries := 0 } := by
      intro dir hdir hne htree
      have hstart : startLoadingInode m p e name =
          (.ok (), m.newTreeInode e.inodeNumber p name dir e.hash) := by
        unfold startLoadingInode
        simp only [hd, Bool.not_true, Bool.false_eq_true, if_false]
        cases hh : e.hash with
        | none => simp only [hdir]
        | some h =>
          obtain ⟨tree, htr⟩ := Option.isSome_iff_exists.mp (htree h hh)
          simp only [htr, hdir]
      have hload : getOrLoadChild m p name =
          (.ok e.inodeNumber,
            (m.newTreeInode e.inodeNumber p name dir e.hash).setContents p
              { entries := st.entries.assign name (e.setInode e.inodeNumber),
                treeHash := st.treeHash }) := by
        simp only [getOrLoadChild, hc, he, hi, hstart]
      unfold rmdir
      rw [hload]
      simp only []
      rw [removeImpl]
      simp [asSubclassPtrOrNull, checkPreRemove, Mount.setContents, Mount.newTreeInode, hnp, hne]
    have htr : ∀ h tree, m.overlayDirs e.inodeNumber = none → e.hash = some h →
        m.trees h = some tree → tree.entries ≠ [] →
        rmdir interfere fuel m p name =
          { result := .error (.errno .ENOTEMPTY),
            mount :=
              ((saveDirFromTree m e.inodeNumber tree).2.newTreeInode e.inodeNumber p name
                (saveDirFromTree m e.inodeNumber tree).1 (some tree.hash)).setContents p
                { entries := st.entries.assign name (e.setInode e.inodeNumber),
                  treeHash := st.treeHash },
            retries := 0 } := by
      intro h tree hnone hh htree hne
      have hstart : startLoadingInode m p e name =
          (.ok (), (saveDirFromTree m e.inodeNumber tree).2.newTreeInode e.inodeNumber p name
            (saveDirFromTree m e.inodeNumber tree).1 (some tree.hash)) := by
        unfold startLoadingInode
        simp only [hd, Bool.not_true, Bool.false_eq_true, if_false, hh, htree, hnone]
      have hload : getOrLoadChild m p name =
          (.ok e.inodeNumber,
            ((saveDirFromTree m e.inodeNumber tree).2.newTreeInode e.inodeNumber p name
              (saveDirFromTree m e.inodeNumber tree).1 (some tree.hash)).setContents p
              { entries := st.entries.assign name (e.setInode e.inodeNumber),
                treeHash := st.treeHash }) := by
        simp only [getOrLoadChild, hc, he, hi, hstart]
      have hbuilt := (buildDirFromTree_alloc m tree).2.2.2 hne
      unfold rmdir
      rw [hload]
      simp only []
      rw [removeImpl]
      simp [asSubclassPtrOrNull, checkPreRemove, Mount.setContents, Mount.newTreeInode, hnp,
        saveDirFromTree, hbuilt]
    refine ⟨⟨fun dir hdir hne htree => ?_, fun h tree hnone hh htree hne => ?_⟩, fun hcase => ?_⟩
    · rw [hov dir hdir hne htree]
      refine ⟨?_, rfl, rfl⟩
      simp [Mount.setContents, Mount.newTreeInode, hnp]
    · rw [htr h tree hnone hh htree hne]
      obtain ⟨h1, h2, _, _⟩ := buildDirFromTree_alloc m tree
      obtain ⟨_, _, h5, _⟩ := buildDirFromTree_frame m tree
      refine ⟨?_, ?_, fun q hq => ?_, ?_⟩
      · simp [Mount.setContents, Mount.newTreeInode, hnp, saveDirFromTree]
      · simp [Mount.setContents, Mount.newTreeInode, saveDirFromTree, Mount.saveOverlayDir,
          DirContents.stored]
      · simp [Mount.setContents, Mount.newTreeInode, saveDirFromTree, Mount.saveOverlayDir, hq, h2]
      · simp [Mount.setContents, Mount.newTreeInode, saveDirFromTree, Mount.saveOverlayDir, h1]
    · have hstored := stored_assign_setInode st.entries name e e.inodeNumber he
      rcases hcase with ⟨dir, hdir, hne, htree⟩ | ⟨h, tree, hnone, hh, htree, hne⟩
      · rw [hov dir hdir hne htree]
        refine ⟨rfl, rfl, rfl, rfl, ?_, hstored, fun q hq1 hq2 => ?_, fun q hq => ?_, ?_⟩
        · simp [Mount.setContents]
        · simp [Mount.setContents, Mount.newTreeInode, hq1, hq2]
        · simp [Mount.setContents, Mount.newTreeInode, hq]
        · simp [Mount.setContents, Mount.newTreeInode]
      · rw [htr h tree hnone hh htree hne]
        obtain ⟨_, _, h3, _⟩ := buildDirFromTree_alloc m tree
        obtain ⟨h4, _, h5, h6⟩ := buildDirFromTree_frame m tree
        refine ⟨rfl, rfl, ?_, ?_, ?_, hstored, fun q hq1 hq2 => ?_, fun q hq => ?_, ?_⟩
        · simp [Mount.setContents, Mount.newTreeInode, saveDirFromTree, Mount.saveOverlayDir, h4]
        · simp [Mount.setContents, Mount.newTreeInode, saveDirFromTree, Mount.saveOverlayDir, h3]
        · simp [Mount.setContents]
        · simp [Mount.setContents, Mount.newTreeInode, saveDirFromTree, Mount.saveOverlayDir, hq1,
            hq2, h5]
        · simp [Mount.setContents, Mount.newTreeInode, saveDirFromTree, Mount.saveOverlayDir, hq,
            h6]
        · simp [Mount.setContents, Mount.newTreeInode]

/-- Witness of C8 (amended): in one example mount the root holds the loaded
directory `d` with one entry, and the failed `rmdir` leaves the mount as it
was; in the other the directory `d` is not loaded, and the failed `rmdir` leaves
the tree hash of the root and its entry for `d` up to the pointer to the loaded
child. -/
theorem rmdir_nonempty_witness :
    rmdir (fun _ m => m) 5 Example.mountNested 1 "d" =
      { result := .error (.errno .ENOTEMPTY), mount := Example.mountNested, retries := 0 } ∧
    (rmdir (fun _ m => m) 5 Example.mountDirUnloaded 1 "d").result =
      .error (.errno .ENOTEMPTY) ∧
    (rmdir (fun _ m => m) 5 Example.mountDirUnloaded 1 "d").mount.contents 1 =
      some { entries := [("d", Example.dirEntry 2 (some 20) true)], treeHash := some 10 } :=
  have h1 := (rmdir_nonempty (fun _ m => m) 5 Example.mountNested 1 "d"
    { entries := [("d", Example.dirEntry 2 (some 20) true)], treeHash := some 10 }
    (Example.dirEntry 2 (some 20) true) rfl rfl).1 2
    { entries := [("x", Example.fileEntry 3 (some 30) false)], treeHash := some 20 } rfl rfl rfl
  have h2 := ((rmdir_nonempty (fun _ m => m) 5 Example.mountDirUnloaded 1 "d"
    { entries := [("d", Example.dirEntry 2 (some 20) false)], treeHash := some 10 }
    (Example.dirEntry 2 (some 20) false) rfl rfl).2 rfl rfl (by decide)).2
    (Or.inr ⟨20, { hash := 20, entries := [{ name := "x", type := .REGULAR_FILE, hash := 30 }] },
      rfl, rfl, rfl, by simp⟩)
  ⟨h1, h2.1, h2.2.2.2.2.1⟩

/-! ### C9: the bounded retries of a removal -/

/-- `tryRemoveChild` adds nothing to the journal. -/
theorem tryRemoveChild_journal (ty : InodeType) (fuel : Nat) (m : Mount) (p : InodePtr)
    (name : PathComponent) (child : Option InodePtr) :
    (tryRemoveChild ty fuel m p name child).2.journal = m.journal := by
  have hM := materialize_mat fuel m p
  unfold tryRemoveChild
  cases hmat : materialize fuel m p with
  | mk r m1 =>
    rw [hmat] at hM
    cases r with
    | error e => exact hM.journal
    | ok u =>
      simp only []
      split
      · exact hM.journal
      · split
        · exact hM.journal
        · split
          · exact hM.journal
          · split
            · exact hM.journal
            · split
              · exact hM.journal
              · split
                · exact hM.journal
                · exact hM.journal

/-- `removeImpl` calls itself at most `kMaxRemoveRetries + 1 - attemptNum` times. -/
theorem removeImpl_retries_le (ty : InodeType) (interfere : Nat → Mount → Mount) (fuel : Nat)
    (p : InodePtr) (name : PathComponent) :
    ∀ (n attemptNum : Nat), kMaxRemoveRetries + 1 - attemptNum ≤ n →
      ∀ (m : Mount) (child : InodePtr),
        (removeImpl ty interfere fuel m p name child attemptNum).retries ≤
          kMaxRemoveRetries + 1 - attemptNum := by
  intro n
  induction n with
  | zero =>
    intro a ha m child
    have ha' : a > kMaxRemoveRetries := by simp only [kMaxRemoveRetries] at *; omega
    rw [removeImpl]
    cases asSubclassPtrOrNull ty m child with
    | none => exact Nat.zero_le _
    | some c =>
      simp only []
      cases checkPreRemove ty m c with
      | some e => exact Nat.zero_le _
      | none =>
        simp only []
        cases getPath fuel (interfere a m) p with
        | error e => exact Nat.zero_le _
        | ok o =>
          cases o with
          | none => exact Nat.zero_le _
          | some path =>
            simp only []
            cases tryRemoveChild ty fuel (interfere a m) p name none with
            | mk r m1 =>
              cases r with
              | error e => exact Nat.zero_le _
              | ok v =>
                cases v with
                | none => exact Nat.zero_le _
                | some e =>
                  simp only [if_pos ha']
                  split <;> exact Nat.zero_le _
  | succ n ih =>
    intro a ha m child
    rw [removeImpl]
    cases asSubclassPtrOrNull ty m child with
    | none => exact Nat.zero_le _
    | some c =>
      simp only []
      cases checkPreRemove ty m c with
      | some e => exact Nat.zero_le _
      | none =>
        simp only []
        cases getPath fuel (interfere a m) p with
        | error e => exact Nat.zero_le _
        | ok o =>
          cases o with
          | none => exact Nat.zero_le _
          | some path =>
            simp only []
            cases tryRemoveChild ty fuel (interfere a m) p name none with
            | mk r m1 =>
              cases r with
              | error e => exact Nat.zero_le _
              | ok v =>
                cases v with
                | none => exact Nat.zero_le _
                | some e =>
                  simp only []
                  split
                  · exact Nat.zero_le _
                  · split
                    · exact Nat.zero_le _
                    · rename_i hgt
                      cases getOrLoadChild m1 p name with
                      | mk r2 m2 =>
                        cases r2 with
                        | error e2 => exact Nat.zero_le _
                        | ok c2 =>
                          have := ih (a + 1) (by simp only [kMaxRemoveRetries] at *; omega) m2 c2
                          simp only [kMaxRemoveRetries] at *
                          omega

/-- One attempt of `removeImpl` whose checks pass and whose `tryRemoveChild`
returns. -/
theorem removeImpl_attempt (ty : InodeType) (interfere : Nat → Mount → Mount) (fuel : Nat)
    (m m1 : Mount) (p child c : InodePtr) (name : PathComponent) (a : Nat)
    (path : List PathComponent) (v : Option Errno)
    (hsub : asSubclassPtrOrNull ty m child = some c)
    (hchk : checkPreRemove ty m c = none)
    (hpath : getPath fuel (interfere a m) p = .ok (some path))
    (htry : tryRemoveChild ty fuel (interfere a m) p name none = (.ok v, m1)) :
    removeImpl ty interfere fuel m p name child a =
      match v with
      | none => { result := .ok (), mount := m1.addDelta (.REMOVED (path ++ [name])), retries := 0 }
      | some errnoValue =>
        if errnoValue ≠ .EBADF then
          { result := .error (.errno errnoValue), mount := m1, retries := 0 }
        else if a > kMaxRemoveRetries then
          { result := .error (.errno Errno.EIO), mount := m1, retries := 0 }
        else
          match getOrLoadChild m1 p name with
          | (.error e, m2) => { result := .error e, mount := m2, retries := 0 }
          | (.ok loadedChild, m2) =>
            { result := (removeImpl ty interfere fuel m2 p name loadedChild (a + 1)).result
              mount := (removeImpl ty interfere fuel m2 p name loadedChild (a + 1)).mount
              retries := (removeImpl ty interfere fuel m2 p name loadedChild (a + 1)).retries + 1 } := by
  rw [removeImpl]
  simp only [hsub, hchk, hpath, htry]
  cases v <;> rfl

theorem asSubclassPtrOrNull_eq (ty : InodeType) (m : Mount) (q c : InodePtr)
    (h : asSubclassPtrOrNull ty m q = some c) : c = q := by
  unfold asSubclassPtrOrNull at h
  cases ty <;> simp only [] at h <;> split at h <;> simp_all

/-- A run in which every attempt is rebuffed with `EBADF` ends in `EIO` after
`kMaxRemoveRetries + 1 - a` further attempts. -/
theorem removeImpl_rebuffed (ty : InodeType) (interfere : Nat → Mount → Mount) (fuel : Nat)
    (p : InodePtr) (name : PathComponent) :
    ∀ (n a : Nat), a + n = kMaxRemoveRetries + 1 → ∀ (m : Mount) (child : InodePtr),
      Rebuffed ty interfere fuel p name n a m child →
      (removeImpl ty interfere fuel m p name child a).result = .error (.errno Errno.EIO) ∧
      (removeImpl ty interfere fuel m p name child a).retries = n := by
  intro n
  induction n with
  | zero =>
    intro a ha m child hR
    obtain ⟨c, path, m1, hsub, hchk, hpath, htry⟩ := hR
    rw [removeImpl_attempt ty interfere fuel m m1 p child c name a path _ hsub hchk hpath htry]
    have ha' : a > kMaxRemoveRetries := by simp only [kMaxRemoveRetries] at *; omega
    simp [ha']
  | succ n ih =>
    intro a ha m child hR
    obtain ⟨c, path, m1, hsub, hchk, hpath, htry, loaded, m2, hload, hrest⟩ := hR
    rw [removeImpl_attempt ty interfere fuel m m1 p child c name a path _ hsub hchk hpath htry]
    have ha' : ¬ a > kMaxRemoveRetries := by simp only [kMaxRemoveRetries] at *; omega
    have := ih (a + 1) (by omega) m2 loaded hrest
    simp [ha', hload, this]

/-- C9 (bounded remove retries).  `removeImpl` is a total function; `unlink` and
`rmdir` start it with attempt number 1 and it calls itself again at most 3
times.  In an attempt that gets as far as `tryRemoveChild`: a zero result ends
the removal with success and exactly one journal record, `REMOVED` for the
path of the name; a non-zero result other than `EBADF` is returned at once,
without a retry and without a journal record; `EBADF` in an attempt numbered
1 to 3 makes the attempt look the child up again and, if that succeeds, run the
next attempt on the loaded child (a retry), and `EBADF` in an attempt numbered
above 3 gives `EIO`.  So a run of `unlink` or `rmdir` in which `tryRemoveChild`
returns `EBADF` at every attempt (`Rebuffed`, stated along the mounts the run
itself goes through) fails with `EIO` after exactly 3 retries. -/
theorem remove_retries_bounded (ty : InodeType) (interfere : Nat → Mount → Mount) (fuel : Nat)
    (m : Mount) (p : InodePtr) (name : PathComponent) :
    (unlink interfere fuel m p name).retries ≤ 3 ∧
    (rmdir interfere fuel m p name).retries ≤ 3 ∧
    (∀ (child c : InodePtr) (a : Nat) (path : List PathComponent) (v : Option Errno)
        (m1 : Mount),
      asSubclassPtrOrNull ty m child = some c → checkPreRemove ty m c = none →
      getPath fuel (interfere a m) p = .ok (some path) →
      tryRemoveChild ty fuel (interfere a m) p name none = (.ok v, m1) →
      (v = none →
        (removeImpl ty interfere fuel m p name child a).result = .ok () ∧
        (removeImpl ty interfere fuel m p name child a).retries = 0 ∧
        (removeImpl ty interfere fuel m p name child a).mount.journal =
          (interfere a m).journal ++ [.REMOVED (path ++ [name])]) ∧
      (∀ e, v = some e → e ≠ .EBADF →
        (removeImpl ty interfere fuel m p name child a).result = .error (.errno e) ∧
        (removeImpl ty interfere fuel m p name child a).retries = 0 ∧
        (removeImpl ty interfere fuel m p name child a).mount.journal = (interfere a m).journal) ∧
      (v = some .EBADF → a > kMaxRemoveRetries →
        (removeImpl ty interfere fuel m p name child a).result = .error (.errno Errno.EIO) ∧
        (removeImpl ty interfere fuel m p name child a).retries = 0 ∧
        (removeImpl ty interfere fuel m p name child a).mount.journal = (interfere a m).journal) ∧
      (v = some .EBADF → a ≤ kMaxRemoveRetries →
        (∀ e m2, getOrLoadChild m1 p name = (.error e, m2) →
          (removeImpl ty interfere fuel m p name child a).result = .error e ∧
          (removeImpl ty interfere fuel m p name child a).retries = 0) ∧
        (∀ loaded m2, getOrLoadChild m1 p name = (.ok loaded, m2) →
          (removeImpl ty interfere fuel m p name child a).result =
            (removeImpl ty interfere fuel m2 p name loaded (a + 1)).result ∧
          (removeImpl ty interfere fuel m p name child a).mount =
            (removeImpl ty interfere fuel m2 p name loaded (a + 1)).mount ∧
          (removeImpl ty interfere fuel m p name child a).retries =
            (removeImpl ty interfere fuel m2 p name loaded (a + 1)).retries + 1))) ∧
    (∀ (n a : Nat) (child : InodePtr), a + n = kMaxRemoveRetries + 1 →
      Rebuffed ty interfere fuel p name n a m child →
      (removeImpl ty interfere fuel m p name child a).result = .error (.errno Errno.EIO) ∧
      (removeImpl ty interfere fuel m p name child a).retries = n) ∧
    (∀ (child : InodePtr) (m1 : Mount), getOrLoadChild m p name = (.ok child, m1) →
      (Rebuffed .FileInode interfere fuel p name 3 1 m1 child →
        (unlink interfere fuel m p name).result = .error (.errno Errno.EIO) ∧
        (unlink interfere fuel m p name).retries = 3) ∧
      (Rebuffed .TreeInode interfere fuel p name 3 1 m1 child →
        (rmdir interfere fuel m p name).result = .error (.errno Errno.EIO) ∧
        (rmdir interfere fuel m p name).retries = 3)) := by
  refine ⟨?_, ?_, ?_, ?_, ?_⟩
  · unfold unlink
    cases getOrLoadChild m p name with
    | mk r m1 =>
      cases r with
      | error e => exact Nat.zero_le _
      | ok child =>
        exact removeImpl_retries_le .FileInode interfere fuel p name _ 1 (Nat.le_refl _) m1 child
  · unfold rmdir
    cases getOrLoadChild m p name with
    | mk r m1 =>
      cases r with
      | error e => exact Nat.zero_le _
      | ok child =>
        exact removeImpl_retries_le .TreeInode interfere fuel p name _ 1 (Nat.le_refl _) m1 child
  · intro child c a path v m1 hsub hchk hpath htry
    have hj : m1.journal = (interfere a m).journal := by
      have := tryRemoveChild_journal ty fuel (interfere a m) p name none
      rw [htry] at this
      exact this
    rw [removeImpl_attempt ty interfere fuel m m1 p child c name a path v hsub hchk hpath htry]
    refine ⟨?_, ?_, ?_, ?_⟩
    · intro hv
      subst hv
      exact ⟨rfl, rfl, by simp [Mount.addDelta, hj]⟩
    · intro e hv he
      subst hv
      simp only [ne_eq, he, not_false_eq_true, if_true]
      exact ⟨trivial, trivial, hj⟩
    · intro hv ha
      subst hv
      simp [ha, hj]
    · intro hv ha
      subst hv
      have hna : ¬ a > kMaxRemoveRetries := Nat.not_lt.mpr ha
      simp only [ne_eq, not_true_eq_false, if_false, hna]
      refine ⟨fun e m2 hload => ?_, fun loaded m2 hload => ?_⟩
      · rw [hload]
        exact ⟨rfl, rfl⟩
      · rw [hload]
        exact ⟨rfl, rfl, rfl⟩
  · intro n a child ha hR
    exact removeImpl_rebuffed ty interfere fuel p name n a ha m child hR
  · intro child m1 hload
    refine ⟨fun hR => ?_, fun hR => ?_⟩
    · unfold unlink
      rw [hload]
      exact removeImpl_rebuffed .FileInode interfere fuel p name 3 1 rfl m1 child hR
    · unfold rmdir
      rw [hload]
      exact removeImpl_rebuffed .TreeInode interfere fuel p name 3 1 rfl m1 child hR

/-- Witness of C9: `unlink("a")` on a root that holds the file `a`, while another
thread unloads `a` again before every attempt: every attempt finds the name
present and its inode not loaded, and the removal gives up with `EIO` after 3
retries. -/
theorem remove_retries_bounded_witness :
    Rebuffed .FileInode Example.unloading 5 1 "a" 3 1
      (getOrLoadChild Example.mountUnloaded 1 "a").2 3 ∧
    (unlink Example.unloading 5 Example.mountUnloaded 1 "a").result =
      .error (.errno Errno.EIO) ∧
    (unlink Example.unloading 5 Example.mountUnloaded 1 "a").retries = 3 :=
  have hR : Rebuffed .FileInode Example.unloading 5 1 "a" 3 1
      (getOrLoadChild Example.mountUnloaded 1 "a").2 3 :=
    ⟨3, [], _, rfl, rfl, rfl, rfl, 3, _, rfl,
     3, [], _, rfl, rfl, rfl, rfl, 3, _, rfl,
     3, [], _, rfl, rfl, rfl, rfl, 3, _, rfl,
     3, [], _, rfl, rfl, rfl, rfl⟩
  ⟨hR,
   ((remove_retries_bounded .FileInode Example.unloading 5 Example.mountUnloaded 1 "a").2.2.2.2 3
      (getOrLoadChild Example.mountUnloaded 1 "a").2 rfl).1 hR⟩

/-! ### `isAncestor` -/

theorem getParent_eq (m : Mount) (q : InodePtr) (loc : LocationInfo)
    (h : m.location q = some loc) : m.getParent q = loc.parent := by
  simp [Mount.getParent, h]

/-- With fuel for the depth of the starting point the loop of `isAncestor`
returns, and it returns true exactly if `a` is the starting point or one of
its strict ancestors. -/
theorem isAncestorLoop_spec (m : Mount) (a : InodePtr) (fuel : Nat) :
    ∀ (o : Option InodePtr) (d : Nat),
      (∀ q, o = some q → Depth m q d ∧ d < fuel) →
      ∃ r, isAncestorLoop fuel m a o = .ok r ∧
        (r = true ↔ ∃ q, o = some q ∧ (q = a ∨ StrictAncestor m a q)) := by
  induction fuel with
  | zero =>
    intro o d h
    cases o with
    | none => exact ⟨false, rfl, by simp⟩
    | some q => have := (h q rfl).2; omega
  | succ fuel ih =>
    intro o d h
    cases o with
    | none => exact ⟨false, by simp [isAncestorLoop], by simp⟩
    | some q =>
      obtain ⟨hd, hlt⟩ := h q rfl
      by_cases hqa : q = a
      · subst hqa
        exact ⟨true, by simp [isAncestorLoop], by simp⟩
      · have hunf : isAncestorLoop (fuel + 1) m a (some q) =
            isAncestorLoop fuel m a (m.getParent q) := by
          simp [isAncestorLoop, hqa]
        rw [hunf]
        cases hd with
        | root hl hp =>
          have hgp : m.getParent q = none := by rw [getParent_eq m q _ hl, hp]
          rw [hgp]
          refine ⟨false, by cases fuel <;> rfl, ?_⟩
          constructor
          · intro h; cases h
          · rintro ⟨q1, hq1, hq2⟩
            cases hq1
            rcases hq2 with h1 | h1
            · exact absurd h1 hqa
            · cases h1 with
              | parent hpar => rw [hgp] at hpar; cases hpar
              | step hpar _ => rw [hgp] at hpar; cases hpar
        | @child _ parent loc d1 hl hp hdp =>
          have hgp : m.getParent q = some parent := by rw [getParent_eq m q _ hl, hp]
          rw [hgp]
          obtain ⟨r, hr, hiff⟩ := ih (some parent) d1
            (fun q1 hq1 => by cases hq1; exact ⟨hdp, by omega⟩)
          refine ⟨r, hr, hiff.trans ?_⟩
          constructor
          · rintro ⟨q1, hq1, hq2⟩
            cases hq1
            refine ⟨q, rfl, Or.inr ?_⟩
            rcases hq2 with h1 | h1
            · subst h1; exact StrictAncestor.parent hgp
            · exact StrictAncestor.step hgp h1
          · rintro ⟨q1, hq1, hq2⟩
            cases hq1
            refine ⟨parent, rfl, ?_⟩
            rcases hq2 with h1 | h1
            · exact absurd h1 hqa
            · cases h1 with
              | parent hpar => rw [hgp] at hpar; cases hpar; exact Or.inl rfl
              | step hpar hrest => rw [hgp] at hpar; cases hpar; exact Or.inr hrest

/-- `isAncestor(a, b)` returns, given fuel for the depth of `b`, and it returns
true exactly if `a` is a strict ancestor of `b` along the parent pointers. -/
theorem isAncestor_spec (m : Mount) (a b : InodePtr) (fuel d : Nat) (hd : Depth m b d)
    (hle : d ≤ fuel) :
    ∃ r, isAncestor fuel m a b = .ok r ∧ (r = true ↔ StrictAncestor m a b) := by
  unfold isAncestor
  cases hd with
  | root hl hp =>
    have hgp : m.getParent b = none := by rw [getParent_eq m b _ hl, hp]
    rw [hgp]
    refine ⟨false, by cases fuel <;> rfl, ?_⟩
    constructor
    · intro h; cases h
    · intro h1
      cases h1 with
      | parent hpar => rw [hgp] at hpar; cases hpar
      | step hpar _ => rw [hgp] at hpar; cases hpar
  | @child _ parent loc d1 hl hp hdp =>
    have hgp : m.getParent b = some parent := by rw [getParent_eq m b _ hl, hp]
    rw [hgp]
    obtain ⟨r, hr, hiff⟩ := isAncestorLoop_spec m a fuel (some parent) d1
      (fun q1 hq1 => by cases hq1; exact ⟨hdp, by omega⟩)
    refine ⟨r, hr, hiff.trans ?_⟩
    constructor
    · rintro ⟨q1, hq1, hq2⟩
      cases hq1
      rcases hq2 with h1 | h1
      · subst h1; exact StrictAncestor.parent hgp
      · exact StrictAncestor.step hgp h1
    · intro h1
      refine ⟨parent, rfl, ?_⟩
      cases h1 with
      | parent hpar => rw [hgp] at hpar; cases hpar; exact Or.inl rfl
      | step hpar hrest => rw [hgp] at hpar; cases hpar; exact Or.inr hrest

/-! ### The first steps of `rename` -/

theorem DirEntry.Cleared.mode {e e1 : DirEntry} (h : DirEntry.Cleared e e1) :
    e1.initialMode = e.initialMode ∧ e1.inodeNumber = e.inodeNumber ∧ e1.inode = e.inode ∧
      e1.isDirectory = e.isDirectory ∧ (e1.hash = e.hash ∨ e1.hash = none) := by
  rcases h with rfl | rfl
  · exact ⟨rfl, rfl, rfl, rfl, Or.inl rfl⟩
  · exact ⟨rfl, rfl, rfl, rfl, Or.inr rfl⟩

theorem Mat.contents_isSome {m m1 : Mount} (h : Mat m m1) (q : InodePtr) :
    (m1.contents q).isSome = (m.contents q).isSome := by
  cases hc : m.contents q with
  | none => simp [h.contentsNone q hc]
  | some st =>
    obtain ⟨st1, hs1, _⟩ := h.contentsSome q st hc
    simp [hs1]

theorem EntryTyped.typed_mat {m m1 : Mount} (h : Mat m m1) {p : InodePtr} {name : PathComponent}
    (ht : EntryTyped m p name) : EntryTyped m1 p name := by
  intro e1 q he1 hq
  rcases h.entry p name with ⟨_, h2⟩ | ⟨e, e2, h1, h2, hcl⟩
  · rw [h2] at he1; cases he1
  · rw [h2] at he1
    cases he1
    obtain ⟨_, _, hi, hd, _⟩ := hcl.mode
    rw [hd, h.contents_isSome]
    exact ht e q h1 (by rw [← hi]; exact hq)

/-- `lockDestChild` on a destination whose entry is typed: it returns the entry
and the loaded directory behind it. -/
theorem lockDestChild_ok (m : Mount) (dest : InodePtr) (destName : PathComponent)
    (dst : TreeInodeState) (hcd : m.contents dest = some dst)
    (hty : EntryTyped m dest destName) :
    lockDestChild m dest destName =
      .ok (dst.entries.find destName, destChildContentsOf (dst.entries.find destName)) := by
  unfold lockDestChild
  simp only [hcd]
  cases hf : dst.entries.find destName with
  | none => rfl
  | some e =>
    simp only [destChildContentsOf, Option.some_bind]
    cases hd : e.isDirectory with
    | false => simp
    | true =>
      simp only [if_true]
      cases hi : e.inode with
      | none => rfl
      | some q =>
        have := hty e q (by simp [Mount.entry, hcd, hf]) hi
        rw [hd] at this
        simp [← this]

/-- `acquireLocks` on typed, loaded directories, with fuel for the depth of the
destination: the locks point to the source and the destination directory. -/
theorem acquireLocks_ok (fuel : Nat) (m : Mount) (self dest : InodePtr)
    (destName : PathComponent) (dst : TreeInodeState) (d : Nat)
    (hcs : (m.contents self).isSome = true) (hcd : m.contents dest = some dst)
    (hty : EntryTyped m dest destName) (hd : Depth m dest d) (hle : d ≤ fuel) :
    acquireLocks fuel m self dest destName =
      .ok { srcContents := self, destContents := dest,
            destChildContents := destChildContentsOf (dst.entries.find destName),
            destChildIter := dst.entries.find destName } := by
  unfold acquireLocks
  by_cases hsd : self = dest
  · subst hsd
    simp only [if_true, lockDestChild_ok m self destName dst hcd hty]
  · simp only [hsd, if_false]
    obtain ⟨r, hr, _⟩ := isAncestor_spec m self dest fuel d hd hle
    rw [hr]
    cases r with
    | true => simp only [lockDestChild_ok m dest destName dst hcd hty]
    | false =>
      simp only [lockDestChild_ok m dest destName dst hcd hty]
      split
      · rename_i hcond
        obtain ⟨hsome, hino⟩ := hcond
        obtain ⟨e, he⟩ := Option.isSome_iff_exists.mp hsome
        rw [he] at hino
        simp only [Option.some_bind] at hino
        have hdir : e.isDirectory = true := by
          rw [hty e self (by simp [Mount.entry, hcd, he]) hino]
          exact hcs
        simp [he, destChildContentsOf, hdir, hino]
      · rfl

/-- The two calls of `materialize` at the start of `rename`, on directories with
well-formed parent chains. -/
theorem rename_prelude (fuel : Nat) (m : Mount) (self dest : InodePtr) (ds dd : Nat)
    (sst dst : TreeInodeState)
    (hchs : ChainOk m self ds) (hchd : ChainOk m dest dd) (hfs : ds ≤ fuel) (hfd : dd ≤ fuel)
    (hcs : m.contents self = some sst) (hcd : m.contents dest = some dst) :
    ∃ m1 m2 s2 d2, materialize fuel m self = (.ok (), m1) ∧
      (if dest ≠ self then materialize fuel m1 dest else (.ok (), m1)) = (.ok (), m2) ∧
      Mat m m1 ∧ Mat m1 m2 ∧ Mat m m2 ∧
      m2.contents self = some s2 ∧ s2.treeHash = none ∧ DirContents.Cleared sst.entries s2.entries ∧
      m2.contents dest = some d2 ∧ d2.treeHash = none ∧
      DirContents.Cleared dst.entries d2.entries := by
  obtain ⟨m1, hm1, hM1, hc1⟩ := materialize_result fuel m self ds sst hchs hfs hcs
  by_cases hds : dest = self
  · subst hds
    rw [hcs] at hcd
    cases hcd
    refine ⟨m1, m1, _, _, hm1, by simp, hM1, Mat.mat_refl _, hM1, hc1, rfl,
      DirContents.Cleared.contents_refl _, hc1, rfl, DirContents.Cleared.contents_refl _⟩
  · obtain ⟨dst1, hd1, hcl1⟩ := hM1.contentsSome dest dst hcd
    obtain ⟨m2, hm2, hM2, hc2⟩ := materialize_result fuel m1 dest dd dst1 (hchd.chain_mat hM1) hfd hd1
    obtain ⟨s2, hs2, hcl2⟩ := hM2.contentsSome self _ hc1
    refine ⟨m1, m2, s2, _, hm1, by simp [hds, hm2], hM1, hM2, hM1.mat_trans hM2, hs2, ?_, hcl2.1,
      hc2, rfl, hcl1.1⟩
    rcases hcl2.2 with h | h
    · exact h
    · exact h

/-- `rename`, once its guards pass, is `renameLocked` on the mount the two calls
of `materialize` leave, with locks on the source and destination directory. -/
theorem rename_locked (restarts fuel : Nat) (m : Mount) (self dest : InodePtr)
    (name destName : PathComponent) (ds dd : Nat) (sst dst : TreeInodeState)
    (hself : self ≠ m.dotEdenInodeNumber) (hdest : dest ≠ m.dotEdenInodeNumber)
    (hname : m.nameLengthOk destName = true)
    (hchs : ChainOk m self ds) (hchd : ChainOk m dest dd) (hfs : ds ≤ fuel) (hfd : dd ≤ fuel)
    (hcs : m.contents self = some sst) (hcd : m.contents dest = some dst)
    (hty : EntryTyped m dest destName) :
    ∃ m2 s2 d2, Mat m m2 ∧
      m2.contents self = some s2 ∧ s2.treeHash = none ∧ DirContents.Cleared sst.entries s2.entries ∧
      m2.contents dest = some d2 ∧ d2.treeHash = none ∧
      DirContents.Cleared dst.entries d2.entries ∧
      rename (restarts + 1) fuel m self name dest destName =
        renameLocked restarts fuel m2
          { srcContents := self, destContents := dest,
            destChildContents := destChildContentsOf (d2.entries.find destName),
            destChildIter := d2.entries.find destName } self name dest destName := by
  obtain ⟨m1, m2, s2, d2, hm1, hm2, _, _, hM, hs2, hth, hcl, hd2, hdh, hdcl⟩ :=
    rename_prelude fuel m self dest ds dd sst dst hchs hchd hfs hfd hcs hcd
  refine ⟨m2, s2, d2, hM, hs2, hth, hcl, hd2, hdh, hdcl, ?_⟩
  have hlocks := acquireLocks_ok fuel m2 self dest destName d2 dd (by simp [hs2]) hd2
    (hty.typed_mat hM) (hchd.to_depth.depth_congr hM.location) hfd
  simp only [rename, hself, hdest, hname, if_false, Bool.not_true, Bool.false_eq_true, hm1, hm2,
    hlocks, renameLocked]

theorem overlayDirs_setContents_saveOverlayDir (m : Mount) (p : InodePtr) (st : TreeInodeState)
    (d : DirContents) (q : InodePtr) :
    ((m.setContents p st).saveOverlayDir p d).overlayDirs q =
      if q = p then some d.stored else m.overlayDirs q := by
  by_cases h : q = p <;> simp [Mount.saveOverlayDir, Mount.setContents, h, DirContents.stored]

/-- `childMaterialized` leaves the overlay record of every directory it cannot
reach as it was. -/
theorem childMaterialized_overlayDirs (fuel : Nat) :
    ∀ (m : Mount) (p : InodePtr) (n : PathComponent) (q : InodePtr),
      (∀ k, ¬ Touches m p n q k) →
      (childMaterialized fuel m p n).2.overlayDirs q = m.overlayDirs q := by
  induction fuel with
  | zero => intro m p n q _; rfl
  | succ fuel ih =>
    intro m p n q hnt
    have hqp : q ≠ p := by
      intro hqp; subst hqp; exact hnt n Touches.here
    unfold childMaterialized
    cases hc : m.contents p with
    | none => rfl
    | some contents =>
      simp only []
      cases hf : contents.entries.find n with
      | none => rfl
      | some childEntry =>
        simp only []
        have hstep : ((m.setContents p
              { entries := contents.entries.assign n childEntry.setMaterialized,
                treeHash := none }).saveOverlayDir p
              (contents.entries.assign n childEntry.setMaterialized)).overlayDirs q =
              m.overlayDirs q := by
          rw [overlayDirs_setContents_saveOverlayDir, if_neg hqp]
        split
        · rfl
        · split
          · exact hstep
          · rename_i location hloc
            have hloc' : m.location p = some location := hloc
            split
            · rename_i parent hpar
              split
              · rename_i hunl
                rw [ih _ _ _ _ ?_]
                · exact hstep
                · intro k ht
                  exact hnt k (Touches.up hloc' hpar (by simpa using hunl)
                    (Touches.touches_congr m (by rfl) ht))
              · exact hstep
            · exact hstep

/-- One step of materialization keeps the overlay in step with the directory it
writes. -/
theorem saved_step (m m0 : Mount) (p : InodePtr) (entries : DirContents) (th : Option Hash)
    (h : ∀ q, (m.contents q = m0.contents q ∧ m.overlayDirs q = m0.overlayDirs q) ∨
      ∃ st1, m.contents q = some st1 ∧ m.overlayDirs q = some st1.entries.stored) :
    ∀ q, (((m.setContents p { entries := entries, treeHash := th }).saveOverlayDir p
          entries).contents q = m0.contents q ∧
        ((m.setContents p { entries := entries, treeHash := th }).saveOverlayDir p
          entries).overlayDirs q = m0.overlayDirs q) ∨
      ∃ st1, ((m.setContents p { entries := entries, treeHash := th }).saveOverlayDir p
          entries).contents q = some st1 ∧
        ((m.setContents p { entries := entries, treeHash := th }).saveOverlayDir p
          entries).overlayDirs q = some st1.entries.stored := by
  intro q
  rw [contents_setContents_saveOverlayDir, overlayDirs_setContents_saveOverlayDir]
  by_cases hqp : q = p
  · rw [if_pos hqp, if_pos hqp]
    exact Or.inr ⟨_, rfl, rfl⟩
  · rw [if_neg hqp, if_neg hqp]
    exact h q

/-- After `childMaterialized` every directory has the state and the overlay
record it had, or an overlay record that is the stored form of its entries. -/
theorem childMaterialized_saved (fuel : Nat) :
    ∀ (m m0 : Mount) (p : InodePtr) (n : PathComponent),
      (∀ q, (m.contents q = m0.contents q ∧ m.overlayDirs q = m0.overlayDirs q) ∨
        ∃ st1, m.contents q = some st1 ∧ m.overlayDirs q = some st1.entries.stored) →
      ∀ q, ((childMaterialized fuel m p n).2.contents q = m0.contents q ∧
          (childMaterialized fuel m p n).2.overlayDirs q = m0.overlayDirs q) ∨
        ∃ st1, (childMaterialized fuel m p n).2.contents q = some st1 ∧
          (childMaterialized fuel m p n).2.overlayDirs q = some st1.entries.stored := by
  induction fuel with
  | zero => intro m m0 p n h; exact h
  | succ fuel ih =>
    intro m m0 p n h
    unfold childMaterialized
    cases hc : m.contents p with
    | none => exact h
    | some contents =>
      simp only []
      cases hf : contents.entries.find n with
      | none => exact h
      | some childEntry =>
        simp only []
        have hstep := saved_step m m0 p (contents.entries.assign n childEntry.setMaterialized)
          none h
        split
        · exact h
        · split
          · exact hstep
          · split
            · split
              · exact ih _ m0 _ _ hstep
              · exact hstep
            · exact hstep

theorem Leads.leads_congr (m : Mount) {m1 : Mount} (h : m1.location = m.location) {a q : InodePtr}
    {k : PathComponent} (hl : Leads m1 a q k) : Leads m a q k := by
  obtain ⟨loc, parent, h1, h2, h3, h4⟩ := hl
  exact ⟨loc, parent, by rw [← h]; exact h1, h2, h3, Touches.touches_congr m h h4⟩

/-- No entry of a directory with a finite parent chain lies on that chain. -/
theorem Leads.not_self {m : Mount} {a : InodePtr} {d : Nat} (hd : Depth m a d)
    (k : PathComponent) : ¬ Leads m a a k := by
  rintro ⟨loc, parent, h1, h2, _, h4⟩
  cases hd with
  | root hl hp => rw [h1] at hl; cases hl; rw [h2] at hp; cases hp
  | @child _ parent1 _ d1 hl hp hd1 =>
    rw [h1] at hl; cases hl; rw [h2] at hp; cases hp
    have hda : Depth m a (d1 + 1) := Depth.child h1 h2 hd1
    rcases h4.depth_bound hd1 with ⟨hq, _⟩ | ⟨dq, hdq, hlt⟩
    · rw [hq] at hda
      have := hd1.unique hda
      omega
    · have := hdq.unique hda
      omega

/-- `materialize` changes nothing away from the linked parent chain of the
directory. -/
theorem materialize_frame (fuel : Nat) (m : Mount) (p : InodePtr) :
    ChainFrame m (materialize fuel m p).2 p p where
  entry := fun q k h _ =>
    materialize_entry fuel m p q k (fun loc parent h1 h2 h3 h4 => h ⟨loc, parent, h1, h2, h3, h4⟩)
  off := by
    intro q hqp _ hnl _
    unfold materialize
    cases hc : m.contents p with
    | none => exact ⟨rfl, rfl⟩
    | some contents =>
      simp only []
      have hstep : ((m.setContents p contents.setMaterialized).saveOverlayDir p
            contents.entries).contents q = m.contents q ∧
          ((m.setContents p contents.setMaterialized).saveOverlayDir p
            contents.entries).overlayDirs q = m.overlayDirs q := by
        rw [contents_setContents_saveOverlayDir, overlayDirs_setContents_saveOverlayDir,
          if_neg hqp, if_neg hqp]
        exact ⟨rfl, rfl⟩
      split
      · exact ⟨rfl, rfl⟩
      · split
        · exact hstep
        · rename_i loc hloc
          have hloc' : m.location p = some loc := hloc
          split
          · rename_i parent hpar
            split
            · rename_i hunl
              have hnt : ∀ k, ¬ Touches
                  ((m.setContents p contents.setMaterialized).saveOverlayDir p contents.entries)
                  parent loc.name q k := by
                intro k ht
                exact hnl k ⟨loc, parent, hloc', hpar, by simpa using hunl,
                  Touches.touches_congr m (by rfl) ht⟩
              rw [childMaterialized_contents _ _ _ _ _ hnt,
                childMaterialized_overlayDirs _ _ _ _ _ hnt]
              exact hstep
            · exact hstep
          · exact hstep
  saved := by
    unfold materialize
    cases hc : m.contents p with
    | none => exact fun q => Or.inl ⟨rfl, rfl⟩
    | some contents =>
      simp only []
      have hstep := saved_step m m p contents.entries none (fun q => Or.inl ⟨rfl, rfl⟩)
      split
      · exact fun q => Or.inl ⟨rfl, rfl⟩
      · split
        · exact hstep
        · split
          · split
            · exact childMaterialized_saved _ _ m _ _ hstep
            · exact hstep
          · exact hstep

/-- The frame of one chain is a frame of two. -/
theorem ChainFrame.widen {m m1 : Mount} {p : InodePtr} (h : ChainFrame m m1 p p)
    (a b : InodePtr) (hp : p = a ∨ p = b) : ChainFrame m m1 a b where
  entry := fun q k ha hb => h.entry q k (by rcases hp with rfl | rfl <;> assumption)
    (by rcases hp with rfl | rfl <;> assumption)
  off := fun q hqa hqb ha hb =>
    h.off q (by rcases hp with rfl | rfl <;> assumption)
      (by rcases hp with rfl | rfl <;> assumption)
      (by rcases hp with rfl | rfl <;> assumption)
      (by rcases hp with rfl | rfl <;> assumption)
  saved := h.saved

theorem ChainFrame.frame_trans {m m1 m2 : Mount} {a b : InodePtr} (h1 : ChainFrame m m1 a b)
    (hl : m1.location = m.location) (h2 : ChainFrame m1 m2 a b) : ChainFrame m m2 a b where
  entry := fun q k ha hb =>
    (h2.entry q k (fun h => ha (Leads.leads_congr m hl h))
      (fun h => hb (Leads.leads_congr m hl h))).trans (h1.entry q k ha hb)
  off := fun q hqa hqb ha hb => by
    obtain ⟨c2, o2⟩ := h2.off q hqa hqb (fun k h => ha k (Leads.leads_congr m hl h))
      (fun k h => hb k (Leads.leads_congr m hl h))
    obtain ⟨c1, o1⟩ := h1.off q hqa hqb ha hb
    exact ⟨c2.trans c1, o2.trans o1⟩
  saved := fun q => by
    rcases h2.saved q with ⟨c2, o2⟩ | ⟨st2, c2, o2⟩
    · rcases h1.saved q with ⟨c1, o1⟩ | ⟨st1, c1, o1⟩
      · exact Or.inl ⟨c2.trans c1, o2.trans o1⟩
      · exact Or.inr ⟨st1, c2.trans c1, o2.trans o1⟩
    · exact Or.inr ⟨st2, c2, o2⟩

/-- The two calls of `materialize` at the start of `rename` change nothing away
from the linked parent chains of the two directories. -/
theorem rename_prelude_frame (fuel : Nat) (m m1 m2 : Mount) (self dest : InodePtr)
    (h1 : materialize fuel m self = (.ok (), m1))
    (h2 : (if dest ≠ self then materialize fuel m1 dest else (.ok (), m1)) = (.ok (), m2)) :
    ChainFrame m m2 self dest := by
  have hf1 : ChainFrame m m1 self dest := by
    have := materialize_frame fuel m self
    rw [h1] at this
    exact this.widen self dest (Or.inl rfl)
  have hM1 : Mat m m1 := by
    have := materialize_mat fuel m self
    rw [h1] at this
    exact this
  by_cases hds : dest = self
  · simp only [hds, ne_eq, not_true_eq_false, if_false] at h2
    cases h2
    rw [hds] at hf1 ⊢
    exact hf1
  · simp only [ne_eq, hds, not_false_eq_true, if_true] at h2
    have hf2 : ChainFrame m1 m2 self dest := by
      have := materialize_frame fuel m1 dest
      rw [h2] at this
      exact this.widen self dest (Or.inr rfl)
    exact hf1.frame_trans hM1.location hf2

/-- `rename`, once its guards pass, is `renameLocked` on the mount the two calls
of `materialize` leave, which differs from the mount before by materialization
on the linked parent chains of the two directories only. -/
theorem rename_locked_frame (restarts fuel : Nat) (m : Mount) (self dest : InodePtr)
    (name destName : PathComponent) (ds dd : Nat) (sst dst : TreeInodeState)
    (hself : self ≠ m.dotEdenInodeNumber) (hdest : dest ≠ m.dotEdenInodeNumber)
    (hname : m.nameLengthOk destName = true)
    (hchs : ChainOk m self ds) (hchd : ChainOk m dest dd) (hfs : ds ≤ fuel) (hfd : dd ≤ fuel)
    (hcs : m.contents self = some sst) (hcd : m.contents dest = some dst)
    (hty : EntryTyped m dest destName) :
    ∃ m2 s2 d2, Mat m m2 ∧ ChainFrame m m2 self dest ∧
      m2.contents self = some s2 ∧ s2.treeHash = none ∧ DirContents.Cleared sst.entries s2.entries ∧
      m2.contents dest = some d2 ∧ d2.treeHash = none ∧
      DirContents.Cleared dst.entries d2.entries ∧
      rename (restarts + 1) fuel m self name dest destName =
        renameLocked restarts fuel m2
          { srcContents := self, destContents := dest,
            destChildContents := destChildContentsOf (d2.entries.find destName),
            destChildIter := d2.entries.find destName } self name dest destName := by
  obtain ⟨m1, m2, s2, d2, hm1, hm2, _, _, hM, hs2, hth, hcl, hd2, hdh, hdcl⟩ :=
    rename_prelude fuel m self dest ds dd sst dst hchs hchd hfs hfd hcs hcd
  refine ⟨m2, s2, d2, hM, rename_prelude_frame fuel m m1 m2 self dest hm1 hm2, hs2, hth, hcl, hd2,
    hdh, hdcl, ?_⟩
  have hlocks := acquireLocks_ok fuel m2 self dest destName d2 dd (by simp [hs2]) hd2
    (hty.typed_mat hM) (hchd.to_depth.depth_congr hM.location) hfd
  simp only [rename, hself, hdest, hname, if_false, Bool.not_true, Bool.false_eq_true, hm1, hm2,
    hlocks, renameLocked]

/-! ### C4: the type validation of `rename` -/

/-- Counterexample to C4 as stated.  (1) In the control directory a rename of an
absent source name fails with `EPERM`, not `ENOENT`.  (2) A rename of an absent
name out of the directory `C` into the root fails with `ENOENT`, but before it
fails it materializes `C`, which clears the hash of the entry `C` of the root,
the destination directory: its entries are not as they were. -/
theorem rename_validation_counterexample :
    (Example.mountEden.entry 9 "nope" = none ∧
      (rename 3 5 Example.mountEden 9 "nope" 1 "x").1 = .error (.errno .EPERM)) ∧
    (Example.mountCF.entry 2 "nope" = none ∧
      (rename 3 5 Example.mountCF 2 "nope" 1 "x").1 = .error (.errno .ENOENT) ∧
      (Example.mountCF.entry 1 "C").map (fun e => e.hash) = some (some 20) ∧
      ((rename 3 5 Example.mountCF 2 "nope" 1 "x").2.entry 1 "C").map (fun e => e.hash) =
        some none) := by
  refine ⟨⟨rfl, rfl⟩, rfl, rfl, rfl, rfl⟩

/-- C4, amended.  For directories that are not the control directory, a
destination name of valid length, and a mount in which the parent chains of
both directories are well formed and the destination entry is typed:
`rename` fails with `ENOENT` when the source name is absent; when the source
entry is a directory and the destination exists, with `ENOTDIR` if the
destination is not a directory, and with `ENOTEMPTY` if the destination is a
loaded directory with an entry that is not the inode of the source; when the
source is not a directory and the destination is a directory, with `EISDIR`.
In each of these failures the mount differs from the one before the call by
materialization only (`Mat`): no entry is added, removed or moved, modes, inode
numbers and loaded inodes are as before, hashes are as before or cleared, and
the journal is as before; and it differs on the linked parent chains of the two
directories only (`ChainFrame`): every entry that does not lie on one of the
two chains is exactly as before, so the entries of the two directories are as
before except for an entry that leads to the other directory, and every
directory away from the chains has the state and the overlay record it had. -/
theorem rename_validation (restarts fuel : Nat) (m : Mount) (self dest : InodePtr)
    (name destName : PathComponent) (ds dd : Nat) (sst dst : TreeInodeState)
    (hself : self ≠ m.dotEdenInodeNumber) (hdest : dest ≠ m.dotEdenInodeNumber)
    (hname : m.nameLengthOk destName = true)
    (hchs : ChainOk m self ds) (hchd : ChainOk m dest dd) (hfs : ds ≤ fuel) (hfd : dd ≤ fuel)
    (hcs : m.contents self = some sst) (hcd : m.contents dest = some dst)
    (hty : EntryTyped m dest destName) :
    (sst.entries.find name = none →
      (rename (restarts + 1) fuel m self name dest destName).1 = .error (.errno .ENOENT) ∧
      Mat m (rename (restarts + 1) fuel m self name dest destName).2 ∧
      ChainFrame m (rename (restarts + 1) fuel m self name dest destName).2 self dest) ∧
    (∀ s t, sst.entries.find name = some s → dst.entries.find destName = some t →
      s.isDirectory = true → t.isDirectory = false →
      (rename (restarts + 1) fuel m self name dest destName).1 = .error (.errno .ENOTDIR) ∧
      Mat m (rename (restarts + 1) fuel m self name dest destName).2 ∧
      ChainFrame m (rename (restarts + 1) fuel m self name dest destName).2 self dest) ∧
    (∀ s t q cst, sst.entries.find name = some s → dst.entries.find destName = some t →
      s.isDirectory = true → t.isDirectory = true → t.inode = some q → s.inode ≠ some q →
      m.contents q = some cst → cst.entries.isEmpty = false →
      (rename (restarts + 1) fuel m self name dest destName).1 = .error (.errno .ENOTEMPTY) ∧
      Mat m (rename (restarts + 1) fuel m self name dest destName).2 ∧
      ChainFrame m (rename (restarts + 1) fuel m self name dest destName).2 self dest) ∧
    (∀ s t, sst.entries.find name = some s → dst.entries.find destName = some t →
      s.isDirectory = false → t.isDirectory = true →
      (rename (restarts + 1) fuel m self name dest destName).1 = .error (.errno .EISDIR) ∧
      Mat m (rename (restarts + 1) fuel m self name dest destName).2 ∧
      ChainFrame m (rename (restarts + 1) fuel m self name dest destName).2 self dest) := by
  obtain ⟨m2, s2, d2, hM, hF, hs2, _, hcl, hd2, _, hdcl, hren⟩ :=
    rename_locked_frame restarts fuel m self dest name destName ds dd sst dst hself hdest hname
      hchs hchd hfs hfd hcs hcd hty
  rw [hren]
  have hsrc : ∀ s, sst.entries.find name = some s →
      ∃ s1, s2.entries.find name = some s1 ∧ s1.isDirectory = s.isDirectory ∧
        s1.inode = s.inode := by
    intro s hs
    rcases hcl.find name with ⟨h1, _⟩ | ⟨e, e1, h1, h2, hc⟩
    · rw [hs] at h1; cases h1
    · rw [hs] at h1; cases h1
      exact ⟨e1, h2, hc.mode.2.2.2.1, hc.mode.2.2.1⟩
  have hdst : ∀ t, dst.entries.find destName = some t →
      ∃ t1, d2.entries.find destName = some t1 ∧ t1.isDirectory = t.isDirectory ∧
        t1.inode = t.inode := by
    intro t ht
    rcases hdcl.find destName with ⟨h1, _⟩ | ⟨e, e1, h1, h2, hc⟩
    · rw [ht] at h1; cases h1
    · rw [ht] at h1; cases h1
      exact ⟨e1, h2, hc.mode.2.2.2.1, hc.mode.2.2.1⟩
  refine ⟨?_, ?_, ?_, ?_⟩
  · intro hnone
    have h2 : s2.entries.find name = none := by
      rcases hcl.find name with ⟨_, h2⟩ | ⟨e, e1, h1, _, _⟩
      · exact h2
      · rw [hnone] at h1; cases h1
    simp only [renameLocked, hs2, Option.some_bind, h2]
    exact ⟨trivial, hM, hF⟩
  · intro s t hs ht hsd htd
    obtain ⟨s1, hs1, hsd1, _⟩ := hsrc s hs
    obtain ⟨t1, ht1, htd1, _⟩ := hdst t ht
    rw [hsd] at hsd1
    rw [htd] at htd1
    simp only [renameLocked, hs2, Option.some_bind, hs1, ht1, hsd1, htd1, if_true,
      Bool.not_false]
    exact ⟨trivial, hM, hF⟩
  · intro s t q cst hs ht hsd htd hti hne hq hnonempty
    obtain ⟨s1, hs1, hsd1, hsi1⟩ := hsrc s hs
    obtain ⟨t1, ht1, htd1, hti1⟩ := hdst t ht
    rw [hsd] at hsd1
    rw [htd] at htd1
    rw [hti] at hti1
    obtain ⟨cst2, hq2, hcl2⟩ := hM.contentsSome q cst hq
    have hemp : cst2.entries.isEmpty = false := by rw [hcl2.1.isEmpty]; exact hnonempty
    have hne1 : ¬ (some q = s1.inode) := by
      rw [hsi1]; exact fun h => hne h.symm
    simp only [renameLocked, hs2, Option.some_bind, hs1, ht1, hsd1, htd1, if_true,
      Bool.not_true, Bool.false_eq_true, if_false, TreeRenameLocks.destChild, hti1, ne_eq, hne1,
      not_false_eq_true, TreeRenameLocks.destChildIsEmpty, destChildContentsOf, hq2, hemp,
      Bool.not_false]
    exact ⟨trivial, hM, hF⟩
  · intro s t hs ht hsd htd
    obtain ⟨s1, hs1, hsd1, _⟩ := hsrc s hs
    obtain ⟨t1, ht1, htd1, _⟩ := hdst t ht
    rw [hsd] at hsd1
    rw [htd] at htd1
    simp only [renameLocked, hs2, Option.some_bind, hs1, ht1, hsd1, htd1, if_true,
      Bool.false_eq_true, if_false]
    exact ⟨trivial, hM, hF⟩

theorem Example.mountDirs_typed (name : PathComponent) : EntryTyped Example.mountDirs 1 name := by
  intro e q he hq
  have hmem : e = Example.dirEntry 2 none true ∨ e = Example.dirEntry 4 none true ∨
      e = Example.fileEntry 3 none true := by
    simp only [Mount.entry, Example.mountDirs, Example.build, List.lookup, beq_self_eq_true,
      Option.some_bind, DirContents.find] at he
    split at he
    · left; exact (Option.some.inj he).symm
    · split at he
      · right; left; exact (Option.some.inj he).symm
      · split at he
        · right; right; exact (Option.some.inj he).symm
        · cases he
  rcases hmem with h | h | h
  · subst h; cases hq; rfl
  · subst h; cases hq; rfl
  · subst h; cases hq; rfl

/-- Witness of C4 (amended): in the example mount, whose root holds the
non-empty directory `D`, the empty directory `E` and the file `f`, renaming an
absent name fails with `ENOENT`, `E` onto `f` with `ENOTDIR`, `E` onto `D` with
`ENOTEMPTY`, and `f` onto `E` with `EISDIR`. -/
theorem rename_validation_witness :
    (rename 3 5 Example.mountDirs 1 "nope" 1 "g").1 = .error (.errno .ENOENT) ∧
    (rename 3 5 Example.mountDirs 1 "E" 1 "f").1 = .error (.errno .ENOTDIR) ∧
    (rename 3 5 Example.mountDirs 1 "E" 1 "D").1 = .error (.errno .ENOTEMPTY) ∧
    (rename 3 5 Example.mountDirs 1 "f" 1 "E").1 = .error (.errno .EISDIR) :=
  ⟨((rename_validation 2 5 Example.mountDirs 1 1 "nope" "g" 0 0 _ _ (by decide) (by decide) rfl
      (ChainOk.root rfl rfl) (ChainOk.root rfl rfl) (by decide) (by decide) rfl rfl
      (Example.mountDirs_typed "g")).1 rfl).1,
   ((rename_validation 2 5 Example.mountDirs 1 1 "E" "f" 0 0 _ _ (by decide) (by decide) rfl
      (ChainOk.root rfl rfl) (ChainOk.root rfl rfl) (by decide) (by decide) rfl rfl
      (Example.mountDirs_typed "f")).2.1 _ _ rfl rfl rfl rfl).1,
   ((rename_validation 2 5 Example.mountDirs 1 1 "E" "D" 0 0 _ _ (by decide) (by decide) rfl
      (ChainOk.root rfl rfl) (ChainOk.root rfl rfl) (by decide) (by decide) rfl rfl
      (Example.mountDirs_typed "D")).2.2.1 _ _ 2 _ rfl rfl rfl rfl rfl (by decide) rfl rfl).1,
   ((rename_validation 2 5 Example.mountDirs 1 1 "f" "E" 0 0 _ _ (by decide) (by decide) rfl
      (ChainOk.root rfl rfl) (ChainOk.root rfl rfl) (by decide) (by decide) rfl rfl
      (Example.mountDirs_typed "E")).2.2.2 _ _ rfl rfl rfl rfl).1⟩

/-! ### C5: the cycle check of `rename` -/

theorem StrictAncestor.ancestor_congr {m m1 : Mount} (h : m1.location = m.location) {a b : InodePtr}
    (hs : StrictAncestor m a b) : StrictAncestor m1 a b := by
  induction hs with
  | parent hp => exact StrictAncestor.parent (by simpa only [Mount.getParent, h] using hp)
  | step hp _ ih => exact StrictAncestor.step (by simpa only [Mount.getParent, h] using hp) ih

theorem isUnlinked_congr {m m1 : Mount} (h : m1.location = m.location) (p : InodePtr) :
    m1.isUnlinked p = m.isUnlinked p := by
  simp only [Mount.isUnlinked, h]

/-- The cycle check of `doRename`: a loaded source directory that is the
destination parent or one of its strict ancestors gives `EINVAL`, the mount as
it is. -/
theorem doRename_cycle (fuel : Nat) (m : Mount) (locks : TreeRenameLocks) (self : InodePtr)
    (srcName : PathComponent) (s : DirEntry) (dest : InodePtr) (destName : PathComponent)
    (q : InodePtr) (d : Nat) (hd : Depth m dest d) (hfuel : d ≤ fuel)
    (hnoop : ¬ (locks.destChildExists ∧ s.inode = locks.destChild))
    (hdir : s.isDirectory = true) (hq : s.inode = some q)
    (hanc : q = dest ∨ StrictAncestor m q dest) :
    doRename fuel m locks self srcName s dest destName = (.error (.errno .EINVAL), m) := by
  unfold doRename
  rw [if_neg hnoop]
  by_cases hqd : q = dest
  · simp only [hdir, hq, hqd, if_true]
  · obtain ⟨r, hr, hiff⟩ := isAncestor_spec m q dest fuel d hd hfuel
    have hrt : r = true := hiff.mpr (hanc.resolve_left hqd)
    rw [hrt] at hr
    simp only [hdir, hq, hqd, if_true, if_false, hr]

/-- Counterexample to C5 as stated.  (1) Renaming the directory `C` of the root
into itself fails with `EINVAL`, but `rename` has materialized both directories
before the check, which clears the hash of the entry `C` of the root: an entry
of a directory is changed.  (2) Renaming the directory `d` onto the file `x`
inside `d` fails with `ENOTDIR`, not `EINVAL`, although the destination parent
is the source directory itself: the type validation precedes the cycle
check. -/
theorem rename_cycle_counterexample :
    ((rename 3 5 Example.mountCF 1 "C" 2 "g").1 = .error (.errno .EINVAL) ∧
      (Example.mountCF.entry 1 "C").map (fun e => e.hash) = some (some 20) ∧
      ((rename 3 5 Example.mountCF 1 "C" 2 "g").2.entry 1 "C").map (fun e => e.hash) =
        some none) ∧
    ((Example.mountNested.entry 1 "d").map (fun e => (e.isDirectory, e.inode)) =
        some (true, some 2) ∧
      (rename 3 5 Example.mountNested 1 "d" 2 "x").1 = .error (.errno .ENOTDIR)) := by
  refine ⟨⟨rfl, rfl, rfl⟩, rfl, rfl⟩

/-- C5, amended.  For directories that are not the control directory, a
destination name of valid length, and a mount in which the parent chains of
both directories are well formed: if the source entry is a loaded directory
that is the destination parent itself or a strict ancestor of it along the
parent pointers, the destination parent is not unlinked, and the destination
name is absent or names a loaded empty directory other than the source, then
`rename` fails with `EINVAL`, and the mount differs from the one before the
call by materialization only (`Mat`): no entry of any directory is added,
removed or moved, modes, inode numbers and loaded inodes are as before, hashes
are as before or cleared, and the journal is as before; and it differs on the
linked parent chains of the two directories only (`ChainFrame`): every entry
that does not lie on one of the two chains is exactly as before, and every
directory away from the chains has the state and the overlay record it had.
And `isAncestor(a, b)` returns, given fuel for the depth of `b`, true exactly
when `a` is a strict ancestor of `b` along the parent pointers. -/
theorem rename_cycle (restarts fuel : Nat) (m : Mount) (self dest : InodePtr)
    (name destName : PathComponent) (ds dd : Nat) (sst dst : TreeInodeState)
    (s : DirEntry) (q : InodePtr)
    (hself : self ≠ m.dotEdenInodeNumber) (hdest : dest ≠ m.dotEdenInodeNumber)
    (hname : m.nameLengthOk destName = true)
    (hchs : ChainOk m self ds) (hchd : ChainOk m dest dd) (hfs : ds ≤ fuel) (hfd : dd ≤ fuel)
    (hcs : m.contents self = some sst) (hcd : m.contents dest = some dst)
    (hty : EntryTyped m dest destName)
    (hs : sst.entries.find name = some s) (hsd : s.isDirectory = true) (hsq : s.inode = some q)
    (hanc : q = dest ∨ StrictAncestor m q dest)
    (hlinked : m.isUnlinked dest = false)
    (hdst : dst.entries.find destName = none ∨
      ∃ t r cst, dst.entries.find destName = some t ∧ t.isDirectory = true ∧
        t.inode = some r ∧ r ≠ q ∧ m.contents r = some cst ∧ cst.entries.isEmpty = true) :
    ((rename (restarts + 1) fuel m self name dest destName).1 = .error (.errno .EINVAL) ∧
      Mat m (rename (restarts + 1) fuel m self name dest destName).2 ∧
      ChainFrame m (rename (restarts + 1) fuel m self name dest destName).2 self dest) ∧
    (∀ a b d, Depth m b d → d ≤ fuel →
      ∃ r, isAncestor fuel m a b = .ok r ∧ (r = true ↔ StrictAncestor m a b)) := by
  refine ⟨?_, fun a b d hd hle => isAncestor_spec m a b fuel d hd hle⟩
  obtain ⟨m2, s2, d2, hM, hF, hs2, _, hcl, hd2, _, hdcl, hren⟩ :=
    rename_locked_frame restarts fuel m self dest name destName ds dd sst dst hself hdest hname
      hchs hchd hfs hfd hcs hcd hty
  rw [hren]
  obtain ⟨s1, hs1, hsd1, hsq1⟩ : ∃ s1, s2.entries.find name = some s1 ∧
      s1.isDirectory = true ∧ s1.inode = some q := by
    rcases hcl.find name with ⟨h1, _⟩ | ⟨e, e1, h1, h2, hc⟩
    · rw [hs] at h1; cases h1
    · rw [hs] at h1; cases h1
      exact ⟨e1, h2, by rw [hc.mode.2.2.2.1]; exact hsd, by rw [hc.mode.2.2.1]; exact hsq⟩
  have hlinked2 : m2.isUnlinked dest = false := by
    rw [isUnlinked_congr hM.location]; exact hlinked
  have hdepth : Depth m2 dest dd := Depth.depth_congr hM.location hchd.to_depth
  have hanc2 : q = dest ∨ StrictAncestor m2 q dest :=
    hanc.imp id (StrictAncestor.ancestor_congr hM.location)
  rcases hdst with hnone | ⟨t, r, cst, ht, htd, htr, hrq, hr, hemp⟩
  · have hnone2 : d2.entries.find destName = none := by
      rcases hdcl.find destName with ⟨_, h2⟩ | ⟨e, e1, h1, _, _⟩
      · exact h2
      · rw [hnone] at h1; cases h1
    rw [hnone2]
    have hdr := doRename_cycle fuel m2
      { srcContents := self, destContents := dest, destChildContents := destChildContentsOf none,
        destChildIter := none } self name s1 dest destName q dd hdepth hfd
      (by simp [TreeRenameLocks.destChildExists]) hsd1 hsq1 hanc2
    simp only [renameLocked, hs2, Option.some_bind, hs1, hsd1, if_true, hlinked2,
      Bool.false_eq_true, if_false, hsq1, Option.isNone_some, TreeRenameLocks.destChildExists,
      Option.isSome_none, Bool.false_and, Bool.not_false, Bool.and_self] at hdr ⊢
    rw [hdr]
    exact ⟨rfl, hM, hF⟩
  · obtain ⟨t1, ht1, htd1, htr1⟩ : ∃ t1, d2.entries.find destName = some t1 ∧
        t1.isDirectory = true ∧ t1.inode = some r := by
      rcases hdcl.find destName with ⟨h1, _⟩ | ⟨e, e1, h1, h2, hc⟩
      · rw [ht] at h1; cases h1
      · rw [ht] at h1; cases h1
        exact ⟨e1, h2, by rw [hc.mode.2.2.2.1]; exact htd, by rw [hc.mode.2.2.1]; exact htr⟩
    obtain ⟨cst2, hr2, hcl2⟩ := hM.contentsSome r cst hr
    have hemp2 : cst2.entries.isEmpty = true := by rw [hcl2.1.isEmpty]; exact hemp
    rw [ht1]
    have hne : ¬ (some q = some r) := fun h => hrq (Option.some.inj h).symm
    have hne1 : ¬ (some r = some q) := fun h => hrq (Option.some.inj h)
    have hdr := doRename_cycle fuel m2
      { srcContents := self, destContents := dest,
        destChildContents := destChildContentsOf (some t1),
        destChildIter := some t1 } self name s1 dest destName q dd hdepth hfd
      (by simp [TreeRenameLocks.destChild, hsq1, htr1, hrq, hne]) hsd1 hsq1 hanc2
    simp only [renameLocked, hs2, Option.some_bind, hs1, hsd1, htd1, if_true, hlinked2,
      Bool.false_eq_true, if_false, hsq1, Option.isNone_some, TreeRenameLocks.destChildExists,
      Option.isSome_some, Bool.not_true, TreeRenameLocks.destChild, htr1, ne_eq, hne1,
      not_false_eq_true, TreeRenameLocks.destChildIsEmpty, destChildContentsOf, hr2, hemp2,
      Bool.true_and, Bool.not_false, Bool.and_self] at hdr ⊢
    rw [hdr]
    exact ⟨rfl, hM, hF⟩

/-- Witness of C5 (amended): renaming the loaded directory `C` of the root to
the name `g` inside `C` itself fails with `EINVAL`. -/
theorem rename_cycle_witness :
    (rename 3 5 Example.mountCF 1 "C" 2 "g").1 = .error (.errno .EINVAL) :=
  (rename_cycle 2 5 Example.mountCF 1 2 "C" "g" 0 1 _ _ _ 2 (by decide) (by decide) rfl
    (ChainOk.root rfl rfl) (ChainOk.child rfl rfl (ChainOk.root rfl rfl) (fun _ => rfl))
    (by decide) (by decide) rfl rfl (fun _ _ he _ => Option.noConfusion he)
    rfl rfl rfl (Or.inl rfl) rfl (Or.inl rfl)).1.1

/-! ### C10: operations on an unlinked directory -/

theorem SameEntries.same_refl (m : Mount) : SameEntries m m := ⟨rfl, fun _ => rfl⟩

theorem getPath_unlinked (fuel : Nat) (m : Mount) (p : InodePtr) (loc : LocationInfo)
    (hl : m.location p = some loc) (hu : loc.unlinked = true) :
    getPath (fuel + 1) m p = .ok none := by
  simp only [getPath, hl, hu, if_true]

/-- On an unlinked directory `materialize` succeeds without going up: it clears
the tree hash of the directory and writes its overlay record, nothing else. -/
theorem materialize_unlinked (fuel : Nat) (m : Mount) (p : InodePtr) (loc : LocationInfo)
    (st : TreeInodeState) (hl : m.location p = some loc) (hu : loc.unlinked = true)
    (hc : m.contents p = some st) :
    ∃ m1, materialize fuel m p = (.ok (), m1) ∧ m1.location = m.location ∧
      m1.dotEdenInodeNumber = m.dotEdenInodeNumber ∧ m1.nameLengthOk = m.nameLengthOk ∧
      m1.contents p = some st.setMaterialized ∧ SameEntries m m1 := by
  unfold materialize
  rw [hc]
  by_cases hm : st.isMaterialized = true
  · refine ⟨m, ?_, rfl, rfl, rfl, ?_, SameEntries.same_refl m⟩
    · simp only [hm, if_true]
    · rw [hc]
      have : st.treeHash = none := by
        simpa only [TreeInodeState.isMaterialized, Option.isNone_iff_eq_none] using hm
      cases st
      simp only [TreeInodeState.setMaterialized] at *
      rw [this]
  · refine ⟨(m.setContents p st.setMaterialized).saveOverlayDir p st.entries, ?_, rfl, rfl, rfl,
      ?_, rfl, ?_⟩
    · have hl1 : ((m.setContents p st.setMaterialized).saveOverlayDir p st.entries).location p =
          some loc := hl
      simp only [hm, Bool.false_eq_true, if_false, hl1, hu, Bool.not_true]
      cases loc.parent <;> rfl
    · simp [Mount.saveOverlayDir, Mount.setContents]
    · intro q
      by_cases hq : q = p
      · subst hq
        simp [Mount.saveOverlayDir, Mount.setContents, hc, TreeInodeState.setMaterialized]
      · simp [Mount.saveOverlayDir, Mount.setContents, hq]

/-- On an unlinked directory `createImpl` fails with `ENOENT` for a name that is
absent, the mount as it is. -/
theorem createImpl_unlinked (fuel : Nat) (m : Mount) (p : InodePtr) (loc : LocationInfo)
    (st : TreeInodeState) (name : PathComponent) (mode : Nat) (bytes : String)
    (hl : m.location p = some loc) (hu : loc.unlinked = true) (hc : m.contents p = some st)
    (hdot : p ≠ m.dotEdenInodeNumber) (hf : st.entries.find name = none) :
    createImpl (fuel + 1) m p name mode bytes = (.error (.errno .ENOENT), m) := by
  simp only [createImpl, hdot, if_false, hc, hf, getPath_unlinked fuel m p loc hl hu]

/-- What the creating operations come to on an unlinked directory, after
`materialize`. -/
theorem createImpl_after_materialize (fuel : Nat) (m : Mount) (p : InodePtr) (loc : LocationInfo)
    (st : TreeInodeState) (name : PathComponent) (mode : Nat) (bytes : String)
    (hl : m.location p = some loc) (hu : loc.unlinked = true) (hc : m.contents p = some st)
    (hdot : p ≠ m.dotEdenInodeNumber) (hf : st.entries.find name = none) :
    ∃ m1, materialize (fuel + 1) m p = (.ok (), m1) ∧
      createImpl (fuel + 1) m1 p name mode bytes = (.error (.errno .ENOENT), m1) ∧
      SameEntries m m1 := by
  obtain ⟨m1, hmat, hloc, hde, _, hc1, hsame⟩ := materialize_unlinked (fuel + 1) m p loc st hl hu hc
  refine ⟨m1, hmat, ?_, hsame⟩
  exact createImpl_unlinked fuel m1 p loc st.setMaterialized name mode bytes
    (by rw [hloc]; exact hl) hu hc1 (by rw [hde]; exact hdot) hf

/-- Counterexample to C10 as stated: on the unlinked directory of the example
mount `getattr` and `setattr` succeed, and `getChildByName(".eden")` returns
the control inode; none of them fails with `ENOENT`. -/
theorem unlinked_directory_counterexample :
    Example.mountGone.isUnlinked 2 = true ∧
    getattr Example.mountGone 2 = .ok { st_ino := 2, st_nlink := some 2 } ∧
    (setattr 5 Example.mountGone 2).1 = .ok { st_ino := 2, st_nlink := none } ∧
    (getChildByName Example.mountGone 2 ".eden").1 = .ok 9 := by
  refine ⟨rfl, rfl, rfl, rfl⟩

/-- C10, amended.  Let `p` be an unlinked directory that is not the control
directory.  For a name of valid length, `mkdir` fails with `ENOENT`, and so do
`create`, `symlink` and `mknod` (with a socket mode) if the name is absent.
`unlink` and `rmdir` fail with `ENOENT` for an absent name other than `.eden`,
and for a present, loaded child of the fitting type (an empty directory for
`rmdir`) if the directory is still unlinked when the attempt takes the rename
lock.  `rename` of an absent name out of `p` fails with `ENOENT` (for a valid
destination with well-formed parent chains).  `getChildByName` fails with
`ENOENT` for an absent name other than `.eden` and returns the child for a
present, loaded one.  `getattr` and `setattr` succeed.  In all these calls no
entry is inserted or removed and nothing is added to the journal: every
directory holds exactly the entries it held (`SameEntries`), for `rename`
up to hashes cleared by materialization (`Mat`). -/
theorem unlinked_directory (fuel : Nat) (m : Mount) (p : InodePtr) (loc : LocationInfo)
    (st : TreeInodeState) (hl : m.location p = some loc) (hu : loc.unlinked = true)
    (hc : m.contents p = some st) (hdot : p ≠ m.dotEdenInodeNumber) :
    (∀ name mode bytes, m.nameLengthOk name = true → st.entries.find name = none →
      ((create (fuel + 1) m p name mode).1 = .error (.errno .ENOENT) ∧
        SameEntries m (create (fuel + 1) m p name mode).2) ∧
      ((symlink (fuel + 1) m p name bytes).1 = .error (.errno .ENOENT) ∧
        SameEntries m (symlink (fuel + 1) m p name bytes).2) ∧
      (S_ISSOCK mode = true →
        (mknod (fuel + 1) m p name mode).1 = .error (.errno .ENOENT) ∧
        SameEntries m (mknod (fuel + 1) m p name mode).2)) ∧
    (∀ name mode, m.nameLengthOk name = true →
      (mkdir (fuel + 1) m p name mode).1 = .error (.errno .ENOENT) ∧
      SameEntries m (mkdir (fuel + 1) m p name mode).2) ∧
    (∀ interfere name, st.entries.find name = none → name ≠ kDotEdenName →
      ((unlink interfere (fuel + 1) m p name).result = .error (.errno .ENOENT) ∧
        (unlink interfere (fuel + 1) m p name).mount = m) ∧
      ((rmdir interfere (fuel + 1) m p name).result = .error (.errno .ENOENT) ∧
        (rmdir interfere (fuel + 1) m p name).mount = m)) ∧
    (∀ interfere name e c loc1, st.entries.find name = some e → e.inode = some c →
      (interfere 1 m).location p = some loc1 → loc1.unlinked = true →
      (m.contents c = none →
        (unlink interfere (fuel + 1) m p name).result = .error (.errno .ENOENT) ∧
        (unlink interfere (fuel + 1) m p name).mount = interfere 1 m) ∧
      (∀ cst, m.contents c = some cst → cst.entries.isEmpty = true →
        (rmdir interfere (fuel + 1) m p name).result = .error (.errno .ENOENT) ∧
        (rmdir interfere (fuel + 1) m p name).mount = interfere 1 m)) ∧
    (∀ restarts name dest destName ds dd dst, st.entries.find name = none →
      dest ≠ m.dotEdenInodeNumber → m.nameLengthOk destName = true →
      ChainOk m p ds → ChainOk m dest dd → ds ≤ fuel + 1 → dd ≤ fuel + 1 →
      m.contents dest = some dst → EntryTyped m dest destName →
      (rename (restarts + 1) (fuel + 1) m p name dest destName).1 = .error (.errno .ENOENT) ∧
      Mat m (rename (restarts + 1) (fuel + 1) m p name dest destName).2) ∧
    (∀ name, st.entries.find name = none → name ≠ kDotEdenName →
      getChildByName m p name = (.error (.errno .ENOENT), m)) ∧
    (∀ name e c, st.entries.find name = some e → e.inode = some c →
      getChildByName m p name = (.ok c, m)) ∧
    getattr m p = .ok { st_ino := p, st_nlink := some (st.entries.length + 2) } ∧
    (setattr (fuel + 1) m p).1 = .ok { st_ino := p, st_nlink := none } ∧
    SameEntries m (setattr (fuel + 1) m p).2 := by
  refine ⟨?_, ?_, ?_, ?_, ?_, ?_, ?_, ?_, ?_⟩
  · intro name mode bytes hname hf
    have hn : (!m.nameLengthOk name) = false := by rw [hname]; rfl
    refine ⟨?_, ?_, ?_⟩
    · obtain ⟨m1, hmat, hci, hsame⟩ := createImpl_after_materialize fuel m p loc st name
        (S_IFREG ||| (0o7777 &&& mode)) "" hl hu hc hdot hf
      simp only [create, hn, Bool.false_eq_true, if_false, hmat, hci]
      exact ⟨trivial, hsame⟩
    · obtain ⟨m1, hmat, hci, hsame⟩ := createImpl_after_materialize fuel m p loc st name
        (S_IFLNK ||| 0o770) bytes hl hu hc hdot hf
      simp only [symlink, hn, Bool.false_eq_true, if_false, hmat, hci]
      exact ⟨trivial, hsame⟩
    · intro hsock
      obtain ⟨m1, hmat, hci, hsame⟩ := createImpl_after_materialize fuel m p loc st name
        mode "" hl hu hc hdot hf
      simp only [mknod, hn, Bool.false_eq_true, if_false, hsock, Bool.not_true, hmat, hci]
      exact ⟨trivial, hsame⟩
  · intro name mode hname
    have hn : (!m.nameLengthOk name) = false := by rw [hname]; rfl
    obtain ⟨m1, hmat, hloc, _, _, hc1, hsame⟩ :=
      materialize_unlinked (fuel + 1) m p loc st hl hu hc
    have hgp : getPath (fuel + 1) m1 p = .ok none :=
      getPath_unlinked fuel m1 p loc (by rw [hloc]; exact hl) hu
    unfold mkdir
    rw [if_neg hdot]
    simp only [hn, Bool.false_eq_true, if_false, hmat, hc1, hgp]
    exact ⟨trivial, hsame⟩
  · intro interfere name hf hne
    have hg : getOrLoadChild m p name = (.error (.errno .ENOENT), m) := by
      simp only [getOrLoadChild, hc, hf, hne, false_and, if_false]
    simp only [unlink, rmdir, hg]
    exact ⟨⟨trivial, trivial⟩, trivial, trivial⟩
  · intro interfere name e c loc1 hf hi hl1 hu1
    have hg : getOrLoadChild m p name = (.ok c, m) := by
      simp only [getOrLoadChild, hc, hf, hi]
    have hgp : getPath (fuel + 1) (interfere 1 m) p = .ok none :=
      getPath_unlinked fuel (interfere 1 m) p loc1 hl1 hu1
    refine ⟨?_, ?_⟩
    · intro hcn
      simp only [unlink, hg]
      rw [removeImpl]
      simp only [asSubclassPtrOrNull, hcn, Option.isSome_none, Bool.false_eq_true, if_false,
        checkPreRemove, hgp]
      exact ⟨trivial, trivial⟩
    · intro cst hcs hemp
      simp only [rmdir, hg]
      rw [removeImpl]
      simp only [asSubclassPtrOrNull, hcs, Option.isSome_some, if_true, checkPreRemove, hemp,
        Bool.not_true, Bool.false_eq_true, if_false, hgp]
      exact ⟨trivial, trivial⟩
  · intro restarts name dest destName ds dd dst hf hdest hname hchs hchd hfs hfd hcd hty
    obtain ⟨m2, s2, d2, hM, hs2, _, hcl, _, _, _, hren⟩ :=
      rename_locked restarts (fuel + 1) m p dest name destName ds dd st dst hdot hdest hname
        hchs hchd hfs hfd hc hcd hty
    rw [hren]
    have h2 : s2.entries.find name = none := by
      rcases hcl.find name with ⟨_, h2⟩ | ⟨e, e1, h1, _, _⟩
      · exact h2
      · rw [hf] at h1; cases h1
    simp only [renameLocked, hs2, Option.some_bind, h2]
    exact ⟨trivial, hM⟩
  · intro name hf hne
    simp only [getChildByName, getOrLoadChild, hc, hf, hne, false_and, if_false]
  · intro name e c hf hi
    simp only [getChildByName, getOrLoadChild, hc, hf, hi]
  · simp only [getattr, hc]
  · obtain ⟨m1, hmat, hloc, _, _, hc1, hsame⟩ :=
      materialize_unlinked (fuel + 1) m p loc st hl hu hc
    have hgp : getPath (fuel + 1) m1 p = .ok none :=
      getPath_unlinked fuel m1 p loc (by rw [hloc]; exact hl) hu
    simp only [setattr, hmat, hc1, updateJournal, hgp]
    exact ⟨trivial, hsame⟩

/-- Witness of C10 (amended): on the unlinked directory of the example mount
`mkdir` and `create` fail with `ENOENT`. -/
theorem unlinked_directory_witness :
    (mkdir 5 Example.mountGone 2 "x" 0o755).1 = .error (.errno .ENOENT) ∧
    (create 5 Example.mountGone 2 "x" 0o644).1 = .error (.errno .ENOENT) :=
  have h := unlinked_directory 4 Example.mountGone 2 _ _ rfl rfl rfl (by decide)
  ⟨(h.2.1 "x" 0o755 rfl).1, (h.1 "x" 0o644 "" rfl rfl).1.1⟩

/-! ### C3: what a successful `rename` does -/

theorem contents_setContents (m : Mount) (p : InodePtr) (st : TreeInodeState) (q : InodePtr) :
    (m.setContents p st).contents q = if q = p then some st else m.contents q := rfl

theorem contents_saveOverlayDir (m : Mount) (p : InodePtr) (d : DirContents) :
    (m.saveOverlayDir p d).contents = m.contents := rfl

theorem contents_addDelta (m : Mount) (d : JournalDelta) : (m.addDelta d).contents = m.contents :=
  rfl

theorem contents_updateLocation (m : Mount) (p q : InodePtr) (n : PathComponent) :
    (m.updateLocation p q n).contents = m.contents := rfl

theorem contents_markUnlinked (m : Mount) (p : InodePtr) :
    (m.markUnlinked p).contents = m.contents := rfl

/-- The first step of `doRename`, the placement of the source entry in the
destination directory: where it succeeds, the destination directory holds the
source entry under the destination name and its other entries as before. -/
theorem doRename_placed (M : Mount) (locks : TreeRenameLocks) (s : DirEntry) (dest : InodePtr)
    (destName : PathComponent) (dst : TreeInodeState) (mP : Mount)
    (hiter : locks.destChildIter = dst.entries.find destName)
    (hplaced :
      (if locks.destChildExists = true then
        match locks.destChild with
        | none => Except.error Failure.bug
        | some destChild =>
          Except.ok
            ((M.markUnlinked destChild).setContents dest
              { entries := dst.entries.assign destName s, treeHash := dst.treeHash })
      else
        if (!(dst.entries.emplace destName s).2) = true then Except.error Failure.bug
        else Except.ok (M.setContents dest
          { entries := (dst.entries.emplace destName s).1, treeHash := dst.treeHash })) =
      Except.ok mP) :
    ∃ P : DirContents, (∀ k, P.find k = if k = destName then some s else dst.entries.find k) ∧
      ∀ q, mP.contents q =
        if q = dest then some { entries := P, treeHash := dst.treeHash } else M.contents q := by
  have hEx : locks.destChildExists = (dst.entries.find destName).isSome := by
    simp [TreeRenameLocks.destChildExists, hiter]
  rw [hEx] at hplaced
  cases hf : dst.entries.find destName with
  | none =>
    rw [hf] at hplaced
    simp only [Option.isSome_none, Bool.false_eq_true, if_false,
      DirContents.emplace_absent _ _ _ hf, Bool.not_true] at hplaced
    cases hplaced
    refine ⟨_, fun k => DirContents.find_insertSorted _ _ _ k hf, fun q => rfl⟩
  | some t =>
    rw [hf] at hplaced
    simp only [Option.isSome_some, if_true] at hplaced
    split at hplaced
    · cases hplaced
    · cases hplaced
      refine ⟨_, fun k => ?_, fun q => rfl⟩
      rw [DirContents.find_assign, hf]
      rfl

/-- What a successful `doRename` leaves: the source entry was a loaded inode that
passed the cycle check, the destination directory holds it under the
destination name, the source name is erased, and no other directory
changed. -/
theorem doRename_contents (fuel : Nat) (M : Mount) (locks : TreeRenameLocks) (self : InodePtr)
    (name : PathComponent) (s : DirEntry) (dest : InodePtr) (destName : PathComponent)
    (sst dst : TreeInodeState) (m1 : Mount)
    (hsrc : locks.srcContents = self) (hdst : locks.destContents = dest)
    (hiter : locks.destChildIter = dst.entries.find destName)
    (hcs : M.contents self = some sst) (hcd : M.contents dest = some dst)
    (hnoop : ¬ (locks.destChildExists ∧ s.inode = locks.destChild))
    (hsucc : doRename fuel M locks self name s dest destName = (.ok (), m1)) :
    (∃ c, s.inode = some c ∧
      (s.isDirectory = true → c ≠ dest ∧ isAncestor fuel M c dest = .ok false)) ∧
    ∃ P : DirContents, (∀ k, P.find k = if k = destName then some s else dst.entries.find k) ∧
      ∀ q, m1.contents q =
        if q = self then
          some { entries := (if self = dest then P else sst.entries).erase name,
                 treeHash := sst.treeHash }
        else if q = dest then some { entries := P, treeHash := dst.treeHash }
        else M.contents q := by
  unfold doRename at hsucc
  rw [if_neg hnoop] at hsucc
  simp only [hsrc, hdst, hcd] at hsucc
  split at hsucc
  · cases hsucc
  · cases hsucc
  · rename_i hcycle
    split at hsucc
    · cases hsucc
    · rename_i hx _; cases hx
    · rename_i childInode destState hci hds
      cases hds
      refine ⟨⟨childInode, hci, fun hdir => ?_⟩, ?_⟩
      · simp only [hdir, if_true, hci] at hcycle
        by_cases hcd1 : childInode = dest
        · simp [hcd1] at hcycle
        · simp only [hcd1, if_false] at hcycle
          exact ⟨hcd1, hcycle⟩
      · split at hsucc
        · cases hsucc
        · rename_i mP hplaced
          obtain ⟨P, hP, hmP⟩ := doRename_placed M locks s dest destName dst mP hiter hplaced
          refine ⟨P, hP, ?_⟩
          split at hsucc
          · cases hsucc
          · rename_i srcState hss
            rw [contents_updateLocation, hmP] at hss
            have hm : m1.contents =
                ((mP.updateLocation childInode dest destName).setContents self
                  { entries := srcState.entries.erase name,
                    treeHash := srcState.treeHash }).contents := by
              have h2 : _ = m1.contents := congrArg (fun r => r.2.contents) hsucc
              rw [← h2]
              clear h2 hsucc hplaced hcycle
              simp only [contents_setContents, eq_self_iff_true, if_true]
              have h5 : ∀ (m4 : Mount),
                  (if dest ≠ self then
                    match m4.contents dest with
                    | some st => m4.saveOverlayDir dest st.entries
                    | none => m4
                  else m4).contents = m4.contents := by
                intro m4
                split
                · split <;> rfl
                · rfl
              split
              · exact h5 _
              · exact h5 _
              · split <;> exact h5 _
              · exact h5 _
            intro q
            rw [hm, contents_setContents, contents_updateLocation, hmP]
            by_cases hsd : self = dest
            · subst hsd
              simp only [if_true] at hss
              cases hss
              rw [hcs] at hcd
              cases hcd
              by_cases hq : q = self
              · simp [hq]
              · simp [hq]
            · simp only [hsd, if_false] at hss
              rw [hcs] at hss
              cases hss
              by_cases hq : q = self
              · simp [hq, hsd]
              · simp [hq, hsd]


/-- A successful `doRename` on materialized directories, in terms of the
entries. -/
theorem doRename_renamed (fuel : Nat) (M : Mount) (locks : TreeRenameLocks) (self : InodePtr)
    (name : PathComponent) (s : DirEntry) (dest : InodePtr) (destName : PathComponent)
    (sst dst : TreeInodeState) (m1 : Mount)
    (hsrc : locks.srcContents = self) (hdst : locks.destContents = dest)
    (hiter : locks.destChildIter = dst.entries.find destName)
    (hcs : M.contents self = some sst) (hcd : M.contents dest = some dst)
    (hsm : sst.treeHash = none) (hdm : dst.treeHash = none)
    (hfind : sst.entries.find name = some s)
    (hnoop : ¬ (locks.destChildExists ∧ s.inode = locks.destChild))
    (hsucc : doRename fuel M locks self name s dest destName = (.ok (), m1)) :
    (∃ c, s.inode = some c ∧
      (s.isDirectory = true → c ≠ dest ∧ isAncestor fuel M c dest = .ok false)) ∧
    Renamed M m1 self name dest destName s := by
  obtain ⟨hcyc, P, hP, hm1⟩ := doRename_contents fuel M locks self name s dest destName sst dst m1
    hsrc hdst hiter hcs hcd hnoop hsucc
  refine ⟨hcyc, ?_⟩
  have hdiff : self = dest → name ≠ destName := by
    intro hsd hnn
    subst hsd
    rw [hcs] at hcd
    cases hcd
    apply hnoop
    rw [TreeRenameLocks.destChildExists, TreeRenameLocks.destChild, hiter, ← hnn, hfind]
    exact ⟨rfl, rfl⟩
  by_cases hsd : self = dest
  · subst hsd
    rw [hcs] at hcd
    cases hcd
    have hnn := hdiff rfl
    have hc1 : m1.contents self = some { entries := P.erase name, treeHash := sst.treeHash } := by
      rw [hm1]; simp
    refine ⟨?_, ?_, ?_, ?_, ?_, ?_⟩
    · simp [Mount.entry, hc1, DirContents.find_erase]
    · refine ⟨s, ?_, rfl, rfl, rfl⟩
      simp [Mount.entry, hc1, DirContents.find_erase, hP, Ne.symm hnn]
    · intro k hk1 hk2
      have hk3 : k ≠ destName := fun h => hk2 ⟨rfl, h⟩
      simp [Mount.entry, hc1, DirContents.find_erase, hP, hk1, hk3, hcs]
    · intro k hk1 hk2
      have hk3 : k ≠ name := fun h => hk2 ⟨rfl, h⟩
      simp [Mount.entry, hc1, DirContents.find_erase, hP, hk1, hk3, hcs]
    · simp [hc1, hsm]
    · simp [hc1, hsm]
  · have hc1 : m1.contents self =
        some { entries := sst.entries.erase name, treeHash := sst.treeHash } := by
      rw [hm1]; simp [hsd]
    have hc2 : m1.contents dest = some { entries := P, treeHash := dst.treeHash } := by
      rw [hm1]; simp [Ne.symm hsd]
    refine ⟨?_, ?_, ?_, ?_, ?_, ?_⟩
    · simp [Mount.entry, hc1, DirContents.find_erase]
    · refine ⟨s, ?_, rfl, rfl, rfl⟩
      simp [Mount.entry, hc2, hP]
    · intro k hk1 _
      simp [Mount.entry, hc1, DirContents.find_erase, hk1, hcs]
    · intro k hk1 _
      simp [Mount.entry, hc2, hP, hk1, hcd]
    · simp [hc1, hsm]
    · simp [hc2, hdm]


/-- The locked part of `rename` on materialized directories whose source entry
and destination entry (if there is one) are loaded as different inodes: where
it succeeds, it is `doRename`, the source directory is neither the destination
parent nor above it, and the entry has moved. -/
theorem renameLocked_loaded (restarts fuel : Nat) (M : Mount) (self dest : InodePtr)
    (name destName : PathComponent) (sst dst : TreeInodeState) (s : DirEntry) (m1 : Mount)
    (dd : Nat) (hcs : M.contents self = some sst) (hcd : M.contents dest = some dst)
    (hsm : sst.treeHash = none) (hdm : dst.treeHash = none)
    (hfind : sst.entries.find name = some s)
    (hdepth : Depth M dest dd) (hfd : dd ≤ fuel)
    (hsl : s.inode.isSome = true)
    (hdl : ∀ t, dst.entries.find destName = some t → t.inode.isSome = true ∧ t.inode ≠ s.inode)
    (hsucc : renameLocked restarts fuel M
      { srcContents := self, destContents := dest,
        destChildContents := destChildContentsOf (dst.entries.find destName),
        destChildIter := dst.entries.find destName } self name dest destName = (.ok (), m1)) :
    (s.isDirectory = true → ∀ x, s.inode = some x → x ≠ dest ∧ ¬ StrictAncestor M x dest) ∧
    Renamed M m1 self name dest destName s ∧
    doRename fuel M
      { srcContents := self, destContents := dest,
        destChildContents := destChildContentsOf (dst.entries.find destName),
        destChildIter := dst.entries.find destName } self name s dest destName = (.ok (), m1) ∧
    ¬ ((TreeRenameLocks.destChildExists
          { srcContents := self, destContents := dest,
            destChildContents := destChildContentsOf (dst.entries.find destName),
            destChildIter := dst.entries.find destName }) = true ∧
        s.inode = (TreeRenameLocks.destChild
          { srcContents := self, destContents := dest,
            destChildContents := destChildContentsOf (dst.entries.find destName),
            destChildIter := dst.entries.find destName })) := by
  unfold renameLocked at hsucc
  simp only [hcs, Option.some_bind, hfind] at hsucc
  split at hsucc
  · cases hsucc
  · split at hsucc
    · cases hsucc
    · have hcond : (!s.inode.isNone &&
          !((TreeRenameLocks.destChildExists
              { srcContents := self, destContents := dest,
                destChildContents := destChildContentsOf (dst.entries.find destName),
                destChildIter := dst.entries.find destName }) &&
            (TreeRenameLocks.destChild
              { srcContents := self, destContents := dest,
                destChildContents := destChildContentsOf (dst.entries.find destName),
                destChildIter := dst.entries.find destName }).isNone)) = true := by
        obtain ⟨x, hx⟩ := Option.isSome_iff_exists.mp hsl
        cases hf : dst.entries.find destName with
        | none => simp [TreeRenameLocks.destChildExists, hx]
        | some t =>
          obtain ⟨y, hy⟩ := Option.isSome_iff_exists.mp (hdl t hf).1
          simp [TreeRenameLocks.destChildExists, TreeRenameLocks.destChild, hx, hy]
      rw [if_pos hcond] at hsucc
      have hnoop : ¬ ((TreeRenameLocks.destChildExists
              { srcContents := self, destContents := dest,
                destChildContents := destChildContentsOf (dst.entries.find destName),
                destChildIter := dst.entries.find destName }) = true ∧
            s.inode = (TreeRenameLocks.destChild
              { srcContents := self, destContents := dest,
                destChildContents := destChildContentsOf (dst.entries.find destName),
                destChildIter := dst.entries.find destName })) := by
        rintro ⟨h1, h2⟩
        cases hf : dst.entries.find destName with
        | none => simp [TreeRenameLocks.destChildExists, hf] at h1
        | some t =>
          simp only [TreeRenameLocks.destChild, hf, Option.some_bind] at h2
          exact (hdl t hf).2 h2.symm
      obtain ⟨⟨c, hc, hcyc⟩, hren⟩ := doRename_renamed fuel M _ self name s dest destName sst dst m1
        rfl rfl rfl hcs hcd hsm hdm hfind hnoop hsucc
      refine ⟨fun hdir x hx => ?_, hren, hsucc, hnoop⟩
      rw [hc] at hx
      cases hx
      obtain ⟨h1, h2⟩ := hcyc hdir
      refine ⟨h1, fun hanc => ?_⟩
      obtain ⟨r, hr, hiff⟩ := isAncestor_spec M c dest fuel dd hdepth hfd
      rw [h2] at hr
      cases hr
      exact Bool.false_ne_true (hiff.mpr hanc)

theorem materialize_noop (fuel : Nat) (m : Mount) (p : InodePtr) (st : TreeInodeState)
    (hc : m.contents p = some st) (hm : st.treeHash = none) :
    materialize fuel m p = (.ok (), m) := by
  simp [materialize, hc, TreeInodeState.isMaterialized, hm]

/-- A successful `rename` on directories that are materialized already passed
its guards and is the locked part run on the same mount. -/
theorem rename_materialized (R fuel : Nat) (M : Mount) (self dest : InodePtr)
    (name destName : PathComponent) (sst dst : TreeInodeState) (dd : Nat) (m1 : Mount)
    (hcs : M.contents self = some sst) (hcd : M.contents dest = some dst)
    (hsm : sst.treeHash = none) (hdm : dst.treeHash = none)
    (hty : EntryTyped M dest destName) (hdepth : Depth M dest dd) (hfd : dd ≤ fuel)
    (hsucc : rename R fuel M self name dest destName = (.ok (), m1)) :
    ∃ r, R = r + 1 ∧
      renameLocked r fuel M
        { srcContents := self, destContents := dest,
          destChildContents := destChildContentsOf (dst.entries.find destName),
          destChildIter := dst.entries.find destName } self name dest destName = (.ok (), m1) := by
  cases R with
  | zero => simp [rename] at hsucc
  | succ r =>
    refine ⟨r, rfl, ?_⟩
    by_cases hself : self = M.dotEdenInodeNumber
    · simp [rename, hself] at hsucc
    by_cases hdest : dest = M.dotEdenInodeNumber
    · simp [rename, hself, hdest] at hsucc
    cases hname : M.nameLengthOk destName with
    | false => simp [rename, hself, hdest, hname] at hsucc
    | true =>
      have hm1 := materialize_noop fuel M self sst hcs hsm
      have hm2 : (if dest ≠ self then materialize fuel M dest else (.ok (), M)) = (.ok (), M) := by
        split
        · exact materialize_noop fuel M dest dst hcd hdm
        · rfl
      have hlocks := acquireLocks_ok fuel M self dest destName dst dd (by simp [hcs]) hcd hty
        hdepth hfd
      rw [← hsucc]
      simp only [rename, hself, hdest, hname, if_false, Bool.not_true, Bool.false_eq_true, hm1,
        hm2, hlocks, renameLocked]


/-- The object `startLoadingInode` constructs is a `TreeInode` exactly for a
directory entry. -/
theorem startLoadingInode_typed (m m1 : Mount) (p : InodePtr) (entry : DirEntry)
    (name : PathComponent) (h : startLoadingInode m p entry name = (.ok (), m1)) :
    (m1.contents entry.inodeNumber).isSome = entry.isDirectory := by
  unfold startLoadingInode at h
  cases hd : entry.isDirectory with
  | false =>
    simp only [hd, Bool.not_false, if_true] at h
    cases h
    simp [Mount.newFileInode]
  | true =>
    simp only [hd, Bool.not_true, Bool.false_eq_true, if_false] at h
    cases hh : entry.hash with
    | none =>
      simp only [hh] at h
      cases ho : m.overlayDirs entry.inodeNumber with
      | none => simp [ho] at h
      | some dir =>
        simp only [ho] at h
        cases h
        simp [Mount.newTreeInode]
    | some treeHash =>
      simp only [hh] at h
      cases ht : m.trees treeHash with
      | none => simp [ht] at h
      | some tree =>
        simp only [ht] at h
        cases ho : m.overlayDirs entry.inodeNumber with
        | some dir =>
          simp only [ho] at h
          cases h
          simp [Mount.newTreeInode]
        | none =>
          simp only [ho] at h
          cases h
          simp [Mount.newTreeInode]

/-- The load of a child that has no inode object yet: the entry records the new
object, which is a `TreeInode` exactly for a directory entry; no other entry
and no other object changes. -/
theorem getOrLoadChild_load (M M1 : Mount) (p c : InodePtr) (k : PathComponent)
    (st : TreeInodeState) (e : DirEntry)
    (hc : M.contents p = some st) (hf : st.entries.find k = some e) (hi : e.inode = none)
    (hfresh : M.contents e.inodeNumber = none)
    (hload : getOrLoadChild M p k = (.ok c, M1)) :
    M1.contents p = some { entries := st.entries.assign k (e.setInode e.inodeNumber),
                           treeHash := st.treeHash } ∧
    (∀ q, q ≠ p → q ≠ e.inodeNumber → M1.contents q = M.contents q) ∧
    (∀ q, q ≠ e.inodeNumber → M1.location q = M.location q) ∧
    (M1.contents e.inodeNumber).isSome = e.isDirectory := by
  have hpn : e.inodeNumber ≠ p := by
    intro h
    rw [h, hc] at hfresh
    cases hfresh
  unfold getOrLoadChild at hload
  simp only [hc, hf, hi] at hload
  split at hload
  · cases hload
  · rename_i mL hL
    have hfr := startLoadingInode_frame M p e k
    have hty := startLoadingInode_typed M mL p e k hL
    rw [hL] at hfr
    cases hload
    refine ⟨by simp [contents_setContents], fun q hq1 hq2 => ?_, fun q hq => ?_, ?_⟩
    · rw [contents_setContents, if_neg hq1]
      exact (hfr.2.2 q hq2).1
    · exact (hfr.2.2 q hq).2
    · rw [contents_setContents, if_neg hpn]
      exact hty


/-- An entry that is loaded already, with the inode its number names. -/
theorem LoadedEntry.of_loaded (M : Mount) (p : InodePtr) (k : PathComponent) (e : DirEntry)
    (st : TreeInodeState) (hc : M.contents p = some st) (hf : st.entries.find k = some e)
    (hi : e.inode = some e.inodeNumber) (hty : EntryTyped M p k) :
    LoadedEntry M M p k e := by
  have hset : e.setInode e.inodeNumber = e := by
    cases e
    simp only [DirEntry.setInode] at hi ⊢
    rw [hi]
  refine ⟨fun _ _ => rfl, fun _ _ _ => rfl, fun q st1 hq => ⟨st1, hq, rfl, fun k1 => ?_⟩, ?_,
    rfl⟩
  · split
    · rename_i h
      obtain ⟨h1, h2⟩ := h
      subst h1 h2
      rw [hc] at hq
      cases hq
      rw [hset, hf]
    · rfl
  · exact (hty e e.inodeNumber (by simp [Mount.entry, hc, hf]) hi).symm

/-- An entry that `getOrLoadChild` loads. -/
theorem LoadedEntry.of_load (M M1 : Mount) (p c : InodePtr) (k : PathComponent)
    (st : TreeInodeState) (e : DirEntry)
    (hc : M.contents p = some st) (hf : st.entries.find k = some e) (hi : e.inode = none)
    (hfreshL : M.location e.inodeNumber = none) (hfreshC : M.contents e.inodeNumber = none)
    (hload : getOrLoadChild M p k = (.ok c, M1)) :
    LoadedEntry M M1 p k e := by
  obtain ⟨h1, h2, h3, h4⟩ := getOrLoadChild_load M M1 p c k st e hc hf hi hfreshC hload
  have hj : M1.journal = M.journal := by
    have := getOrLoadChild_journal M p k
    rw [hload] at this
    exact this
  refine ⟨fun q hq => ?_, h2, fun q st1 hq => ?_, h4, hj⟩
  · rcases hq with hq | hq
    · exact h3 q hq
    · apply h3
      intro h
      rw [h, hfreshL] at hq
      cases hq
  · by_cases hqp : q = p
    · subst hqp
      rw [hc] at hq
      cases hq
      refine ⟨_, h1, rfl, fun k1 => ?_⟩
      simp only [true_and]
      rw [DirContents.find_assign, hf]
      rfl
    · have hqn : q ≠ e.inodeNumber := by
        intro h
        rw [h, hfreshC] at hq
        cases hq
      refine ⟨st1, by rw [h2 q hqp hqn]; exact hq, rfl, fun k1 => ?_⟩
      simp [hqp]

theorem Depth.depth_of_agree {m m1 : Mount}
    (h : ∀ q, (m.location q).isSome = true → m1.location q = m.location q) {p : InodePtr}
    {d : Nat} (hd : Depth m p d) : Depth m1 p d := by
  induction hd with
  | root hl hp => exact Depth.root (by rw [h _ (by simp [hl])]; exact hl) hp
  | child hl hp _ ih => exact Depth.child (by rw [h _ (by simp [hl])]; exact hl) hp ih

theorem getParent_of_agree {m m1 : Mount}
    (h : ∀ q, (m.location q).isSome = true → m1.location q = m.location q) {b a : InodePtr}
    (hp : m.getParent b = some a) : m1.getParent b = some a := by
  unfold Mount.getParent at hp ⊢
  cases hl : m.location b with
  | none => rw [hl] at hp; cases hp
  | some loc => rw [h b (by simp [hl]), hl]; rw [hl] at hp; exact hp

theorem StrictAncestor.ancestor_of_agree {m m1 : Mount}
    (h : ∀ q, (m.location q).isSome = true → m1.location q = m.location q) {a b : InodePtr}
    (hs : StrictAncestor m a b) : StrictAncestor m1 a b := by
  induction hs with
  | parent hp => exact StrictAncestor.parent (getParent_of_agree h hp)
  | step hp _ ih => exact StrictAncestor.step (getParent_of_agree h hp) ih

theorem DirEntry.setInode_fields (e : DirEntry) (q : InodePtr) :
    (e.setInode q).initialMode = e.initialMode ∧ (e.setInode q).inodeNumber = e.inodeNumber ∧
      (e.setInode q).hash = e.hash ∧ (e.setInode q).inode = some q ∧
      (e.setInode q).isDirectory = e.isDirectory :=
  ⟨rfl, rfl, rfl, rfl, rfl⟩


/-- The second pass of `rename`, on the mount the loads of the first pass left:
where it succeeds, the entry has moved, relative to the mount before the
loads. -/
theorem rename_after_loads (R fuel : Nat) (M Ma Mb : Mount) (self dest : InodePtr)
    (name destName : PathComponent) (sst dst : TreeInodeState) (s : DirEntry) (m1 : Mount)
    (dd : Nat) (hr : RenameReady M self name dest destName sst dst s)
    (hsm : sst.treeHash = none) (hdm : dst.treeHash = none)
    (hdist : ∀ t, dst.entries.find destName = some t → t.inodeNumber ≠ s.inodeNumber)
    (hdepth : Depth M dest dd) (hfd : dd ≤ fuel)
    (hLa : LoadedEntry M Ma self name s)
    (hLb : (dst.entries.find destName = none ∧ Mb = Ma) ∨
      ∃ t, dst.entries.find destName = some t ∧ LoadedEntry Ma Mb dest destName t)
    (hsucc : rename R fuel Mb self name dest destName = (.ok (), m1)) :
    (s.isDirectory = true → ∀ x, s.inode = some x → x ≠ dest ∧ ¬ StrictAncestor M x dest) ∧
    Renamed M m1 self name dest destName s ∧
    LockedMove fuel M m1 self name dest destName s dst := by
  have hnn : self = dest → name ≠ destName := by
    intro hsd hnn
    subst hsd hnn
    have := hr.destContents
    rw [hr.srcContents] at this
    cases this
    exact hdist s hr.srcEntry rfl
  obtain ⟨sa, hsa, hsah, hsaf⟩ := hLa.contentsSome self sst hr.srcContents
  obtain ⟨da, hda, hdah, hdaf⟩ := hLa.contentsSome dest dst hr.destContents
  have hlocA : ∀ q, (M.location q).isSome = true → Ma.location q = M.location q :=
    fun q hq => hLa.location q (Or.inr hq)
  -- the mount after both loads
  have hB : ∃ sb db, Mb.contents self = some sb ∧ Mb.contents dest = some db ∧
      sb.treeHash = none ∧ db.treeHash = none ∧
      sb.entries.find name = some (s.setInode s.inodeNumber) ∧
      (∀ k, k ≠ name → ¬ (self = dest ∧ k = destName) →
        sb.entries.find k = sst.entries.find k) ∧
      (∀ k, k ≠ destName → ¬ (dest = self ∧ k = name) →
        db.entries.find k = dst.entries.find k) ∧
      (∀ tt, db.entries.find destName = some tt →
        ∃ t, dst.entries.find destName = some t ∧ tt = t.setInode t.inodeNumber ∧
          (Mb.contents t.inodeNumber).isSome = t.isDirectory) ∧
      (∀ q, (M.location q).isSome = true → Mb.location q = M.location q) ∧
      (db.entries.find destName).isSome = (dst.entries.find destName).isSome ∧
      Mb.journal = M.journal := by
    rcases hLb with ⟨hnone, rfl⟩ | ⟨t, ht, hLb⟩
    · refine ⟨sa, da, hsa, hda, by rw [hsah, hsm], by rw [hdah, hdm], ?_, ?_, ?_, ?_, hlocA,
        ?_, hLa.journal⟩
      rotate_right
      · rw [hdaf, if_neg (fun h => hnn h.1.symm h.2.symm)]
      · rw [hsaf]; simp
      · intro k hk _
        rw [hsaf]; simp [hk]
      · intro k _ hk
        rw [hdaf]
        rw [if_neg hk]
      · intro tt htt
        rw [hdaf] at htt
        split at htt
        · rename_i h
          obtain ⟨h1, h2⟩ := h
          exact absurd h2.symm (hnn h1.symm)
        · rw [hnone] at htt; cases htt
    · obtain ⟨sb, hsb, hsbh, hsbf⟩ := hLb.contentsSome self sa hsa
      obtain ⟨db, hdb, hdbh, hdbf⟩ := hLb.contentsSome dest da hda
      refine ⟨sb, db, hsb, hdb, by rw [hsbh, hsah, hsm], by rw [hdbh, hdah, hdm], ?_, ?_, ?_, ?_,
        ?_, ?_, hLb.journal.trans hLa.journal⟩
      rotate_right
      · rw [hdbf, ht]
        simp
      · rw [hsbf, if_neg (fun h => hnn h.1 h.2), hsaf]; simp
      · intro k hk hk2
        rw [hsbf, if_neg hk2, hsaf]; simp [hk]
      · intro k hk hk2
        rw [hdbf]
        simp only [true_and, hk, if_false]
        rw [hdaf, if_neg hk2]
      · intro tt htt
        rw [hdbf] at htt
        simp only [and_self, if_true] at htt
        cases htt
        exact ⟨t, ht, rfl, hLb.typed⟩
      · intro q hq
        rw [hLb.location q (Or.inr (by rw [hlocA q hq]; exact hq)), hlocA q hq]
  obtain ⟨sb, db, hsb, hdb, hsbh, hdbh, hsbn, hsbo, hdbo, hdbt, hlocB, hexB, hjB⟩ := hB
  have htyB : EntryTyped Mb dest destName := by
    intro e q he hq
    simp only [Mount.entry, hdb, Option.some_bind] at he
    obtain ⟨t, _, rfl, hty⟩ := hdbt e he
    cases hq
    rw [hty]
    rfl
  obtain ⟨r, _, hlocked⟩ := rename_materialized R fuel Mb self dest name destName sb db dd m1
    hsb hdb hsbh hdbh htyB (Depth.depth_of_agree hlocB hdepth) hfd hsucc
  obtain ⟨hcyc, hren, hdo, hnoop⟩ := renameLocked_loaded r fuel Mb self dest name destName sb db
    (s.setInode s.inodeNumber) m1 dd hsb hdb hsbh hdbh hsbn (Depth.depth_of_agree hlocB hdepth) hfd rfl
    (by
      intro tt htt
      obtain ⟨t, ht, rfl, _⟩ := hdbt tt htt
      refine ⟨rfl, fun h => ?_⟩
      exact hdist t ht (Option.some.inj h))
    hlocked
  refine ⟨fun hdir x hx => ?_, ?_, ?_⟩
  rotate_right
  · refine ⟨Mb, _, s.setInode s.inodeNumber, hdo, hnoop, hjB, hlocB, rfl, hexB, fun q hq => ?_⟩
    simp only [TreeRenameLocks.destChild] at hq
    cases hf : db.entries.find destName with
    | none => rw [hf] at hq; cases hq
    | some tt =>
      rw [hf] at hq
      obtain ⟨t, ht, rfl, _⟩ := hdbt tt hf
      exact ⟨t, ht, (Option.some.inj hq).symm⟩
  · have hxn := hr.srcPtr x hx
    subst hxn
    obtain ⟨h1, h2⟩ := hcyc hdir s.inodeNumber rfl
    exact ⟨h1, fun h => h2 (StrictAncestor.ancestor_of_agree hlocB h)⟩
  · obtain ⟨e, he, he1, he2, he3⟩ := hren.destEntry
    refine ⟨hren.srcGone, ⟨e, he, he1, he2, he3⟩, ?_, ?_, ?_, ?_⟩
    · intro k hk hk2
      rw [hren.srcOthers k hk hk2]
      simp only [Mount.entry, hsb, hr.srcContents, Option.some_bind]
      exact hsbo k hk hk2
    · intro k hk hk2
      rw [hren.destOthers k hk hk2]
      simp only [Mount.entry, hdb, hr.destContents, Option.some_bind]
      exact hdbo k hk hk2
    · exact hren.srcMaterialized
    · exact hren.destMaterialized


/-- The locked part of `rename` on materialized directories of a well-formed
mount, for a destination entry that is not the inode of the source entry: where
it succeeds, also after loading the source or destination child and starting
over, the source directory is neither the destination parent nor above it, and
the entry has moved. -/
theorem renameLocked_renamed (restarts fuel : Nat) (M : Mount) (self dest : InodePtr)
    (name destName : PathComponent) (sst dst : TreeInodeState) (s : DirEntry) (m1 : Mount)
    (dd : Nat) (hr : RenameReady M self name dest destName sst dst s)
    (hsm : sst.treeHash = none) (hdm : dst.treeHash = none)
    (hdist : ∀ t, dst.entries.find destName = some t → t.inodeNumber ≠ s.inodeNumber)
    (hdepth : Depth M dest dd) (hfd : dd ≤ fuel)
    (hsucc : renameLocked restarts fuel M
      { srcContents := self, destContents := dest,
        destChildContents := destChildContentsOf (dst.entries.find destName),
        destChildIter := dst.entries.find destName } self name dest destName = (.ok (), m1)) :
    (s.isDirectory = true → ∀ x, s.inode = some x → x ≠ dest ∧ ¬ StrictAncestor M x dest) ∧
    Renamed M m1 self name dest destName s ∧
    LockedMove fuel M m1 self name dest destName s dst := by
  by_cases hL : s.inode.isSome = true ∧
      ∀ t, dst.entries.find destName = some t → t.inode.isSome = true
  · have hdl : ∀ t, dst.entries.find destName = some t →
        t.inode.isSome = true ∧ t.inode ≠ s.inode := by
      intro t ht
      refine ⟨hL.2 t ht, fun h => ?_⟩
      obtain ⟨y, hy⟩ := Option.isSome_iff_exists.mp (hL.2 t ht)
      have h1 := hr.destPtr t y ht hy
      have h2 := hr.srcPtr y (by rw [← h, hy])
      exact hdist t ht (h1.symm.trans h2)
    obtain ⟨h1, h2, hdo, hnoop⟩ := renameLocked_loaded restarts fuel M self dest name destName
      sst dst s m1 dd hr.srcContents hr.destContents hsm hdm hr.srcEntry hdepth hfd hL.1 hdl hsucc
    refine ⟨h1, h2, M, _, s, hdo, hnoop, rfl, fun _ _ => rfl, ?_, rfl, fun q hq => ?_⟩
    · obtain ⟨x, hx⟩ := Option.isSome_iff_exists.mp hL.1
      rw [hx, hr.srcPtr x hx]
    · simp only [TreeRenameLocks.destChild] at hq
      cases hf : dst.entries.find destName with
      | none => rw [hf] at hq; cases hq
      | some t =>
        rw [hf] at hq
        exact ⟨t, rfl, hr.destPtr t q hf hq⟩
  · unfold renameLocked at hsucc
    simp only [hr.srcContents, Option.some_bind, hr.srcEntry] at hsucc
    split at hsucc
    · cases hsucc
    · split at hsucc
      · cases hsucc
      · simp only [TreeRenameLocks.destChildExists, TreeRenameLocks.destChild] at hsucc
        have hcond : ¬ ((!s.inode.isNone &&
            !((dst.entries.find destName).isSome &&
              ((dst.entries.find destName).bind fun e => e.inode).isNone)) = true) := by
          intro hc
          apply hL
          cases hi : s.inode with
          | none => simp [hi] at hc
          | some x =>
            refine ⟨rfl, fun t ht => ?_⟩
            cases hti : t.inode with
            | none => simp [hi, ht, hti] at hc
            | some y => rfl
        rw [if_neg hcond] at hsucc
        generalize hSL :
          (if s.inode.isNone = true then
            match getOrLoadChild M self name with
            | (Except.error e, m3) => ((Except.error e : Except Failure Unit), m3)
            | (Except.ok _, m3) => (Except.ok (), m3)
          else (Except.ok (), M)) = srcLoad at hsucc
        generalize hDL :
          (if ((dst.entries.find destName).isSome &&
              ((dst.entries.find destName).bind fun e => e.inode).isNone) = true then
            match getOrLoadChild srcLoad.2 dest destName with
            | (Except.error e, m3) => ((Except.error e : Except Failure Unit), m3)
            | (Except.ok _, m3) => (Except.ok (), m3)
          else (Except.ok (), srcLoad.2)) = destLoad at hsucc
        have hnn : dest = self → destName ≠ name := by
          intro hsd hnn
          subst hsd hnn
          have := hr.destContents
          rw [hr.srcContents] at this
          cases this
          exact hdist s hr.srcEntry rfl
        have hA : (∃ e, srcLoad.1 = .error e) ∨ LoadedEntry M srcLoad.2 self name s := by
          cases hi : s.inode with
          | some x =>
            rw [hi] at hSL
            simp only [Option.isNone_some, Bool.false_eq_true, if_false] at hSL
            subst hSL
            right
            exact LoadedEntry.of_loaded M self name s sst hr.srcContents hr.srcEntry
              (by rw [hi, hr.srcPtr x hi]) hr.srcTyped
          | none =>
            rw [hi] at hSL
            simp only [Option.isNone_none, if_true] at hSL
            cases hg : getOrLoadChild M self name with
            | mk r Ma =>
              rw [hg] at hSL
              cases r with
              | error e => subst hSL; left; exact ⟨e, rfl⟩
              | ok c =>
                subst hSL
                right
                exact LoadedEntry.of_load M Ma self c name sst s hr.srcContents hr.srcEntry hi
                  (hr.srcFresh hi).1 (hr.srcFresh hi).2 hg
        rcases hA with ⟨e, he⟩ | hLa
        · rw [he] at hsucc
          simp only [] at hsucc
          cases hsucc
        have hB : (∃ e, destLoad.1 = .error e) ∨
            ((dst.entries.find destName = none ∧ destLoad.2 = srcLoad.2) ∨
              ∃ t, dst.entries.find destName = some t ∧
                LoadedEntry srcLoad.2 destLoad.2 dest destName t) := by
          cases hf : dst.entries.find destName with
          | none =>
            rw [hf] at hDL
            simp only [Option.isSome_none, Bool.false_and, Bool.false_eq_true, if_false] at hDL
            subst hDL
            exact Or.inr (Or.inl ⟨rfl, rfl⟩)
          | some t =>
            obtain ⟨da, hda, _, hdaf⟩ := hLa.contentsSome dest dst hr.destContents
            have hdat : da.entries.find destName = some t := by
              rw [hdaf, if_neg (fun h => hnn h.1 h.2), hf]
            have hne : t.inodeNumber ≠ s.inodeNumber := hdist t hf
            rw [hf] at hDL
            cases hti : t.inode with
            | some y =>
              simp only [Option.isSome_some, Option.some_bind, hti, Option.isNone_some,
                Bool.and_false, Bool.false_eq_true, if_false] at hDL
              subst hDL
              refine Or.inr (Or.inr ⟨t, rfl, ?_⟩)
              have hy := hr.destPtr t y hf hti
              subst hy
              refine LoadedEntry.of_loaded _ dest destName t da hda hdat hti ?_
              intro e q he hq
              simp only [Mount.entry, hda, Option.some_bind, hdat] at he
              cases he
              rw [hti] at hq
              cases hq
              have h0 := hr.destTyped t t.inodeNumber
                (by simp [Mount.entry, hr.destContents, hf]) hti
              rw [h0]
              by_cases hqs : t.inodeNumber = self
              · obtain ⟨sa, hsa, _, _⟩ := hLa.contentsSome self sst hr.srcContents
                rw [hqs, hsa, hr.srcContents]
                rfl
              · rw [hLa.contentsOther _ hqs hne]
            | none =>
              simp only [Option.isSome_some, Option.some_bind, hti, Option.isNone_none,
                Bool.and_self, if_true] at hDL
              obtain ⟨hfl, hfc⟩ := hr.destFresh t hf hti
              have hqs : t.inodeNumber ≠ self := by
                intro h
                rw [h, hr.srcContents] at hfc
                cases hfc
              cases hg : getOrLoadChild srcLoad.2 dest destName with
              | mk r Mb =>
                rw [hg] at hDL
                cases r with
                | error e => subst hDL; left; exact ⟨e, rfl⟩
                | ok c =>
                  subst hDL
                  refine Or.inr (Or.inr ⟨t, rfl, ?_⟩)
                  exact LoadedEntry.of_load _ Mb dest c destName da t hda hdat hti
                    (by rw [hLa.location _ (Or.inl hne)]; exact hfl)
                    (by rw [hLa.contentsOther _ hqs hne]; exact hfc) hg
        rcases hB with ⟨e, he⟩ | hLb
        · rw [he] at hsucc
          split at hsucc
          · cases hsucc
          · cases hsucc
          · rename_i h1 h2
            cases h2
        split at hsucc
        · cases hsucc
        · cases hsucc
        · exact rename_after_loads restarts fuel M srcLoad.2 destLoad.2 self dest name destName
            sst dst s m1 dd hr hsm hdm hdist hdepth hfd hLa hLb hsucc

/-- What `childMaterialized`, called on `p` for the child `n`, reaches: the entry
itself, or an entry that is the location of `p` or of an inode above `p`, each
of them a loaded directory linked into its parent. -/
theorem Touches.toucher {m : Mount} {p q : InodePtr} {n k : PathComponent}
    (ht : Touches m p n q k) :
    ∀ {d : Nat}, ChainOk m p d → (m.contents p).isSome = true →
      (p = q ∧ n = k) ∨
      ∃ x locx, m.location x = some locx ∧ locx.parent = some q ∧ locx.name = k ∧
        locx.unlinked = false ∧ (x = p ∨ StrictAncestor m x p) ∧
        (m.contents x).isSome = true := by
  induction ht with
  | here => intro d _ _; exact Or.inl ⟨rfl, rfl⟩
  | @up p parent q n k loc hl hp hu _ ih =>
    intro d hch hcp
    have hgp : m.getParent p = some parent := by rw [getParent_eq m p loc hl, hp]
    cases hch with
    | root hl1 hp1 => rw [hl] at hl1; cases hl1; rw [hp] at hp1; cases hp1
    | @child _ parent1 loc1 d1 hl1 hp1 hpar hent =>
      rw [hl] at hl1
      cases hl1
      rw [hp] at hp1
      cases hp1
      have hcpar : (m.contents parent).isSome = true := by
        have := hent hu
        unfold Mount.entry at this
        cases hc : m.contents parent with
        | none => rw [hc] at this; cases this
        | some st => rfl
      rcases ih hpar hcpar with ⟨h1, h2⟩ | ⟨x, locx, hx1, hx2, hx3, hx4, hx5, hx6⟩
      · subst h1 h2
        exact Or.inr ⟨p, loc, hl, hp, rfl, hu, Or.inl rfl, hcp⟩
      · refine Or.inr ⟨x, locx, hx1, hx2, hx3, hx4, Or.inr ?_, hx6⟩
        rcases hx5 with h | h
        · subst h; exact StrictAncestor.parent hgp
        · exact StrictAncestor.step hgp h


/-- Counterexample to C3 as stated: in the example mount, whose root holds the
directory `C` (hash 20) and the file `f`, the rename of `f` to `C/g` succeeds,
and afterwards the entry `C` of the root, the source directory, has no hash: an
entry other than the source and destination entry has changed. -/
theorem rename_apply_counterexample :
    (rename 3 5 Example.mountCF 1 "f" 2 "g").1 = .ok () ∧
    (Example.mountCF.entry 1 "C").map (fun e => e.hash) = some (some 20) ∧
    ((rename 3 5 Example.mountCF 1 "f" 2 "g").2.entry 1 "C").map (fun e => e.hash) =
      some none := by
  refine ⟨rfl, rfl, rfl⟩

/-- C3, amended.  In a mount that is well formed where the rename looks at it
(`RenameReady`, parent chains of both directories well formed), after a
successful `rename(name, dest, destName)` whose destination entry, if there is
one, is not the inode of the source entry (the same-inode no-op): the source
name is absent from the source directory; the destination name maps to an entry
with the mode, inode number and hash the source entry had; every other entry of
the two directories is exactly as before, unless it is the entry of one of the
two directories that leads to the other (it lies on the linked parent chain of
the other), which is as before or as before with its hash cleared by the
materialization of the two directories; both directories are materialized.  So
exactly one of the two names, the destination name, is populated. -/
theorem rename_apply (R fuel : Nat) (m m1 : Mount) (self dest : InodePtr)
    (name destName : PathComponent) (ds dd : Nat) (sst dst : TreeInodeState) (s : DirEntry)
    (hr : RenameReady m self name dest destName sst dst s)
    (hchs : ChainOk m self ds) (hchd : ChainOk m dest dd) (hfs : ds ≤ fuel) (hfd : dd ≤ fuel)
    (hdist : ∀ t, dst.entries.find destName = some t → t.inodeNumber ≠ s.inodeNumber)
    (hsucc : rename R fuel m self name dest destName = (.ok (), m1)) :
    m1.entry self name = none ∧
    (∃ e, m1.entry dest destName = some e ∧ e.initialMode = s.initialMode ∧
      e.inodeNumber = s.inodeNumber ∧ e.hash = s.hash) ∧
    (∀ k, k ≠ name → ¬ (self = dest ∧ k = destName) →
      (m.entry self k = none ∧ m1.entry self k = none) ∨
      ∃ e e1, m.entry self k = some e ∧ m1.entry self k = some e1 ∧ DirEntry.Cleared e e1) ∧
    (∀ k, k ≠ name → ¬ (self = dest ∧ k = destName) → ¬ Leads m dest self k →
      m1.entry self k = m.entry self k) ∧
    (∀ k, k ≠ destName → ¬ (dest = self ∧ k = name) →
      (m.entry dest k = none ∧ m1.entry dest k = none) ∨
      ∃ e e1, m.entry dest k = some e ∧ m1.entry dest k = some e1 ∧ DirEntry.Cleared e e1) ∧
    (∀ k, k ≠ destName → ¬ (dest = self ∧ k = name) → ¬ Leads m self dest k →
      m1.entry dest k = m.entry dest k) ∧
    (m1.contents self).map (fun st => st.treeHash) = some none ∧
    (m1.contents dest).map (fun st => st.treeHash) = some none ∧
    (m1.entry self name).isSome ≠ (m1.entry dest destName).isSome := by
  cases R with
  | zero => simp [rename] at hsucc
  | succ r =>
    by_cases hself : self = m.dotEdenInodeNumber
    · simp [rename, hself] at hsucc
    by_cases hdest : dest = m.dotEdenInodeNumber
    · simp [rename, hself, hdest] at hsucc
    cases hname : m.nameLengthOk destName with
    | false => simp [rename, hself, hdest, hname] at hsucc
    | true =>
      obtain ⟨ma, m2, s2, d2, hm1, hm2, hM1, _, hM, hs2, hth, hcl, hd2, hdh, hdcl⟩ :=
        rename_prelude fuel m self dest ds dd sst dst hchs hchd hfs hfd hr.srcContents
          hr.destContents
      have hlocks := acquireLocks_ok fuel m2 self dest destName d2 dd (by simp [hs2]) hd2
        (hr.destTyped.typed_mat hM) (hchd.to_depth.depth_congr hM.location) hfd
      have hren : rename (r + 1) fuel m self name dest destName =
          renameLocked r fuel m2
            { srcContents := self, destContents := dest,
              destChildContents := destChildContentsOf (d2.entries.find destName),
              destChildIter := d2.entries.find destName } self name dest destName := by
        simp only [rename, hself, hdest, hname, if_false, Bool.not_true, Bool.false_eq_true, hm1,
          hm2, hlocks, renameLocked]
      rw [hren] at hsucc
      obtain ⟨s1, hs1, hsc⟩ : ∃ s1, s2.entries.find name = some s1 ∧ DirEntry.Cleared s s1 := by
        rcases hcl.find name with ⟨h1, _⟩ | ⟨e, e1, h1, h2, hc⟩
        · rw [hr.srcEntry] at h1; cases h1
        · rw [hr.srcEntry] at h1; cases h1
          exact ⟨e1, h2, hc⟩
      have hdt : ∀ t1, d2.entries.find destName = some t1 →
          ∃ t, dst.entries.find destName = some t ∧ DirEntry.Cleared t t1 := by
        intro t1 ht1
        rcases hdcl.find destName with ⟨_, h2⟩ | ⟨e, e1, h1, h2, hc⟩
        · rw [ht1] at h2; cases h2
        · rw [ht1] at h2; cases h2
          exact ⟨e, h1, hc⟩
      have hr2 : RenameReady m2 self name dest destName s2 d2 s1 :=
        { srcContents := hs2
          destContents := hd2
          srcEntry := hs1
          srcTyped := hr.srcTyped.typed_mat hM
          destTyped := hr.destTyped.typed_mat hM
          srcPtr := fun x hx => by
            rw [hsc.mode.2.1]
            exact hr.srcPtr x (by rw [← hsc.mode.2.2.1]; exact hx)
          destPtr := fun t1 x ht1 hx => by
            obtain ⟨t, ht, hc⟩ := hdt t1 ht1
            rw [hc.mode.2.1]
            exact hr.destPtr t x ht (by rw [← hc.mode.2.2.1]; exact hx)
          srcFresh := fun hi => by
            rw [hsc.mode.2.1, hM.location]
            have := hr.srcFresh (by rw [← hsc.mode.2.2.1]; exact hi)
            exact ⟨this.1, hM.contentsNone _ this.2⟩
          destFresh := fun t1 ht1 hi => by
            obtain ⟨t, ht, hc⟩ := hdt t1 ht1
            rw [hc.mode.2.1, hM.location]
            have := hr.destFresh t ht (by rw [← hc.mode.2.2.1]; exact hi)
            exact ⟨this.1, hM.contentsNone _ this.2⟩
          srcLocated := fun x loc hl hp hn hu => by
            rw [hsc.mode.2.2.1]
            exact hr.srcLocated x loc (by rw [← hM.location]; exact hl) hp hn hu }
      have hdist2 : ∀ t1, d2.entries.find destName = some t1 →
          t1.inodeNumber ≠ s1.inodeNumber := by
        intro t1 ht1
        obtain ⟨t, ht, hc⟩ := hdt t1 ht1
        rw [hc.mode.2.1, hsc.mode.2.1]
        exact hdist t ht
      obtain ⟨hcyc, hrenamed, _⟩ := renameLocked_renamed r fuel m2 self dest name destName s2 d2 s1
        m1 dd hr2 hth hdh hdist2 (hchd.to_depth.depth_congr hM.location) hfd hsucc
      -- a loaded inode located at the source name is not the destination or above it
      have hcycle : ∀ x, (m.contents x).isSome = true → s.inode = some x →
          x ≠ dest ∧ ¬ StrictAncestor m x dest := by
        intro x hx hsi
        have hdir : s.isDirectory = true := by
          rw [hr.srcTyped s x (by simp [Mount.entry, hr.srcContents, hr.srcEntry]) hsi]
          exact hx
        obtain ⟨h1, h2⟩ := hcyc (by rw [hsc.mode.2.2.2.1]; exact hdir) x
          (by rw [hsc.mode.2.2.1]; exact hsi)
        exact ⟨h1, fun h => h2 (StrictAncestor.ancestor_congr hM.location h)⟩
      -- so the materialization of the destination does not reach the source entry
      have hexact : m2.entry self name = m.entry self name := by
        have h1 : ma.entry self name = m.entry self name := by
          have hthis : ma.contents self = some { entries := sst.entries, treeHash := none } := by
            have := materialize_self fuel m self sst ds hchs.to_depth hr.srcContents
            rw [hm1] at this
            exact this
          simp only [Mount.entry, hthis, hr.srcContents, Option.some_bind]
        rw [← h1]
        by_cases hds : dest = self
        · simp only [hds, ne_eq, not_true_eq_false, if_false] at hm2
          cases hm2
          rfl
        · simp only [ne_eq, hds, not_false_eq_true, if_true] at hm2
          have := materialize_entry fuel ma dest self name (by
            intro loc parent hl hp hu ht
            rw [hM1.location] at hl
            have ht1 : Touches m parent loc.name self name := Touches.touches_congr m hM1.location ht
            have hgp : m.getParent dest = some parent := by
              rw [getParent_eq m dest loc hl, hp]
            cases hchd with
            | root hl1 hp1 => rw [hl] at hl1; cases hl1; rw [hp] at hp1; cases hp1
            | @child _ parent1 loc1 d1 hl1 hp1 hpar hent =>
              rw [hl] at hl1
              cases hl1
              rw [hp] at hp1
              cases hp1
              have hcpar : (m.contents parent).isSome = true := by
                have := hent hu
                unfold Mount.entry at this
                cases hc : m.contents parent with
                | none => rw [hc] at this; cases this
                | some st => rfl
              rcases ht1.toucher hpar hcpar with ⟨h1, h2⟩ | ⟨x, locx, hx1, hx2, hx3, hx4, hx5, hx6⟩
              · subst h1
                have hsi := hr.srcLocated dest loc hl hp h2 hu
                exact (hcycle dest (by simp [hr.destContents]) hsi).1 rfl
              · have hsi := hr.srcLocated x locx hx1 hx2 hx3 hx4
                apply (hcycle x hx6 hsi).2
                rcases hx5 with h | h
                · subst h; exact StrictAncestor.parent hgp
                · exact StrictAncestor.step hgp h)
          rw [hm2] at this
          exact this
      have hs1s : s1 = s := by
        simp only [Mount.entry, hs2, hr.srcContents, Option.some_bind, hs1, hr.srcEntry] at hexact
        exact Option.some.inj hexact
      subst hs1s
      obtain ⟨e, he, he1, he2, he3⟩ := hrenamed.destEntry
      have hF := rename_prelude_frame fuel m ma m2 self dest hm1 hm2
      refine ⟨hrenamed.srcGone, ⟨e, he, he1, he2, he3⟩, ?_, ?_, ?_, ?_, hrenamed.srcMaterialized,
        hrenamed.destMaterialized, ?_⟩
      · intro k hk hk2
        rw [hrenamed.srcOthers k hk hk2]
        exact hM.entry self k
      · intro k hk hk2 hnl
        rw [hrenamed.srcOthers k hk hk2]
        exact hF.entry self k (Leads.not_self hchs.to_depth k) hnl
      · intro k hk hk2
        rw [hrenamed.destOthers k hk hk2]
        exact hM.entry dest k
      · intro k hk hk2 hnl
        rw [hrenamed.destOthers k hk hk2]
        exact hF.entry dest k hnl (Leads.not_self hchd.to_depth k)
      · rw [hrenamed.srcGone, he]
        simp

theorem Example.mountCF_ready :
    RenameReady Example.mountCF 1 "f" 2 "g"
      { entries := [("C", Example.dirEntry 2 (some 20) true),
                    ("f", Example.fileEntry 3 (some 30) true)],
        treeHash := some 10 }
      { entries := [], treeHash := some 20 } (Example.fileEntry 3 (some 30) true) where
  srcContents := rfl
  destContents := rfl
  srcEntry := rfl
  srcTyped := fun e q he hq => by
    have h1 : e = Example.fileEntry 3 (some 30) true := (Option.some.inj he).symm
    subst h1
    have h2 : q = 3 := (Option.some.inj hq).symm
    subst h2
    rfl
  destTyped := fun _ _ he _ => Option.noConfusion he
  srcPtr := fun x hx => (Option.some.inj hx).symm
  destPtr := fun _ _ ht _ => Option.noConfusion ht
  srcFresh := fun h => Option.noConfusion h
  destFresh := fun _ ht _ => Option.noConfusion ht
  srcLocated := fun x loc hl hp hn hu => by
    simp only [Example.mountCF, Example.build, List.lookup] at hl
    split at hl
    · cases hl; cases hp
    · split at hl
      · cases hl; exact absurd hn (by decide)
      · split at hl
        · rename_i h3
          have hx : x = 3 := by simpa using h3
          subst hx
          rfl
        · cases hl

/-- Witness of C3 (amended): in the example mount the rename of the file `f` of
the root to `C/g` succeeds; afterwards `f` is absent from the root and `g` in
`C` is the entry with inode number 3 and hash 30. -/
theorem rename_apply_witness :
    (rename 3 5 Example.mountCF 1 "f" 2 "g").2.entry 1 "f" = none ∧
    ∃ e, (rename 3 5 Example.mountCF 1 "f" 2 "g").2.entry 2 "g" = some e ∧
      e.inodeNumber = 3 ∧ e.hash = some 30 :=
  have h := rename_apply 3 5 Example.mountCF (rename 3 5 Example.mountCF 1 "f" 2 "g").2 1 2
    "f" "g" 0 1 _ _ _ Example.mountCF_ready (ChainOk.root rfl rfl)
    (ChainOk.child rfl rfl (ChainOk.root rfl rfl) (fun _ => rfl)) (by decide) (by decide)
    (fun _ ht => Option.noConfusion ht) rfl
  ⟨h.1, h.2.1.elim fun e he => ⟨e, he.1, he.2.2.1, he.2.2.2⟩⟩

/-! ### C11: the look-up of an absent name -/

/-- Counterexample to C11 as stated.  (1) In the root directory, which here has
no entry `.eden`, the look-up of `.eden` fails with `ENOENT`: it does not
resolve to the control inode.  (2) In the directory `C`, which is not the root
and has no entry `.eden`, the look-up of `.eden` does not fail: it returns the
control inode (number 9).  The exception is made in every directory but the
root. -/
theorem lookup_absent_counterexample :
    (Example.mountUnloaded.entry kRootNodeId kDotEdenName = none ∧
      (getChildByName Example.mountUnloaded kRootNodeId kDotEdenName).1 =
        .error (.errno .ENOENT)) ∧
    (Example.mountCF.entry 2 kDotEdenName = none ∧
      (getChildByName Example.mountCF 2 kDotEdenName).1 = .ok 9 ∧
      Example.mountCF.dotEdenInodeNumber = 9) := by
  refine ⟨⟨rfl, rfl⟩, rfl, rfl, rfl⟩

/-- C11, amended.  For every loaded directory and every name it has no entry
for, `getChildByName` fails with `ENOENT`, except that the look-up of the
reserved name `.eden` in a directory other than the root returns the control
inode the mount assigned; in both cases the mount, and with it the state of the
directory, is exactly as before. -/
theorem lookup_absent (m : Mount) (p : InodePtr) (name : PathComponent) (st : TreeInodeState)
    (hc : m.contents p = some st) (hf : st.entries.find name = none) :
    (name = kDotEdenName ∧ p ≠ kRootNodeId →
      getChildByName m p name = (.ok m.dotEdenInodeNumber, m)) ∧
    (¬ (name = kDotEdenName ∧ p ≠ kRootNodeId) →
      getChildByName m p name = (.error (.errno .ENOENT), m)) := by
  constructor
  · intro h
    simp only [getChildByName, getOrLoadChild, hc, hf]
    rw [if_pos h]
    rfl
  · intro h
    simp only [getChildByName, getOrLoadChild, hc, hf, h, if_false]

/-- Witness of C11 (amended): in the directory `C` of the example mount the
look-up of `nope` fails with `ENOENT` and the look-up of `.eden` returns the
control inode. -/
theorem lookup_absent_witness :
    getChildByName Example.mountCF 2 "nope" = (.error (.errno .ENOENT), Example.mountCF) ∧
    getChildByName Example.mountCF 2 kDotEdenName = (.ok 9, Example.mountCF) :=
  ⟨(lookup_absent Example.mountCF 2 "nope" _ rfl rfl).2 (by decide),
   (lookup_absent Example.mountCF 2 kDotEdenName _ rfl rfl).1 (by decide)⟩

/-! ### C14: the short-circuit of a checkout -/

/-- C14, read literally, fails: in a dry-run checkout the directory whose tree
hash is the hash of `toTree` is still walked entry by entry when `fromTree` is
present with another hash, and a conflict is recorded. -/
theorem checkout_short_circuit_counterexample :
    (Example.mountHashed.contents 1).map (fun st => st.treeHash) =
        some (some Example.treeTwo.hash) ∧
    (Example.context true).isDryRun = true ∧
    (computeCheckoutActions (fun _ => false) 8 (Example.context true) Example.mountHashed 1
        (some Example.treeOne) (some Example.treeTwo)).2.1.conflicts =
      [(.MODIFIED_MODIFIED, 1, some "a")] := by
  refine ⟨rfl, rfl, ?_⟩
  simp [computeCheckoutActions, computeCheckoutActionsLoop, checkoutRound, Example.treeOne,
    Example.treeTwo]
  rfl

/-- C14, amended: a directory whose tree hash is present is left at once, with
no action, the context and the mount as they were, if the tree hash is the hash
of `toTree` and also the hash of `fromTree` or `fromTree` is absent, and, in a
dry run, also if it is the hash of `fromTree`, or both trees are absent.  A
directory whose tree hash is absent, and one in neither case, gets the walk over
the entries of the two trees. -/
theorem checkout_short_circuit (isInodeRemembered : InodeNumber → Bool) (fuel : Nat)
    (ctx : CheckoutContext) (m : Mount) (p : InodePtr) (st : TreeInodeState)
    (fromTree toTree : Option Tree) (hc : m.contents p = some st) :
    (∀ h, st.treeHash = some h →
      ((toTree.map (fun t => t.hash) = some h ∧
          (fromTree = none ∨ fromTree.map (fun t => t.hash) = some h)) ∨
        (ctx.isDryRun = true ∧
          (fromTree.map (fun t => t.hash) = some h ∨ (fromTree = none ∧ toTree = none)))) →
      computeCheckoutActions isInodeRemembered fuel ctx m p fromTree toTree = (.ok [], ctx, m)) ∧
    ((st.treeHash = none ∨
      ∃ h, st.treeHash = some h ∧
        ¬ ((toTree.map (fun t => t.hash) = some h ∧
            (fromTree = none ∨ fromTree.map (fun t => t.hash) = some h)) ∨
          (ctx.isDryRun = true ∧
            (fromTree.map (fun t => t.hash) = some h ∨ (fromTree = none ∧ toTree = none))))) →
      computeCheckoutActions isInodeRemembered fuel ctx m p fromTree toTree =
        computeCheckoutActionsLoop isInodeRemembered fuel p
          ((fromTree.elim [] (fun t => t.entries)).length +
            (toTree.elim [] (fun t => t.entries)).length)
          (fromTree.elim [] (fun t => t.entries)) (toTree.elim [] (fun t => t.entries))
          ctx m []) := by
  constructor
  · intro h hh hcond
    have hsc : canShortCircuitCheckout ctx h fromTree toTree = true := by
      unfold canShortCircuitCheckout
      cases hdry : ctx.isDryRun <;> cases fromTree <;> cases toTree <;> simp_all
      all_goals aesop
    simp only [computeCheckoutActions, hc, hh, hsc, if_true]
  · intro hcond
    rcases hcond with hn | ⟨h, hh, hcond⟩
    · simp only [computeCheckoutActions, hc, hn]
      cases fromTree <;> cases toTree <;> rfl
    · have hsc : canShortCircuitCheckout ctx h fromTree toTree = false := by
        unfold canShortCircuitCheckout
        cases hdry : ctx.isDryRun <;> cases fromTree <;> cases toTree <;> simp_all
        all_goals aesop
      simp only [computeCheckoutActions, hc, hh, hsc]
      cases fromTree <;> cases toTree <;> rfl

/-- C14 at work: the root of `mountHashed` (tree hash 2) in an applying checkout
from no tree to the tree with hash 2. -/
theorem checkout_short_circuit_witness :
    computeCheckoutActions (fun _ => false) 8 (Example.context false) Example.mountHashed 1
        none (some Example.treeTwo) =
      (.ok [], Example.context false, Example.mountHashed) :=
  (checkout_short_circuit (fun _ => false) 8 (Example.context false) Example.mountHashed 1 _
    none (some Example.treeTwo) rfl).1 2 rfl (Or.inl ⟨rfl, Or.inl rfl⟩)

/-! ### C15: the post-pass of a checkout -/

/-- `materialize` on a directory leaves the directories at the same depth or
below untouched, except the directory itself. -/
theorem materialize_contents_of_depth (fuel : Nat) (m : Mount) (p q : InodePtr) (d dq : Nat)
    (hd : Depth m p d) (hq : Depth m q dq) (hle : d ≤ dq) (hne : q ≠ p) :
    (materialize fuel m p).2.contents q = m.contents q := by
  unfold materialize
  cases hc : m.contents p with
  | none => rfl
  | some st =>
    simp only []
    split
    · rfl
    · have hstep : ((m.setContents p st.setMaterialized).saveOverlayDir p st.entries).contents q =
          m.contents q := by
        rw [contents_setContents_saveOverlayDir, if_neg hne]
      split
      · exact hstep
      · rename_i loc hloc
        have hloc' : m.location p = some loc := hloc
        split
        · rename_i parent hpar
          split
          · cases hd with
            | root hl1 hp1 => rw [hloc'] at hl1; cases hl1; rw [hpar] at hp1; cases hp1
            | @child _ parent1 _ d1 hl1 hp1 hd1 =>
              rw [hloc'] at hl1; cases hl1; rw [hpar] at hp1; cases hp1
              have hd1' : Depth ((m.setContents p st.setMaterialized).saveOverlayDir p st.entries)
                  parent d1 := hd1.depth_congr (by rfl)
              have hq' : Depth ((m.setContents p st.setMaterialized).saveOverlayDir p st.entries)
                  q dq := hq.depth_congr (by rfl)
              have hne1 : q ≠ parent := by
                intro h
                rw [h] at hq'
                have := hq'.unique hd1'
                omega
              rw [childMaterialized_contents_of_depth _ _ _ _ _ d1 dq hd1' hq' (by omega) hne1]
              exact hstep
          · exact hstep
        · exact hstep

/-- `childDematerialized` on a directory leaves the directories at the same
depth or below untouched, except the directory itself. -/
theorem childDematerialized_contents_of_depth (fuel : Nat) (m : Mount) (p : InodePtr)
    (n : PathComponent) (h : Hash) (q : InodePtr) (d dq : Nat) (hd : Depth m p d)
    (hq : Depth m q dq) (hle : d ≤ dq) (hne : q ≠ p) :
    (childDematerialized fuel m p n h).2.contents q = m.contents q := by
  unfold childDematerialized
  cases hc : m.contents p with
  | none => rfl
  | some st =>
    simp only []
    split
    · rfl
    · rename_i childEntry hf
      split
      · rfl
      · have hstep : ((m.setContents p
              { entries := st.entries.assign n (childEntry.setDematerialized h),
                treeHash := none }).saveOverlayDir p
              (st.entries.assign n (childEntry.setDematerialized h))).contents q =
            m.contents q := by
          rw [contents_setContents_saveOverlayDir, if_neg hne]
        split
        · exact hstep
        · rename_i loc hloc
          have hloc' : m.location p = some loc := hloc
          split
          · rename_i parent hpar
            split
            · cases hd with
              | root hl1 hp1 => rw [hloc'] at hl1; cases hl1; rw [hpar] at hp1; cases hp1
              | @child _ parent1 _ d1 hl1 hp1 hd1 =>
                rw [hloc'] at hl1; cases hl1; rw [hpar] at hp1; cases hp1
                have hd1' : Depth ((m.setContents p
                    { entries := st.entries.assign n (childEntry.setDematerialized h),
                      treeHash := none }).saveOverlayDir p
                    (st.entries.assign n (childEntry.setDematerialized h)))
                    parent d1 := hd1.depth_congr (by rfl)
                have hq' : Depth ((m.setContents p
                    { entries := st.entries.assign n (childEntry.setDematerialized h),
                      treeHash := none }).saveOverlayDir p
                    (st.entries.assign n (childEntry.setDematerialized h)))
                    q dq := hq.depth_congr (by rfl)
                have hne1 : q ≠ parent := by
                  intro h
                  rw [h] at hq'
                  have := hq'.unique hd1'
                  omega
                rw [childMaterialized_contents_of_depth _ _ _ _ _ d1 dq hd1' hq' (by omega) hne1]
                exact hstep
            · exact hstep
          · exact hstep

/-- `tryRemoveChild` on a directory leaves the directories at the same depth or
below untouched, except the directory itself. -/
theorem tryRemoveChild_contents_of_depth (ty : InodeType) (fuel : Nat) (m : Mount)
    (p : InodePtr) (name : PathComponent) (child : Option InodePtr) (q : InodePtr) (d dq : Nat)
    (hd : Depth m p d) (hq : Depth m q dq) (hle : d ≤ dq) (hne : q ≠ p) :
    (tryRemoveChild ty fuel m p name child).2.contents q = m.contents q := by
  have hmat := materialize_contents_of_depth fuel m p q d dq hd hq hle hne
  unfold tryRemoveChild
  split
  · rename_i e m1 hm
    rw [hm] at hmat
    exact hmat
  · rename_i m1 hm
    rw [hm] at hmat
    have hmat1 : m1.contents q = m.contents q := hmat
    repeat' split
    all_goals first
      | exact hmat1
      | (simp only []
         split
         · exact hmat1
         · rw [contents_setContents_saveOverlayDir, if_neg hne]
           exact hmat1)
/-- Unless `tryRemoveChild` removes the child, it moves no inode object. -/
theorem tryRemoveChild_location (ty : InodeType) (fuel : Nat) (m : Mount) (p : InodePtr)
    (name : PathComponent) (child : Option InodePtr)
    (h : (tryRemoveChild ty fuel m p name child).1 ≠ .ok none) :
    (tryRemoveChild ty fuel m p name child).2.location = m.location := by
  have hM := materialize_mat fuel m p
  cases hres : tryRemoveChild ty fuel m p name child with
  | mk r m2 =>
    rw [hres] at h
    unfold tryRemoveChild at hres
    split at hres
    · rename_i e m1 hm
      rw [hm] at hM
      cases hres
      exact hM.location
    · rename_i m1 hm
      rw [hm] at hM
      have hl : m1.location = m.location := hM.location
      repeat' (split at hres)
      all_goals first
        | (cases hres; exact hl)
        | (simp only [] at hres
           split at hres
           · cases hres; exact hl
           · cases hres; exact absurd rfl h)

/-- `checkoutTryRemoveEmptyDir` leaves the contents of the directory itself, and
moves no inode object unless it removes the directory. -/
theorem checkoutTryRemoveEmptyDir_frame (fuel : Nat) (m : Mount) (p : InodePtr) (d : Nat)
    (hd : Depth m p d) :
    (checkoutTryRemoveEmptyDir fuel m p).2.contents p = m.contents p ∧
      ((checkoutTryRemoveEmptyDir fuel m p).1 = .ok false →
        (checkoutTryRemoveEmptyDir fuel m p).2.location = m.location) := by
  unfold checkoutTryRemoveEmptyDir
  split
  · exact ⟨rfl, fun _ => rfl⟩
  · rename_i loc hloc
    split
    · exact ⟨rfl, fun _ => rfl⟩
    · split
      · exact ⟨rfl, fun _ => rfl⟩
      · rename_i parent hpar
        cases hd with
        | root hl1 hp1 => rw [hloc] at hl1; cases hl1; rw [hpar] at hp1; cases hp1
        | @child _ parent1 _ d1 hl1 hp1 hd1 =>
          rw [hloc] at hl1; cases hl1; rw [hpar] at hp1; cases hp1
          have hne : p ≠ parent := by
            intro h
            have hdp : Depth m p (d1 + 1) := Depth.child hloc hpar hd1
            rw [← h] at hd1
            have := hd1.unique hdp
            omega
          have hcont := tryRemoveChild_contents_of_depth .TreeInode fuel m parent loc.name
            (some p) p d1 (d1 + 1) hd1 (Depth.child hloc hpar hd1) (Nat.le_succ _) hne
          have hlocn := tryRemoveChild_location .TreeInode fuel m parent loc.name (some p)
          split
          · rename_i e m1 hr
            rw [hr] at hcont
            exact ⟨hcont, fun h => by cases h⟩
          · rename_i errnoValue m1 hr
            rw [hr] at hcont hlocn
            refine ⟨hcont, fun h => hlocn ?_⟩
            intro hh
            cases hh
            simp at h

/-- What the loop of `tryToDematerialize` finds, for a directory with as many
entries as the tree: every entry carries the hash of the tree entry at its
position. -/
theorem tryToDematerializeLoop_iff (entries : DirContents) (scm : List TreeEntry)
    (hlen : scm.length = entries.length) :
    tryToDematerializeLoop entries scm = true ↔
      List.Forall₂ (fun e s => e.2.hash = some s.hash) entries scm := by
  induction entries generalizing scm with
  | nil =>
    cases scm with
    | nil => simp [tryToDematerializeLoop]
    | cons s rest => simp at hlen
  | cons e rest ih =>
    cases scm with
    | nil => simp at hlen
    | cons s srest =>
      have hlen1 : srest.length = rest.length := by simpa using hlen
      simp only [tryToDematerializeLoop, List.forall₂_cons]
      by_cases hm : e.2.isMaterialized = true
      · have hn : e.2.hash = none := by simpa [DirEntry.isMaterialized] using hm
        simp [hm, hn]
      · by_cases hh : e.2.hash = some s.hash
        · simp [hm, hh, ih srest hlen1]
        · simp [hm, hh]

/-- The hash `tryToDematerialize` yields: the hash of the tree, exactly if the
directory has, position by position, the hashes of the entries of the tree. -/
theorem tryToDematerialize_iff (entries : DirContents) (tree : Option Tree) (h : Hash) :
    tryToDematerialize entries tree = some h ↔
      ∃ t, tree = some t ∧ h = t.hash ∧
        List.Forall₂ (fun e s => e.2.hash = some s.hash) entries t.entries := by
  cases tree with
  | none => simp [tryToDematerialize]
  | some t =>
    simp only [tryToDematerialize, Option.some.injEq, exists_eq_left']
    by_cases hlen : t.entries.length = entries.length
    · rw [if_neg (by simpa using hlen)]
      by_cases hl : tryToDematerializeLoop entries t.entries = true
      · simp only [hl, if_true, Option.some.injEq]
        exact ⟨fun hh => ⟨hh.symm, (tryToDematerializeLoop_iff _ _ hlen).1 hl⟩, fun hh => hh.1.symm⟩
      · simp only [hl]
        constructor
        · intro hh; cases hh
        · intro hh; exact absurd ((tryToDematerializeLoop_iff _ _ hlen).2 hh.2) hl
    · rw [if_pos (by simpa using hlen)]
      constructor
      · intro hh; cases hh
      · intro hh; exact absurd hh.2.length_eq.symm hlen

/-- The state of the directory after the post-pass of an applying checkout:
the entries it had, and the hash `tryToDematerialize` yields. -/
theorem saveOverlayPostCheckout_contents (fuel : Nat) (ctx : CheckoutContext) (m : Mount)
    (p : InodePtr) (tree : Option Tree) (st : TreeInodeState) (d : Nat)
    (hdry : ctx.isDryRun = false) (hd : Depth m p d) (hc : m.contents p = some st) :
    (saveOverlayPostCheckout fuel ctx m p tree).2.contents p =
      some { entries := st.entries, treeHash := tryToDematerialize st.entries tree } := by
  unfold saveOverlayPostCheckout
  simp only [hdry, hc, Bool.false_eq_true, if_false]
  have hstep : ((m.setContents p
      { entries := st.entries,
        treeHash := tryToDematerialize st.entries tree }).saveOverlayDir p st.entries).contents p =
      some { entries := st.entries, treeHash := tryToDematerialize st.entries tree } := by
    rw [contents_setContents_saveOverlayDir, if_pos rfl]
  have hd1 : Depth ((m.setContents p
      { entries := st.entries,
        treeHash := tryToDematerialize st.entries tree }).saveOverlayDir p st.entries) p d :=
    hd.depth_congr (by rfl)
  have hfr := checkoutTryRemoveEmptyDir_frame fuel _ p d hd1
  generalize ((m.setContents p
      { entries := st.entries,
        treeHash := tryToDematerialize st.entries tree }).saveOverlayDir p st.entries) = m1 at *
  have hR : (if (tree.isNone && List.isEmpty st.entries) = true then
        checkoutTryRemoveEmptyDir fuel m1 p else (Except.ok false, m1)).2.contents p =
        some { entries := st.entries, treeHash := tryToDematerialize st.entries tree } ∧
      ((if (tree.isNone && List.isEmpty st.entries) = true then
        checkoutTryRemoveEmptyDir fuel m1 p else (Except.ok false, m1)).1 = .ok false →
        (if (tree.isNone && List.isEmpty st.entries) = true then
          checkoutTryRemoveEmptyDir fuel m1 p else (Except.ok false, m1)).2.location =
          m1.location) := by
    split
    · exact ⟨hfr.1.trans hstep, hfr.2⟩
    · exact ⟨hstep, fun _ => rfl⟩
  generalize (if (tree.isNone && List.isEmpty st.entries) = true then
        checkoutTryRemoveEmptyDir fuel m1 p else (Except.ok false, m1)) = R at hR ⊢
  obtain ⟨r, m2⟩ := R
  obtain ⟨hRc, hRl⟩ := hR
  have hRc1 : m2.contents p =
      some { entries := st.entries, treeHash := tryToDematerialize st.entries tree } := hRc
  split
  · rename_i heq
    cases heq
    exact hRc1
  · rename_i heq
    cases heq
    exact hRc1
  · rename_i heq
    cases heq
    have hd2 : Depth m2 p d := hd1.depth_congr (hRl rfl)
    split
    · split
      · exact hRc1
      · rename_i loc hloc
        split
        · rename_i parent hpar
          cases hd2 with
          | root hl1 hp1 => rw [hloc] at hl1; cases hl1; rw [hpar] at hp1; cases hp1
          | @child _ parent1 _ d1 hl1 hp1 hdp =>
            rw [hloc] at hl1; cases hl1; rw [hpar] at hp1; cases hp1
            have hdd : Depth m2 p (d1 + 1) := Depth.child hloc hpar hdp
            have hne : p ≠ parent := by
              intro h
              rw [← h] at hdp
              have := hdp.unique hdd
              omega
            split
            · split
              · rw [childMaterialized_contents_of_depth _ _ _ _ _ d1 (d1 + 1) hdp hdd
                  (Nat.le_succ _) hne]
                exact hRc1
              · split
                · exact hRc1
                · rw [childDematerialized_contents_of_depth _ _ _ _ _ _ d1 (d1 + 1) hdp hdd
                    (Nat.le_succ _) hne]
                  exact hRc1
            · exact hRc1
        · exact hRc1
    · exact hRc1
/-- The post-pass compares hashes position by position and no names: the
directory that holds `a` with hash 7 is marked identical to the tree that holds
`b` with hash 7. -/
theorem saveOverlayPostCheckout_names :
    ((saveOverlayPostCheckout 8 (Example.context false) Example.mountHashed 1
        (some Example.treeFour)).2.contents 1).map (fun st => (st.treeHash, st.entries.map Prod.fst)) =
      some (some Example.treeFour.hash, ["a"]) ∧
    Example.treeFour.entries.map (fun e => e.name) = ["b"] := by
  exact ⟨rfl, rfl⟩

/-- Every element of the left list of related lists has a partner. -/
theorem forall₂_left_exists {α β : Type} {R : α → β → Prop} {l1 : List α} {l2 : List β}
    (h : List.Forall₂ R l1 l2) : ∀ a ∈ l1, ∃ b, R a b := by
  induction h with
  | nil => intro a ha; cases ha
  | cons hab _ ih =>
    intro a ha
    rcases List.mem_cons.1 ha with rfl | ha
    · exact ⟨_, hab⟩
    · exact ih a ha

/-- C15, read literally, fails: in a dry run the post-pass returns at once, and
the directory `d` of `mountNested` keeps its tree hash although `toTree` is
absent. -/
theorem dematerialization_sound_counterexample :
    (Example.context true).isDryRun = true ∧
    ((saveOverlayPostCheckout 8 (Example.context true) Example.mountNested 2 none).2.contents 2).map
        (fun st => st.treeHash) = some (some 20) :=
  ⟨rfl, rfl⟩

/-- C15, amended: after the post-pass of a checkout that is not a dry run the
directory has the entries it had, and a tree hash exactly if `toTree` is present
and the directory has, position by position, the hashes of the entries of
`toTree`; the tree hash is then the hash of `toTree`, the directory has as many
entries as `toTree` and none of them is materialized.  When `toTree` is absent,
or the numbers of entries differ, or some entry is materialized or has another
hash than the tree entry at its position, the directory is left without a tree
hash. -/
theorem dematerialization_sound (fuel : Nat) (ctx : CheckoutContext) (m : Mount) (p : InodePtr)
    (tree : Option Tree) (st : TreeInodeState) (d : Nat) (hdry : ctx.isDryRun = false)
    (hd : Depth m p d) (hc : m.contents p = some st) :
    ∃ st1, (saveOverlayPostCheckout fuel ctx m p tree).2.contents p = some st1 ∧
      st1.entries = st.entries ∧
      (∀ h, st1.treeHash = some h →
        ∃ t, tree = some t ∧ h = t.hash ∧ st.entries.length = t.entries.length ∧
          (∀ e ∈ st.entries, e.2.isMaterialized = false) ∧
          List.Forall₂ (fun e s => e.2.hash = some s.hash) st.entries t.entries) ∧
      (∀ t, tree = some t →
        List.Forall₂ (fun e s => e.2.hash = some s.hash) st.entries t.entries →
        st1.treeHash = some t.hash) ∧
      (tree = none → st1.treeHash = none) ∧
      (∀ t, tree = some t →
        (st.entries.length ≠ t.entries.length ∨
          ¬ List.Forall₂ (fun e s => e.2.hash = some s.hash) st.entries t.entries) →
        st1.treeHash = none) := by
  refine ⟨_, saveOverlayPostCheckout_contents fuel ctx m p tree st d hdry hd hc, rfl, ?_, ?_, ?_, ?_⟩
  · intro h hh
    obtain ⟨t, ht, hht, hall⟩ := (tryToDematerialize_iff _ _ _).1 hh
    refine ⟨t, ht, hht, hall.length_eq, ?_, hall⟩
    intro e he
    obtain ⟨s, hs⟩ := forall₂_left_exists hall e he
    simp [DirEntry.isMaterialized, hs]
  · intro t ht hall
    exact (tryToDematerialize_iff _ _ _).2 ⟨t, ht, rfl, hall⟩
  · intro ht
    cases hh : tryToDematerialize st.entries tree with
    | none => rfl
    | some h =>
      obtain ⟨t, ht1, _⟩ := (tryToDematerialize_iff _ _ _).1 hh
      rw [ht] at ht1
      cases ht1
  · intro t ht hbad
    cases hh : tryToDematerialize st.entries tree with
    | none => rfl
    | some h =>
      obtain ⟨t1, ht1, _, hall⟩ := (tryToDematerialize_iff _ _ _).1 hh
      rw [ht] at ht1
      cases ht1
      rcases hbad with hlen | hnot
      · exact absurd hall.length_eq hlen
      · exact absurd hall hnot

/-- C15 at work: the post-pass of an applying checkout to the tree with hash 2
on the root of `mountUnloaded`, whose file `a` has another hash than the tree
entry. -/
theorem dematerialization_sound_witness :
    ∃ st1, (saveOverlayPostCheckout 8 (Example.context false) Example.mountUnloaded 1
        (some Example.treeTwo)).2.contents 1 = some st1 ∧
      st1.entries = [("a", Example.fileEntry 3 (some 30) false)] ∧ st1.treeHash = none := by
  obtain ⟨st1, h1, h2, _, _, _, h6⟩ :=
    dematerialization_sound 8 (Example.context false) Example.mountUnloaded 1
      (some Example.treeTwo) _ 0 rfl (Depth.root rfl rfl) rfl
  refine ⟨st1, h1, h2, h6 _ rfl (Or.inr ?_)⟩
  intro hall
  cases hall with
  | cons h _ => exact absurd h (by decide)

/-! ### C13: the dry run of a checkout -/

theorem DirContents.find_stored (d : DirContents) (name : PathComponent) :
    d.stored.find name = (d.find name).map (fun e => { e with inode := none }) := by
  induction d with
  | nil => rfl
  | cons kv rest ih =>
    obtain ⟨k, v⟩ := kv
    simp only [DirContents.stored, DirContents.find, List.map_cons, List.lookup] at ih ⊢
    cases hk : name == k with
    | true => rfl
    | false => exact ih

/-- Directories with the same stored entries hold the same names, with entries
of the same inode number and mode. -/
theorem DirContents.find_of_stored_eq {d d1 : DirContents} (h : d1.stored = d.stored)
    {name : PathComponent} {e1 : DirEntry} (hf : d1.find name = some e1) :
    ∃ e, d.find name = some e ∧ e.inodeNumber = e1.inodeNumber ∧
      e.isDirectory = e1.isDirectory := by
  have h1 := DirContents.find_stored d1 name
  rw [h, DirContents.find_stored, hf] at h1
  cases hd : d.find name with
  | none => rw [hd] at h1; cases h1
  | some e =>
    rw [hd] at h1
    simp only [Option.map_some', Option.some.injEq, DirEntry.mk.injEq] at h1
    refine ⟨e, rfl, h1.2.1, ?_⟩
    simp only [DirEntry.isDirectory, h1.1]

theorem DryFrame.frame_refl (m : Mount) (p : InodePtr) (st : TreeInodeState)
    (hc : m.contents p = some st) : DryFrame m m p st where
  contents := ⟨st, hc, rfl, rfl⟩
  overlayFiles := rfl
  overlayDirs := fun _ => Or.inl rfl

/-- `buildDirFromTree` writes nothing to the overlay. -/
theorem buildDirFromTree_overlay (m : Mount) (tree : Tree) :
    (buildDirFromTree m tree).2.overlayDirs = m.overlayDirs ∧
    (buildDirFromTree m tree).2.overlayFiles = m.overlayFiles := by
  unfold buildDirFromTree
  apply foldl_invariant
    (fun (acc : DirContents × Mount) => acc.2.overlayDirs = m.overlayDirs ∧
      acc.2.overlayFiles = m.overlayFiles)
  · exact ⟨rfl, rfl⟩
  · intro b a hb
    exact hb

/-- What the construction of a child object writes to the overlay: nothing, or
the record of the child, a directory that had none. -/
theorem startLoadingInode_overlay (m : Mount) (p : InodePtr) (entry : DirEntry)
    (name : PathComponent) :
    (startLoadingInode m p entry name).2.overlayFiles = m.overlayFiles ∧
    ∀ q, (startLoadingInode m p entry name).2.overlayDirs q = m.overlayDirs q ∨
      (m.overlayDirs q = none ∧ entry.inodeNumber = q ∧ entry.isDirectory = true) := by
  unfold startLoadingInode
  cases hd : entry.isDirectory with
  | false =>
    simp only [Bool.not_false, if_true]
    exact ⟨rfl, fun q => Or.inl rfl⟩
  | true =>
    simp only [Bool.not_true, Bool.false_eq_true, if_false]
    cases hh : entry.hash with
    | none =>
      simp only []
      cases ho : m.overlayDirs entry.inodeNumber with
      | none => exact ⟨rfl, fun q => Or.inl rfl⟩
      | some dir => exact ⟨rfl, fun q => Or.inl rfl⟩
    | some treeHash =>
      simp only []
      cases ht : m.trees treeHash with
      | none => exact ⟨rfl, fun q => Or.inl rfl⟩
      | some tree =>
        simp only []
        cases ho : m.overlayDirs entry.inodeNumber with
        | some dir => exact ⟨rfl, fun q => Or.inl rfl⟩
        | none =>
          obtain ⟨h1, h2⟩ := buildDirFromTree_overlay m tree
          simp only [saveDirFromTree]
          refine ⟨h2, fun q => ?_⟩
          by_cases hq : q = entry.inodeNumber
          · subst hq
            exact Or.inr ⟨ho, rfl, trivial⟩
          · left
            simp [Mount.newTreeInode, Mount.saveOverlayDir, hq, h1]

/-- The frame of the load of a child that `loadChildLocked` starts. -/
theorem loadChildLocked_frame (m : Mount) (p : InodePtr) (name : PathComponent) (e : DirEntry)
    (st : TreeInodeState) (hc : m.contents p = some st) (hf : st.entries.find name = some e)
    (hne : e.inodeNumber ≠ p) :
    (∃ st1, (loadChildLocked m p name e).2.contents p = some st1 ∧ st1.treeHash = st.treeHash ∧
      st1.entries.stored = st.entries.stored) ∧
    (loadChildLocked m p name e).2.overlayFiles = m.overlayFiles ∧
    ∀ q, (loadChildLocked m p name e).2.overlayDirs q = m.overlayDirs q ∨
      (m.overlayDirs q = none ∧ e.inodeNumber = q ∧ e.isDirectory = true) := by
  have hpne : p ≠ e.inodeNumber := fun h => hne h.symm
  have hfr := (startLoadingInode_frame m p e name).2.2 p hpne
  have hov := startLoadingInode_overlay m p e name
  unfold loadChildLocked
  split
  · exact ⟨⟨st, hc, rfl, rfl⟩, rfl, fun _ => Or.inl rfl⟩
  · cases hs : startLoadingInode m p e name with
    | mk r m1 =>
      rw [hs] at hfr hov
      have hc1 : m1.contents p = some st := hfr.1.trans hc
      cases r with
      | error err => exact ⟨⟨st, hc1, rfl, rfl⟩, hov.1, hov.2⟩
      | ok u =>
        simp only [hc1]
        refine ⟨⟨{ st with entries := st.entries.assign name (e.setInode e.inodeNumber) }, ?_,
          rfl, stored_assign_setInode _ _ _ _ hf⟩, hov.1, hov.2⟩
        simp [Mount.setContents]
theorem processMissingEntry_dry (ctx : CheckoutContext) (m : Mount) (p : InodePtr)
    (contents : TreeInodeState) (oldScmEntry newScmEntry : Option TreeEntry)
    (hdry : ctx.isDryRun = true) :
    (processMissingEntry ctx m p contents oldScmEntry newScmEntry).2.1.isDryRun = true ∧
      (processMissingEntry ctx m p contents oldScmEntry newScmEntry).2.2 = m := by
  unfold processMissingEntry
  cases oldScmEntry <;> cases newScmEntry <;>
    simp only [hdry, CheckoutContext.addConflict, Bool.not_true, Bool.false_eq_true, if_false,
      if_true]
  · exact ⟨trivial, trivial⟩
  · exact ⟨trivial, trivial⟩
  · exact ⟨trivial, trivial⟩
  · split <;> exact ⟨rfl, rfl⟩

theorem processUnloadedEntry_dry (fuel : Nat) (ctx : CheckoutContext) (m : Mount) (p : InodePtr)
    (contents : TreeInodeState) (name : PathComponent) (entry : DirEntry)
    (oldScmEntry newScmEntry : Option TreeEntry) (hdry : ctx.isDryRun = true) :
    (processUnloadedEntry fuel ctx m p contents name entry oldScmEntry newScmEntry).2.1.isDryRun =
        true ∧
      ((processUnloadedEntry fuel ctx m p contents name entry oldScmEntry newScmEntry).2.2 = m ∨
        (processUnloadedEntry fuel ctx m p contents name entry oldScmEntry newScmEntry).2.2 =
          (loadChildLocked m p name entry).2) := by
  unfold processUnloadedEntry
  simp only [hdry, CheckoutContext.addConflict, if_true]
  split
  · split
    · exact ⟨hdry, Or.inr rfl⟩
    · split <;> exact ⟨rfl, Or.inl rfl⟩
  · exact ⟨hdry, Or.inl rfl⟩

/-- In a dry run `processCheckoutEntry` leaves the mount as it is, or as the
load of a child of the directory left it; the context stays in dry-run mode. -/
theorem processCheckoutEntry_dry (isInodeRemembered : InodeNumber → Bool) (fuel : Nat)
    (ctx : CheckoutContext) (m : Mount) (p : InodePtr) (oldScmEntry newScmEntry : Option TreeEntry)
    (st : TreeInodeState) (hdry : ctx.isDryRun = true) (hc : m.contents p = some st) :
    (processCheckoutEntry isInodeRemembered fuel ctx m p oldScmEntry newScmEntry).2.1.isDryRun =
        true ∧
      ((processCheckoutEntry isInodeRemembered fuel ctx m p oldScmEntry newScmEntry).2.2 = m ∨
        ∃ name e, st.entries.find name = some e ∧
          (processCheckoutEntry isInodeRemembered fuel ctx m p oldScmEntry newScmEntry).2.2 =
            (loadChildLocked m p name e).2) := by
  unfold processCheckoutEntry
  simp only [hc]
  split
  · exact ⟨hdry, Or.inl rfl⟩
  · rename_i name hname
    split
    · exact ⟨hdry, Or.inl rfl⟩
    · split
      · have := processMissingEntry_dry ctx m p st oldScmEntry newScmEntry hdry
        exact ⟨this.1, Or.inl this.2⟩
      · rename_i entry hf
        split
        · exact ⟨hdry, Or.inl rfl⟩
        · split
          · exact ⟨hdry, Or.inr ⟨name, entry, hf, rfl⟩⟩
          · have := processUnloadedEntry_dry fuel ctx m p st name entry oldScmEntry newScmEntry
              hdry
            refine ⟨this.1, ?_⟩
            rcases this.2 with h | h
            · exact Or.inl h
            · exact Or.inr ⟨name, entry, hf, h⟩

/-- The frame of one call of `processCheckoutEntry` in a dry run, relative to
an earlier mount. -/
theorem processCheckoutEntry_frame (isInodeRemembered : InodeNumber → Bool) (fuel : Nat)
    (ctx : CheckoutContext) (M m : Mount) (p : InodePtr) (oldScmEntry newScmEntry : Option TreeEntry)
    (st : TreeInodeState) (hdry : ctx.isDryRun = true)
    (hwf : ∀ name e, st.entries.find name = some e → e.inodeNumber ≠ p)
    (hfr : DryFrame M m p st) :
    DryFrame M (processCheckoutEntry isInodeRemembered fuel ctx m p oldScmEntry newScmEntry).2.2
      p st := by
  obtain ⟨st1, hc1, hh1, hs1⟩ := hfr.contents
  rcases (processCheckoutEntry_dry isInodeRemembered fuel ctx m p oldScmEntry newScmEntry st1 hdry
    hc1).2 with h | ⟨name, e1, hf1, h⟩
  · rw [h]
    exact hfr
  · rw [h]
    obtain ⟨e, hf, hnum, hdir⟩ := DirContents.find_of_stored_eq hs1 hf1
    have hne : e1.inodeNumber ≠ p := by
      rw [← hnum]
      exact hwf name e hf
    obtain ⟨⟨st2, hc2, hh2, hs2⟩, hof, hod⟩ := loadChildLocked_frame m p name e1 st1 hc1 hf1 hne
    refine ⟨⟨st2, hc2, hh2.trans hh1, hs2.trans hs1⟩, hof.trans hfr.overlayFiles, fun q => ?_⟩
    rcases hod q with h2 | ⟨h2, h3, h4⟩
    · rw [h2]
      exact hfr.overlayDirs q
    · rcases hfr.overlayDirs q with h5 | h5
      · right
        refine ⟨h5 ▸ h2, name, e, hf, hnum.trans h3, hdir.trans h4⟩
      · exact Or.inr h5

/-- The frame of the loop of `computeCheckoutActions` in a dry run. -/
theorem computeCheckoutActionsLoop_frame (isInodeRemembered : InodeNumber → Bool) (fuel : Nat)
    (M : Mount) (p : InodePtr) (st : TreeInodeState)
    (hwf : ∀ name e, st.entries.find name = some e → e.inodeNumber ≠ p) (rounds : Nat) :
    ∀ (oldEntries newEntries : List TreeEntry) (ctx : CheckoutContext) (m : Mount)
      (actions : List CheckoutAction), ctx.isDryRun = true → DryFrame M m p st →
      DryFrame M (computeCheckoutActionsLoop isInodeRemembered fuel p rounds oldEntries newEntries
        ctx m actions).2.2 p st := by
  induction rounds with
  | zero =>
    intro oldEntries newEntries ctx m actions _ hfr
    unfold computeCheckoutActionsLoop
    split
    · exact hfr
    · exact hfr
  | succ rounds ih =>
    intro oldEntries newEntries ctx m actions hdry hfr
    unfold computeCheckoutActionsLoop
    split
    · exact hfr
    · rename_i round _
      have hstep := processCheckoutEntry_frame isInodeRemembered fuel ctx M m p round.1 round.2.1
        st hdry hwf hfr
      obtain ⟨st1, hc1, _, _⟩ := hfr.contents
      have hd1 := (processCheckoutEntry_dry isInodeRemembered fuel ctx m p round.1 round.2.1 st1
        hdry hc1).1
      simp only []
      split
      · rename_i e ctx1 m1 heq
        rw [heq] at hstep
        exact hstep
      · rename_i action ctx1 m1 heq
        rw [heq] at hstep hd1
        exact ih _ _ _ _ _ hd1 hstep
/-- C13, read literally, fails: the dry run of a checkout loads the directory
`d`, which is not loaded and conflicts with `fromTree`, and the load stores its
entries, built from the source-control tree, in the overlay and takes an inode
number from the allocator. -/
theorem dry_run_frame_counterexample :
    (Example.context true).isDryRun = true ∧
    Example.mountDirUnloaded.overlayDirs 2 = none ∧
    (computeCheckoutActions (fun _ => false) 8 (Example.context true) Example.mountDirUnloaded 1
        (some Example.treeEleven) (some Example.treeTwelve)).2.2.overlayDirs 2 =
      some [("x", Example.fileEntry 100 (some 30) false)] ∧
    (computeCheckoutActions (fun _ => false) 8 (Example.context true) Example.mountDirUnloaded 1
        (some Example.treeEleven) (some Example.treeTwelve)).2.2.nextInodeNumber = 101 := by
  refine ⟨rfl, rfl, ?_, ?_⟩
  · simp [computeCheckoutActions, computeCheckoutActionsLoop, checkoutRound, Example.treeEleven,
      Example.treeTwelve]
    rfl
  · simp [computeCheckoutActions, computeCheckoutActionsLoop, checkoutRound, Example.treeEleven,
      Example.treeTwelve]
    rfl

/-- C13, amended: in a dry run, for a directory none of whose entries carries
the inode number of the directory itself, `computeCheckoutActions` and
`processCheckoutEntry` leave the tree hash of the directory and its entries
(names, modes, inode numbers, hashes) as they were and write nothing to the
overlay but the records of child directories of the directory that had none (a
child that is loaded for the first time gets its entries stored);
`checkoutUpdateEntry` on a child that is no directory and
`saveOverlayPostCheckout` return at once and leave the mount as it was. -/
theorem dry_run_frame (isInodeRemembered : InodeNumber → Bool) (fuel : Nat)
    (ctx : CheckoutContext) (m : Mount) (p : InodePtr) (st : TreeInodeState)
    (hdry : ctx.isDryRun = true) (hc : m.contents p = some st)
    (hwf : ∀ name e, st.entries.find name = some e → e.inodeNumber ≠ p) :
    (∀ fromTree toTree,
      DryFrame m (computeCheckoutActions isInodeRemembered fuel ctx m p fromTree toTree).2.2 p st) ∧
    (∀ oldScmEntry newScmEntry,
      DryFrame m
        (processCheckoutEntry isInodeRemembered fuel ctx m p oldScmEntry newScmEntry).2.2 p st) ∧
    (∀ checkout name inode oldTree newTree newScmEntry,
      asSubclassPtrOrNull .TreeInode m inode = none →
      checkoutUpdateEntry checkout ctx m p name inode oldTree newTree newScmEntry =
        (.ok (), ctx, m)) ∧
    (∀ tree, saveOverlayPostCheckout fuel ctx m p tree = (.ok (), m)) := by
  have hfr := DryFrame.frame_refl m p st hc
  refine ⟨?_, ?_, ?_, ?_⟩
  · intro fromTree toTree
    unfold computeCheckoutActions
    simp only [hc]
    split
    · exact hfr
    · exact computeCheckoutActionsLoop_frame isInodeRemembered fuel m p st hwf _ _ _ _ _ _ hdry hfr
  · intro oldScmEntry newScmEntry
    exact processCheckoutEntry_frame isInodeRemembered fuel ctx m m p _ _ st hdry hwf hfr
  · intro checkout name inode oldTree newTree newScmEntry hfile
    unfold checkoutUpdateEntry
    simp only [hfile, hdry, if_true]
  · intro tree
    unfold saveOverlayPostCheckout
    simp only [hdry, if_true]

/-- C13 at work: the dry run of a checkout on the root of `mountDirUnloaded`. -/
theorem dry_run_frame_witness :
    DryFrame Example.mountDirUnloaded
      (computeCheckoutActions (fun _ => false) 8 (Example.context true) Example.mountDirUnloaded 1
        (some Example.treeEleven) (some Example.treeTwelve)).2.2 1
      { entries := [("d", Example.dirEntry 2 (some 20) false)], treeHash := some 10 } :=
  (dry_run_frame (fun _ => false) 8 (Example.context true) Example.mountDirUnloaded 1 _ rfl rfl
    (by
      intro name e h
      simp only [DirContents.find, List.lookup] at h
      split at h
      · cases h
        decide
      · cases h)).1 _ _

/-! ### C17: the fast path of diff -/

/-- C17 (diff idempotence).  A directory whose tree hash is present, diffed
against the tree with that hash, yields nothing: `diff` succeeds, no callback is
called (no untracked, ignored, modified or removed file, no error), and the
mount is as it was: no child is loaded, no directory changed. -/
theorem diff_same_hash (context : DiffContext) (fuel : Nat) (s : DiffState) (p : InodePtr)
    (currentPath : List PathComponent) (tree : Tree) (parentIgnore : Option GitIgnoreStack)
    (isIgnored : Bool) (st : TreeInodeState) (hc : s.2.contents p = some st)
    (hh : st.treeHash = some tree.hash) :
    diff context fuel s p currentPath (some tree) parentIgnore isIgnored = (.ok (), s) := by
  unfold diff
  simp [hc, hh, TreeInodeState.isMaterialized]

/-- C17 at work: the root of `mountHashed` against the tree with hash 2. -/
theorem diff_same_hash_witness :
    diff (Example.diffContext []) 4 ([], Example.mountHashed) 1 [] (some Example.treeTwo) none
        false = (.ok (), [], Example.mountHashed) :=
  diff_same_hash (Example.diffContext []) 4 ([], Example.mountHashed) 1 [] Example.treeTwo none
    false _ rfl rfl

/-! ### C18: the errors of deferred diff jobs -/

theorem runDeferred_length (context : DiffContext) (jobs : List DeferredDiffEntry) :
    ∀ s, (runDeferred context jobs s).1.length = jobs.length := by
  induction jobs with
  | nil => intro s; rfl
  | cons job rest ih =>
    intro s
    simp only [runDeferred, List.length_cons, ih]

/-- The calls `reportDiffErrors` adds: one `diffError` per failed job, with the
path of the job, in the order of the jobs. -/
theorem reportDiffErrors_eq (jobs : List DeferredDiffEntry) :
    ∀ (results : List (Except Failure Unit)) (events : List DiffEvent),
      reportDiffErrors jobs results events =
        events ++ (jobs.zip results).filterMap (fun jr =>
          match jr.2 with
          | .error e => some (DiffEvent.diffError jr.1.path e)
          | .ok _ => none) := by
  induction jobs with
  | nil => intro results events; simp [reportDiffErrors]
  | cons job rest ih =>
    intro results events
    cases results with
    | nil => simp [reportDiffErrors]
    | cons r rs =>
      cases r with
      | error e => simp [reportDiffErrors, ih]
      | ok u => simp [reportDiffErrors, ih]

/-- C18 (diff leaf errors).  `computeDiff` on a loaded directory, called with an
ignore stack unless the directory is ignored, succeeds whatever the outcomes of
the deferred jobs: with the jobs the walk deferred, run in their order, the
calls of the callback are those of the walk and of the jobs, followed by one
`diffError` for every job that failed, carrying the path of that job, and none
for a job that succeeded; the mount is the one the jobs left. -/
theorem diff_leaf_errors (context : DiffContext) (s : DiffState) (p : InodePtr)
    (currentPath : List PathComponent) (tree : Option Tree) (ignore : Option GitIgnoreStack)
    (isIgnored : Bool) (st : TreeInodeState) (hc : s.2.contents p = some st)
    (hign : isIgnored = true ∨ ignore.isSome = true) :
    ∃ (w : DiffWalk) (results : List (Except Failure Unit)) (s1 : DiffState),
      w = diffWalk context p currentPath ignore isIgnored (tree.elim [] (fun t => t.entries))
        st.entries { deferredEntries := [], events := s.1, mount := s.2 } ∧
      runDeferred context w.deferredEntries (w.events, w.mount) = (results, s1) ∧
      results.length = w.deferredEntries.length ∧
      computeDiff context s p currentPath tree ignore isIgnored =
        (.ok (),
          s1.1 ++ (w.deferredEntries.zip results).filterMap (fun jr =>
            match jr.2 with
            | .error e => some (DiffEvent.diffError jr.1.path e)
            | .ok _ => none),
          s1.2) := by
  refine ⟨_, _, _, rfl, rfl, runDeferred_length _ _ _, ?_⟩
  have hg : (!(isIgnored || ignore.isSome)) = false := by
    rcases hign with h | h <;> simp [h]
  unfold computeDiff
  simp only [hg, hc, Bool.false_eq_true, if_false]
  rw [reportDiffErrors_eq]
  cases tree <;> rfl

/-- C18 at work: the root of `mountCF`, which holds the loaded directory `C`
and the file `f`, against no tree, with a job for `C` that fails: the file is
reported untracked, the failure of the job is reported once, at `C`, and the
diff succeeds. -/
theorem diff_leaf_errors_witness :
    (∃ (w : DiffWalk) (results : List (Except Failure Unit)) (s1 : DiffState),
      w = diffWalk (Example.diffContext [["C"]]) 1 [] (some []) false [] 
        [("C", Example.dirEntry 2 (some 20) true), ("f", Example.fileEntry 3 (some 30) true)]
        { deferredEntries := [], events := [], mount := Example.mountCF } ∧
      runDeferred (Example.diffContext [["C"]]) w.deferredEntries (w.events, w.mount) =
        (results, s1) ∧
      results.length = w.deferredEntries.length ∧
      computeDiff (Example.diffContext [["C"]]) ([], Example.mountCF) 1 [] none (some []) false =
        (.ok (),
          s1.1 ++ (w.deferredEntries.zip results).filterMap (fun jr =>
            match jr.2 with
            | .error e => some (DiffEvent.diffError jr.1.path e)
            | .ok _ => none),
          s1.2)) ∧
    (computeDiff (Example.diffContext [["C"]]) ([], Example.mountCF) 1 [] none (some [])
        false).2.1 = [.untrackedFile ["f"], .diffError ["C"] .loadFailed] := by
  refine ⟨diff_leaf_errors (Example.diffContext [["C"]]) ([], Example.mountCF) 1 [] none (some [])
    false _ rfl (Or.inr rfl), ?_⟩
  simp +decide [computeDiff, diffWalk, processUntracked, matchIgnore, runDeferred, reportDiffErrors,
    Example.mountCF, Example.build, Example.diffContext, Example.dirEntry, Example.fileEntry,
    DirEntry.isDirectory, S_IFMT, S_IFDIR, S_IFREG]

/-! ### C16: materialization reaches up to the root -/

theorem Linked.to_chainOk {m : Mount} {p : InodePtr} {d : Nat} (h : Linked m p d) :
    ChainOk m p d := by
  induction h with
  | root hl hp => exact ChainOk.root hl hp
  | child hl hp _ _ he ih => exact ChainOk.child hl hp ih (fun _ => he)

theorem Linked.linked_mat {m m1 : Mount} (h : Mat m m1) {p : InodePtr} {d : Nat}
    (hl : Linked m p d) : Linked m1 p d := by
  induction hl with
  | root hl hp => exact Linked.root (by rw [h.location]; exact hl) hp
  | child hl hp hu _ he ih =>
    exact Linked.child (by rw [h.location]; exact hl) hp hu ih (by rw [h.entry_isSome]; exact he)

/-- An inode above another lies at a smaller depth. -/
theorem StrictAncestor.depth_lt {m : Mount} {a p : InodePtr} (h : StrictAncestor m a p) :
    ∀ {d : Nat}, Depth m p d → ∃ da, Depth m a da ∧ da < d := by
  induction h with
  | @parent b hp =>
    intro d hd
    cases hd with
    | root hl hpn => simp [Mount.getParent, hl, hpn] at hp
    | @child _ parent loc d1 hl hpar hd1 =>
      simp only [Mount.getParent, hl, Option.some_bind, hpar, Option.some.injEq] at hp
      subst hp
      exact ⟨d1, hd1, Nat.lt_succ_self _⟩
  | @step b c hp _ ih =>
    intro d hd
    cases hd with
    | root hl hpn => simp [Mount.getParent, hl, hpn] at hp
    | @child _ parent loc d1 hl hpar hd1 =>
      simp only [Mount.getParent, hl, Option.some_bind, hpar, Option.some.injEq] at hp
      subst hp
      obtain ⟨da, hda, hlt⟩ := ih hd1
      exact ⟨da, hda, Nat.lt_succ_of_lt hlt⟩

/-- The inodes above an inode are its parent and the inodes above the parent. -/
theorem StrictAncestor.of_parent {m : Mount} {a p parent : InodePtr} {loc : LocationInfo}
    (h : StrictAncestor m a p) (hl : m.location p = some loc) (hp : loc.parent = some parent) :
    a = parent ∨ StrictAncestor m a parent := by
  cases h with
  | parent hg =>
    simp only [Mount.getParent, hl, Option.some_bind, hp, Option.some.injEq] at hg
    exact Or.inl hg.symm
  | step hg hs =>
    simp only [Mount.getParent, hl, Option.some_bind, hp, Option.some.injEq] at hg
    subst hg
    exact Or.inr hs

theorem StrictAncestor.to_child {m : Mount} {a p parent : InodePtr} {loc : LocationInfo}
    (hl : m.location p = some loc) (hp : loc.parent = some parent)
    (h : a = parent ∨ StrictAncestor m a parent) : StrictAncestor m a p := by
  have hg : m.getParent p = some parent := by simp [Mount.getParent, hl, hp]
  rcases h with rfl | h
  · exact StrictAncestor.parent hg
  · exact StrictAncestor.step hg h

/-- Under the invariant, a materialized directory has all directories above it
materialized, with hash-less entries on the way down. -/
theorem MaterializedAt.of_invariant {m : Mount} {p : InodePtr} {d : Nat} (hl : Linked m p d) :
    (∀ a, a = p ∨ StrictAncestor m a p → MaterializedUpwardAt m a) →
    (∃ st, m.contents p = some st ∧ st.treeHash = none) →
    ∀ a, a = p ∨ StrictAncestor m a p → MaterializedAt m m a := by
  induction hl with
  | @root p loc hloc hpar =>
    intro _ hmat a ha
    have hap : a = p := by
      rcases ha with h | h
      · exact h
      · cases h with
        | parent hg => simp [Mount.getParent, hloc, hpar] at hg
        | step hg _ => simp [Mount.getParent, hloc, hpar] at hg
    subst hap
    refine ⟨hmat, ?_⟩
    intro loc1 b h1 h2
    rw [hloc] at h1
    cases h1
    rw [hpar] at h2
    cases h2
  | @child p parent loc d1 hloc hpar hunl hlp hent ih =>
    intro hinv hmat a ha
    obtain ⟨st, hst, hnone⟩ := hmat
    obtain ⟨pst, e, hpc, hpn, hpf, hpe⟩ := hinv p (Or.inl rfl) loc parent st hloc hpar hunl hst hnone
    rcases ha with rfl | ha
    · refine ⟨⟨st, hst, hnone⟩, ?_⟩
      intro loc1 b h1 h2
      rw [hloc] at h1
      cases h1
      rw [hpar] at h2
      cases h2
      exact ⟨e, by simp [Mount.entry, hpc, hpf], hpe⟩
    · exact ih (fun x hx => hinv x (Or.inr (StrictAncestor.to_child hloc hpar hx)))
        ⟨pst, hpc, hpn⟩ a (ha.of_parent hloc hpar)
/-- The invariant on the way up from the parent survives a change of the
contents of the inode itself. -/
theorem MaterializedUpwardAt.above {m m1 : Mount} {p parent : InodePtr} {loc : LocationInfo}
    {d : Nat} (hloc : m.location p = some loc) (hpar : loc.parent = some parent)
    (hd : Depth m parent d) (hl : m1.location = m.location)
    (hc : ∀ q, q ≠ p → m1.contents q = m.contents q)
    (hinv : ∀ a, a = p ∨ StrictAncestor m a p → MaterializedUpwardAt m a) :
    ∀ a, a = parent ∨ StrictAncestor m1 a parent → MaterializedUpwardAt m1 a := by
  intro a ha
  have hdp : Depth m p (d + 1) := Depth.child hloc hpar hd
  have ha' : a = parent ∨ StrictAncestor m a parent := by
    rcases ha with h | h
    · exact Or.inl h
    · exact Or.inr (StrictAncestor.ancestor_congr hl.symm h)
  obtain ⟨da, hda, hle⟩ : ∃ da, Depth m a da ∧ da ≤ d := by
    rcases ha' with rfl | h
    · exact ⟨d, hd, le_refl _⟩
    · obtain ⟨da, hda, hlt⟩ := h.depth_lt hd
      exact ⟨da, hda, Nat.le_of_lt hlt⟩
  have hap : a ≠ p := by
    intro h
    rw [h] at hda
    have := hda.unique hdp
    omega
  intro loc1 b st1 h1 h2 h3 h4 h5
  rw [hl] at h1
  rw [hc a hap] at h4
  obtain ⟨pst, e, hp1, hp2, hp3, hp4⟩ :=
    hinv a (Or.inr (StrictAncestor.to_child hloc hpar ha')) loc1 b st1 h1 h2 h3 h4 h5
  have hbp : b ≠ p := by
    intro h
    cases hda with
    | root hl1 hp1 => rw [h1] at hl1; cases hl1; rw [h2] at hp1; cases hp1
    | @child _ parent1 _ d1 hl1 hpp hd1 =>
      rw [h1] at hl1; cases hl1; rw [h2] at hpp; cases hpp
      rw [h] at hd1
      have := hd1.unique hdp
      omega
  exact ⟨pst, e, by rw [hc b hbp]; exact hp1, hp2, hp3, hp4⟩

/-- `childMaterialized` on a linked directory, the invariant holding on the way
up: the entry of the child has no hash afterwards, and the directory and all
directories above it are materialized, with hash-less entries on the way
down. -/
theorem childMaterialized_upward (fuel : Nat) :
    ∀ (m : Mount) (p : InodePtr) (n : PathComponent) (d : Nat), Linked m p d → d < fuel →
      (m.entry p n).isSome = true →
      (∀ a, a = p ∨ StrictAncestor m a p → MaterializedUpwardAt m a) →
      (∃ e, (childMaterialized fuel m p n).2.entry p n = some e ∧ e.hash = none) ∧
      ∀ a, a = p ∨ StrictAncestor m a p →
        MaterializedAt m (childMaterialized fuel m p n).2 a := by
  induction fuel with
  | zero => intro m p n d _ h; omega
  | succ fuel ih =>
    intro m p n d hl hlt he hinv
    unfold childMaterialized
    unfold Mount.entry at he
    cases hc : m.contents p with
    | none => simp [hc] at he
    | some contents =>
      simp only [hc, Option.some_bind] at he
      simp only []
      cases hf : contents.entries.find n with
      | none => simp [hf] at he
      | some childEntry =>
        simp only []
        split
        · rename_i hstop
          have hstop' : contents.treeHash = none ∧ childEntry.hash = none := by
            simpa [TreeInodeState.isMaterialized, DirEntry.isMaterialized] using hstop
          refine ⟨⟨childEntry, by simp [Mount.entry, hc, hf], hstop'.2⟩, ?_⟩
          exact MaterializedAt.of_invariant hl hinv ⟨contents, hc, hstop'.1⟩
        · have hmat := Mat.step m p contents
            { entries := contents.entries.assign n childEntry.setMaterialized, treeHash := none }
            (contents.entries.assign n childEntry.setMaterialized) hc
            ⟨DirContents.assign_cleared _ _ _ hf, Or.inr rfl⟩
          have hcq : ∀ q, q ≠ p → ((m.setContents p
              { entries := contents.entries.assign n childEntry.setMaterialized,
                treeHash := none }).saveOverlayDir p
              (contents.entries.assign n childEntry.setMaterialized)).contents q =
              m.contents q := by
            intro q hq
            rw [contents_setContents_saveOverlayDir, if_neg hq]
          have hcp : ((m.setContents p
              { entries := contents.entries.assign n childEntry.setMaterialized,
                treeHash := none }).saveOverlayDir p
              (contents.entries.assign n childEntry.setMaterialized)).contents p =
              some { entries := contents.entries.assign n childEntry.setMaterialized,
                     treeHash := none } := by
            rw [contents_setContents_saveOverlayDir, if_pos rfl]
          have hfind : (contents.entries.assign n childEntry.setMaterialized).find n =
              some childEntry.setMaterialized := by
            rw [DirContents.find_assign, if_pos rfl, hf]
            rfl
          generalize hm' : ((m.setContents p
              { entries := contents.entries.assign n childEntry.setMaterialized,
                treeHash := none }).saveOverlayDir p
              (contents.entries.assign n childEntry.setMaterialized)) = m' at hmat hcq hcp ⊢
          have hloceq : m'.location = m.location := hmat.location
          cases hl with
          | @root _ loc hloc hpar =>
            have hloc' : m'.location p = some loc := by rw [hloceq]; exact hloc
            simp only [hloc', hpar]
            refine ⟨⟨childEntry.setMaterialized, by simp [Mount.entry, hcp, hfind], rfl⟩, ?_⟩
            intro a ha
            have hap : a = p := by
              rcases ha with h | h
              · exact h
              · cases h with
                | parent hg => simp [Mount.getParent, hloc, hpar] at hg
                | step hg _ => simp [Mount.getParent, hloc, hpar] at hg
            subst hap
            refine ⟨⟨_, hcp, rfl⟩, ?_⟩
            intro loc1 b h1 h2
            rw [hloc] at h1
            cases h1
            rw [hpar] at h2
            cases h2
          | @child _ parent loc d1 hloc hpar hunl hlp hent =>
            have hloc' : m'.location p = some loc := by rw [hloceq]; exact hloc
            simp only [hloc', hpar, hunl, Bool.not_false, if_true]
            have hdpar : Depth m parent d1 := hlp.to_chainOk.to_depth
            have hdpar' : Depth m' parent d1 := hdpar.depth_congr hloceq
            have hdp' : Depth m' p (d1 + 1) := Depth.child hloc' hpar hdpar'
            have hne : p ≠ parent := by
              intro h
              rw [← h] at hdpar'
              have := hdpar'.unique hdp'
              omega
            obtain ⟨⟨e1, he1, he1n⟩, hup⟩ := ih m' parent loc.name d1 (hlp.linked_mat hmat)
              (by omega) (by rw [hmat.entry_isSome]; exact hent)
              (MaterializedUpwardAt.above hloc hpar hdpar hloceq hcq hinv)
            have hkeep := childMaterialized_contents_of_depth fuel m' parent loc.name p d1 (d1 + 1)
              hdpar' hdp' (Nat.le_succ _) hne
            refine ⟨⟨childEntry.setMaterialized, ?_, rfl⟩, ?_⟩
            · simp [Mount.entry, hkeep, hcp, hfind]
            · intro a ha
              rcases ha with rfl | ha
              · refine ⟨⟨_, hkeep.trans hcp, rfl⟩, ?_⟩
                intro loc1 b h1 h2
                rw [hloc] at h1
                cases h1
                rw [hpar] at h2
                cases h2
                exact ⟨e1, he1, he1n⟩
              · have ha1 : a = parent ∨ StrictAncestor m' a parent := by
                  rcases ha.of_parent hloc hpar with h | h
                  · exact Or.inl h
                  · exact Or.inr (StrictAncestor.ancestor_congr hloceq h)
                obtain ⟨h1, h2⟩ := hup a ha1
                refine ⟨h1, ?_⟩
                intro loc1 b h3 h4
                exact h2 loc1 b (by rw [hloceq]; exact h3) h4
/-- What `childMaterialized` can reach lies in the directory or in a directory
above it. -/
theorem Touches.on_chain {m : Mount} {p q : InodePtr} {n k : PathComponent}
    (ht : Touches m p n q k) : q = p ∨ StrictAncestor m q p := by
  induction ht with
  | here => exact Or.inl rfl
  | up hl hp _ _ ih => exact Or.inr (StrictAncestor.to_child hl hp ih)

/-- The parent of an inode above `p` is above `p`. -/
theorem StrictAncestor.trans_parent {m : Mount} {q p parent : InodePtr}
    (hg : m.getParent q = some parent) (h : StrictAncestor m q p) : StrictAncestor m parent p := by
  induction h with
  | parent hp => exact StrictAncestor.step hp (StrictAncestor.parent hg)
  | step hp _ ih => exact StrictAncestor.step hp ih

/-- `materialize` leaves the directories that are not above the directory as
they were. -/
theorem materialize_contents_off_chain (fuel : Nat) (m : Mount) (p q : InodePtr) (hq : q ≠ p)
    (hna : ¬ StrictAncestor m q p) : (materialize fuel m p).2.contents q = m.contents q := by
  unfold materialize
  cases hc : m.contents p with
  | none => rfl
  | some st =>
    simp only []
    split
    · rfl
    · have hstep : ((m.setContents p st.setMaterialized).saveOverlayDir p st.entries).contents q =
          m.contents q := by
        rw [contents_setContents_saveOverlayDir, if_neg hq]
      split
      · exact hstep
      · rename_i loc hloc
        have hloc' : m.location p = some loc := hloc
        split
        · rename_i parent hpar
          split
          · rw [childMaterialized_contents _ _ _ _ _ ?_]
            · exact hstep
            · intro k ht
              have ht' : Touches m parent loc.name q k := Touches.touches_congr m (by rfl) ht
              exact hna (StrictAncestor.to_child hloc' hpar ht'.on_chain)
          · exact hstep
        · exact hstep

/-- `materialize` on a linked directory, the invariant holding on the way up:
the directory and all directories above it are materialized afterwards, with
hash-less entries on the way down. -/
theorem materialize_chain (fuel : Nat) (m : Mount) (p : InodePtr) (d : Nat) (st : TreeInodeState)
    (hl : Linked m p d) (hle : d ≤ fuel) (hc : m.contents p = some st)
    (hinv : ∀ a, a = p ∨ StrictAncestor m a p → MaterializedUpwardAt m a) :
    ∀ a, a = p ∨ StrictAncestor m a p → MaterializedAt m (materialize fuel m p).2 a := by
  unfold materialize
  simp only [hc]
  split
  · rename_i hm
    have hm' : st.treeHash = none := by simpa [TreeInodeState.isMaterialized] using hm
    exact MaterializedAt.of_invariant hl hinv ⟨st, hc, hm'⟩
  · have hmat := Mat.step m p st st.setMaterialized st.entries hc
      ⟨DirContents.Cleared.contents_refl _, Or.inr rfl⟩
    have hcq : ∀ q, q ≠ p →
        ((m.setContents p st.setMaterialized).saveOverlayDir p st.entries).contents q =
          m.contents q := by
      intro q hq
      rw [contents_setContents_saveOverlayDir, if_neg hq]
    have hcp : ((m.setContents p st.setMaterialized).saveOverlayDir p st.entries).contents p =
        some st.setMaterialized := by
      rw [contents_setContents_saveOverlayDir, if_pos rfl]
    generalize ((m.setContents p st.setMaterialized).saveOverlayDir p st.entries) = m'
      at hmat hcq hcp ⊢
    have hloceq : m'.location = m.location := hmat.location
    cases hl with
    | @root _ loc hloc hpar =>
      have hloc' : m'.location p = some loc := by rw [hloceq]; exact hloc
      simp only [hloc', hpar]
      intro a ha
      have hap : a = p := by
        rcases ha with h | h
        · exact h
        · cases h with
          | parent hg => simp [Mount.getParent, hloc, hpar] at hg
          | step hg _ => simp [Mount.getParent, hloc, hpar] at hg
      subst hap
      refine ⟨⟨_, hcp, rfl⟩, ?_⟩
      intro loc1 b h1 h2
      rw [hloc] at h1
      cases h1
      rw [hpar] at h2
      cases h2
    | @child _ parent loc d1 hloc hpar hunl hlp hent =>
      have hloc' : m'.location p = some loc := by rw [hloceq]; exact hloc
      simp only [hloc', hpar, hunl, Bool.not_false, if_true]
      have hdpar : Depth m parent d1 := hlp.to_chainOk.to_depth
      have hdpar' : Depth m' parent d1 := hdpar.depth_congr hloceq
      have hdp' : Depth m' p (d1 + 1) := Depth.child hloc' hpar hdpar'
      have hne : p ≠ parent := by
        intro h
        rw [← h] at hdpar'
        have := hdpar'.unique hdp'
        omega
      obtain ⟨⟨e1, he1, he1n⟩, hup⟩ := childMaterialized_upward fuel m' parent loc.name d1
        (hlp.linked_mat hmat) (by omega) (by rw [hmat.entry_isSome]; exact hent)
        (MaterializedUpwardAt.above hloc hpar hdpar hloceq hcq hinv)
      have hkeep := childMaterialized_contents_of_depth fuel m' parent loc.name p d1 (d1 + 1)
        hdpar' hdp' (Nat.le_succ _) hne
      intro a ha
      rcases ha with rfl | ha
      · refine ⟨⟨_, hkeep.trans hcp, rfl⟩, ?_⟩
        intro loc1 b h1 h2
        rw [hloc] at h1
        cases h1
        rw [hpar] at h2
        cases h2
        exact ⟨e1, he1, he1n⟩
      · have ha1 : a = parent ∨ StrictAncestor m' a parent := by
          rcases ha.of_parent hloc hpar with h | h
          · exact Or.inl h
          · exact Or.inr (StrictAncestor.ancestor_congr hloceq h)
        obtain ⟨h1, h2⟩ := hup a ha1
        refine ⟨h1, ?_⟩
        intro loc1 b h3 h4
        exact h2 loc1 b (by rw [hloceq]; exact h3) h4

/-- `materialize` on a linked directory keeps the invariant of
materialization. -/
theorem materialize_invariant (fuel : Nat) (m : Mount) (p : InodePtr) (d : Nat)
    (st : TreeInodeState) (hinv : MaterializedUpward m) (hl : Linked m p d) (hle : d ≤ fuel)
    (hc : m.contents p = some st) : MaterializedUpward (materialize fuel m p).2 := by
  have hchain := materialize_chain fuel m p d st hl hle hc (fun a _ => hinv.2 a)
  have hmat := materialize_mat fuel m p
  have hoff := materialize_contents_off_chain fuel m p
  generalize (materialize fuel m p).2 = m1 at hchain hmat hoff
  constructor
  · intro q st1 name e hq hf he
    by_cases hon : q = p ∨ StrictAncestor m q p
    · obtain ⟨⟨st2, hs2, hn2⟩, _⟩ := hchain q hon
      rw [hq] at hs2
      cases hs2
      exact hn2
    · have hq' : m.contents q = some st1 := by
        rw [← hoff q (fun h => hon (Or.inl h)) (fun h => hon (Or.inr h))]
        exact hq
      exact hinv.1 q st1 name e hq' hf he
  · intro q loc parent st1 hloc hpar hunl hq hn
    have hloc0 : m.location q = some loc := by rw [← hmat.location]; exact hloc
    by_cases hon : q = p ∨ StrictAncestor m q p
    · obtain ⟨_, hent⟩ := hchain q hon
      obtain ⟨e, he, hen⟩ := hent loc parent hloc0 hpar
      have hpon : parent = p ∨ StrictAncestor m parent p := by
        right
        have hg : m.getParent q = some parent := by simp [Mount.getParent, hloc0, hpar]
        rcases hon with rfl | h
        · exact StrictAncestor.parent hg
        · exact StrictAncestor.trans_parent hg h
      obtain ⟨⟨pst, hps, hpn⟩, _⟩ := hchain parent hpon
      refine ⟨pst, e, hps, hpn, ?_, hen⟩
      simpa [Mount.entry, hps] using he
    · have hq' : m.contents q = some st1 := by
        rw [← hoff q (fun h => hon (Or.inl h)) (fun h => hon (Or.inr h))]
        exact hq
      obtain ⟨pst, e, hp1, hp2, hp3, hp4⟩ := hinv.2 q loc parent st1 hloc0 hpar hunl hq' hn
      obtain ⟨pst1, hps1, hcl⟩ := hmat.contentsSome parent pst hp1
      have htree : pst1.treeHash = none := by
        rcases hcl.2 with h | h
        · rw [h]; exact hp2
        · exact h
      rcases hcl.1.find loc.name with ⟨h1, _⟩ | ⟨e0, e1, h1, h2, h3⟩
      · rw [hp3] at h1
        cases h1
      · rw [hp3] at h1
        cases h1
        refine ⟨pst1, e1, hps1, htree, h2, ?_⟩
        rcases h3 with h | h
        · rw [h]; exact hp4
        · rw [h]; rfl
/-- C16 (materialization transitivity).  In a mount in which every directory
that holds a hash-less entry is materialized and every materialized directory
linked into a parent has a materialized parent with a hash-less entry for it,
`materialize` on a directory `p` that is linked (neither it nor a directory
above it has been unlinked, and each directory above holds the entry that leads
down), given fuel for its depth, succeeds; afterwards `p` and every directory
above it up to the root is materialized, the entry for each of them in its
parent has no hash, and the mount satisfies the invariant again.  If `p` was
materialized already, the mount is unchanged. -/
theorem materialize_transitive (fuel : Nat) (m : Mount) (p : InodePtr) (d : Nat)
    (st : TreeInodeState) (hinv : MaterializedUpward m) (hl : Linked m p d) (hle : d ≤ fuel)
    (hc : m.contents p = some st) :
    ∃ m1, materialize fuel m p = (.ok (), m1) ∧
      (∀ a, a = p ∨ StrictAncestor m a p →
        ∃ st1, m1.contents a = some st1 ∧ st1.treeHash = none) ∧
      (∀ a loc b, a = p ∨ StrictAncestor m a p → m.location a = some loc →
        loc.parent = some b → ∃ e, m1.entry b loc.name = some e ∧ e.hash = none) ∧
      MaterializedUpward m1 ∧
      (st.treeHash = none → m1 = m) := by
  have hchain := materialize_chain fuel m p d st hl hle hc (fun a _ => hinv.2 a)
  refine ⟨(materialize fuel m p).2,
    Prod.ext (materialize_ok fuel m p d st hl.to_chainOk hle hc) rfl,
    fun a ha => (hchain a ha).1, fun a loc b ha h1 h2 => (hchain a ha).2 loc b h1 h2,
    materialize_invariant fuel m p d st hinv hl hle hc, ?_⟩
  intro hn
  rw [materialize_noop fuel m p st hc hn]

/-- Nothing is materialized in `mountNested`. -/
theorem Example.mountNested_hashed (q : InodePtr) (st : TreeInodeState)
    (h : Example.mountNested.contents q = some st) :
    st.treeHash ≠ none ∧ ∀ name e, st.entries.find name = some e → e.hash ≠ none := by
  simp only [Example.mountNested, Example.build, List.lookup] at h
  split at h
  · cases h
    refine ⟨by decide, ?_⟩
    intro name e hf
    simp only [DirContents.find, List.lookup] at hf
    split at hf
    · cases hf
      decide
    · cases hf
  · split at h
    · cases h
      refine ⟨by decide, ?_⟩
      intro name e hf
      simp only [DirContents.find, List.lookup] at hf
      split at hf
      · cases hf
        decide
      · cases hf
    · cases h

/-- C16 at work: `materialize` on the directory `d` of `mountNested`, one step
below the root. -/
theorem materialize_transitive_witness :
    ∃ m1, materialize 4 Example.mountNested 2 = (.ok (), m1) ∧
      (∀ a, a = 2 ∨ StrictAncestor Example.mountNested a 2 →
        ∃ st1, m1.contents a = some st1 ∧ st1.treeHash = none) ∧
      (∀ a loc b, a = 2 ∨ StrictAncestor Example.mountNested a 2 →
        Example.mountNested.location a = some loc →
        loc.parent = some b → ∃ e, m1.entry b loc.name = some e ∧ e.hash = none) ∧
      MaterializedUpward m1 ∧
      ((some 20 : Option Hash) = none → m1 = Example.mountNested) :=
  materialize_transitive 4 Example.mountNested 2 1
    { entries := [("x", Example.fileEntry 3 (some 30) false)], treeHash := some 20 }
    ⟨fun q st name e hq hf he => absurd he ((Example.mountNested_hashed q st hq).2 name e hf),
     fun q loc parent st _ _ _ hq hn => absurd hn (Example.mountNested_hashed q st hq).1⟩
    (Linked.child rfl rfl rfl (Linked.root rfl rfl) rfl)
    (by decide) rfl

/-! ### C12: one loader per inode number -/

namespace Loading

/-- The invariant looks at the entries, the loads in progress and the logs;
it survives every change that only loads entries with constructed objects,
starts loads of constructed objects under the names of their entries, hands out
constructed objects, and keeps the count. -/
theorem LoadInv.of_grown {s s1 : LoadState} (hinv : LoadInv s)
    (hent : ∀ name e1, s1.entries.find name = some e1 →
      ∃ e, s.entries.find name = some e ∧ e1.inodeNumber = e.inodeNumber ∧
        ∀ o, e1.inode = some o → e.inode = some o ∨ (e.inodeNumber, o) ∈ s1.constructed)
    (hcons : ∀ x ∈ s.constructed, x ∈ s1.constructed)
    (hloads : ∀ l ∈ s1.loads, l ∈ s.loads ∨
      ((∀ e, s.entries.find l.name = some e → e.inodeNumber = l.number) ∧
        ∀ o, l.outcome = .ok o → (l.number, o) ∈ s1.constructed))
    (hrec : ∀ n o, (n, Except.ok o) ∈ s1.received →
      (n, Except.ok o) ∈ s.received ∨ (n, o) ∈ s1.constructed)
    (hcount : ∀ n, (s1.constructed.filter (fun c => c.1 = n)).length ≤ s1.startLoads.count n) :
    LoadInv s1 where
  loaded := by
    intro name e1 o hf ho
    obtain ⟨e, he, hnum, hin⟩ := hent name e1 hf
    rw [hnum]
    rcases hin o ho with h | h
    · exact hcons _ (hinv.loaded name e o he h)
    · exact h
  pending := by
    intro l hl
    have hboth : (∀ e, s.entries.find l.name = some e → e.inodeNumber = l.number) ∧
        ∀ o, l.outcome = .ok o → (l.number, o) ∈ s1.constructed := by
      rcases hloads l hl with h | h
      · exact ⟨(hinv.pending l h).1, fun o ho => hcons _ ((hinv.pending l h).2 o ho)⟩
      · exact h
    refine ⟨?_, hboth.2⟩
    intro e1 hf
    obtain ⟨e, he, hnum, _⟩ := hent l.name e1 hf
    rw [hnum]
    exact hboth.1 e he
  received := by
    intro n o h
    rcases hrec n o h with h1 | h1
    · exact hcons _ (hinv.received n o h1)
    · exact h1
  count := hcount

/-- The entries after the inode of the entry `name` was set. -/
theorem find_assign_setInode (d : DirContents) (name : PathComponent) (entry : DirEntry)
    (o : InodePtr) (hf : d.find name = some entry) (k : PathComponent) (e1 : DirEntry)
    (h : (d.assign name (entry.setInode o)).find k = some e1) :
    ∃ e, d.find k = some e ∧ e1.inodeNumber = e.inodeNumber ∧
      ∀ o1, e1.inode = some o1 → e.inode = some o1 ∨ (k = name ∧ e = entry ∧ o1 = o) := by
  rw [DirContents.find_assign] at h
  by_cases hk : k = name
  · subst hk
    rw [if_pos rfl, hf] at h
    simp only [Option.map_some', Option.some.injEq] at h
    subst h
    refine ⟨entry, hf, rfl, ?_⟩
    intro o1 ho1
    simp only [DirEntry.setInode, Option.some.injEq] at ho1
    exact Or.inr ⟨rfl, rfl, ho1.symm⟩
  · rw [if_neg hk] at h
    exact ⟨e1, h, rfl, fun o1 ho1 => Or.inl ho1⟩

theorem filter_length_snoc (l : List (InodeNumber × InodePtr)) (x : InodeNumber × InodePtr)
    (n : InodeNumber) :
    ((l ++ [x]).filter (fun c => c.1 = n)).length =
      (l.filter (fun c => c.1 = n)).length + (if x.1 = n then 1 else 0) := by
  rw [List.filter_append, List.length_append]
  by_cases h : x.1 = n <;> simp [List.filter, h]

theorem count_snoc (l : List InodeNumber) (x n : InodeNumber) :
    (l ++ [x]).count n = l.count n + (if x = n then 1 else 0) := by
  rw [List.count_append]
  by_cases h : x = n
  · subst h; simp
  · simp [h, List.count_cons]

/-- The invariant survives a look-up. -/
theorem loadInv_getOrLoadChild (dotEden : InodeNumber) (s : LoadState) (p : InodePtr)
    (name : PathComponent) (promise : PromiseId) (startLoad ready : Bool)
    (failure : Option Failure) (hinv : LoadInv s) :
    LoadInv (getOrLoadChild dotEden s p name promise startLoad ready failure).2 := by
  unfold getOrLoadChild
  cases hf : s.entries.find name with
  | none =>
    simp only []
    split <;> exact hinv
  | some entry =>
    simp only []
    cases hi : entry.inode with
    | some child =>
      simp only []
      refine hinv.of_grown (fun k e1 h => ⟨e1, h, rfl, fun o ho => Or.inl ho⟩) (fun x hx => hx)
        (fun l hl => Or.inl hl) ?_ hinv.count
      intro n o h
      simp only [List.mem_append, List.mem_singleton, Prod.mk.injEq, Except.ok.injEq] at h
      rcases h with h | ⟨rfl, rfl⟩
      · exact Or.inl h
      · exact Or.inr (hinv.loaded name entry _ hf hi)
    | none =>
      simp only []
      cases startLoad with
      | false =>
        simp only [Bool.false_eq_true, if_false]
        exact hinv.of_grown (fun k e1 h => ⟨e1, h, rfl, fun o ho => Or.inl ho⟩) (fun x hx => hx)
          (fun l hl => Or.inl hl) (fun n o h => Or.inl h) hinv.count
      | true =>
        simp only [if_true]
        cases failure with
        | some err =>
          simp only [startLoadingInodeNoThrow, shouldLoadChild, if_true]
          have hgrow : LoadInv
              { s with
                promises := fun n =>
                  if n = entry.inodeNumber then s.promises n ++ [promise] else s.promises n
                startLoads := s.startLoads ++ [entry.inodeNumber]
                loads := s.loads ++
                  [{ name := name, number := entry.inodeNumber, outcome := .error err }] } := by
            refine hinv.of_grown (fun k e1 h => ⟨e1, h, rfl, fun o ho => Or.inl ho⟩)
              (fun x hx => hx) ?_ (fun n o h => Or.inl h) ?_
            · intro l hl
              simp only [List.mem_append, List.mem_singleton] at hl
              rcases hl with h | rfl
              · exact Or.inl h
              · refine Or.inr ⟨?_, ?_⟩
                · intro e he
                  simp only at he
                  rw [hf] at he
                  cases he
                  rfl
                · intro o ho
                  cases ho
            · intro n
              simp only [count_snoc]
              exact Nat.le_add_right_of_le (hinv.count n)
          cases ready <;> exact hgrow
        | none =>
          simp only [startLoadingInodeNoThrow, shouldLoadChild, if_true]
          have hcount : ∀ n,
              ((s.constructed ++ [(entry.inodeNumber, s.nextObject)]).filter
                (fun c => c.1 = n)).length ≤ (s.startLoads ++ [entry.inodeNumber]).count n := by
            intro n
            rw [filter_length_snoc, count_snoc]
            exact Nat.add_le_add_right (hinv.count n) _
          cases ready with
          | true =>
            simp only [inodeMapLoadComplete, fulfil]
            refine hinv.of_grown ?_ (fun x hx => List.mem_append_left _ hx)
              (fun l hl => Or.inl hl) ?_ hcount
            · intro k e1 h
              obtain ⟨e, he, hnum, hin⟩ := find_assign_setInode s.entries name entry _ hf k e1 h
              refine ⟨e, he, hnum, fun o ho => ?_⟩
              rcases hin o ho with h1 | ⟨_, rfl, rfl⟩
              · exact Or.inl h1
              · exact Or.inr (by simp)
            · intro n o h
              simp only [List.mem_append, List.mem_map, Prod.mk.injEq, Except.ok.injEq] at h
              rcases h with h | ⟨_, _, rfl, rfl⟩
              · exact Or.inl h
              · exact Or.inr (by simp)
          | false =>
            simp only []
            refine hinv.of_grown (fun k e1 h => ⟨e1, h, rfl, fun o ho => Or.inl ho⟩)
              (fun x hx => List.mem_append_left _ hx) ?_ (fun n o h => Or.inl h) hcount
            intro l hl
            simp only [List.mem_append, List.mem_singleton] at hl
            rcases hl with h | rfl
            · exact Or.inl h
            · refine Or.inr ⟨?_, ?_⟩
              · intro e he
                simp only at he
                rw [hf] at he
                cases he
                rfl
              · intro o ho
                simp only [Except.ok.injEq] at ho
                subst ho
                simp

end Loading
namespace Loading

/-- The invariant survives `loadChildLocked`. -/
theorem loadInv_loadChildLocked (s : LoadState) (name : PathComponent) (promise : PromiseId)
    (startLoad : Bool) (failure : Option Failure) (hinv : LoadInv s) :
    LoadInv (loadChildLocked s name promise startLoad failure).2 := by
  unfold loadChildLocked
  cases hf : s.entries.find name with
  | none => exact hinv
  | some entry =>
    simp only []
    split
    · exact hinv
    · cases startLoad with
      | false =>
        simp only [Bool.false_eq_true, if_false]
        exact hinv.of_grown (fun k e1 h => ⟨e1, h, rfl, fun o ho => Or.inl ho⟩) (fun x hx => hx)
          (fun l hl => Or.inl hl) (fun n o h => Or.inl h) hinv.count
      | true =>
        simp only [if_true]
        cases failure with
        | some err =>
          simp only [startLoadingInodeNoThrow, shouldLoadChild, if_true]
          refine hinv.of_grown (fun k e1 h => ⟨e1, h, rfl, fun o ho => Or.inl ho⟩)
            (fun x hx => hx) ?_ (fun n o h => Or.inl h) ?_
          · intro l hl
            simp only [List.mem_append, List.mem_singleton] at hl
            rcases hl with h | rfl
            · exact Or.inl h
            · refine Or.inr ⟨?_, ?_⟩
              · intro e he
                simp only at he
                rw [hf] at he
                cases he
                rfl
              · intro o ho
                cases ho
          · intro n
            simp only [count_snoc]
            exact Nat.le_add_right_of_le (hinv.count n)
        | none =>
          simp only [startLoadingInodeNoThrow, shouldLoadChild, if_true]
          refine hinv.of_grown (fun k e1 h => ⟨e1, h, rfl, fun o ho => Or.inl ho⟩)
            (fun x hx => List.mem_append_left _ hx) ?_ (fun n o h => Or.inl h) ?_
          · intro l hl
            simp only [List.mem_append, List.mem_singleton] at hl
            rcases hl with h | rfl
            · exact Or.inl h
            · refine Or.inr ⟨?_, ?_⟩
              · intro e he
                simp only at he
                rw [hf] at he
                cases he
                rfl
              · intro o ho
                simp only [Except.ok.injEq] at ho
                subst ho
                simp
          · intro n
            rw [filter_length_snoc, count_snoc]
            exact Nat.add_le_add_right (hinv.count n) _

/-- The invariant survives the failure of a load. -/
theorem loadInv_inodeLoadFailed (s : LoadState) (number : InodeNumber) (error : Failure)
    (hinv : LoadInv s) : LoadInv (inodeLoadFailed s number error) := by
  simp only [inodeLoadFailed, inodeMapLoadComplete, fulfil]
  refine hinv.of_grown (fun k e1 h => ⟨e1, h, rfl, fun o ho => Or.inl ho⟩) (fun x hx => hx)
    (fun l hl => Or.inl hl) ?_ hinv.count
  intro n o h
  simp only [List.mem_append, List.mem_map, Prod.mk.injEq] at h
  rcases h with h | ⟨_, _, _, h⟩
  · exact Or.inl h
  · cases h

/-- The invariant survives the completion of a load in progress. -/
theorem loadInv_complete (s : LoadState) (index : Nat) (load : PendingLoad)
    (hget : s.loads.get? index = some load) (hinv : LoadInv s) :
    LoadInv (inodeLoadComplete { s with loads := s.loads.eraseIdx index } load) := by
  have hmem : load ∈ s.loads := List.get?_mem hget
  have hinv1 : LoadInv { s with loads := s.loads.eraseIdx index } :=
    hinv.of_grown (fun k e1 h => ⟨e1, h, rfl, fun o ho => Or.inl ho⟩) (fun x hx => hx)
      (fun l hl => Or.inl (List.mem_of_mem_eraseIdx hl)) (fun n o h => Or.inl h) hinv.count
  unfold inodeLoadComplete
  cases ho : load.outcome with
  | error e => exact loadInv_inodeLoadFailed _ _ _ hinv1
  | ok childInode =>
    simp only []
    cases hf : s.entries.find load.name with
    | none => exact loadInv_inodeLoadFailed _ _ _ hinv1
    | some entry =>
      simp only [inodeMapLoadComplete, fulfil]
      obtain ⟨hnum, hcon⟩ := hinv.pending load hmem
      have hc : (load.number, childInode) ∈ s.constructed := hcon childInode ho
      refine hinv.of_grown ?_ (fun x hx => hx)
        (fun l hl => Or.inl (List.mem_of_mem_eraseIdx hl)) ?_ hinv.count
      · intro k e1 h
        obtain ⟨e, he, hnum1, hin⟩ :=
          find_assign_setInode s.entries load.name entry _ hf k e1 h
        refine ⟨e, he, hnum1, fun o ho1 => ?_⟩
        rcases hin o ho1 with h1 | ⟨_, rfl, rfl⟩
        · exact Or.inl h1
        · right
          rw [hnum e hf]
          exact hc
      · intro n o h
        simp only [List.mem_append, List.mem_map, Prod.mk.injEq, Except.ok.injEq] at h
        rcases h with h | ⟨_, _, rfl, rfl⟩
        · exact Or.inl h
        · exact Or.inr hc

theorem loadInv_step (dotEden : InodeNumber) (p : InodePtr) (s : LoadState) (st : LoadStep)
    (hinv : LoadInv s) : LoadInv (step dotEden p s st) := by
  cases st with
  | lookup name promise startLoad ready failure => exact loadInv_getOrLoadChild _ _ _ _ _ _ _ _ hinv
  | loadLocked name promise startLoad failure => exact loadInv_loadChildLocked _ _ _ _ _ hinv
  | complete index =>
    simp only [step]
    cases hget : s.loads.get? index with
    | none => exact hinv
    | some load => exact loadInv_complete s index load hget hinv

theorem loadInv_run (dotEden : InodeNumber) (p : InodePtr) (steps : List LoadStep) :
    ∀ s, LoadInv s → LoadInv (run dotEden p s steps) := by
  induction steps with
  | nil => intro s h; exact h
  | cons st rest ih =>
    intro s h
    exact ih _ (loadInv_step dotEden p s st h)

theorem loadInv_init (entries : DirContents)
    (h : ∀ name e, entries.find name = some e → e.inode = none) :
    LoadInv (LoadState.init entries) where
  loaded := by
    intro name e o hf ho
    rw [h name e hf] at ho
    cases ho
  pending := by intro l hl; cases hl
  received := by intro n o hr; cases hr
  count := by intro n; simp [LoadState.init]

/-- At most one element of a list with at most one element. -/
theorem eq_of_mem_filter_length_le_one (l : List (InodeNumber × InodePtr)) (n : InodeNumber)
    (o1 o2 : InodePtr) (hlen : (l.filter (fun c => c.1 = n)).length ≤ 1)
    (h1 : (n, o1) ∈ l) (h2 : (n, o2) ∈ l) : o1 = o2 := by
  have m1 : (n, o1) ∈ l.filter (fun c => c.1 = n) := List.mem_filter.2 ⟨h1, by simp⟩
  have m2 : (n, o2) ∈ l.filter (fun c => c.1 = n) := List.mem_filter.2 ⟨h2, by simp⟩
  generalize l.filter (fun c => c.1 = n) = f at hlen m1 m2
  match f, hlen, m1, m2 with
  | [x], _, m1, m2 =>
    simp only [List.mem_singleton] at m1 m2
    have := m1.trans m2.symm
    exact (Prod.mk.inj this).2

end Loading
/-- C12 (single loader).  A look-up constructs an inode object only when the
entry is present, has no loaded inode, and the `InodeMap` answered
`startLoad = true`, and so does `loadChildLocked`; a look-up of an entry with a
loaded inode returns exactly that inode and leaves the `InodeMap`, the
directory and the loads as they are, constructing nothing.  Hence in every run
of look-ups, calls of `loadChildLocked` and completions of loads on a directory
whose entries were not loaded at the start: for an inode number for which the
`InodeMap` answered `startLoad = true` at most once, at most one object was
constructed, and all callers that received a child for this number, from the
entry or through their promise, received the same object. -/
theorem single_loader (dotEden : InodeNumber) (p : InodePtr) (entries : DirContents)
    (steps : List Loading.LoadStep)
    (hfresh : ∀ name e, entries.find name = some e → e.inode = none) :
    (∀ s name promise startLoad ready failure,
      ((Loading.getOrLoadChild dotEden s p name promise startLoad ready failure).2.constructed ≠
          s.constructed →
        ∃ e, s.entries.find name = some e ∧ e.inode = none ∧ startLoad = true) ∧
      (∀ e o, s.entries.find name = some e → e.inode = some o →
        (Loading.getOrLoadChild dotEden s p name promise startLoad ready failure).1 =
            .ready (.ok o) ∧
          (Loading.getOrLoadChild dotEden s p name promise startLoad ready failure).2 =
            { s with received := s.received ++ [(e.inodeNumber, .ok o)] })) ∧
    (∀ s name promise startLoad failure,
      (Loading.loadChildLocked s name promise startLoad failure).2.constructed ≠ s.constructed →
        ∃ e, s.entries.find name = some e ∧ e.inode = none ∧ startLoad = true) ∧
    (∀ n, (Loading.run dotEden p (Loading.LoadState.init entries) steps).startLoads.count n ≤ 1 →
      ((Loading.run dotEden p (Loading.LoadState.init entries) steps).constructed.filter
          (fun c => c.1 = n)).length ≤ 1 ∧
        ∀ o1 o2,
          (n, Except.ok o1) ∈
            (Loading.run dotEden p (Loading.LoadState.init entries) steps).received →
          (n, Except.ok o2) ∈
            (Loading.run dotEden p (Loading.LoadState.init entries) steps).received →
          o1 = o2) := by
  refine ⟨?_, ?_, ?_⟩
  · intro s name promise startLoad ready failure
    constructor
    · intro hne
      unfold Loading.getOrLoadChild at hne
      cases hf : s.entries.find name with
      | none =>
        rw [hf] at hne
        simp only [] at hne
        split at hne <;> exact absurd rfl hne
      | some entry =>
        rw [hf] at hne
        simp only [] at hne
        cases hi : entry.inode with
        | some child =>
          rw [hi] at hne
          exact absurd rfl hne
        | none =>
          cases startLoad with
          | true => exact ⟨entry, rfl, hi, rfl⟩
          | false =>
            rw [hi] at hne
            exact absurd rfl hne
    · intro e o hf ho
      unfold Loading.getOrLoadChild
      simp only [hf, ho]
      exact ⟨trivial, trivial⟩
  · intro s name promise startLoad failure hne
    unfold Loading.loadChildLocked at hne
    cases hf : s.entries.find name with
    | none =>
      rw [hf] at hne
      exact absurd rfl hne
    | some entry =>
      rw [hf] at hne
      simp only [] at hne
      cases hi : entry.inode with
      | some child =>
        rw [hi] at hne
        exact absurd rfl hne
      | none =>
        cases startLoad with
        | true => exact ⟨entry, rfl, hi, rfl⟩
        | false =>
          rw [hi] at hne
          exact absurd rfl hne
  · intro n hn
    have hinv := Loading.loadInv_run dotEden p steps _ (Loading.loadInv_init entries hfresh)
    have hlen := Nat.le_trans (hinv.count n) hn
    refine ⟨hlen, ?_⟩
    intro o1 o2 h1 h2
    exact Loading.eq_of_mem_filter_length_le_one _ n o1 o2 hlen (hinv.received n o1 h1)
      (hinv.received n o2 h2)

/-- C12 at work: three look-ups of the file `a` (inode number 3): the first
starts the load, the second waits for it, the load completes, the third finds
the entry loaded; all three receive the object at address 1000. -/
theorem single_loader_witness :
    (Loading.run 9 1 (Loading.LoadState.init [("a", Example.fileEntry 3 (some 30) false)])
        [.lookup "a" 1 true false none, .lookup "a" 2 false false none, .complete 0,
         .lookup "a" 3 false false none]).received =
      [(3, .ok 1000), (3, .ok 1000), (3, .ok 1000)] ∧
    ∀ o1 o2,
      (3, Except.ok o1) ∈
        (Loading.run 9 1 (Loading.LoadState.init [("a", Example.fileEntry 3 (some 30) false)])
          [.lookup "a" 1 true false none, .lookup "a" 2 false false none, .complete 0,
           .lookup "a" 3 false false none]).received →
      (3, Except.ok o2) ∈
        (Loading.run 9 1 (Loading.LoadState.init [("a", Example.fileEntry 3 (some 30) false)])
          [.lookup "a" 1 true false none, .lookup "a" 2 false false none, .complete 0,
           .lookup "a" 3 false false none]).received →
      o1 = o2 :=
  ⟨rfl,
   ((single_loader 9 1 [("a", Example.fileEntry 3 (some 30) false)]
      [.lookup "a" 1 true false none, .lookup "a" 2 false false none, .complete 0,
       .lookup "a" 3 false false none]
      (by
        intro name e h
        simp only [DirContents.find, List.lookup] at h
        split at h
        · cases h
          rfl
        · cases h)).2.2 3 (by decide)).2⟩

/-! ### C19: the journal record of a rename -/

/-- The path of an inode depends on the locations of the inode and of the inodes
above it only. -/
theorem getPath_agree (fuel : Nat) :
    ∀ (m m1 : Mount) (p : InodePtr),
      (∀ q, q = p ∨ StrictAncestor m q p → m1.location q = m.location q) →
      getPath fuel m1 p = getPath fuel m p := by
  induction fuel with
  | zero => intro m m1 p _; rfl
  | succ fuel ih =>
    intro m m1 p h
    simp only [getPath, h p (Or.inl rfl)]
    cases hl : m.location p with
    | none => rfl
    | some loc =>
      simp only []
      split
      · rfl
      · cases hp : loc.parent with
        | none => rfl
        | some parent =>
          simp only []
          rw [ih m m1 parent (fun q hq => h q (Or.inr (StrictAncestor.to_child hl hp hq)))]

theorem lockDestChild_iter (m : Mount) (dest : InodePtr) (destName : PathComponent)
    (r : Option DirEntry × Option InodePtr) (h : lockDestChild m dest destName = .ok r) :
    r.1 = m.entry dest destName := by
  unfold lockDestChild at h
  unfold Mount.entry
  cases hc : m.contents dest with
  | none => rw [hc] at h; cases h
  | some st =>
    rw [hc] at h
    simp only [Option.some_bind] at h ⊢
    cases hf : st.entries.find destName with
    | none => rw [hf] at h; cases h; rfl
    | some e =>
      rw [hf] at h
      simp only [] at h
      split at h
      · split at h
        · split at h
          · cases h; rfl
          · cases h
        · cases h; rfl
      · cases h; rfl

/-- The locks `acquireLocks` returns hold the destination directory and the
entry it has for the destination name. -/
theorem acquireLocks_iter (fuel : Nat) (m : Mount) (self dest : InodePtr)
    (destName : PathComponent) (locks : TreeRenameLocks)
    (h : acquireLocks fuel m self dest destName = .ok locks) :
    locks.destContents = dest ∧ locks.destChildIter = m.entry dest destName := by
  unfold acquireLocks at h
  split at h
  · rename_i hsd
    subst hsd
    split at h
    · cases h
    · rename_i r hr
      cases h
      exact ⟨rfl, lockDestChild_iter m self destName r hr⟩
  · split at h
    · cases h
    · split at h
      · cases h
      · rename_i r hr
        cases h
        exact ⟨rfl, lockDestChild_iter m dest destName r hr⟩
    · split at h
      · cases h
      · rename_i r hr
        split at h
        · split at h
          · cases h
          · cases h
            exact ⟨rfl, lockDestChild_iter m dest destName r hr⟩
        · cases h
          exact ⟨rfl, lockDestChild_iter m dest destName r hr⟩

/-- The placement of the source entry in the destination directory adds nothing
to the journal and moves no inode but the replaced child, which it marks
unlinked. -/
theorem doRename_placed_frame (M : Mount) (locks : TreeRenameLocks) (s : DirEntry)
    (destName : PathComponent) (destState : TreeInodeState) (mP : Mount)
    (hplaced :
      (if locks.destChildExists = true then
        match locks.destChild with
        | none => Except.error Failure.bug
        | some destChild =>
          Except.ok
            ((M.markUnlinked destChild).setContents locks.destContents
              { entries := destState.entries.assign destName s, treeHash := destState.treeHash })
      else
        if (!(destState.entries.emplace destName s).2) = true then Except.error Failure.bug
        else Except.ok (M.setContents locks.destContents
          { entries := (destState.entries.emplace destName s).1,
            treeHash := destState.treeHash })) =
      Except.ok mP) :
    mP.journal = M.journal ∧
      ∀ q, locks.destChild ≠ some q → mP.location q = M.location q := by
  split at hplaced
  · split at hplaced
    · cases hplaced
    · rename_i destChild hdc
      cases hplaced
      refine ⟨rfl, fun q hq => ?_⟩
      have hne : q ≠ destChild := fun h => hq (by rw [hdc, h])
      simp [Mount.setContents, Mount.markUnlinked, hne]
  · split at hplaced
    · cases hplaced
    · cases hplaced
      exact ⟨rfl, fun q _ => rfl⟩
/-- The last step of `doRename`: the record is added exactly if both directories
have a path after the move. -/
theorem doRename_record (fuel : Nat) (m5 : Mount) (destChildExists : Bool) (self : InodePtr)
    (name : PathComponent) (dest : InodePtr) (destName : PathComponent)
    (r : Except Failure Unit) (m1 : Mount)
    (h :
      (match getPath fuel m5 self, getPath fuel m5 dest with
        | .error e, _ => (Except.error e, m5)
        | _, .error e => (.error e, m5)
        | .ok (some srcPath), .ok (some destPath) =>
          if destChildExists then
            (.ok (), m5.addDelta (.REPLACE (srcPath ++ [name]) (destPath ++ [destName])))
          else
            (.ok (), m5.addDelta (.RENAME (srcPath ++ [name]) (destPath ++ [destName])))
        | .ok _, .ok _ => (.ok (), m5)) = (r, m1)) :
    (r ≠ .ok () → m1 = m5) ∧
    (r = .ok () →
      ((∃ sp dp, getPath fuel m5 self = .ok (some sp) ∧ getPath fuel m5 dest = .ok (some dp) ∧
          m1 = m5.addDelta
            (if destChildExists then .REPLACE (sp ++ [name]) (dp ++ [destName])
             else .RENAME (sp ++ [name]) (dp ++ [destName]))) ∨
        ((getPath fuel m5 self = .ok none ∨ getPath fuel m5 dest = .ok none) ∧ m1 = m5))) := by
  split at h
  · cases h; exact ⟨fun _ => rfl, fun h => by cases h⟩
  · cases h; exact ⟨fun _ => rfl, fun h => by cases h⟩
  · rename_i sp dp hs hd
    refine ⟨fun hr => ?_, fun _ => Or.inl ⟨sp, dp, hs, hd, ?_⟩⟩
    · split at h <;> cases h <;> exact absurd rfl hr
    · split at h
      · rename_i hx
        cases h
        rw [if_pos hx]
      · rename_i hx
        cases h
        rw [if_neg hx]
  · rename_i a b hnss ha hb
    cases h
    refine ⟨fun _ => rfl, fun _ => Or.inr ⟨?_, rfl⟩⟩
    cases a with
    | none => exact Or.inl ha
    | some sp =>
      cases b with
      | none => exact Or.inr hb
      | some dp => exact absurd rfl (fun h => hnss sp dp rfl h)

/-- The journal of `doRename` when it is not the same-inode no-op: a failure
leaves the journal as it was; a success moved only the source child and the
replaced child, and then added one record built from the paths of the two
directories (`REPLACE` if the destination entry existed, `RENAME` otherwise) if
both have a path, and nothing if one of them has none. -/
theorem doRename_journal (fuel : Nat) (M : Mount) (locks : TreeRenameLocks) (self : InodePtr)
    (name : PathComponent) (s : DirEntry) (dest : InodePtr) (destName : PathComponent)
    (hnoop : ¬ (locks.destChildExists ∧ s.inode = locks.destChild))
    (r : Except Failure Unit) (m1 : Mount)
    (h : doRename fuel M locks self name s dest destName = (r, m1)) :
    (r ≠ .ok () → m1.journal = M.journal) ∧
    (r = .ok () → ∃ c m5, s.inode = some c ∧ m5.journal = M.journal ∧
      (∀ q, q ≠ c → locks.destChild ≠ some q → m5.location q = M.location q) ∧
      ((∃ sp dp, getPath fuel m5 self = .ok (some sp) ∧ getPath fuel m5 dest = .ok (some dp) ∧
          m1 = m5.addDelta
            (if locks.destChildExists then .REPLACE (sp ++ [name]) (dp ++ [destName])
             else .RENAME (sp ++ [name]) (dp ++ [destName]))) ∨
        ((getPath fuel m5 self = .ok none ∨ getPath fuel m5 dest = .ok none) ∧ m1 = m5))) := by
  unfold doRename at h
  rw [if_neg hnoop] at h
  simp only [] at h
  split at h
  · cases h; exact ⟨fun _ => rfl, fun h => by cases h⟩
  · cases h; exact ⟨fun _ => rfl, fun h => by cases h⟩
  · split at h
    · cases h; exact ⟨fun _ => rfl, fun h => by cases h⟩
    · cases h; exact ⟨fun _ => rfl, fun h => by cases h⟩
    · rename_i childInode destState hci hds
      split at h
      · cases h; exact ⟨fun _ => rfl, fun h => by cases h⟩
      · rename_i mP hplaced
        obtain ⟨hjP, hlP⟩ := doRename_placed_frame M locks s destName destState mP hplaced
        split at h
        · cases h; exact ⟨fun _ => hjP, fun h => by cases h⟩
        · rename_i srcState hss
          have h5j : ∀ (m4 : Mount),
              (if dest ≠ self then
                match m4.contents locks.destContents with
                | some st => m4.saveOverlayDir dest st.entries
                | none => m4
              else m4).journal = m4.journal := by
            intro m4
            split
            · split <;> rfl
            · rfl
          have h5l : ∀ (m4 : Mount),
              (if dest ≠ self then
                match m4.contents locks.destContents with
                | some st => m4.saveOverlayDir dest st.entries
                | none => m4
              else m4).location = m4.location := by
            intro m4
            split
            · split <;> rfl
            · rfl
          have h4j : ∀ (m3 : Mount),
              (match m3.contents locks.srcContents with
                | some st => m3.saveOverlayDir self st.entries
                | none => m3).journal = m3.journal := by
            intro m3
            split <;> rfl
          have h4l : ∀ (m3 : Mount),
              (match m3.contents locks.srcContents with
                | some st => m3.saveOverlayDir self st.entries
                | none => m3).location = m3.location := by
            intro m3
            split <;> rfl
          obtain ⟨hA, hB⟩ := doRename_record fuel _ _ self name dest destName r m1 h
          refine ⟨fun hr => ?_, fun hr => ⟨childInode, _, hci, ?_, ?_, hB hr⟩⟩
          · rw [hA hr]
            exact (h5j _).trans ((h4j _).trans hjP)
          · exact (h5j _).trans ((h4j _).trans hjP)
          · intro q hq1 hq2
            refine (congrFun (h5l _) q).trans ((congrFun (h4l _) q).trans ?_)
            simp only [Mount.setContents, Mount.updateLocation, hq1, if_false]
            exact hlP q hq2
theorem RenameJournal.of_same {journal : List JournalDelta} {r : Result Unit}
    {name destName : PathComponent} (h : r.2.journal = journal) :
    RenameJournal journal r name destName :=
  ⟨fun _ => h, Or.inl h⟩

/-- The journal of `doRename`, whatever its outcome. -/
theorem doRename_renameJournal (fuel : Nat) (M : Mount) (locks : TreeRenameLocks)
    (self : InodePtr) (name : PathComponent) (s : DirEntry) (dest : InodePtr)
    (destName : PathComponent) :
    RenameJournal M.journal (doRename fuel M locks self name s dest destName) name destName := by
  by_cases hnoop : locks.destChildExists ∧ s.inode = locks.destChild
  · unfold doRename
    rw [if_pos hnoop]
    exact RenameJournal.of_same rfl
  · cases hres : doRename fuel M locks self name s dest destName with
    | mk r m1 =>
      obtain ⟨hA, hB⟩ := doRename_journal fuel M locks self name s dest destName hnoop r m1 hres
      refine ⟨hA, ?_⟩
      by_cases hr : r = .ok ()
      · obtain ⟨c, m5, _, hj, _, hcase⟩ := hB hr
        rcases hcase with ⟨sp, dp, _, _, hm1⟩ | ⟨_, hm1⟩
        · refine Or.inr ⟨sp, dp, ?_⟩
          show m1.journal = _ ∨ m1.journal = _
          rw [hm1]
          split
          · exact Or.inr (by simp [Mount.addDelta, hj])
          · exact Or.inl (by simp [Mount.addDelta, hj])
        · exact Or.inl (by show m1.journal = _; rw [hm1, hj])
      · exact Or.inl (hA hr)

/-- The load of a child that `rename` starts before it runs again adds nothing
to the journal. -/
theorem renameLoad_journal (b : Bool) (m : Mount) (p : InodePtr) (name : PathComponent) :
    (if b = true then
      match getOrLoadChild m p name with
      | (.error e, m3) => ((Except.error e : Except Failure Unit), m3)
      | (.ok _, m3) => (.ok (), m3)
    else (.ok (), m)).2.journal = m.journal := by
  have h := getOrLoadChild_journal m p name
  split
  · split
    · rename_i heq; rw [heq] at h; exact h
    · rename_i heq; rw [heq] at h; exact h
  · rfl

/-- The journal of `rename`, whatever its outcome: nothing was added, or the
call succeeded and added one record of a rename or a replacement from the
source name to the destination name. -/
theorem rename_renameJournal (R fuel : Nat) :
    ∀ (m : Mount) (self : InodePtr) (name : PathComponent) (dest : InodePtr)
      (destName : PathComponent),
      RenameJournal m.journal (rename R fuel m self name dest destName) name destName := by
  induction R with
  | zero => intro m self name dest destName; exact RenameJournal.of_same rfl
  | succ R ih =>
    intro m self name dest destName
    unfold rename
    split
    · exact RenameJournal.of_same rfl
    split
    · exact RenameJournal.of_same rfl
    split
    · exact RenameJournal.of_same rfl
    have hM1 := materialize_mat fuel m self
    split
    · rename_i e m1 h1
      rw [h1] at hM1
      exact RenameJournal.of_same hM1.journal
    · rename_i m1 h1
      rw [h1] at hM1
      have hM2 : (if dest ≠ self then materialize fuel m1 dest else (.ok (), m1)).2.journal =
          m.journal := by
        split
        · exact (materialize_mat fuel m1 dest).journal.trans hM1.journal
        · exact hM1.journal
      split
      · rename_i e m2 h2
        rw [h2] at hM2
        exact RenameJournal.of_same hM2
      · rename_i m2 h2
        rw [h2] at hM2
        simp only [] at hM2
        split
        · exact RenameJournal.of_same hM2
        · rename_i locks hlocks
          split
          · exact RenameJournal.of_same hM2
          · rename_i srcEntry hsrc
            simp only []
            split
            · exact RenameJournal.of_same hM2
            · split
              · exact RenameJournal.of_same hM2
              · split
                · rw [← hM2]
                  exact doRename_renameJournal fuel m2 locks self name srcEntry dest destName
                · have hj : ∀ x : Mount, x.journal = m.journal →
                      RenameJournal m.journal (rename R fuel x self name dest destName) name
                        destName := by
                    intro x hx
                    rw [← hx]
                    exact ih x self name dest destName
                  have hL := (renameLoad_journal (locks.destChildExists && locks.destChild.isNone)
                    (if srcEntry.inode.isNone = true then
                      match getOrLoadChild m2 self name with
                      | (.error e, m3) => ((Except.error e : Except Failure Unit), m3)
                      | (.ok _, m3) => (.ok (), m3)
                    else (.ok (), m2)).2 dest destName).trans
                    ((renameLoad_journal srcEntry.inode.isNone m2 self name).trans hM2)
                  split
                  · exact RenameJournal.of_same hL
                  · exact RenameJournal.of_same hL
                  · exact hj _ hL
/-- Counterexample to C19 as stated: the directory 2 was removed from the root
while it held the file `f`; the rename of `f` from it to `g` in the root, a name
the root does not hold, succeeds and moves the entry, and the journal has no
record of it: the source directory has no path. -/
theorem rename_journal_counterexample :
    (rename 2 8 Example.mountGoneFile 2 "f" 1 "g").1 = .ok () ∧
    (Example.mountGoneFile.entry 2 "f").isSome = true ∧
    Example.mountGoneFile.entry 1 "g" = none ∧
    ((rename 2 8 Example.mountGoneFile 2 "f" 1 "g").2.entry 1 "g").isSome = true ∧
    (rename 2 8 Example.mountGoneFile 2 "f" 1 "g").2.entry 2 "f" = none ∧
    (rename 2 8 Example.mountGoneFile 2 "f" 1 "g").2.journal = [] := by
  refine ⟨rfl, rfl, rfl, rfl, rfl, rfl⟩

theorem Depth.located {m : Mount} {p : InodePtr} {d : Nat} (hd : Depth m p d) :
    (m.location p).isSome = true := by
  cases hd with
  | root hl _ => simp [hl]
  | child hl _ _ => simp [hl]

/-- The inodes above an inode with a finite parent chain are inode objects. -/
theorem StrictAncestor.ancestor_located {m : Mount} {p : InodePtr} {d : Nat} (hd : Depth m p d) :
    ∀ {a : InodePtr}, StrictAncestor m a p → (m.location a).isSome = true := by
  induction hd with
  | @root p loc hl hp =>
    intro a hs
    have hgp : m.getParent p = none := by rw [getParent_eq m p _ hl, hp]
    cases hs with
    | parent h => rw [hgp] at h; cases h
    | step h _ => rw [hgp] at h; cases h
  | @child p parent loc d1 hl hp hd1 ih =>
    intro a hs
    have hgp : m.getParent p = some parent := by rw [getParent_eq m p _ hl, hp]
    cases hs with
    | parent h =>
      rw [hgp] at h
      cases h
      exact hd1.located
    | step h hrest =>
      rw [hgp] at h
      cases h
      exact ih hrest

/-- In a mount that agrees with `m` on the inode objects of `m`, the inodes above
an inode with a finite parent chain in `m` are those above it in `m`. -/
theorem StrictAncestor.of_agree_depth {m m1 : Mount}
    (h : ∀ q, (m.location q).isSome = true → m1.location q = m.location q) {p : InodePtr}
    {d : Nat} (hd : Depth m p d) :
    ∀ {a : InodePtr}, StrictAncestor m1 a p → StrictAncestor m a p := by
  induction hd with
  | @root p loc hl hp =>
    intro a hs
    have hgp : m1.getParent p = none := by
      rw [Mount.getParent, h _ (by simp [hl]), hl]
      simp [hp]
    cases hs with
    | parent h1 => rw [hgp] at h1; cases h1
    | step h1 _ => rw [hgp] at h1; cases h1
  | @child p parent loc d1 hl hp hd1 ih =>
    intro a hs
    have hgp : m.getParent p = some parent := by rw [getParent_eq m p _ hl, hp]
    have hgp1 : m1.getParent p = some parent := by
      rw [Mount.getParent, h _ (by simp [hl]), hl]
      simp [hp]
    cases hs with
    | parent h1 =>
      rw [hgp1] at h1
      cases h1
      exact StrictAncestor.parent hgp
    | step h1 hrest =>
      rw [hgp1] at h1
      cases h1
      exact StrictAncestor.step hgp (ih hrest)

/-- The locked part of `rename` when the destination entry is the loaded inode of
the source entry: whatever it returns, it leaves the mount as it is. -/
theorem renameLocked_noop (restarts fuel : Nat) (M : Mount) (self dest : InodePtr)
    (name destName : PathComponent) (sst : TreeInodeState) (s t : DirEntry) (x : InodePtr)
    (hcs : M.contents self = some sst) (hfind : sst.entries.find name = some s)
    (hsx : s.inode = some x) (htx : t.inode = some x) :
    (renameLocked restarts fuel M
      { srcContents := self, destContents := dest,
        destChildContents := destChildContentsOf (some t),
        destChildIter := some t } self name dest destName).2 = M := by
  unfold renameLocked
  simp only [hcs, Option.some_bind, hfind, TreeRenameLocks.destChild, hsx, htx, ne_eq,
    not_true_eq_false, if_false, TreeRenameLocks.destChildExists, Option.isSome_some,
    Option.isNone_some, Bool.not_false, Bool.and_false, Bool.and_self, if_true]
  have hdo : doRename fuel M
      { srcContents := self, destContents := dest,
        destChildContents := destChildContentsOf (some t),
        destChildIter := some t } self name s dest destName = (.ok (), M) := by
    unfold doRename
    rw [if_pos]
    simp [TreeRenameLocks.destChildExists, TreeRenameLocks.destChild, hsx, htx]
  rw [hdo]
  cases hsd : s.isDirectory <;> cases htd : t.isDirectory <;>
    cases hu : M.isUnlinked dest <;> simp

/-- A successful `rename` that is not the same-inode no-op, in a mount that is
well formed where the rename looks at it: it ended in a successful call of
`doRename` on the mount the two calls of `materialize` left, with the source
child and the destination child loaded. -/
theorem rename_reduce (R fuel : Nat) (m m1 : Mount) (self dest : InodePtr)
    (name destName : PathComponent) (ds dd : Nat) (sst dst : TreeInodeState) (s : DirEntry)
    (hr : RenameReady m self name dest destName sst dst s)
    (hchs : ChainOk m self ds) (hchd : ChainOk m dest dd) (hfs : ds ≤ fuel) (hfd : dd ≤ fuel)
    (hdist : ∀ t, dst.entries.find destName = some t → t.inodeNumber ≠ s.inodeNumber)
    (hsucc : rename R fuel m self name dest destName = (.ok (), m1)) :
    ∃ m2 s1 d2, Mat m m2 ∧ DirEntry.Cleared s s1 ∧
      (d2.entries.find destName).isSome = (dst.entries.find destName).isSome ∧
      (∀ t1, d2.entries.find destName = some t1 →
        ∃ t, dst.entries.find destName = some t ∧ DirEntry.Cleared t t1) ∧
      LockedMove fuel m2 m1 self name dest destName s1 d2 := by
  cases R with
  | zero => simp [rename] at hsucc
  | succ r =>
    by_cases hself : self = m.dotEdenInodeNumber
    · simp [rename, hself] at hsucc
    by_cases hdest : dest = m.dotEdenInodeNumber
    · simp [rename, hself, hdest] at hsucc
    cases hname : m.nameLengthOk destName with
    | false => simp [rename, hself, hdest, hname] at hsucc
    | true =>
      obtain ⟨ma, m2, s2, d2, hm1, hm2, hM1, _, hM, hs2, hth, hcl, hd2, hdh, hdcl⟩ :=
        rename_prelude fuel m self dest ds dd sst dst hchs hchd hfs hfd hr.srcContents
          hr.destContents
      have hlocks := acquireLocks_ok fuel m2 self dest destName d2 dd (by simp [hs2]) hd2
        (hr.destTyped.typed_mat hM) (hchd.to_depth.depth_congr hM.location) hfd
      have hren : rename (r + 1) fuel m self name dest destName =
          renameLocked r fuel m2
            { srcContents := self, destContents := dest,
              destChildContents := destChildContentsOf (d2.entries.find destName),
              destChildIter := d2.entries.find destName } self name dest destName := by
        simp only [rename, hself, hdest, hname, if_false, Bool.not_true, Bool.false_eq_true, hm1,
          hm2, hlocks, renameLocked]
      rw [hren] at hsucc
      obtain ⟨s1, hs1, hsc⟩ : ∃ s1, s2.entries.find name = some s1 ∧ DirEntry.Cleared s s1 := by
        rcases hcl.find name with ⟨h1, _⟩ | ⟨e, e1, h1, h2, hc⟩
        · rw [hr.srcEntry] at h1; cases h1
        · rw [hr.srcEntry] at h1; cases h1
          exact ⟨e1, h2, hc⟩
      have hdt : ∀ t1, d2.entries.find destName = some t1 →
          ∃ t, dst.entries.find destName = some t ∧ DirEntry.Cleared t t1 := by
        intro t1 ht1
        rcases hdcl.find destName with ⟨_, h2⟩ | ⟨e, e1, h1, h2, hc⟩
        · rw [ht1] at h2; cases h2
        · rw [ht1] at h2; cases h2
          exact ⟨e, h1, hc⟩
      have hsome : (d2.entries.find destName).isSome = (dst.entries.find destName).isSome := by
        rcases hdcl.find destName with ⟨h1, h2⟩ | ⟨e, e1, h1, h2, _⟩
        · rw [h1, h2]
        · rw [h1, h2]
          rfl
      have hr2 : RenameReady m2 self name dest destName s2 d2 s1 :=
        { srcContents := hs2
          destContents := hd2
          srcEntry := hs1
          srcTyped := hr.srcTyped.typed_mat hM
          destTyped := hr.destTyped.typed_mat hM
          srcPtr := fun x hx => by
            rw [hsc.mode.2.1]
            exact hr.srcPtr x (by rw [← hsc.mode.2.2.1]; exact hx)
          destPtr := fun t1 x ht1 hx => by
            obtain ⟨t, ht, hc⟩ := hdt t1 ht1
            rw [hc.mode.2.1]
            exact hr.destPtr t x ht (by rw [← hc.mode.2.2.1]; exact hx)
          srcFresh := fun hi => by
            rw [hsc.mode.2.1, hM.location]
            have := hr.srcFresh (by rw [← hsc.mode.2.2.1]; exact hi)
            exact ⟨this.1, hM.contentsNone _ this.2⟩
          destFresh := fun t1 ht1 hi => by
            obtain ⟨t, ht, hc⟩ := hdt t1 ht1
            rw [hc.mode.2.1, hM.location]
            have := hr.destFresh t ht (by rw [← hc.mode.2.2.1]; exact hi)
            exact ⟨this.1, hM.contentsNone _ this.2⟩
          srcLocated := fun x loc hl hp hn hu => by
            rw [hsc.mode.2.2.1]
            exact hr.srcLocated x loc (by rw [← hM.location]; exact hl) hp hn hu }
      have hdist2 : ∀ t1, d2.entries.find destName = some t1 →
          t1.inodeNumber ≠ s1.inodeNumber := by
        intro t1 ht1
        obtain ⟨t, ht, hc⟩ := hdt t1 ht1
        rw [hc.mode.2.1, hsc.mode.2.1]
        exact hdist t ht
      obtain ⟨_, _, hmove⟩ := renameLocked_renamed r fuel m2 self dest name destName s2 d2 s1
        m1 dd hr2 hth hdh hdist2 (hchd.to_depth.depth_congr hM.location) hfd hsucc
      exact ⟨m2, s1, d2, hM, hsc, hsome, hdt, hmove⟩

/-- A `rename` whose destination entry is the loaded inode of the source entry
(the same-inode no-op) adds nothing to the journal, whatever it returns. -/
theorem rename_noop_journal (R fuel : Nat) (m : Mount) (self dest : InodePtr)
    (name destName : PathComponent) (ds dd : Nat) (sst dst : TreeInodeState) (s t : DirEntry)
    (x : InodePtr)
    (hr : RenameReady m self name dest destName sst dst s)
    (hchs : ChainOk m self ds) (hchd : ChainOk m dest dd) (hfs : ds ≤ fuel) (hfd : dd ≤ fuel)
    (ht : dst.entries.find destName = some t) (hsx : s.inode = some x) (htx : t.inode = some x) :
    (rename R fuel m self name dest destName).2.journal = m.journal := by
  cases R with
  | zero => rfl
  | succ r =>
    by_cases hself : self = m.dotEdenInodeNumber
    · simp [rename, hself]
    by_cases hdest : dest = m.dotEdenInodeNumber
    · simp [rename, hself, hdest]
    cases hname : m.nameLengthOk destName with
    | false => simp [rename, hself, hdest, hname]
    | true =>
      obtain ⟨m2, s2, d2, hM, hs2, _, hcl, hd2, _, hdcl, hren⟩ :=
        rename_locked r fuel m self dest name destName ds dd sst dst hself hdest hname
          hchs hchd hfs hfd hr.srcContents hr.destContents hr.destTyped
      rw [hren]
      obtain ⟨s1, hs1, hsi1⟩ : ∃ s1, s2.entries.find name = some s1 ∧ s1.inode = some x := by
        rcases hcl.find name with ⟨h1, _⟩ | ⟨e, e1, h1, h2, hc⟩
        · rw [hr.srcEntry] at h1; cases h1
        · rw [hr.srcEntry] at h1; cases h1
          exact ⟨e1, h2, by rw [hc.mode.2.2.1]; exact hsx⟩
      obtain ⟨t1, ht1, hti1⟩ : ∃ t1, d2.entries.find destName = some t1 ∧ t1.inode = some x := by
        rcases hdcl.find destName with ⟨h1, _⟩ | ⟨e, e1, h1, h2, hc⟩
        · rw [ht] at h1; cases h1
        · rw [ht] at h1; cases h1
          exact ⟨e1, h2, by rw [hc.mode.2.2.1]; exact htx⟩
      rw [ht1, renameLocked_noop r fuel m2 self dest name destName s2 s1 t1 x hs2 hs1 hsi1 hti1]
      exact hM.journal

/-- C19, amended.  A call of `rename` adds nothing to the journal, or it succeeds
and adds one record of kind `RENAME` or `REPLACE` from the source name to the
destination name; so a failed rename adds none.  In a mount that is well formed
where the rename looks at it (`RenameReady`, parent chains of both directories
well formed): the same-inode no-op (the destination entry is the loaded inode of
the source entry) adds none, whatever it returns; and a successful `rename` that
is not the no-op, where the moved child and the replaced child are neither one
of the two directories nor above them, adds exactly one record from the path of
the source directory with the source name to the path of the destination
directory with the destination name, of kind `REPLACE` if the destination name
existed before the call and of kind `RENAME` otherwise, if both directories have
a path, and adds no record if one of them has none (it or a directory above it
has been unlinked). -/
theorem rename_journal (R fuel : Nat) (m : Mount) (self dest : InodePtr)
    (name destName : PathComponent) (ds dd : Nat) (sst dst : TreeInodeState) (s : DirEntry)
    (hr : RenameReady m self name dest destName sst dst s)
    (hchs : ChainOk m self ds) (hchd : ChainOk m dest dd) (hfs : ds ≤ fuel) (hfd : dd ≤ fuel) :
    RenameJournal m.journal (rename R fuel m self name dest destName) name destName ∧
    (∀ t x, dst.entries.find destName = some t → s.inode = some x → t.inode = some x →
      (rename R fuel m self name dest destName).2.journal = m.journal) ∧
    ((∀ t, dst.entries.find destName = some t → t.inodeNumber ≠ s.inodeNumber) →
      (∀ q, q = s.inodeNumber ∨ (∃ t, dst.entries.find destName = some t ∧ q = t.inodeNumber) →
        (q ≠ self ∧ ¬ StrictAncestor m q self) ∧ (q ≠ dest ∧ ¬ StrictAncestor m q dest)) →
      (rename R fuel m self name dest destName).1 = .ok () →
      (∀ sp dp, getPath fuel m self = .ok (some sp) → getPath fuel m dest = .ok (some dp) →
        (rename R fuel m self name dest destName).2.journal =
          m.journal ++
            [if (m.entry dest destName).isSome then .REPLACE (sp ++ [name]) (dp ++ [destName])
             else .RENAME (sp ++ [name]) (dp ++ [destName])]) ∧
      (getPath fuel m self = .ok none ∨ getPath fuel m dest = .ok none →
        (rename R fuel m self name dest destName).2.journal = m.journal)) := by
  refine ⟨rename_renameJournal R fuel m self name dest destName, fun t x ht hsx htx => ?_,
    fun hdist hfar hok => ?_⟩
  · exact rename_noop_journal R fuel m self dest name destName ds dd sst dst s t x hr hchs hchd
      hfs hfd ht hsx htx
  · have hsucc : rename R fuel m self name dest destName =
        (.ok (), (rename R fuel m self name dest destName).2) := Prod.ext hok rfl
    generalize (rename R fuel m self name dest destName).2 = m1 at hsucc ⊢
    obtain ⟨m2, s1, d2, hM, hsc, hsome, hdt, Mb, locks, sB, hdo, hnoop, hjB, hlocB, hsB, hex,
      hdc⟩ := rename_reduce R fuel m m1 self dest name destName ds dd sst dst s hr hchs hchd hfs
        hfd hdist hsucc
    obtain ⟨_, hB⟩ := doRename_journal fuel Mb locks self name sB dest destName hnoop _ m1 hdo
    obtain ⟨c, m5, hc, hj5, hloc5, hcase⟩ := hB rfl
    have hcs : c = s.inodeNumber := by
      rw [hsB, hsc.mode.2.1] at hc
      exact (Option.some.inj hc).symm
    -- the mounts agree on the inode objects of `m`
    have hagreeB : ∀ q, (m.location q).isSome = true → Mb.location q = m.location q := by
      intro q hq
      rw [hlocB q (by rw [hM.location]; exact hq), hM.location]
    have hpath : ∀ p d, Depth m p d →
        (∀ q, q = s.inodeNumber ∨
            (∃ t, dst.entries.find destName = some t ∧ q = t.inodeNumber) →
          q ≠ p ∧ ¬ StrictAncestor m q p) →
        getPath fuel m5 p = getPath fuel m p := by
      intro p d hd hp
      have h1 : getPath fuel m5 p = getPath fuel Mb p := by
        refine getPath_agree fuel Mb m5 p (fun q hq => hloc5 q ?_ ?_)
        · intro hqc
          have hq' := hp q (Or.inl (hqc.trans hcs))
          rcases hq with hq | hq
          · exact hq'.1 hq
          · exact hq'.2 (StrictAncestor.of_agree_depth hagreeB hd hq)
        · intro hqt
          obtain ⟨t1, ht1, hqt1⟩ := hdc q hqt
          obtain ⟨t, ht, hct⟩ := hdt t1 ht1
          have hq' := hp q (Or.inr ⟨t, ht, by rw [hqt1, hct.mode.2.1]⟩)
          rcases hq with hq | hq
          · exact hq'.1 hq
          · exact hq'.2 (StrictAncestor.of_agree_depth hagreeB hd hq)
      have h2 : getPath fuel Mb p = getPath fuel m p := by
        refine getPath_agree fuel m Mb p (fun q hq => hagreeB q ?_)
        rcases hq with hq | hq
        · rw [hq]; exact hd.located
        · exact StrictAncestor.ancestor_located hd hq
      exact h1.trans h2
    have hs := hpath self ds hchs.to_depth (fun q hq => (hfar q hq).1)
    have hd := hpath dest dd hchd.to_depth (fun q hq => (hfar q hq).2)
    rw [hs, hd] at hcase
    have hj : m5.journal = m.journal := hj5.trans (hjB.trans hM.journal)
    have hex2 : locks.destChildExists = (m.entry dest destName).isSome := by
      rw [hex, hsome]
      simp [Mount.entry, hr.destContents]
    refine ⟨fun sp dp hsp hdp => ?_, fun hnone => ?_⟩
    · rcases hcase with ⟨sp1, dp1, h1, h2, hm1⟩ | ⟨h1, _⟩
      · rw [hsp] at h1
        rw [hdp] at h2
        cases h1
        cases h2
        rw [hm1, hex2]
        simp [Mount.addDelta, hj]
      · rcases h1 with h1 | h1
        · rw [hsp] at h1; cases h1
        · rw [hdp] at h1; cases h1
    · rcases hcase with ⟨sp1, dp1, h1, h2, _⟩ | ⟨_, hm1⟩
      · rcases hnone with h | h
        · rw [h] at h1; cases h1
        · rw [h] at h2; cases h2
      · rw [hm1, hj]

/-- An inode that lies above another is the parent of some inode. -/
theorem StrictAncestor.has_child {m : Mount} {a p : InodePtr} (h : StrictAncestor m a p) :
    ∃ q, m.getParent q = some a := by
  induction h with
  | @parent b hp => exact ⟨b, hp⟩
  | @step b c _ _ ih => exact ih

/-- In the example mount every parent pointer leads to the root. -/
theorem Example.mountDirs_parent (q a : InodePtr)
    (h : Example.mountDirs.getParent q = some a) : a = 1 := by
  by_cases h1 : q = 1
  · subst h1; cases h
  by_cases h2 : q = 2
  · subst h2; cases h; rfl
  by_cases h4 : q = 4
  · subst h4; cases h; rfl
  by_cases h3 : q = 3
  · subst h3; cases h; rfl
  have e1 : (q == 1) = false := by simpa using h1
  have e2 : (q == 2) = false := by simpa using h2
  have e3 : (q == 3) = false := by simpa using h3
  have e4 : (q == 4) = false := by simpa using h4
  have : Example.mountDirs.location q = none := by
    simp [Example.mountDirs, Example.build, List.lookup, e1, e2, e3, e4]
  simp [Mount.getParent, this] at h
theorem Example.mountDirs_ready :
    RenameReady Example.mountDirs 1 "f" 4 "g"
      { entries := [("D", Example.dirEntry 2 none true), ("E", Example.dirEntry 4 none true),
                    ("f", Example.fileEntry 3 none true)],
        treeHash := none }
      { entries := [], treeHash := none } (Example.fileEntry 3 none true) where
  srcContents := rfl
  destContents := rfl
  srcEntry := rfl
  srcTyped := Example.mountDirs_typed "f"
  destTyped := fun _ _ he _ => Option.noConfusion he
  srcPtr := fun x hx => (Option.some.inj hx).symm
  destPtr := fun _ _ ht _ => Option.noConfusion ht
  srcFresh := fun h => Option.noConfusion h
  destFresh := fun _ ht _ => Option.noConfusion ht
  srcLocated := fun x loc hl hp hn hu => by
    simp only [Example.mountDirs, Example.build, List.lookup] at hl
    split at hl
    · cases hl; cases hp
    · split at hl
      · cases hl; exact absurd hn (by decide)
      · split at hl
        · cases hl; exact absurd hn (by decide)
        · split at hl
          · rename_i h3
            have hx : x = 3 := by simpa using h3
            subst hx
            rfl
          · cases hl

/-- Witness of C19: in the example mount, whose root holds the directories `D`
and `E` and the file `f`, the rename of `f` to `E/g` succeeds and adds the one
record `RENAME f E/g` to the journal. -/
theorem rename_journal_witness :
    (rename 2 5 Example.mountDirs 1 "f" 4 "g").1 = .ok () ∧
    (rename 2 5 Example.mountDirs 1 "f" 4 "g").2.journal =
      Example.mountDirs.journal ++ [.RENAME ["f"] ["E", "g"]] := by
  have hno : ∀ p, ¬ StrictAncestor Example.mountDirs 3 p := by
    intro p hp
    obtain ⟨c, hc⟩ := hp.has_child
    exact absurd (Example.mountDirs_parent c 3 hc) (by decide)
  have h := ((rename_journal 2 5 Example.mountDirs 1 4 "f" "g" 0 1 _ _ _ Example.mountDirs_ready
    (ChainOk.root rfl rfl) (ChainOk.child rfl rfl (ChainOk.root rfl rfl) (fun _ => rfl))
    (by decide) (by decide)).2.2 (fun _ ht => Option.noConfusion ht)
    (fun q hq => by
      have hq3 : q = 3 := by
        rcases hq with hq | ⟨t, ht, _⟩
        · exact hq
        · cases ht
      subst hq3
      exact ⟨⟨by decide, hno 1⟩, ⟨by decide, hno 4⟩⟩)
    rfl).1 [] ["E"] rfl rfl
  exact ⟨rfl, h⟩

/-! ### C28: the emptiness test of the rename validation -/

theorem lockDestChild_contents (m : Mount) (dest : InodePtr) (destName : PathComponent)
    (r : Option DirEntry × Option InodePtr) (h : lockDestChild m dest destName = .ok r) :
    r.2 = destChildContentsOf r.1 ∧ ∀ q, r.2 = some q → (m.contents q).isSome = true := by
  unfold lockDestChild at h
  cases hc : m.contents dest with
  | none => rw [hc] at h; cases h
  | some st =>
    rw [hc] at h
    simp only [] at h
    cases hf : st.entries.find destName with
    | none =>
      rw [hf] at h
      cases h
      exact ⟨rfl, fun q hq => by cases hq⟩
    | some e =>
      rw [hf] at h
      simp only [] at h
      split at h
      · rename_i hd
        split at h
        · rename_i childTree hi
          split at h
          · rename_i hcc
            cases h
            refine ⟨by simp [destChildContentsOf, hd, hi], fun q hq => ?_⟩
            cases hq
            exact hcc
          · cases h
        · rename_i hi
          cases h
          exact ⟨by simp [destChildContentsOf, hd, hi], fun q hq => by cases hq⟩
      · rename_i hd
        cases h
        exact ⟨by simp [destChildContentsOf, hd], fun q hq => by cases hq⟩

/-- The locks `acquireLocks` returns hold the contents of the destination child
exactly if the destination entry is a loaded directory. -/
theorem acquireLocks_contents (fuel : Nat) (m : Mount) (self dest : InodePtr)
    (destName : PathComponent) (locks : TreeRenameLocks)
    (h : acquireLocks fuel m self dest destName = .ok locks) :
    locks.destChildContents = destChildContentsOf locks.destChildIter ∧
    ∀ q, locks.destChildContents = some q → (m.contents q).isSome = true := by
  unfold acquireLocks at h
  split at h
  · rename_i hsd
    subst hsd
    split at h
    · cases h
    · rename_i r hr
      cases h
      exact lockDestChild_contents m self destName r hr
  · split at h
    · cases h
    · split at h
      · cases h
      · rename_i r hr
        cases h
        exact lockDestChild_contents m dest destName r hr
    · split at h
      · cases h
      · rename_i r hr
        split at h
        · split at h
          · cases h
          · cases h
            exact lockDestChild_contents m dest destName r hr
        · cases h
          exact lockDestChild_contents m dest destName r hr

/-- C28, as the code has it.  Let the locks be those `acquireLocks` returned, the
source entry a directory and the destination name an existing directory entry.
If the destination directory is loaded, its contents are locked and the
emptiness test `destChildIsEmpty()` has contents to look at.  If it is not
loaded, `destChildContents_` is not set; when the source inode is loaded, the
validation still evaluates `destChildIsEmpty()` (a null pointer differs from
the source inode), which dereferences the unset pointer: the locked part of
`rename` ends in this fault. -/
theorem rename_dest_unlocked (restarts fuel : Nat) (m2 : Mount) (locks : TreeRenameLocks)
    (self dest : InodePtr) (name destName : PathComponent) (srcEntry destEntry : DirEntry)
    (hlocks : acquireLocks fuel m2 self dest destName = .ok locks)
    (hsrc : (m2.contents locks.srcContents).bind (fun st => st.entries.find name) =
      some srcEntry)
    (hdir : srcEntry.isDirectory = true)
    (hdest : m2.entry dest destName = some destEntry)
    (hdd : destEntry.isDirectory = true) :
    (∀ q, destEntry.inode = some q →
      locks.destChildContents = some q ∧ ∃ b, locks.destChildIsEmpty m2 = .ok b) ∧
    (destEntry.inode = none →
      locks.destChildContents = none ∧ locks.destChildIsEmpty m2 = .error .bug ∧
      ∀ x, srcEntry.inode = some x →
        renameLocked restarts fuel m2 locks self name dest destName = (.error .bug, m2)) := by
  obtain ⟨_, hiter⟩ := acquireLocks_iter fuel m2 self dest destName locks hlocks
  obtain ⟨hcc, hlive⟩ := acquireLocks_contents fuel m2 self dest destName locks hlocks
  rw [hiter, hdest] at hcc
  simp only [destChildContentsOf, Option.some_bind, hdd, if_true] at hcc
  refine ⟨fun q hq => ?_, fun hnone => ?_⟩
  · rw [hq] at hcc
    refine ⟨hcc, ?_⟩
    have := hlive q hcc
    obtain ⟨st, hst⟩ := Option.isSome_iff_exists.mp this
    exact ⟨st.entries.isEmpty, by simp [TreeRenameLocks.destChildIsEmpty, hcc, hst]⟩
  · rw [hnone] at hcc
    have hempty : locks.destChildIsEmpty m2 = .error .bug := by
      simp [TreeRenameLocks.destChildIsEmpty, hcc]
    refine ⟨hcc, hempty, fun x hx => ?_⟩
    unfold renameLocked
    simp only [hsrc, hdir, if_true, hiter, hdest, hdd, Bool.not_true, Bool.false_eq_true,
      if_false, hempty]
    have hne : locks.destChild ≠ srcEntry.inode := by
      simp [TreeRenameLocks.destChild, hiter, hdest, hnone, hx]
    simp [hne]

/-- C28 at work: in the example mount the root holds the loaded directory `a` and
the directory `b`, which is not loaded.  `rename("a", root, "b")` takes the locks
without the contents of `b` and ends in the fault of the emptiness test. -/
theorem rename_dest_unlocked_witness :
    acquireLocks 5 Example.mountDirPair 1 1 "b" =
      .ok { srcContents := 1, destContents := 1, destChildContents := none,
            destChildIter := some (Example.dirEntry 3 (some 30) false) } ∧
    renameLocked 2 5 Example.mountDirPair
      { srcContents := 1, destContents := 1, destChildContents := none,
        destChildIter := some (Example.dirEntry 3 (some 30) false) } 1 "a" 1 "b" =
      (.error .bug, Example.mountDirPair) ∧
    (rename 3 5 Example.mountDirPair 1 "a" 1 "b").1 = .error .bug :=
  ⟨rfl,
   (rename_dest_unlocked 2 5 Example.mountDirPair
      { srcContents := 1, destContents := 1, destChildContents := none,
        destChildIter := some (Example.dirEntry 3 (some 30) false) }
      1 1 "a" "b" (Example.dirEntry 2 none true) (Example.dirEntry 3 (some 30) false)
      rfl rfl rfl rfl rfl).2 rfl |>.2.2 2 rfl,
   rfl⟩
/-! ### C23: the overlay data of an entry that checkout replaces or erases -/

/-- C23, as the code has it.  In the example mount the root holds the directory
`d` (inode 2, hash 20, not loaded), for which the overlay stores a directory
under the number 2, followed by the file `z`.  An apply-mode checkout from a
tree that has `d` as a directory with hash 20 finds no conflict.  To a tree that
has `d` as a file, `processCheckoutEntry` replaces the entry by a file entry
with the fresh inode number 100 and leaves the overlay data under the number 2
in place: it looks at the type of the entry after the replacement.  To a tree
without `d`, it erases the entry and leaves the overlay data in place as well:
the reference it reads the type from then designates the entry `z`.  Only to a
tree that has `d` as a directory again the data under the number 2 is
removed. -/
theorem checkout_overlay_kept :
    (processCheckoutEntry (fun _ => false) 5 (Example.context false) Example.mountStored 1
        (some { name := "d", type := .TREE, hash := 20 })
        (some { name := "d", type := .REGULAR_FILE, hash := 21 })).1 = .ok none ∧
    (processCheckoutEntry (fun _ => false) 5 (Example.context false) Example.mountStored 1
        (some { name := "d", type := .TREE, hash := 20 })
        (some { name := "d", type := .REGULAR_FILE, hash := 21 })).2.2.entry 1 "d" =
      some { initialMode := S_IFREG ||| 0o644, inodeNumber := 100, hash := some 21,
             inode := none } ∧
    ((processCheckoutEntry (fun _ => false) 5 (Example.context false) Example.mountStored 1
        (some { name := "d", type := .TREE, hash := 20 })
        (some { name := "d", type := .REGULAR_FILE, hash := 21 })).2.2.overlayDirs 2).isSome =
      true ∧
    (processCheckoutEntry (fun _ => false) 5 (Example.context false) Example.mountStored 1
        (some { name := "d", type := .TREE, hash := 20 }) none).1 = .ok none ∧
    (processCheckoutEntry (fun _ => false) 5 (Example.context false) Example.mountStored 1
        (some { name := "d", type := .TREE, hash := 20 }) none).2.2.entry 1 "d" = none ∧
    ((processCheckoutEntry (fun _ => false) 5 (Example.context false) Example.mountStored 1
        (some { name := "d", type := .TREE, hash := 20 }) none).2.2.overlayDirs 2).isSome =
      true ∧
    (processCheckoutEntry (fun _ => false) 5 (Example.context false) Example.mountStored 1
        (some { name := "d", type := .TREE, hash := 20 })
        (some { name := "d", type := .TREE, hash := 21 })).2.2.overlayDirs 2 = none := by
  refine ⟨rfl, rfl, rfl, rfl, rfl, rfl, rfl⟩
/-! ### C24: checkout of a name the directory has no entry for -/

/-- The mount after `processCheckoutEntry` has inserted the entry for a
source-control entry under a name that was absent. -/
theorem ofTreeEntry_emplaced (m : Mount) (p : InodePtr) (contents : TreeInodeState)
    (n : TreeEntry) (hc : m.contents p = some contents)
    (hf : contents.entries.find n.name = none) :
    ((DirEntry.ofTreeEntry m n).2.setContents p
        { contents with
          entries := (contents.entries.emplace n.name (DirEntry.ofTreeEntry m n).1).1 }).entry
        p n.name =
      some { initialMode := m.modeFromTreeEntryType n.type, inodeNumber := m.nextInodeNumber,
             hash := some n.hash, inode := none } ∧
    (∀ k, k ≠ n.name →
      ((DirEntry.ofTreeEntry m n).2.setContents p
        { contents with
          entries := (contents.entries.emplace n.name (DirEntry.ofTreeEntry m n).1).1 }).entry
        p k = m.entry p k) ∧
    ((DirEntry.ofTreeEntry m n).2.setContents p
        { contents with
          entries := (contents.entries.emplace n.name (DirEntry.ofTreeEntry m n).1).1 }
      ).nextInodeNumber = m.nextInodeNumber + 1 := by
  rw [DirContents.emplace_absent _ _ _ hf]
  refine ⟨?_, fun k hk => ?_, rfl⟩
  · simp only [Mount.entry, Mount.setContents, if_true, Option.some_bind,
      DirContents.find_insertSorted _ _ _ _ hf]
    rfl
  · simp only [Mount.entry, Mount.setContents, if_true, Option.some_bind,
      DirContents.find_insertSorted _ _ _ _ hf, hk, if_false, hc]

/-- C24 (checkout of a name without entry, apply mode).  Let the directory have no
entry for the name and the checkout not be a dry run.  With the old entry
absent, the entry for the new one is inserted (the mode of its type, the next
inode number of the allocator, its hash, not loaded), nothing else changes in
the directory, and no conflict is recorded.  With the new entry absent, one
`MISSING_REMOVED` conflict is recorded and the mount is unchanged.  With both
present under the same name, unless they are equal in type and hash and the
force flag is off, one `REMOVED_MODIFIED` conflict is recorded and the new entry
is inserted exactly if the force flag is on.  No `CheckoutAction` is produced in
any of the cases. -/
theorem checkout_missing_entry (isInodeRemembered : InodeNumber → Bool) (fuel : Nat)
    (ctx : CheckoutContext) (m : Mount) (p : InodePtr) (contents : TreeInodeState)
    (hc : m.contents p = some contents) (happly : ctx.isDryRun = false) :
    (∀ n : TreeEntry, contents.entries.find n.name = none →
      (processCheckoutEntry isInodeRemembered fuel ctx m p none (some n)).1 = .ok none ∧
      (processCheckoutEntry isInodeRemembered fuel ctx m p none (some n)).2.1 = ctx ∧
      (processCheckoutEntry isInodeRemembered fuel ctx m p none (some n)).2.2.entry p n.name =
        some { initialMode := m.modeFromTreeEntryType n.type, inodeNumber := m.nextInodeNumber,
               hash := some n.hash, inode := none } ∧
      (∀ k, k ≠ n.name →
        (processCheckoutEntry isInodeRemembered fuel ctx m p none (some n)).2.2.entry p k =
          m.entry p k) ∧
      (processCheckoutEntry isInodeRemembered fuel ctx m p none (some n)).2.2.nextInodeNumber =
        m.nextInodeNumber + 1) ∧
    (∀ o : TreeEntry, contents.entries.find o.name = none →
      processCheckoutEntry isInodeRemembered fuel ctx m p (some o) none =
        (.ok none, ctx.addConflict .MISSING_REMOVED p (some o.name), m)) ∧
    (∀ o n : TreeEntry, o.name = n.name → contents.entries.find o.name = none →
      (!ctx.forceUpdate && sameScmEntry (some o) (some n)) = false →
      (processCheckoutEntry isInodeRemembered fuel ctx m p (some o) (some n)).1 = .ok none ∧
      (processCheckoutEntry isInodeRemembered fuel ctx m p (some o) (some n)).2.1 =
        ctx.addConflict .REMOVED_MODIFIED p (some o.name) ∧
      (ctx.forceUpdate = false →
        (processCheckoutEntry isInodeRemembered fuel ctx m p (some o) (some n)).2.2 = m) ∧
      (ctx.forceUpdate = true →
        (processCheckoutEntry isInodeRemembered fuel ctx m p (some o) (some n)).2.2.entry p
            n.name =
          some { initialMode := m.modeFromTreeEntryType n.type,
                 inodeNumber := m.nextInodeNumber, hash := some n.hash, inode := none } ∧
        (∀ k, k ≠ n.name →
          (processCheckoutEntry isInodeRemembered fuel ctx m p (some o) (some n)).2.2.entry p k =
            m.entry p k) ∧
        (processCheckoutEntry isInodeRemembered fuel ctx m p (some o) (some n)).2.2.nextInodeNumber =
          m.nextInodeNumber + 1)) := by
  refine ⟨fun n hf => ?_, fun o hf => ?_, fun o n hname hf hskip => ?_⟩
  · have hE := ofTreeEntry_emplaced m p contents n hc hf
    have hres : processCheckoutEntry isInodeRemembered fuel ctx m p none (some n) =
        (.ok none, ctx,
          (DirEntry.ofTreeEntry m n).2.setContents p
            { contents with
              entries := (contents.entries.emplace n.name (DirEntry.ofTreeEntry m n).1).1 }) := by
      simp [processCheckoutEntry, hc, checkoutEntryName, sameScmEntry, hf, processMissingEntry,
        happly]
    rw [hres]
    exact ⟨rfl, rfl, hE.1, hE.2.1, hE.2.2⟩
  · simp [processCheckoutEntry, hc, checkoutEntryName, sameScmEntry, hf, processMissingEntry]
  · have hfn : contents.entries.find n.name = none := by rw [← hname]; exact hf
    have hE := ofTreeEntry_emplaced m p contents n hc hfn
    cases hforce : ctx.forceUpdate with
    | false =>
      have hres : processCheckoutEntry isInodeRemembered fuel ctx m p (some o) (some n) =
          (.ok none, ctx.addConflict .REMOVED_MODIFIED p (some o.name), m) := by
        rw [hforce] at hskip
        simp only [Bool.not_false, Bool.true_and] at hskip
        simp [processCheckoutEntry, hc, checkoutEntryName, hskip, hf, processMissingEntry,
          hforce, CheckoutContext.addConflict]
      rw [hres]
      exact ⟨rfl, rfl, fun _ => rfl, fun h => by cases h⟩
    | true =>
      have hres : processCheckoutEntry isInodeRemembered fuel ctx m p (some o) (some n) =
          (.ok none, ctx.addConflict .REMOVED_MODIFIED p (some o.name),
            (DirEntry.ofTreeEntry m n).2.setContents p
              { contents with
                entries :=
                  (contents.entries.emplace n.name (DirEntry.ofTreeEntry m n).1).1 }) := by
        simp [processCheckoutEntry, hc, checkoutEntryName, hf, processMissingEntry,
          hforce, CheckoutContext.addConflict, happly]
      rw [hres]
      exact ⟨rfl, rfl, (fun h => by cases h), fun _ => hE⟩

/-- C24 at work: the root of the example mount holds only `a`; an apply-mode
checkout to a tree that adds the file `b` inserts the entry for it with the
inode number 100. -/
theorem checkout_missing_entry_witness :
    Example.mountUnloaded.contents 1 =
      some { entries := [("a", Example.fileEntry 3 (some 30) false)], treeHash := none } ∧
    (Example.context false).isDryRun = false ∧
    (processCheckoutEntry (fun _ => false) 5 (Example.context false) Example.mountUnloaded 1 none
        (some { name := "b", type := .REGULAR_FILE, hash := 7 })).2.2.entry 1 "b" =
      some { initialMode := S_IFREG ||| 0o644, inodeNumber := 100, hash := some 7,
             inode := none } :=
  ⟨rfl, rfl,
   ((checkout_missing_entry (fun _ => false) 5 (Example.context false) Example.mountUnloaded 1
      { entries := [("a", Example.fileEntry 3 (some 30) false)], treeHash := none } rfl rfl).1
      { name := "b", type := .REGULAR_FILE, hash := 7 } rfl).2.2.1⟩
/-! ### C25: checkout of an entry that is not loaded -/

/-- The recursive removal of overlay data touches neither the inode objects nor
the allocator. -/
theorem recursivelyRemoveOverlayData_contents (fuel : Nat) :
    ∀ (m : Mount) (n : InodeNumber),
      (m.recursivelyRemoveOverlayData fuel n).contents = m.contents ∧
      (m.recursivelyRemoveOverlayData fuel n).nextInodeNumber = m.nextInodeNumber := by
  induction fuel with
  | zero => intro m n; exact ⟨rfl, rfl⟩
  | succ fuel ih =>
    intro m n
    unfold Mount.recursivelyRemoveOverlayData
    split
    · exact ⟨rfl, rfl⟩
    · rename_i dir _
      refine foldl_invariant
        (fun acc : Mount => acc.contents = m.contents ∧ acc.nextInodeNumber = m.nextInodeNumber)
        _ dir _ ⟨rfl, rfl⟩ ?_
      intro b a hb
      split
      · exact ⟨(ih b _).1.trans hb.1, (ih b _).2.trans hb.2⟩
      · exact hb

/-- The entries of the directory after `processCheckoutEntry` has erased or
replaced an entry that is not loaded. -/
theorem updateUnloadedEntry_entry (fuel : Nat) (m : Mount) (p : InodePtr)
    (contents : TreeInodeState) (name : PathComponent) (entry : DirEntry)
    (newScmEntry : Option TreeEntry) (hc : m.contents p = some contents)
    (hf : contents.entries.find name = some entry) :
    (newScmEntry = none →
      (updateUnloadedEntry fuel m p contents name entry newScmEntry).entry p name = none) ∧
    (∀ n, newScmEntry = some n →
      (updateUnloadedEntry fuel m p contents name entry newScmEntry).entry p name =
        some { initialMode := m.modeFromTreeEntryType n.type, inodeNumber := m.nextInodeNumber,
               hash := some n.hash, inode := none }) ∧
    (∀ k, k ≠ name →
      (updateUnloadedEntry fuel m p contents name entry newScmEntry).entry p k = m.entry p k) := by
  have hE : ∀ (mm : Mount) (k : PathComponent),
      (if (match newScmEntry with
            | none => (contents.entries.erase name, contents.entries.slotAfterErase name entry, m)
            | some n =>
              ((contents.entries.assign name (DirEntry.ofTreeEntry m n).1,
                (DirEntry.ofTreeEntry m n).1, (DirEntry.ofTreeEntry m n).2) :
                DirContents × DirEntry × Mount)).2.1.isDirectory = true
        then Mount.recursivelyRemoveOverlayData fuel mm entry.inodeNumber
        else mm).entry p k = mm.entry p k := by
    intro mm k
    split
    · simp only [Mount.entry, (recursivelyRemoveOverlayData_contents fuel mm _).1]
    · rfl
  unfold updateUnloadedEntry
  simp only []
  refine ⟨fun hn => ?_, fun n hn => ?_, fun k hk => ?_⟩
  · subst hn
    refine (hE _ name).trans ?_
    simp [Mount.entry, Mount.setContents, DirContents.find_erase]
  · subst hn
    refine (hE _ name).trans ?_
    simp [Mount.entry, Mount.setContents, DirContents.find_assign, hf, DirEntry.ofTreeEntry,
      Mount.allocateInodeNumber]
  · refine (hE _ k).trans ?_
    cases newScmEntry with
    | none => simp [Mount.entry, Mount.setContents, DirContents.find_erase, hk, hc]
    | some n =>
      simp [Mount.entry, Mount.setContents, DirContents.find_assign, hk, hc, DirEntry.ofTreeEntry,
        Mount.allocateInodeNumber]

/-- Counterexample to C25 as stated: the root holds the file `a`, not loaded, not
materialized, with hash 7.  In a checkout without force from a tree to a tree
that both have `a` as a regular file with hash 5, the hash of the entry differs
from the old hash, and no conflict is recorded: entries that are equal in the
two trees are skipped before the conflict detection. -/
theorem checkout_unloaded_conflict_counterexample :
    Example.mountHashed.entry 1 "a" = some (Example.fileEntry 3 (some 7) false) ∧
    processCheckoutEntry (fun _ => false) 5 (Example.context false) Example.mountHashed 1
        (some { name := "a", type := .REGULAR_FILE, hash := 5 })
        (some { name := "a", type := .REGULAR_FILE, hash := 5 }) =
      (.ok none, { isDryRun := false, forceUpdate := false, conflicts := [], errors := [] },
        Example.mountHashed) := by
  refine ⟨rfl, rfl⟩

/-- C25, amended.  Let the entry for the name be present, not loaded, not
materialized and not remembered by the `InodeMap`, and let the two
source-control entries not be skipped as equal (they differ in type or hash, or
one is absent, or the force flag is on).  The conflict detected is
`UNTRACKED_ADDED` if the old entry is absent, `MODIFIED_MODIFIED` if the hash of
the entry differs from the old hash, none otherwise.  For an entry that is no
directory: the conflict, if there is one, is recorded; with a conflict and no
force the mount is unchanged; with no conflict, or with force, a dry run leaves
the mount unchanged and an apply-mode checkout erases the entry when the new
entry is absent and otherwise replaces it by the entry with the mode of the new
type, the new hash and the next inode number, leaving the other entries.  For a
directory with a conflict, no conflict is recorded; the child is loaded and a
`CheckoutAction` for it is returned. -/
theorem checkout_unloaded_conflict (isInodeRemembered : InodeNumber → Bool) (fuel : Nat)
    (ctx : CheckoutContext) (m : Mount) (p : InodePtr) (contents : TreeInodeState)
    (oldScmEntry newScmEntry : Option TreeEntry) (name : PathComponent) (entry : DirEntry)
    (hc : m.contents p = some contents)
    (hname : checkoutEntryName oldScmEntry newScmEntry = some name)
    (hf : contents.entries.find name = some entry)
    (hl : entry.inode = none) (hm : entry.isMaterialized = false)
    (hr : isInodeRemembered entry.inodeNumber = false)
    (hskip : (!ctx.forceUpdate && sameScmEntry oldScmEntry newScmEntry) = false) :
    (oldScmEntry = none → checkoutConflictType entry oldScmEntry = .UNTRACKED_ADDED) ∧
    (∀ o, oldScmEntry = some o → entry.hash ≠ some o.hash →
      checkoutConflictType entry oldScmEntry = .MODIFIED_MODIFIED) ∧
    (∀ o, oldScmEntry = some o → entry.hash = some o.hash →
      checkoutConflictType entry oldScmEntry = .ERROR) ∧
    (entry.isDirectory = false →
      (checkoutConflictType entry oldScmEntry ≠ .ERROR → ctx.forceUpdate = false →
        processCheckoutEntry isInodeRemembered fuel ctx m p oldScmEntry newScmEntry =
          (.ok none, ctx.addConflict (checkoutConflictType entry oldScmEntry) p (some name),
            m)) ∧
      (checkoutConflictType entry oldScmEntry = .ERROR ∨ ctx.forceUpdate = true →
        (processCheckoutEntry isInodeRemembered fuel ctx m p oldScmEntry newScmEntry).1 =
          .ok none ∧
        (processCheckoutEntry isInodeRemembered fuel ctx m p oldScmEntry newScmEntry).2.1 =
          (if checkoutConflictType entry oldScmEntry ≠ .ERROR then
            ctx.addConflict (checkoutConflictType entry oldScmEntry) p (some name)
           else ctx) ∧
        (ctx.isDryRun = true →
          (processCheckoutEntry isInodeRemembered fuel ctx m p oldScmEntry newScmEntry).2.2 =
            m) ∧
        (ctx.isDryRun = false →
          (newScmEntry = none →
            (processCheckoutEntry isInodeRemembered fuel ctx m p oldScmEntry
              newScmEntry).2.2.entry p name = none) ∧
          (∀ n, newScmEntry = some n →
            (processCheckoutEntry isInodeRemembered fuel ctx m p oldScmEntry
              newScmEntry).2.2.entry p name =
              some { initialMode := m.modeFromTreeEntryType n.type,
                     inodeNumber := m.nextInodeNumber, hash := some n.hash, inode := none }) ∧
          (∀ k, k ≠ name →
            (processCheckoutEntry isInodeRemembered fuel ctx m p oldScmEntry
              newScmEntry).2.2.entry p k = m.entry p k)))) ∧
    (entry.isDirectory = true → checkoutConflictType entry oldScmEntry ≠ .ERROR →
      processCheckoutEntry isInodeRemembered fuel ctx m p oldScmEntry newScmEntry =
        (.ok (some { oldScmEntry := oldScmEntry, newScmEntry := newScmEntry,
                     inode := (loadChildLocked m p name entry).1 }),
          ctx, (loadChildLocked m p name entry).2)) := by
  have hstep : processCheckoutEntry isInodeRemembered fuel ctx m p oldScmEntry newScmEntry =
      processUnloadedEntry fuel ctx m p contents name entry oldScmEntry newScmEntry := by
    unfold processCheckoutEntry
    simp only [hc, hname, hskip, hf, hl, hm, hr, Bool.false_eq_true, if_false, Bool.or_self]
  have hU := updateUnloadedEntry_entry fuel m p contents name entry newScmEntry hc hf
  refine ⟨?_, ?_, ?_, fun hnd => ⟨?_, ?_⟩, ?_⟩
  · intro h; subst h; rfl
  · intro o h hne; subst h; simp [checkoutConflictType, hne]
  · intro o h he; subst h; simp [checkoutConflictType, he]
  · intro hcon hforce
    rw [hstep]
    unfold processUnloadedEntry
    simp [hcon, hnd, hforce, CheckoutContext.addConflict]
  · intro hcase
    rw [hstep]
    unfold processUnloadedEntry
    by_cases hcon : checkoutConflictType entry oldScmEntry = .ERROR
    · simp only [hcon, ne_eq, not_true_eq_false, if_false]
      cases hdry : ctx.isDryRun with
      | true => exact ⟨rfl, rfl, fun _ => rfl, fun h => by cases h⟩
      | false => exact ⟨rfl, rfl, (fun h => by cases h), fun _ => hU⟩
    · have hforce : ctx.forceUpdate = true := by
        rcases hcase with h | h
        · exact absurd h hcon
        · exact h
      simp only [ne_eq, hcon, not_false_eq_true, if_true, hnd, Bool.false_eq_true, if_false,
        CheckoutContext.addConflict, hforce, Bool.not_true]
      cases hdry : ctx.isDryRun with
      | true => exact ⟨rfl, rfl, fun _ => rfl, fun h => by cases h⟩
      | false => exact ⟨rfl, rfl, (fun h => by cases h), fun _ => hU⟩
  · intro hd hcon
    rw [hstep]
    unfold processUnloadedEntry
    simp [hcon, hd]

/-- C25 at work: the root holds the file `a`, not loaded, with hash 7; an
apply-mode checkout from the tree that has `a` with hash 7 to a tree that has it
with hash 5 finds no conflict and replaces the entry. -/
theorem checkout_unloaded_conflict_witness :
    Example.mountHashed.contents 1 =
      some { entries := [("a", Example.fileEntry 3 (some 7) false)], treeHash := some 2 } ∧
    (processCheckoutEntry (fun _ => false) 5 (Example.context false) Example.mountHashed 1
        (some { name := "a", type := .REGULAR_FILE, hash := 7 })
        (some { name := "a", type := .REGULAR_FILE, hash := 5 })).2.1 = Example.context false ∧
    (processCheckoutEntry (fun _ => false) 5 (Example.context false) Example.mountHashed 1
        (some { name := "a", type := .REGULAR_FILE, hash := 7 })
        (some { name := "a", type := .REGULAR_FILE, hash := 5 })).2.2.entry 1 "a" =
      some { initialMode := S_IFREG ||| 0o644, inodeNumber := 100, hash := some 5,
             inode := none } :=
  ⟨rfl,
   ((checkout_unloaded_conflict (fun _ => false) 5 (Example.context false) Example.mountHashed 1
      { entries := [("a", Example.fileEntry 3 (some 7) false)], treeHash := some 2 }
      (some { name := "a", type := .REGULAR_FILE, hash := 7 })
      (some { name := "a", type := .REGULAR_FILE, hash := 5 }) "a"
      (Example.fileEntry 3 (some 7) false) rfl rfl rfl rfl rfl rfl rfl).2.2.2.1 rfl).2
      (Or.inl rfl) |>.2.1,
   ((checkout_unloaded_conflict (fun _ => false) 5 (Example.context false) Example.mountHashed 1
      { entries := [("a", Example.fileEntry 3 (some 7) false)], treeHash := some 2 }
      (some { name := "a", type := .REGULAR_FILE, hash := 7 })
      (some { name := "a", type := .REGULAR_FILE, hash := 5 }) "a"
      (Example.fileEntry 3 (some 7) false) rfl rfl rfl rfl rfl rfl rfl).2.2.2.1 rfl).2
      (Or.inl rfl) |>.2.2.2 rfl |>.2.1 _ rfl⟩
/-! ### C22: removal after a concurrent rename -/

/-- `tryRemoveChild` after the directory has materialized itself, for a name
whose entry is loaded, called with the child the caller expects, if any. -/
theorem tryRemoveChild_loaded (ty : InodeType) (fuel : Nat) (M M1 : Mount) (p : InodePtr)
    (name : PathComponent) (st : TreeInodeState) (ent : DirEntry) (q : InodePtr)
    (hmat : materialize fuel M p = (.ok (), M1)) (hdot : p ≠ M1.dotEdenInodeNumber)
    (hc : M1.contents p = some st) (hf : st.entries.find name = some ent)
    (hq : ent.inode = some q) :
    (∀ c, q ≠ c → tryRemoveChild ty fuel M p name (some c) = (.ok (some .EBADF), M1)) ∧
    (asSubclassPtrOrNull ty M1 q = some q → checkPreRemove ty M1 q = none →
      tryRemoveChild ty fuel M p name none =
        (.ok none,
          ((M1.markUnlinked q).setContents p
            { st with entries := st.entries.erase name }).saveOverlayDir p
            (st.entries.erase name))) := by
  refine ⟨fun c hne => ?_, fun hsub hchk => ?_⟩
  · unfold tryRemoveChild
    simp [hmat, hdot, hc, hf, hq, hne]
  · unfold tryRemoveChild
    simp [hmat, hdot, hc, hf, hq, hsub, hchk]

/-- `tryRemoveChild` for a name whose entry is not loaded. -/
theorem tryRemoveChild_unloaded (ty : InodeType) (fuel : Nat) (M M1 : Mount) (p : InodePtr)
    (name : PathComponent) (st : TreeInodeState) (ent : DirEntry) (child : Option InodePtr)
    (hmat : materialize fuel M p = (.ok (), M1)) (hdot : p ≠ M1.dotEdenInodeNumber)
    (hc : M1.contents p = some st) (hf : st.entries.find name = some ent)
    (hq : ent.inode = none) :
    tryRemoveChild ty fuel M p name child = (.ok (some .EBADF), M1) := by
  unfold tryRemoveChild
  simp [hmat, hdot, hc, hf, hq]

/-- Counterexample to C22 as stated: `unlink("a")` resolved the child, inode 3;
before the attempt takes the rename lock other threads rename `a` to `c` and
`b` to `a`, so that the name refers to the different loaded inode 5.  The
attempt removes that entry: the call succeeds without a retry, inode 5 is
unlinked, and the child resolved before is still there under the name `c`. -/
theorem remove_identity_counterexample :
    Example.mountTwoFiles.entry 1 "a" = some (Example.fileEntry 3 none true) ∧
    (Example.swapping 1 Example.mountTwoFiles).entry 1 "a" =
      some (Example.fileEntry 5 none true) ∧
    (removeImpl .FileInode Example.swapping 5 Example.mountTwoFiles 1 "a" 3 1).result = .ok () ∧
    (removeImpl .FileInode Example.swapping 5 Example.mountTwoFiles 1 "a" 3 1).retries = 0 ∧
    (removeImpl .FileInode Example.swapping 5 Example.mountTwoFiles 1 "a" 3 1).mount.entry 1
      "a" = none ∧
    (removeImpl .FileInode Example.swapping 5 Example.mountTwoFiles 1 "a" 3 1).mount.isUnlinked
      5 = true ∧
    (removeImpl .FileInode Example.swapping 5 Example.mountTwoFiles 1 "a" 3 1).mount.entry 1
      "c" = some (Example.fileEntry 3 none true) := by
  rw [removeImpl_attempt .FileInode Example.swapping 5 Example.mountTwoFiles
    (tryRemoveChild .FileInode 5 Example.mountSwapped 1 "a" none).2 1 3 3 "a" 1 [] none
    rfl rfl rfl rfl]
  refine ⟨rfl, rfl, rfl, rfl, rfl, rfl, rfl⟩

/-- C22, amended.  An attempt of `unlink`/`rmdir` (`removeImpl`, its checks on the
child resolved before passed, the directory has a path) does not compare the
entry it finds under the rename lock with the child resolved before.  After the
directory has materialized itself: if the entry for the name is a loaded inode
of the fitting type that passes the pre-removal check, whether or not it is the
child resolved before, this attempt removes it and records the removal in the
journal, without a retry; if the entry is not loaded, the attempt removes
nothing and, while attempts are left, loads the child and runs the next
attempt.  `tryRemoveChild` itself, when it is given the child the caller
expects, removes nothing and returns `EBADF` if the entry is another loaded
inode. -/
theorem remove_identity (ty : InodeType) (interfere : Nat → Mount → Mount) (fuel : Nat)
    (m M1 : Mount) (p child c : InodePtr) (name : PathComponent) (a : Nat)
    (path : List PathComponent) (st : TreeInodeState) (ent : DirEntry)
    (hsub : asSubclassPtrOrNull ty m child = some c)
    (hchk : checkPreRemove ty m c = none)
    (hpath : getPath fuel (interfere a m) p = .ok (some path))
    (hmat : materialize fuel (interfere a m) p = (.ok (), M1))
    (hdot : p ≠ M1.dotEdenInodeNumber)
    (hc : M1.contents p = some st) (hf : st.entries.find name = some ent) :
    (∀ q, ent.inode = some q → asSubclassPtrOrNull ty M1 q = some q →
      checkPreRemove ty M1 q = none →
      removeImpl ty interfere fuel m p name child a =
        { result := .ok ()
          mount :=
            (((M1.markUnlinked q).setContents p
              { st with entries := st.entries.erase name }).saveOverlayDir p
              (st.entries.erase name)).addDelta (.REMOVED (path ++ [name]))
          retries := 0 }) ∧
    (ent.inode = none → a ≤ kMaxRemoveRetries →
      ∀ loaded m2, getOrLoadChild M1 p name = (.ok loaded, m2) →
        removeImpl ty interfere fuel m p name child a =
          { result := (removeImpl ty interfere fuel m2 p name loaded (a + 1)).result
            mount := (removeImpl ty interfere fuel m2 p name loaded (a + 1)).mount
            retries := (removeImpl ty interfere fuel m2 p name loaded (a + 1)).retries + 1 }) ∧
    (∀ q expected, ent.inode = some q → q ≠ expected →
      tryRemoveChild ty fuel (interfere a m) p name (some expected) =
        (.ok (some .EBADF), M1)) := by
  refine ⟨fun q hq hs hk => ?_, fun hq ha loaded m2 hload => ?_, fun q expected hq hne => ?_⟩
  · have htry := (tryRemoveChild_loaded ty fuel (interfere a m) M1 p name st ent q hmat hdot hc
      hf hq).2 hs hk
    rw [removeImpl_attempt ty interfere fuel m _ p child c name a path none hsub hchk hpath htry]
  · have htry := tryRemoveChild_unloaded ty fuel (interfere a m) M1 p name st ent none hmat hdot
      hc hf hq
    rw [removeImpl_attempt ty interfere fuel m _ p child c name a path (some .EBADF) hsub hchk
      hpath htry]
    have hna : ¬ a > kMaxRemoveRetries := Nat.not_lt.mpr ha
    simp only [ne_eq, not_true_eq_false, if_false, hna, hload]
  · exact (tryRemoveChild_loaded ty fuel (interfere a m) M1 p name st ent q hmat hdot hc hf
      hq).1 expected hne

/-- C22 at work: the scenario of the counterexample.  The child resolved before is
inode 3, the entry found under the rename lock is inode 5, and the attempt
removes it. -/
theorem remove_identity_witness :
    asSubclassPtrOrNull .FileInode Example.mountTwoFiles 3 = some 3 ∧
    getPath 5 (Example.swapping 1 Example.mountTwoFiles) 1 = .ok (some []) ∧
    (Example.swapping 1 Example.mountTwoFiles).entry 1 "a" =
      some (Example.fileEntry 5 none true) ∧
    (removeImpl .FileInode Example.swapping 5 Example.mountTwoFiles 1 "a" 3 1).result = .ok () ∧
    (removeImpl .FileInode Example.swapping 5 Example.mountTwoFiles 1 "a" 3 1).retries = 0 := by
  have h := (remove_identity .FileInode Example.swapping 5 Example.mountTwoFiles
    Example.mountSwapped 1 3 3 "a" 1 []
    { entries := [("a", Example.fileEntry 5 none true), ("c", Example.fileEntry 3 none true)],
      treeHash := none }
    (Example.fileEntry 5 none true) rfl rfl rfl rfl (by decide) rfl rfl).1 5 rfl rfl rfl
  refine ⟨rfl, rfl, rfl, ?_, ?_⟩
  · rw [h]
  · rw [h]

/-! ### C26: the merge walks handle every name once -/

theorem mergeWalk_nil_left {α β : Type} (ka : α → PathComponent) (kb : β → PathComponent)
    (bs : List β) : mergeWalk ka kb [] bs = bs.map (fun b => (none, some b)) := by
  induction bs with
  | nil => simp [mergeWalk]
  | cons b bs ih => simp [mergeWalk, ih]

theorem mergeWalk_nil_right {α β : Type} (ka : α → PathComponent) (kb : β → PathComponent)
    (as : List α) : mergeWalk ka kb as [] = as.map (fun a => (some a, none)) := by
  induction as with
  | nil => simp [mergeWalk]
  | cons a as ih => simp [mergeWalk, ih]

/-- Every element of either list is at exactly one position of the walk, in the
order of its list; paired elements have the same name; no position is empty. -/
theorem mergeWalk_elements {α β : Type} (ka : α → PathComponent) (kb : β → PathComponent) :
    ∀ (as : List α) (bs : List β),
      (mergeWalk ka kb as bs).filterMap (fun x => x.1) = as ∧
      (mergeWalk ka kb as bs).filterMap (fun x => x.2) = bs ∧
      (∀ a b, (some a, some b) ∈ mergeWalk ka kb as bs → ka a = kb b) ∧
      (none, none) ∉ mergeWalk ka kb as bs := by
  intro as
  induction as with
  | nil =>
    intro bs
    rw [mergeWalk_nil_left]
    refine ⟨?_, ?_, ?_, ?_⟩
    · induction bs with
      | nil => rfl
      | cons b bs ih => simp
    · induction bs with
      | nil => rfl
      | cons b bs ih => simpa using ih
    · intro a b h
      simp at h
    · simp
  | cons a as iha =>
    intro bs
    induction bs with
    | nil =>
      rw [mergeWalk_nil_right]
      refine ⟨?_, ?_, ?_, ?_⟩
      · generalize a :: as = l
        induction l with
        | nil => rfl
        | cons x l ih => simpa using ih
      · generalize a :: as = l
        induction l with
        | nil => rfl
        | cons x l ih => simp
      · intro x y h
        simp at h
      · simp
    | cons b bs ihb =>
      rw [mergeWalk]
      split
      · obtain ⟨h1, h2, h3, h4⟩ := iha (b :: bs)
        refine ⟨by simp [h1], by simpa using h2, ?_, ?_⟩
        · intro x y h
          rcases List.mem_cons.mp h with h | h
          · cases h
          · exact h3 x y h
        · intro h
          rcases List.mem_cons.mp h with h | h
          · cases h
          · exact h4 h
      · split
        · obtain ⟨h1, h2, h3, h4⟩ := ihb
          refine ⟨by simpa using h1, by simp [h2], ?_, ?_⟩
          · intro x y h
            rcases List.mem_cons.mp h with h | h
            · cases h
            · exact h3 x y h
          · intro h
            rcases List.mem_cons.mp h with h | h
            · cases h
            · exact h4 h
        · rename_i hlt hgt
          obtain ⟨h1, h2, h3, h4⟩ := iha bs
          refine ⟨by simp [h1], by simp [h2], ?_, ?_⟩
          · intro x y h
            rcases List.mem_cons.mp h with h | h
            · cases h
              rcases lt_trichotomy (ka a) (kb b) with h | h | h
              · exact absurd h hlt
              · exact h
              · exact absurd h hgt
            · exact h3 x y h
          · intro h
            rcases List.mem_cons.mp h with h | h
            · cases h
            · exact h4 h

/-- The names the walk stands at are names of the two lists. -/
theorem mergeWalk_key_mem {α β : Type} (ka : α → PathComponent) (kb : β → PathComponent)
    (as : List α) (bs : List β) (k : PathComponent)
    (h : k ∈ (mergeWalk ka kb as bs).map (mergeKey ka kb)) :
    k ∈ as.map ka ∨ k ∈ bs.map kb := by
  obtain ⟨h1, h2, _, h4⟩ := mergeWalk_elements ka kb as bs
  obtain ⟨x, hx, hk⟩ := List.mem_map.mp h
  obtain ⟨xa, xb⟩ := x
  cases xa with
  | some a =>
    left
    have : a ∈ (mergeWalk ka kb as bs).filterMap (fun x => x.1) :=
      List.mem_filterMap.mpr ⟨_, hx, rfl⟩
    rw [h1] at this
    exact List.mem_map.mpr ⟨a, this, hk⟩
  | none =>
    cases xb with
    | some b =>
      right
      have : b ∈ (mergeWalk ka kb as bs).filterMap (fun x => x.2) :=
        List.mem_filterMap.mpr ⟨_, hx, rfl⟩
      rw [h2] at this
      exact List.mem_map.mpr ⟨b, this, hk⟩
    | none => exact absurd hx h4

/-- Over lists sorted by name, the walk stands at strictly increasing names. -/
theorem mergeWalk_increasing {α β : Type} (ka : α → PathComponent) (kb : β → PathComponent) :
    ∀ (as : List α) (bs : List β), (as.map ka).Sorted (· < ·) → (bs.map kb).Sorted (· < ·) →
      ((mergeWalk ka kb as bs).map (mergeKey ka kb)).Sorted (· < ·) := by
  intro as
  induction as with
  | nil =>
    intro bs _ hbs
    rw [mergeWalk_nil_left]
    simpa [mergeKey, Function.comp_def] using hbs
  | cons a as iha =>
    intro bs
    induction bs with
    | nil =>
      intro has _
      rw [mergeWalk_nil_right]
      simpa [mergeKey, Function.comp_def] using has
    | cons b bs ihb =>
      intro has hbs
      have has' : (as.map ka).Sorted (· < ·) := (List.sorted_cons.mp has).2
      have hbs' : (bs.map kb).Sorted (· < ·) := (List.sorted_cons.mp hbs).2
      have ha : ∀ k ∈ as.map ka, ka a < k := (List.sorted_cons.mp has).1
      have hb : ∀ k ∈ bs.map kb, kb b < k := (List.sorted_cons.mp hbs).1
      rw [mergeWalk]
      split
      · rename_i hlt
        rw [List.map_cons, List.sorted_cons]
        refine ⟨fun k hk => ?_, iha (b :: bs) has' hbs⟩
        rcases mergeWalk_key_mem ka kb as (b :: bs) k hk with h | h
        · exact ha k h
        · rcases List.mem_cons.mp h with h | h
          · rw [h]; exact hlt
          · exact lt_trans hlt (hb k h)
      · split
        · rename_i hgt
          rw [List.map_cons, List.sorted_cons]
          refine ⟨fun k hk => ?_, ihb has hbs'⟩
          rcases mergeWalk_key_mem ka kb (a :: as) bs k hk with h | h
          · rcases List.mem_cons.mp h with h | h
            · rw [h]; exact hgt
            · exact lt_trans hgt (ha k h)
          · exact hb k h
        · rename_i hlt hgt
          have heq : ka a = kb b := by
            rcases lt_trichotomy (ka a) (kb b) with h | h | h
            · exact absurd h hlt
            · exact h
            · exact absurd h hgt
          rw [List.map_cons, List.sorted_cons]
          refine ⟨fun k hk => ?_, iha bs has' hbs'⟩
          rcases mergeWalk_key_mem ka kb as bs k hk with h | h
          · exact ha k h
          · show ka a < k
            rw [heq]
            exact hb k h

/-- The walk over two lists sorted by name partitions their names. -/
theorem mergeWalk_partition {α β : Type} (ka : α → PathComponent) (kb : β → PathComponent)
    (as : List α) (bs : List β) (has : (as.map ka).Sorted (· < ·))
    (hbs : (bs.map kb).Sorted (· < ·)) :
    MergePartition ka kb as bs (mergeWalk ka kb as bs) := by
  obtain ⟨h1, h2, h3, h4⟩ := mergeWalk_elements ka kb as bs
  exact ⟨h1, h2, h3, h4, mergeWalk_increasing ka kb as bs has hbs⟩
/-- What the partition means for a single name: an element whose name is only in
its list is handled alone, two elements with the same name are handled
together, and every name of either list is handled exactly once. -/
theorem MergePartition.handled {α β : Type} {ka : α → PathComponent} {kb : β → PathComponent}
    {as : List α} {bs : List β} {walk : List (Option α × Option β)}
    (h : MergePartition ka kb as bs walk) :
    (∀ a ∈ as, (∀ b ∈ bs, kb b ≠ ka a) → (some a, none) ∈ walk) ∧
    (∀ b ∈ bs, (∀ a ∈ as, ka a ≠ kb b) → (none, some b) ∈ walk) ∧
    (∀ a ∈ as, ∀ b ∈ bs, ka a = kb b → (some a, some b) ∈ walk) ∧
    (∀ k, k ∈ as.map ka ∨ k ∈ bs.map kb → (walk.map (mergeKey ka kb)).count k = 1) := by
  have hnodup : (walk.map (mergeKey ka kb)).Nodup := h.increasing.nodup
  have hinj : ∀ x ∈ walk, ∀ y ∈ walk, mergeKey ka kb x = mergeKey ka kb y → x = y :=
    fun x hx y hy hxy => List.inj_on_of_nodup_map hnodup hx hy hxy
  have hleft : ∀ a ∈ as, ∃ y, (some a, y) ∈ walk := by
    intro a ha
    rw [← h.left] at ha
    obtain ⟨x, hx, hxa⟩ := List.mem_filterMap.mp ha
    obtain ⟨xa, xb⟩ := x
    simp only at hxa
    subst hxa
    exact ⟨xb, hx⟩
  have hright : ∀ b ∈ bs, ∃ x, (x, some b) ∈ walk := by
    intro b hb
    rw [← h.right] at hb
    obtain ⟨x, hx, hxb⟩ := List.mem_filterMap.mp hb
    obtain ⟨xa, xb⟩ := x
    simp only at hxb
    subst hxb
    exact ⟨xa, hx⟩
  have hmemR : ∀ x b, (x, some b) ∈ walk → b ∈ bs := by
    intro x b hx
    rw [← h.right]
    exact List.mem_filterMap.mpr ⟨_, hx, rfl⟩
  have hmemL : ∀ a y, (some a, y) ∈ walk → a ∈ as := by
    intro a y hx
    rw [← h.left]
    exact List.mem_filterMap.mpr ⟨_, hx, rfl⟩
  refine ⟨fun a ha hno => ?_, fun b hb hno => ?_, fun a ha b hb hab => ?_, fun k hk => ?_⟩
  · obtain ⟨y, hy⟩ := hleft a ha
    cases y with
    | none => exact hy
    | some b => exact absurd (h.paired a b hy).symm (hno b (hmemR _ b hy))
  · obtain ⟨x, hx⟩ := hright b hb
    cases x with
    | none => exact hx
    | some a => exact absurd (h.paired a b hx) (hno a (hmemL a _ hx))
  · obtain ⟨y, hy⟩ := hleft a ha
    obtain ⟨x, hx⟩ := hright b hb
    have hkey : mergeKey ka kb (some a, y) = mergeKey ka kb (x, some b) := by
      cases x with
      | none => exact hab
      | some a1 => exact hab.trans (h.paired a1 b hx).symm
    have := hinj _ hy _ hx hkey
    cases this
    exact hy
  · apply List.count_eq_one_of_mem hnodup
    rcases hk with hk | hk
    · obtain ⟨a, ha, rfl⟩ := List.mem_map.mp hk
      obtain ⟨y, hy⟩ := hleft a ha
      exact List.mem_map.mpr ⟨_, hy, rfl⟩
    · obtain ⟨b, hb, rfl⟩ := List.mem_map.mp hk
      obtain ⟨x, hx⟩ := hright b hb
      refine List.mem_map.mpr ⟨_, hx, ?_⟩
      cases x with
      | none => rfl
      | some a => exact h.paired a b hx

/-- The walk of `computeDiff` calls its lambdas at the positions of the merge
walk, in order. -/
theorem diffWalk_eq_foldl (context : DiffContext) (p : InodePtr)
    (currentPath : List PathComponent) (ignore : Option GitIgnoreStack) (isIgnored : Bool) :
    ∀ (scEntries : List TreeEntry) (inodeEntries : DirContents) (w : DiffWalk),
      diffWalk context p currentPath ignore isIgnored scEntries inodeEntries w =
        (mergeWalk TreeEntry.name Prod.fst scEntries inodeEntries).foldl
          (processDiffPosition context p currentPath ignore isIgnored) w := by
  intro sc
  induction sc with
  | nil =>
    intro inode
    induction inode with
    | nil => intro w; simp [diffWalk, mergeWalk]
    | cons kv rest ih =>
      intro w
      rw [diffWalk, mergeWalk, List.foldl_cons, ih]
      rfl
  | cons s sc ihs =>
    intro inode
    induction inode with
    | nil =>
      intro w
      rw [diffWalk, mergeWalk, List.foldl_cons, ihs]
      rfl
    | cons kv rest ihi =>
      intro w
      rw [diffWalk, mergeWalk]
      split
      · rw [List.foldl_cons, ihs]
        rfl
      · split
        · rw [List.foldl_cons, ihi]
          rfl
        · rw [List.foldl_cons, ihs]
          rfl

/-- With a round for every entry of the two trees, the loop of
`computeCheckoutActions` calls `processCheckoutEntry` at the positions of the
merge walk, in order, and does not run out of rounds. -/
theorem computeCheckoutActionsLoop_eq (isInodeRemembered : InodeNumber → Bool) (fuel : Nat)
    (p : InodePtr) :
    ∀ (rounds : Nat) (oldEntries newEntries : List TreeEntry) (ctx : CheckoutContext)
      (m : Mount) (actions : List CheckoutAction),
      oldEntries.length + newEntries.length ≤ rounds →
      computeCheckoutActionsLoop isInodeRemembered fuel p rounds oldEntries newEntries ctx m
          actions =
        processCheckoutRounds isInodeRemembered fuel p
          (mergeWalk TreeEntry.name TreeEntry.name oldEntries newEntries) ctx m actions := by
  intro rounds
  induction rounds with
  | zero =>
    intro old new ctx m actions hle
    have ho : old = [] := List.length_eq_zero.mp (by omega)
    have hn : new = [] := List.length_eq_zero.mp (by omega)
    subst ho hn
    simp [computeCheckoutActionsLoop, checkoutRound, mergeWalk, processCheckoutRounds]
  | succ rounds ih =>
    intro old new ctx m actions hle
    cases old with
    | nil =>
      cases new with
      | nil => simp [computeCheckoutActionsLoop, checkoutRound, mergeWalk, processCheckoutRounds]
      | cons n ns =>
        rw [computeCheckoutActionsLoop, mergeWalk, processCheckoutRounds]
        simp only [checkoutRound]
        split
        · rfl
        · rename_i action ctx1 m1 _
          exact ih [] ns ctx1 m1 _ (by simp at hle ⊢; omega)
    | cons o os =>
      cases new with
      | nil =>
        rw [computeCheckoutActionsLoop, mergeWalk, processCheckoutRounds]
        simp only [checkoutRound]
        split
        · rfl
        · rename_i action ctx1 m1 _
          exact ih os [] ctx1 m1 _ (by simp at hle ⊢; omega)
      | cons n ns =>
        rw [computeCheckoutActionsLoop, mergeWalk]
        simp only [checkoutRound]
        by_cases hlt : o.name < n.name
        · simp only [hlt, if_true]
          rw [processCheckoutRounds]
          simp only []
          split
          · rfl
          · rename_i action ctx1 m1 _
            exact ih os (n :: ns) ctx1 m1 _ (by simp at hle ⊢; omega)
        · by_cases hgt : o.name > n.name
          · simp only [hlt, if_false, hgt, if_true]
            rw [processCheckoutRounds]
            simp only []
            split
            · rfl
            · rename_i action ctx1 m1 _
              exact ih (o :: os) ns ctx1 m1 _ (by simp at hle ⊢; omega)
          · simp only [hlt, if_false, hgt]
            rw [processCheckoutRounds]
            simp only []
            split
            · rfl
            · rename_i action ctx1 m1 _
              exact ih os ns ctx1 m1 _ (by simp at hle ⊢; omega)
/-- An action `processCheckoutEntry` returns carries the two entries it was
called with. -/
theorem processCheckoutEntry_action (isInodeRemembered : InodeNumber → Bool) (fuel : Nat)
    (ctx : CheckoutContext) (m : Mount) (p : InodePtr) (oldScmEntry newScmEntry : Option TreeEntry)
    (a : CheckoutAction) (ctx1 : CheckoutContext) (m1 : Mount)
    (h : processCheckoutEntry isInodeRemembered fuel ctx m p oldScmEntry newScmEntry =
      (.ok (some a), ctx1, m1)) :
    a.oldScmEntry = oldScmEntry ∧ a.newScmEntry = newScmEntry := by
  unfold processCheckoutEntry at h
  split at h
  · cases h
  · split at h
    · cases h
    · split at h
      · cases h
      · split at h
        · unfold processMissingEntry at h
          split at h
          · cases h
          · split at h <;> cases h
          · cases h
          · simp only [] at h
            split at h
            · split at h <;> cases h
            · cases h
        · split at h
          · cases h
            exact ⟨rfl, rfl⟩
          · split at h
            · cases h
              exact ⟨rfl, rfl⟩
            · unfold processUnloadedEntry at h
              simp only [] at h
              split at h
              · split at h
                · cases h
                  exact ⟨rfl, rfl⟩
                · split at h
                  · cases h
                  · split at h <;> cases h
              · split at h <;> cases h

/-- The only failure of `processCheckoutEntry` is a failed check. -/
theorem processCheckoutEntry_error (isInodeRemembered : InodeNumber → Bool) (fuel : Nat)
    (ctx : CheckoutContext) (m : Mount) (p : InodePtr) (oldScmEntry newScmEntry : Option TreeEntry)
    (e : Failure) (ctx1 : CheckoutContext) (m1 : Mount)
    (h : processCheckoutEntry isInodeRemembered fuel ctx m p oldScmEntry newScmEntry =
      (.error e, ctx1, m1)) : e = .bug := by
  unfold processCheckoutEntry at h
  split at h
  · cases h; rfl
  · split at h
    · cases h; rfl
    · split at h
      · cases h
      · split at h
        · unfold processMissingEntry at h
          split at h
          · cases h; rfl
          · split at h <;> cases h
          · cases h
          · simp only [] at h
            split at h
            · split at h
              · cases h; rfl
              · cases h
            · cases h
        · split at h
          · cases h
          · split at h
            · cases h
            · unfold processUnloadedEntry at h
              simp only [] at h
              split at h
              · split at h
                · cases h
                · split at h
                  · cases h
                  · split at h <;> cases h
              · split at h <;> cases h

/-- The rounds fail only where a call of `processCheckoutEntry` fails. -/
theorem processCheckoutRounds_error (isInodeRemembered : InodeNumber → Bool) (fuel : Nat)
    (p : InodePtr) :
    ∀ (rounds : List (Option TreeEntry × Option TreeEntry)) (ctx : CheckoutContext) (m : Mount)
      (actions : List CheckoutAction) (e : Failure) (ctx1 : CheckoutContext) (m1 : Mount),
      processCheckoutRounds isInodeRemembered fuel p rounds ctx m actions =
        (.error e, ctx1, m1) → e = .bug := by
  intro rounds
  induction rounds with
  | nil =>
    intro ctx m actions e ctx1 m1 h
    simp only [processCheckoutRounds] at h
    cases h
  | cons round rest ih =>
    intro ctx m actions e ctx1 m1 h
    rw [processCheckoutRounds] at h
    split at h
    · rename_i e2 ctx2 m2 hentry
      cases h
      exact processCheckoutEntry_error isInodeRemembered fuel ctx m p _ _ _ _ _ hentry
    · rename_i action ctx2 m2 hentry
      exact ih ctx2 m2 _ e ctx1 m1 h

/-- The actions the rounds produce are actions of distinct rounds, in order. -/
theorem processCheckoutRounds_actions (isInodeRemembered : InodeNumber → Bool) (fuel : Nat)
    (p : InodePtr) :
    ∀ (rounds : List (Option TreeEntry × Option TreeEntry)) (ctx : CheckoutContext) (m : Mount)
      (actions actions1 : List CheckoutAction) (ctx1 : CheckoutContext) (m1 : Mount),
      processCheckoutRounds isInodeRemembered fuel p rounds ctx m actions =
        (.ok actions1, ctx1, m1) →
      ∃ produced, actions1 = actions ++ produced ∧
        List.Sublist (produced.map (fun a => (a.oldScmEntry, a.newScmEntry))) rounds := by
  intro rounds
  induction rounds with
  | nil =>
    intro ctx m actions actions1 ctx1 m1 h
    simp only [processCheckoutRounds] at h
    cases h
    exact ⟨[], by simp, List.Sublist.slnil⟩
  | cons round rest ih =>
    intro ctx m actions actions1 ctx1 m1 h
    rw [processCheckoutRounds] at h
    split at h
    · cases h
    · rename_i action ctx2 m2 hentry
      obtain ⟨produced, hp, hsub⟩ := ih ctx2 m2 _ actions1 ctx1 m1 h
      cases action with
      | none =>
        simp only [] at hp
        exact ⟨produced, hp, List.Sublist.cons _ hsub⟩
      | some a =>
        simp only [] at hp
        obtain ⟨ho, hn⟩ := processCheckoutEntry_action isInodeRemembered fuel ctx m p _ _ a ctx2 m2
          hentry
        refine ⟨a :: produced, by simpa using hp, ?_⟩
        simp only [List.map_cons, ho, hn]
        exact List.Sublist.cons₂ _ hsub

/-- C26 (the merge walks partition the names).  Over tree entries and directory
entries sorted by name, the walk of `computeDiff` (a total function: it ends)
is the run of its three lambdas over the positions of the merge walk, which
holds every entry of either list at exactly one position, in order, pairs two
entries only under one name, and stands at strictly increasing names: an entry
whose name is only in the directory is at a position of its own (untracked),
one whose name is only in the tree as well (removed), two entries with the same
name share a position (both present), and every name of either list is handled
exactly once.  The loop of `computeCheckoutActions` over the entries of the old
and the new tree, with its bound of one round per entry, is the run of
`processCheckoutEntry` over the positions of the same merge walk and does not
run out of rounds; the actions it returns belong to distinct positions, so
there is at most one per name. -/
theorem walks_partition_names (context : DiffContext) (p : InodePtr)
    (currentPath : List PathComponent) (ignore : Option GitIgnoreStack) (isIgnored : Bool)
    (w : DiffWalk) (isInodeRemembered : InodeNumber → Bool) (fuel : Nat) (ctx : CheckoutContext)
    (m : Mount) (actions : List CheckoutAction) (scEntries : List TreeEntry)
    (inodeEntries : DirContents) (oldEntries newEntries : List TreeEntry)
    (hsc : (scEntries.map TreeEntry.name).Sorted (· < ·))
    (hin : (inodeEntries.map Prod.fst).Sorted (· < ·))
    (hold : (oldEntries.map TreeEntry.name).Sorted (· < ·))
    (hnew : (newEntries.map TreeEntry.name).Sorted (· < ·)) :
    (diffWalk context p currentPath ignore isIgnored scEntries inodeEntries w =
        (mergeWalk TreeEntry.name Prod.fst scEntries inodeEntries).foldl
          (processDiffPosition context p currentPath ignore isIgnored) w ∧
      MergePartition TreeEntry.name Prod.fst scEntries inodeEntries
        (mergeWalk TreeEntry.name Prod.fst scEntries inodeEntries) ∧
      (∀ kv ∈ inodeEntries, (∀ t ∈ scEntries, t.name ≠ kv.1) →
        (none, some kv) ∈ mergeWalk TreeEntry.name Prod.fst scEntries inodeEntries) ∧
      (∀ t ∈ scEntries, (∀ kv ∈ inodeEntries, kv.1 ≠ t.name) →
        (some t, none) ∈ mergeWalk TreeEntry.name Prod.fst scEntries inodeEntries) ∧
      (∀ t ∈ scEntries, ∀ kv ∈ inodeEntries, t.name = kv.1 →
        (some t, some kv) ∈ mergeWalk TreeEntry.name Prod.fst scEntries inodeEntries) ∧
      (∀ k, k ∈ scEntries.map TreeEntry.name ∨ k ∈ inodeEntries.map Prod.fst →
        ((mergeWalk TreeEntry.name Prod.fst scEntries inodeEntries).map
          (mergeKey TreeEntry.name Prod.fst)).count k = 1)) ∧
    (computeCheckoutActionsLoop isInodeRemembered fuel p
          (oldEntries.length + newEntries.length) oldEntries newEntries ctx m actions =
        processCheckoutRounds isInodeRemembered fuel p
          (mergeWalk TreeEntry.name TreeEntry.name oldEntries newEntries) ctx m actions ∧
      MergePartition TreeEntry.name TreeEntry.name oldEntries newEntries
        (mergeWalk TreeEntry.name TreeEntry.name oldEntries newEntries) ∧
      (∀ k, k ∈ oldEntries.map TreeEntry.name ∨ k ∈ newEntries.map TreeEntry.name →
        ((mergeWalk TreeEntry.name TreeEntry.name oldEntries newEntries).map
          (mergeKey TreeEntry.name TreeEntry.name)).count k = 1) ∧
      (computeCheckoutActionsLoop isInodeRemembered fuel p
          (oldEntries.length + newEntries.length) oldEntries newEntries ctx m actions).1 ≠
        .error .fuel ∧
      ∀ actions1 ctx1 m1,
        computeCheckoutActionsLoop isInodeRemembered fuel p
            (oldEntries.length + newEntries.length) oldEntries newEntries ctx m actions =
          (.ok actions1, ctx1, m1) →
        ∃ produced, actions1 = actions ++ produced ∧
          List.Sublist (produced.map (fun a => (a.oldScmEntry, a.newScmEntry)))
            (mergeWalk TreeEntry.name TreeEntry.name oldEntries newEntries) ∧
          (produced.map (fun a =>
            mergeKey TreeEntry.name TreeEntry.name (a.oldScmEntry, a.newScmEntry))).Nodup) := by
  have hD := mergeWalk_partition TreeEntry.name Prod.fst scEntries inodeEntries hsc hin
  have hC := mergeWalk_partition TreeEntry.name TreeEntry.name oldEntries newEntries hold hnew
  have hloop := computeCheckoutActionsLoop_eq isInodeRemembered fuel p
    (oldEntries.length + newEntries.length) oldEntries newEntries ctx m actions (le_refl _)
  refine ⟨⟨diffWalk_eq_foldl context p currentPath ignore isIgnored scEntries inodeEntries w, hD,
    fun kv hkv hno => hD.handled.2.1 kv hkv hno, fun t ht hno => hD.handled.1 t ht hno,
    fun t ht kv hkv h => hD.handled.2.2.1 t ht kv hkv h, hD.handled.2.2.2⟩,
    hloop, hC, hC.handled.2.2.2, ?_, ?_⟩
  · rw [hloop]
    intro hf
    cases hres : processCheckoutRounds isInodeRemembered fuel p
        (mergeWalk TreeEntry.name TreeEntry.name oldEntries newEntries) ctx m actions with
    | mk r rest =>
      obtain ⟨ctx1, m1⟩ := rest
      rw [hres] at hf
      simp only at hf
      subst hf
      have := processCheckoutRounds_error isInodeRemembered fuel p _ ctx m actions _ ctx1 m1 hres
      cases this
  · intro actions1 ctx1 m1 h
    rw [hloop] at h
    obtain ⟨produced, hp, hsub⟩ := processCheckoutRounds_actions isInodeRemembered fuel p _ ctx m
      actions actions1 ctx1 m1 h
    refine ⟨produced, hp, hsub, ?_⟩
    have hmap := hsub.map (mergeKey TreeEntry.name TreeEntry.name)
    rw [List.map_map] at hmap
    exact hmap.nodup hC.increasing.nodup

/-- C26 at work: the tree has `a` and `c`, the directory has `b` and `c`; the
walk stands at `a` (removed), `b` (untracked) and `c` (both present), and the
name `c` is handled once. -/
theorem walks_partition_names_witness :
    (["a", "c"] : List PathComponent).Sorted (· < ·) ∧
    (["b", "c"] : List PathComponent).Sorted (· < ·) ∧
    mergeWalk TreeEntry.name Prod.fst
        [{ name := "a", type := .REGULAR_FILE, hash := 1 },
         { name := "c", type := .REGULAR_FILE, hash := 3 }]
        [("b", Example.fileEntry 2 (some 2) false), ("c", Example.fileEntry 3 (some 3) false)] =
      [(some { name := "a", type := .REGULAR_FILE, hash := 1 }, none),
       (none, some ("b", Example.fileEntry 2 (some 2) false)),
       (some { name := "c", type := .REGULAR_FILE, hash := 3 },
        some ("c", Example.fileEntry 3 (some 3) false))] ∧
    ((mergeWalk TreeEntry.name Prod.fst
        [{ name := "a", type := .REGULAR_FILE, hash := 1 },
         { name := "c", type := .REGULAR_FILE, hash := 3 }]
        [("b", Example.fileEntry 2 (some 2) false),
         ("c", Example.fileEntry 3 (some 3) false)]).map
      (mergeKey TreeEntry.name Prod.fst)).count "c" = 1 := by
  have hs1 : (["a", "c"] : List PathComponent).Sorted (· < ·) := by simp +decide
  have hs2 : (["b", "c"] : List PathComponent).Sorted (· < ·) := by simp +decide
  refine ⟨hs1, hs2, by simp +decide [mergeWalk], ?_⟩
  exact (walks_partition_names (Example.diffContext []) 1 [] none true
    { deferredEntries := [], events := [], mount := Example.mountUnloaded } (fun _ => false) 5
    (Example.context false) Example.mountUnloaded []
    [{ name := "a", type := .REGULAR_FILE, hash := 1 },
     { name := "c", type := .REGULAR_FILE, hash := 3 }]
    [("b", Example.fileEntry 2 (some 2) false), ("c", Example.fileEntry 3 (some 3) false)]
    [] [] hs1 hs2 (by simp) (by simp)).1.2.2.2.2.2 "c" (Or.inl (by simp))

/-! ### C27: unloading by access time -/

theorem Shrinks.isSome {m m1 : Mount} (hs : Shrinks m m1) (q : InodePtr)
    (h : (m1.contents q).isSome = true) : (m.contents q).isSome = true := by
  obtain ⟨st1, hst1⟩ := Option.isSome_iff_exists.mp h
  obtain ⟨st, hst, _⟩ := hs q st1 hst1
  rw [hst]
  rfl

end TreeInode
